import Mathlib

/-! # TaskScheduler (`src/TaskScheduler/scheduler.h`)

A shallow embedding of the dependency-graph task executor.

* Heap objects (`ResultCellAny`, the task objects) live in two arenas of the
  program state `World`; a `std::shared_ptr<ResultCellAny>` is an index into
  `World.cells`, a task pointer is an index into `World.tasks`.
* `std::weak_ptr<ITask> producer` is an `Option Nat`; `lock()` succeeds when the
  index names a live task.
* C++ exceptions are the constructors of `Exn`; an operation returns a `Res`,
  which keeps the program state reached when the exception left the call.
* The recursion `ensureReady → execute → Future::get → ensureReady` is
  unfolded with a fuel counter; `Res.undefined` is the outcome of the model only
  (fuel exhausted, or an index that names no registered task).  The theorems
  show that it does not occur.
* A value of a C++ type is a `Holder`: the tag of its type and a payload.
* `World.calls` is a ghost log: the tasks whose callable has been invoked.
* A task of another scheduler object is a task of the arena that is not in the
  registry `tasks_` (`addExternal`); a cell that the client allocates itself is
  `makeCell`.
* The successive calls of a client, each exception being caught, are a
  `List Call`, run by `runCalls`.
-/

namespace TaskScheduler

/-! ## Data model -/

/-- Tags of the concrete C++ types a stored value can have. -/
inductive Ty
  | int
  | string
  | bool
  | double
deriving DecidableEq, Repr

/-- The `Any::Holder<T>` box: the concrete type `T` and the held value. -/
structure Holder where
  ty : Ty
  value : Int
deriving DecidableEq, Repr

/-- The type-erased container `Any`: a possibly null pointer to a holder. -/
structure Any where
  ptr : Option Holder := none
deriving DecidableEq, Repr

/-- The exceptions the scheduler's code can raise, and the failure of a user callable. -/
inductive Exn
  | bad_cast
  | no_producer
  | cycle_detected
  | producer_incomplete
  | callable_failed
deriving DecidableEq, Repr

/-- The method `Any::as<T>`: the `dynamic_cast` to `Holder<T>` succeeds only on a
holder of exactly that type; otherwise `std::bad_cast`. -/
def Any.as (a : Any) (T : Ty) : Except Exn Holder :=
  match a.ptr with
  | some h => if h.ty = T then .ok h else .error .bad_cast
  | none => .error .bad_cast

/-- The method `Any::has_value`. -/
def Any.has_value (a : Any) : Bool := a.ptr.isSome

/-- The converting constructor `Any(T v)`: a new `Holder<T>` around the value. -/
def Any.of (T : Ty) (v : Int) : Any := { ptr := some { ty := T, value := v } }

/-- The method `Holder<T>::clone`: a new `Holder<T>` around a copy of the value. -/
def Holder.clone (h : Holder) : Holder := { ty := h.ty, value := h.value }

/-- The copy constructor `Any(const Any& o)` (and the copy assignment from
another object): the clone of the holder of `o`, or the null pointer. -/
def Any.copy (o : Any) : Any :=
  { ptr := match o.ptr with
      | some h => some h.clone
      | none => none }

/-- The struct `ResultCellAny`, with its default member initialisers. -/
structure ResultCellAny where
  ready : Bool := false
  running : Bool := false
  value : Any := {}
  producer : Option Nat := none
deriving DecidableEq, Repr

/-- An argument binding `ArgWrap<X>`: a captured plain value, or (the
specialisation `ArgWrap<Future<U>>`) a future of type `U` over a cell. -/
inductive ArgWrap
  | plain (v : Holder)
  | future (U : Ty) (cell : Nat)
deriving DecidableEq, Repr

/-- The method `ArgWrap::depCell`: null for a plain value, the cell for a future. -/
def ArgWrap.depCell : ArgWrap → Option Nat
  | .plain _ => none
  | .future _ c => some c

/-- The task objects `Task0`, `Task1`, `Task2`: a callable (which may fail), the
bindings `a1`, `a2` in order, and the output cell. -/
structure Task where
  fn : List Holder → Option Holder
  args : List ArgWrap
  out : Nat

/-- The method `deps()` of a task: the non-null `depCell()` of `a1`, then of `a2`. -/
def Task.deps (t : Task) : List Nat := t.args.filterMap ArgWrap.depCell

/-- The program state: both arenas, the registry `tasks_` of the scheduler
(pointers to tasks in registration order), the ghost log of callable
invocations, and whether the compiler evaluates call arguments right to left. -/
structure World where
  cells : List ResultCellAny
  tasks : List Task
  tasks_ : List Nat
  calls : List Nat
  rtl : Bool

/-- The result record `TopoExec`. -/
structure TopoExec where
  ok : Bool := false
  order : List Nat := []
  stuck : List Nat := []
deriving DecidableEq, Repr

/-- Outcome of an operation: normal return, a C++ exception, or (model only)
`undefined`. -/
inductive Res (α : Type)
  | ok (a : α) (w : World)
  | throw (e : Exn) (w : World)
  | undefined

/-- Dereference a cell pointer. -/
def World.cell (w : World) (c : Nat) : ResultCellAny := w.cells.getD c {}

/-- Overwrite a cell. -/
def World.setCell (w : World) (c : Nat) (x : ResultCellAny) : World :=
  { w with cells := w.cells.set c x }

/-- The call `producer.lock()` on cell `c`: the live producing task, if any. -/
def World.lock (w : World) (c : Nat) : Option (Nat × Task) :=
  match (w.cell c).producer with
  | none => none
  | some p => (w.tasks[p]?).map (fun t => (p, t))

/-- The element `tasks_[u]` of the registry, dereferenced. -/
def World.taskAt (w : World) (u : Nat) : Option (Nat × Task) :=
  match w.tasks_[u]? with
  | none => none
  | some p => (w.tasks[p]?).map (fun t => (p, t))

/-- The method `size()`. -/
def World.size (w : World) : Nat := w.tasks_.length

/-- Depth of forcing that can be nested: one level per cell, and one more. -/
def World.fuel (w : World) : Nat := w.cells.length + 1

/-! ## Forcing and execution -/

/-- The method `Future<T>::get`: force the cell, then extract the typed value. -/
def Future.get (force : World → Nat → Res Unit) (w : World) (T : Ty) (cell : Nat) :
    Res Holder :=
  match force w cell with
  | .ok _ w1 =>
    match (w1.cell cell).value.as T with
    | .ok h => .ok h w1
    | .error e => .throw e w1
  | .throw e w1 => .throw e w1
  | .undefined => .undefined

/-- The method `ArgWrap::get`. -/
def ArgWrap.get (force : World → Nat → Res Unit) (w : World) : ArgWrap → Res Holder
  | .plain v => .ok v w
  | .future U c => Future.get force w U c

/-- Evaluate bindings one after the other, in list order. -/
def evalArgs (force : World → Nat → Res Unit) : World → List ArgWrap → Res (List Holder)
  | w, [] => .ok [] w
  | w, a :: rest =>
    match a.get force w with
    | .ok h w1 =>
      match evalArgs force w1 rest with
      | .ok hs w2 => .ok (h :: hs) w2
      | .throw e w2 => .throw e w2
      | .undefined => .undefined
    | .throw e w1 => .throw e w1
    | .undefined => .undefined

/-- The argument list `a1.get(), a2.get()` of the call in `execute`: C++ leaves
the evaluation order to the compiler, left to right or right to left. -/
def callArgs (force : World → Nat → Res Unit) (w : World) (args : List ArgWrap) :
    Res (List Holder) :=
  if w.rtl then
    match evalArgs force w args.reverse with
    | .ok hs w1 => .ok hs.reverse w1
    | .throw e w1 => .throw e w1
    | .undefined => .undefined
  else evalArgs force w args

/-- The state in which cell `c` has its `running` flag set to `b`. -/
def World.setRunning (w : World) (c : Nat) (b : Bool) : World :=
  w.setCell c { w.cell c with running := b }

/-- The callable of `p` is invoked and fails: only the ghost log changes. -/
def World.logCall (w : World) (p : Nat) : World := { w with calls := w.calls ++ [p] }

/-- The callable of `p` is invoked and returns `r`; then
`out->value = Any(r); out->ready = true;`. -/
def World.publish (w : World) (p out : Nat) (r : Holder) : World :=
  (w.logCall p).setCell out { (w.logCall p).cell out with value := { ptr := some r }, ready := true }

/-- The method `execute()` of the task `t` at address `p`: nothing when the
output is ready; otherwise read the bindings, invoke the callable, store the
result and mark the output ready. -/
def Task.execute (force : World → Nat → Res Unit) (w : World) (p : Nat) (t : Task) :
    Res Unit :=
  if (w.cell t.out).ready then .ok () w
  else
    match callArgs force w t.args with
    | .ok hs w1 =>
      match t.fn hs with
      | some r => .ok () (w1.publish p t.out r)
      | none => .throw .callable_failed (w1.logCall p)
    | .throw e w1 => .throw e w1
    | .undefined => .undefined

/-- The method `ResultCellAny::ensureReady` on cell `c`. -/
def ensureReady : Nat → World → Nat → Res Unit
  | 0, _, _ => .undefined
  | fuel + 1, w, c =>
    if (w.cell c).ready then .ok () w
    else
      match w.lock c with
      | none => .throw .no_producer w
      | some (p, t) =>
        if (w.cell c).running then .throw .cycle_detected w
        else
          match t.execute (ensureReady fuel) (w.setRunning c true) p with
          | .ok _ w2 =>
            if ((w2.setRunning c false).cell c).ready then .ok () (w2.setRunning c false)
            else .throw .producer_incomplete (w2.setRunning c false)
          | .throw e w2 => .throw e w2
          | .undefined => .undefined

/-- The method `getResult<T>` on the handle whose cell is `id`. -/
def getResult (w : World) (T : Ty) (id : Nat) : Res Holder :=
  Future.get (ensureReady w.fuel) w T id

/-! ## Bulk execution -/

/-- The loop filling `indexByPtr`: a later registration of the same pointer
overwrites an earlier one. -/
def indexLoop : List Nat → Nat → (Nat → Option Nat) → Nat → Option Nat
  | [], _, m => m
  | p :: ps, i, m => indexLoop ps (i + 1) (fun q => if q = p then some i else m q)

/-- The map `indexByPtr` of `executeTopologicallyDetailed`. -/
def indexByPtr (w : World) : Nat → Option Nat := indexLoop w.tasks_ 0 (fun _ => none)

/-- The vectors `adj` and `indeg`. -/
structure Graph where
  adj : List (List Nat)
  indeg : List Nat
deriving DecidableEq, Repr

/-- The statements `adj[u].push_back(v); ++indeg[v];`. -/
def Graph.addEdge (g : Graph) (u v : Nat) : Graph :=
  { adj := g.adj.set u (g.adj.getD u [] ++ [v]),
    indeg := g.indeg.set v (g.indeg.getD v 0 + 1) }

/-- The three tests of the pre-resolve branch: the producer is gone, or is not
a scheduler task, or is not registered in this scheduler.  (Every task of the
arena is a scheduler task, so the second test never fires here.) -/
def isExternal (idx : Nat → Option Nat) (w : World) (c : Nat) : Bool :=
  match w.lock c with
  | none => true
  | some (p, _) => (idx p).isNone

/-- The statement `if (!depCell->ready) { depCell->ensureReady(); }`. -/
def forceIfNotReady (w : World) (c : Nat) : Res Unit :=
  if (w.cell c).ready then .ok () w else ensureReady w.fuel w c

/-- Edge creation for one dependency cell `c` of task `v`. -/
def edgeStep (idx : Nat → Option Nat) (w : World) (v c : Nat) (seen : List Nat) (g : Graph) :
    List Nat × Graph :=
  match w.lock c with
  | none => (seen, g)
  | some (p, _) =>
    match idx p with
    | none => (seen, g)
    | some u => if u ∈ seen then (seen, g) else (u :: seen, g.addEdge u v)

/-- The inner loop `for (auto& depCell : d)` for task `v`. -/
def buildDeps (pre : Bool) (idx : Nat → Option Nat) (v : Nat) :
    List Nat → List Nat → Graph → World → Res (List Nat × Graph)
  | [], seen, g, w => .ok (seen, g) w
  | c :: cs, seen, g, w =>
    if pre && isExternal idx w c then
      match forceIfNotReady w c with
      | .ok _ w1 => buildDeps pre idx v cs seen g w1
      | .throw e w1 => .throw e w1
      | .undefined => .undefined
    else
      buildDeps pre idx v cs (edgeStep idx w v c seen g).1 (edgeStep idx w v c seen g).2 w

/-- The outer loop `for (size_t v = 0; v < tasks_.size(); ++v)`. -/
def buildGraph (pre : Bool) (idx : Nat → Option Nat) :
    List Nat → Graph → World → Res Graph
  | [], g, w => .ok g w
  | v :: vs, g, w =>
    match w.taskAt v with
    | none => .undefined
    | some (_, t) =>
      match buildDeps pre idx v t.deps [] g w with
      | .ok sg w1 => buildGraph pre idx vs sg.2 w1
      | .throw e w1 => .throw e w1
      | .undefined => .undefined

/-- The loop seeding the queue with the indices of in-degree zero, ascending. -/
def seedQueue (indeg : List Nat) : List Nat :=
  (List.range indeg.length).filter (fun i => indeg.getD i 0 == 0)

/-- The loop `for (size_t v : adj[u])` of the Kahn pass. -/
def relax : List Nat → List Nat → List Nat → List Nat × List Nat
  | [], indeg, q => (indeg, q)
  | v :: vs, indeg, q =>
    if indeg.getD v 0 > 0 then
      let indeg1 := indeg.set v (indeg.getD v 0 - 1)
      if indeg1.getD v 0 = 0 then relax vs indeg1 (q ++ [v]) else relax vs indeg1 q
    else relax vs indeg q

/-- The statement `if (!tasks_[u]->ready()) { tasks_[u]->execute(); }`. -/
def runTask (w : World) (p : Nat) (t : Task) : Res Unit :=
  if (w.cell t.out).ready then .ok () w else t.execute (ensureReady w.fuel) w p

/-- The loop `while (!q.empty())`; returns `res.order` and the final `indeg`. -/
def kahnLoop : Nat → List (List Nat) → List Nat → List Nat → List Nat → World →
    Res (List Nat × List Nat)
  | 0, _, _, _, _, _ => .undefined
  | _ + 1, _, [], indeg, order, w => .ok (order, indeg) w
  | fuel + 1, adj, u :: q, indeg, order, w =>
    match w.taskAt u with
    | none => .undefined
    | some (p, t) =>
      match runTask w p t with
      | .ok _ w1 =>
        kahnLoop fuel adj (relax (adj.getD u []) indeg q).2 (relax (adj.getD u []) indeg q).1
          (order ++ [u]) w1
      | .throw e w1 => .throw e w1
      | .undefined => .undefined

/-- The loop collecting `res.stuck`. -/
def stuckOf (indeg : List Nat) : List Nat :=
  (List.range indeg.length).filter (fun i => indeg.getD i 0 != 0)

/-- The method `executeTopologicallyDetailed(preResolveExternalDeps)`. -/
def executeTopologicallyDetailed (pre : Bool) (w : World) : Res TopoExec :=
  let n := w.tasks_.length
  match buildGraph pre (indexByPtr w) (List.range n)
      { adj := List.replicate n [], indeg := List.replicate n 0 } w with
  | .ok g w1 =>
    match kahnLoop (n + 1) g.adj (seedQueue g.indeg) g.indeg [] w1 with
    | .ok oi w2 =>
      if oi.1.length ≠ n then .ok { ok := false, order := oi.1, stuck := stuckOf oi.2 } w2
      else .ok { ok := true, order := oi.1, stuck := [] } w2
    | .throw e w2 => .throw e w2
    | .undefined => .undefined
  | .throw e w1 => .throw e w1
  | .undefined => .undefined

/-- The method `executeTopologically()`. -/
def executeTopologically (w : World) : Res Bool :=
  match executeTopologicallyDetailed true w with
  | .ok r w1 => .ok r.ok w1
  | .throw e w1 => .throw e w1
  | .undefined => .undefined

/-! ## Observations on outcomes -/

/-- The returned value, when the operation returned. -/
def Res.val? {α : Type} : Res α → Option α
  | .ok a _ => some a
  | _ => none

/-- The exception, when the operation threw. -/
def Res.exn? {α : Type} : Res α → Option Exn
  | .throw e _ => some e
  | _ => none

/-- The program state the operation left behind. -/
def Res.world? {α : Type} : Res α → Option World
  | .ok _ w => some w
  | .throw _ w => some w
  | .undefined => none

open Relation

/-! ## Registration -/

/-- A program in which nothing has been allocated; `rtl` fixes the compiler's
argument evaluation order. -/
def World.empty (rtl : Bool) : World :=
  { cells := [], tasks := [], tasks_ := [], calls := [], rtl := rtl }

/-- The method `add(fn, a1, a2)` (all three overloads): allocate the output cell
and the task, bind the producer, append to `tasks_`, return the handle (the
output cell). -/
def add (w : World) (fn : List Holder → Option Holder) (args : List ArgWrap) : Nat × World :=
  (w.cells.length,
   { w with
     cells := w.cells ++ [{ producer := some w.tasks.length }],
     tasks := w.tasks ++ [{ fn := fn, args := args, out := w.cells.length }],
     tasks_ := w.tasks_ ++ [w.tasks.length] })

/-- The method `getFutureResult<T>`: a future over the handle's cell; forces nothing. -/
def getFutureResult (T : Ty) (id : Nat) : ArgWrap := .future T id

/-! ## Callables and program states used as examples -/

/-- A callable without parameters returning the `int` constant `k`. -/
def constInt (k : Int) : List Holder → Option Holder
  | [] => some { ty := .int, value := k }
  | _ => none

/-- The callable `[](int x) { return 2 * x; }`. -/
def doubleInt : List Holder → Option Holder
  | [h] => some { ty := .int, value := 2 * h.value }
  | _ => none

/-- The callable `[](std::string s) { return s; }`. -/
def echoString : List Holder → Option Holder
  | [h] => some { ty := .string, value := h.value }
  | _ => none

/-- Registered in this order: constant 10, constant 5, double the future of
the first. -/
def scenario : World :=
  let r0 := add (World.empty false) (constInt 10) []
  let r1 := add r0.2 (constInt 5) []
  let r2 := add r1.2 doubleInt [getFutureResult .int r0.1]
  r2.2

/-- The state of the scenario after `getResult<int>` on the doubling task. -/
def scenarioForced : World := ((getResult scenario .int 2).world?).getD scenario

/-- The state of the scenario after the bulk pass. -/
def scenarioRun : World := ((executeTopologicallyDetailed true scenario).world?).getD scenario

/-- Two tasks: the constant 10, and a task that reads the result of the first
through `getFutureResult<std::string>`. -/
def mistyped : World :=
  let r0 := add (World.empty false) (constInt 10) []
  let r1 := add r0.2 echoString [getFutureResult .string r0.1]
  r1.2

/-- Two tasks, each reading the future of the other. -/
def mutualPair : World :=
  let r0 := add (World.empty false) doubleInt [getFutureResult .int 1]
  let r1 := add r0.2 doubleInt [getFutureResult .int r0.1]
  r1.2

/-- Two tasks reading the future of each other, then the constant 10, then a
task that reads that constant through `getFutureResult<std::string>`. -/
def mutualAndMistyped : World :=
  let r0 := add (World.empty false) doubleInt [getFutureResult .int 1]
  let r1 := add r0.2 doubleInt [getFutureResult .int r0.1]
  let r2 := add r1.2 (constInt 10) []
  let r3 := add r2.2 echoString [getFutureResult .string r2.1]
  r3.2

/-! ## Repeated calls -/

/-- The calls `getResult<T>(id)` made `n` times in a row, an exception being
caught by the caller: the values returned (`none` for a call that threw) and the
final state. -/
def getResultTimes (T : Ty) (id : Nat) : Nat → World → List (Option Holder) × World
  | 0, w => ([], w)
  | n + 1, w =>
    match getResult w T id with
    | .ok h w' => (some h :: (getResultTimes T id n w').1, (getResultTimes T id n w').2)
    | .throw _ w' => (none :: (getResultTimes T id n w').1, (getResultTimes T id n w').2)
    | .undefined => ([], w)

/-! ## Invariants of the program state -/

/-- The invariants of the program state that `add` establishes: the registry
holds distinct live tasks, every live task is the producer of its output cell,
and a cell's producer, when set, is the live task whose output it is. -/
structure WF (w : World) : Prop where
  nodup : w.tasks_.Nodup
  registered : ∀ p ∈ w.tasks_, p < w.tasks.length
  bound : ∀ p t, w.tasks[p]? = some t → (w.cell t.out).producer = some p
  owner : ∀ c p, (w.cell c).producer = some p → ∃ t, w.tasks[p]? = some t ∧ t.out = c

/-- The value `h` of a binding in the state `w`: the captured value of a plain
binding; for a future, the cell is ready and holds `h` with the future's type. -/
def ArgVal (w : World) : ArgWrap → Holder → Prop
  | .plain v, h => h = v
  | .future U c, h => (w.cell c).ready = true ∧ (w.cell c).value.as U = .ok h

/-- The output cell of `t` holds the result of the callable of `t` applied to
the values of its bindings. -/
def Computed (w : World) (t : Task) : Prop :=
  ∃ vs r, List.Forall₂ (ArgVal w) t.args vs ∧ t.fn vs = some r ∧
    (w.cell t.out).value = { ptr := some r }

/-- Every ready output cell holds the computed result. -/
def Consistent (w : World) : Prop :=
  ∀ (p : Nat) (t : Task), w.tasks[p]? = some t → (w.cell t.out).ready = true → Computed w t

/-- No task has been executed yet: no cell is ready or being forced. -/
def Fresh (w : World) : Prop := ∀ c, (w.cell c).ready = false ∧ (w.cell c).running = false

/-! ## The dependency graph -/

/-- The registry index of the task that produces cell `c`, when that task is
registered in the scheduler. -/
def prodIdx (w : World) (c : Nat) : Option Nat :=
  (w.lock c).bind (fun pt => indexByPtr w pt.1)

/-- The registered producers of the dependency cells of task `v`, in binding
order, with repetitions. -/
def predsOf (w : World) (v : Nat) : List Nat :=
  match w.taskAt v with
  | none => []
  | some (_, t) => t.deps.filterMap (prodIdx w)

/-- The edge `u → v` of the graph that the pass builds: the producer of one of
the dependency cells of task `v` is the registered task `u`. -/
def GEdge (w : World) (u v : Nat) : Prop := v < w.tasks_.length ∧ u ∈ predsOf w v

/-- The edge `u → v` in the words of the specification: task `v` has a future
binding over the output cell of task `u`. -/
def Edge (w : World) (u v : Nat) : Prop :=
  ∃ pu tu pv tv, w.taskAt u = some (pu, tu) ∧ w.taskAt v = some (pv, tv) ∧ tu.out ∈ tv.deps

/-- Task `p` has a future binding over the output cell of task `q`. -/
def DepOn (w : World) (p q : Nat) : Prop :=
  ∃ (t t' : Task), w.tasks[p]? = some t ∧ w.tasks[q]? = some t' ∧ t'.out ∈ t.deps

/-- The dependency graph of the registered tasks has no cycle. -/
def Acyclic (w : World) : Prop := ∀ v, ¬ TransGen (Edge w) v v

/-- The registered tasks that lie on a cycle of the dependency graph. -/
def OnCycle (w : World) (p : Nat) : Prop :=
  ∃ u, TransGen (Edge w) u u ∧ w.tasks_[u]? = some p

/-- One dependency of task `v` whose producer has index `u`: lines 354 to 358. -/
def edgeAdd (v : Nat) (sg : List Nat × Graph) (u : Nat) : List Nat × Graph :=
  if u ∈ sg.1 then sg else (u :: sg.1, sg.2.addEdge u v)

/-- The graph after the outer loop has handled task `v`. -/
def graphStep (w : World) (g : Graph) (v : Nat) : Graph :=
  ((predsOf w v).foldl (edgeAdd v) ([], g)).2

/-- The graph that `executeTopologicallyDetailed` builds. -/
def graphOf (w : World) : Graph :=
  (List.range w.tasks_.length).foldl (graphStep w)
    { adj := List.replicate w.tasks_.length [], indeg := List.replicate w.tasks_.length 0 }

/-- What the built graph is, entry by entry. -/
structure GraphSpec (w : World) (g : Graph) : Prop where
  adj_len : g.adj.length = w.tasks_.length
  indeg_len : g.indeg.length = w.tasks_.length
  adj : ∀ u, u < w.tasks_.length →
    g.adj.getD u [] = (List.range w.tasks_.length).filter (fun v => decide (u ∈ predsOf w v))
  indeg : ∀ v, v < w.tasks_.length → g.indeg.getD v 0 = (predsOf w v).toFinset.card

/-- The invariant of the Kahn loop, for the graph of the state `w`: `q` is the
queue, `indeg` the current in-degrees, `order` the order produced so far. -/
structure KInv (w : World) (q indeg order : List Nat) : Prop where
  len : indeg.length = w.tasks_.length
  nodup : (order ++ q).Nodup
  bound : ∀ x ∈ order ++ q, x < w.tasks_.length
  count : ∀ v, v < w.tasks_.length →
    indeg.getD v 0 = ((predsOf w v).toFinset.filter (fun u => u ∉ order)).card
  zero : ∀ v, v < w.tasks_.length → (v ∈ order ++ q ↔ indeg.getD v 0 = 0)
  topo : ∀ (j v : Nat), order[j]? = some v → ∀ u ∈ predsOf w v, ∃ i : Nat, i < j ∧ order[i]? = some u
  seeds : ∃ extra, order ++ q = seedQueue (graphOf w).indeg ++ extra ∧
    ∀ v ∈ extra, (predsOf w v) ≠ []

/-- What a returned `TopoExec` is, in terms of the Kahn invariant at the end of
the loop. -/
structure TopoSpec (w : World) (r : TopoExec) : Prop where
  inv : ∃ indeg, KInv w [] indeg r.order ∧
    r.stuck = (if r.order.length = w.tasks_.length then [] else stuckOf indeg)
  ok : r.ok = decide (r.order.length = w.tasks_.length)

/-! ## Relations between program states -/

/-- The part of the state that execution never writes. -/
structure Static (w w' : World) : Prop where
  tasks : w'.tasks = w.tasks
  tasks_ : w'.tasks_ = w.tasks_
  rtl : w'.rtl = w.rtl
  len : w'.cells.length = w.cells.length
  producer : ∀ c, (w'.cell c).producer = (w.cell c).producer

/-- What every run of the program guarantees between its initial and final state. -/
structure Step (w w' : World) extends Static w w' : Prop where
  frozen : ∀ c, (w.cell c).ready = true → w'.cell c = w.cell c
  calls : w.calls <+: w'.calls
  running_mono : ∀ c, (w.cell c).running = true → (w'.cell c).running = true

/-- What a relation pair must satisfy to be carried through a sequence of runs. -/
structure Seq (R E : World → World → Prop) : Prop where
  refl : ∀ w, R w w
  trans : ∀ {a b c}, R a b → R b c → R a c
  absorb : ∀ {a b c}, R a b → E b c → E a c
  weaken : ∀ {a b}, R a b → E a b

/-- The forcing function respects `R` and `E` on the cell `c` from the state `w`. -/
def Respects (R E : World → World → Prop) (force : World → Nat → Res Unit)
    (w : World) (c : Nat) : Prop :=
  (∀ u w', force w c = .ok u w' → R w w') ∧ (∀ e w', force w c = .throw e w' → E w w')

/-- Same running flags. -/
def SameRunning (w w' : World) : Prop := ∀ c, (w'.cell c).running = (w.cell c).running

/-- The relation around a run that returned. -/
def StepOk (w w' : World) : Prop := Step w w' ∧ SameRunning w w'

/-- Specification of a forcing function. -/
structure ForceSpec (force : World → Nat → Res Unit) : Prop where
  ok : ∀ {w c u w'}, force w c = .ok u w' → StepOk w w' ∧ (w'.cell c).ready = true
  throw : ∀ {w c e w'}, force w c = .throw e w' → Step w w'

/-- Number of allocated cells whose `running` flag is clear: the depth to which
forcing can still nest. -/
def World.idle (w : World) : Nat :=
  ((Finset.range w.cells.length).filter (fun c => (w.cell c).running = false)).card

/-- The callable invocations logged between the states `w` and `w'`. -/
def newCalls (w w' : World) : List Nat := w'.calls.drop w.calls.length

/-- The relation between the states around a lazy force (a run of
`ensureReady`, returned or thrown): a cell that was being forced is not made
ready, no callable is invoked twice, a callable is invoked only for a task whose
output was neither ready nor being forced, and each cell that became ready is the
output of an invoked task and holds the computed result. -/
structure Lz (w w' : World) : Prop where
  step : Step w w'
  blocked : ∀ d, (w.cell d).running = true → (w.cell d).ready = false →
    (w'.cell d).ready = false
  once : (newCalls w w').Nodup
  called : ∀ p ∈ newCalls w w', ∃ t : Task, w.tasks[p]? = some t ∧
    (w.cell t.out).ready = false ∧ (w.cell t.out).running = false ∧
    ((w'.cell t.out).ready = true ∨ (w'.cell t.out).running = true)
  made : ∀ c, (w.cell c).ready = false → (w'.cell c).ready = true →
    ∃ (p : Nat) (t : Task), w.tasks[p]? = some t ∧ t.out = c ∧ p ∈ newCalls w w' ∧ Computed w' t

/-- The relation around a lazy force that returned. -/
def LzOk (w w' : World) : Prop := Lz w w' ∧ SameRunning w w'

/-- Every cell that became ready between `w` and `w'` is the output of a task
of the set `S`. -/
def Within (S : Nat → Prop) (w w' : World) : Prop :=
  Step w w' ∧ ∀ c, (w.cell c).ready = false → (w'.cell c).ready = true →
    ∃ (p : Nat) (t : Task), w.tasks[p]? = some t ∧ t.out = c ∧ S p

/-- The relation around the evaluation of the arguments of the task `t` when
`execute` is called directly. -/
def ArgsOf (t : Task) (w w' : World) : Prop :=
  LzOk w w' ∧ ((w.cell t.out).ready = false → (w'.cell t.out).ready = false)

/-- The relation of a run that keeps the state consistent. -/
def Keeps (w w' : World) : Prop := Step w w' ∧ (WF w → Consistent w → Consistent w')

/-- No output cell of a task of `S` is ready. -/
def Unready (S : Nat → Prop) (w : World) : Prop :=
  ∀ (p : Nat) (t : Task), S p → w.tasks[p]? = some t → (w.cell t.out).ready = false

/-- Every task of `S` has a future binding over the output of a task of `S`. -/
def SelfSupported (S : Nat → Prop) (w : World) : Prop :=
  ∀ (p : Nat) (t : Task), S p → w.tasks[p]? = some t →
    ∃ c ∈ t.deps, ∃ (q : Nat) (tq : Task), w.tasks[q]? = some tq ∧ tq.out = c ∧ S q

/-- The relation of a run that, when no output of `S` was ready, leaves none
ready and invokes no callable of `S`. -/
def Avoids (S : Nat → Prop) (w w' : World) : Prop :=
  Step w w' ∧ (Unready S w → Unready S w' ∧ ∀ p, S p → p ∉ newCalls w w')

/-- A set `C` of cells none of which is ready, each the output of a live task
whose only future binding is over a cell of `C`. -/
def OnRing (w : World) (C : Nat → Prop) : Prop :=
  ∀ c, C c → (w.cell c).ready = false ∧
    ∃ (p : Nat) (t : Task) (c' : Nat), w.lock c = some (p, t) ∧ t.out = c ∧ C c' ∧ t.deps = [c']

/-! ## Relations that depend on the exception -/

/-- What a pair of relations must satisfy to be carried through a sequence of
runs when the relation around a run that threw depends on the exception. -/
structure SeqE (R : World → World → Prop) (E : Exn → World → World → Prop) : Prop where
  refl : ∀ w, R w w
  trans : ∀ {a b c}, R a b → R b c → R a c
  absorb : ∀ {e a b c}, R a b → E e b c → E e a c
  weaken : ∀ {a b}, R a b → E .bad_cast a b

/-- The forcing function respects `R` and the exception-indexed `E` on the cell
`c` from the state `w`. -/
def RespectsE (R : World → World → Prop) (E : Exn → World → World → Prop)
    (force : World → Nat → Res Unit) (w : World) (c : Nat) : Prop :=
  (∀ u w', force w c = .ok u w' → R w w') ∧ (∀ e w', force w c = .throw e w' → E e w w')

/-- Each task of `ps` had an output that was not ready in `w` and is ready in `w'`. -/
def AllDone (w w' : World) (ps : List Nat) : Prop :=
  ∀ p ∈ ps, ∃ t : Task, w.tasks[p]? = some t ∧ (w.cell t.out).ready = false ∧
    (w'.cell t.out).ready = true

/-- The relation around a run that returned: no callable was invoked twice, and
every invoked callable belongs to a task whose output was not ready before and
is ready after. -/
structure RunOk (w w' : World) : Prop where
  step : Step w w'
  once : (newCalls w w').Nodup
  done : AllDone w w' (newCalls w w')

/-- The relation around a run that threw `e`: no callable was invoked twice,
every invoked callable belongs to a task whose output was not ready before; when
`e` is not the failure of a callable every invoked callable has published its
result; when it is, the callable invoked last is the one that failed, on the
values `vs` of its bindings, and all the callables before it have published.
The exception is never that of an incomplete producer. -/
structure RunThrow (e : Exn) (w w' : World) : Prop where
  step : Step w w'
  complete : e ≠ .producer_incomplete
  once : (newCalls w w').Nodup
  called : ∀ p ∈ newCalls w w', ∃ t : Task, w.tasks[p]? = some t ∧
    (w.cell t.out).ready = false
  done : e ≠ .callable_failed → AllDone w w' (newCalls w w')
  failed : e = .callable_failed →
    ∃ (front : List Nat) (q : Nat) (t : Task) (vs : List Holder),
      newCalls w w' = front ++ [q] ∧ w.tasks[q]? = some t ∧ (w'.cell t.out).ready = false ∧
      List.Forall₂ (ArgVal w') t.args vs ∧ t.fn vs = none ∧ AllDone w w' front

/-! ## Sequences of calls -/

/-- A call that a client makes on the scheduler, or on a cell that it holds
through a handle. -/
inductive Call
  | getResult (T : Ty) (id : Nat)
  | ensureReady (c : Nat)
  | executeTopologicallyDetailed (pre : Bool)
  | executeTopologically
deriving DecidableEq, Repr

/-- The state after one call, an exception being caught by the caller (`none`
for the outcome `undefined` of the model). -/
def runCall (w : World) : Call → Option World
  | .getResult T id => (getResult w T id).world?
  | .ensureReady c => (ensureReady w.fuel w c).world?
  | .executeTopologicallyDetailed pre => (executeTopologicallyDetailed pre w).world?
  | .executeTopologically => (executeTopologically w).world?

/-- The state after a sequence of calls made one after the other. -/
def runCalls : List Call → World → Option World
  | [], w => some w
  | c :: cs, w => (runCall w c).bind (runCalls cs)

/-- The calls that force a single cell: `getResult` and `ensureReady`. -/
def Call.isLazy : Call → Bool
  | .getResult _ _ => true
  | .ensureReady _ => true
  | _ => false

/-- The callable of `t` returns on every argument list of its arity: it does
not throw. -/
def Task.total (t : Task) : Prop :=
  ∀ vs : List Holder, vs.length = t.args.length → t.fn vs ≠ none

/-- The relation between the states around a sequence of calls: the callable
of a task whose output was ready is not invoked; the callable of a task that
does not throw is invoked at most once, and then the output of the task is
ready. -/
structure Hist (w w' : World) : Prop where
  step : Step w w'
  ready : ∀ (p : Nat) (t : Task), w.tasks[p]? = some t → (w.cell t.out).ready = true →
    p ∉ newCalls w w'
  total : ∀ (p : Nat) (t : Task), w.tasks[p]? = some t → t.total →
    (newCalls w w').count p ≤ 1 ∧ (p ∈ newCalls w w' → (w'.cell t.out).ready = true)

/-! ## Cells and tasks outside the registry -/

/-- A result cell that the client allocates itself
(`std::make_shared<ResultCellAny>()`) and whose fields it sets to `x`. -/
def makeCell (w : World) (x : ResultCellAny) : Nat × World :=
  (w.cells.length, { w with cells := w.cells ++ [x] })

/-- The method `add` called on another scheduler object: the same allocation
and binding of the producer, the registry `tasks_` of this scheduler being left
as it is. -/
def addExternal (w : World) (fn : List Holder → Option Holder) (args : List ArgWrap) :
    Nat × World :=
  (w.cells.length,
   { w with
     cells := w.cells ++ [{ producer := some w.tasks.length }],
     tasks := w.tasks ++ [{ fn := fn, args := args, out := w.cells.length }] })

/-- The initial value of `adj` and `indeg` in `executeTopologicallyDetailed`. -/
def Graph.init (n : Nat) : Graph := { adj := List.replicate n [], indeg := List.replicate n 0 }

/-! ## The dependency list as the specification words it -/

/-- The dependencies of a task as the specification words them: the result
cells referenced by the future-kind bindings, duplicates removed, in
first-occurrence order. -/
def specDependencies : List ArgWrap → List Nat
  | [] => []
  | .plain _ :: rest => specDependencies rest
  | .future _ c :: rest => c :: (specDependencies rest).filter (fun d => d ≠ c)

/-! ## Further callables and program states used as examples -/

/-- A callable without parameters that throws. -/
def alwaysFails : List Holder → Option Holder := fun _ => none

/-- The callable `[](int a, int b) { return a + b; }`. -/
def addInts : List Holder → Option Holder
  | [a, b] => some { ty := .int, value := a.value + b.value }
  | _ => none

/-- One registered task, whose callable throws. -/
def failingTask : World := (add (World.empty false) alwaysFails []).2

/-- A dependency task whose callable throws, and a task doubling its result. -/
def failingDep : World :=
  let r0 := add (World.empty false) alwaysFails []
  let r1 := add r0.2 doubleInt [getFutureResult .int r0.1]
  r1.2

/-- The state of `failingDep` after `getResult<int>` on the doubling task threw. -/
def failingDepForced : World := ((getResult failingDep .int 1).world?).getD failingDep

/-- A cell that outlived its producer: the task whose callable was running when
the scheduler was destroyed is gone, the weak reference no longer locks. -/
def expiredCell : World :=
  { cells := [{ running := true, producer := some 0 }], tasks := [], tasks_ := [], calls := [],
    rtl := false }

/-- A cell that the client filled with the `int` 7 and marked ready, and one
registered task that doubles a future over it. -/
def externalReady : World :=
  let c := makeCell (World.empty false) { ready := true, value := { ptr := some ⟨.int, 7⟩ } }
  let r := add c.2 doubleInt [.future .int c.1]
  r.2

/-- A cell that the client allocated and left as constructed (not ready, no
producer), and one registered task that doubles a future over it. -/
def orphanDep : World :=
  let c := makeCell (World.empty false) {}
  let r := add c.2 doubleInt [.future .int c.1]
  r.2

/-- Task 0, registered: the constant 10 (cell 0).  Task 1, added to another
scheduler: doubles the future of task 0 (cell 1).  Cell 2: allocated by the
client, not ready, no producer.  Task 2, registered with index 1: adds the
futures over the cells 1 and 2 (cell 3). -/
def crossScheduler : World :=
  let r0 := add (World.empty false) (constInt 10) []
  let r1 := addExternal r0.2 doubleInt [getFutureResult .int r0.1]
  let c := makeCell r1.2 {}
  let r2 := add c.2 addInts [getFutureResult .int r1.1, .future .int c.1]
  r2.2

/-- Two tasks added to another scheduler, each reading the future of the other,
and one registered task that doubles the future of the first. -/
def externalRing : World :=
  let r0 := addExternal (World.empty false) doubleInt [getFutureResult .int 1]
  let r1 := addExternal r0.2 doubleInt [getFutureResult .int r0.1]
  let r2 := add r1.2 doubleInt [getFutureResult .int r0.1]
  r2.2

/-- The state in which the pass over `mistyped` threw. -/
def mistypedRun : World := ((executeTopologicallyDetailed true mistyped).world?).getD mistyped

/-- Tasks 0 and 1 read the future of each other, task 2 reads the future of
task 1, task 3 is the constant 5. -/
def cycleWithTail : World :=
  let r0 := add (World.empty false) doubleInt [getFutureResult .int 1]
  let r1 := add r0.2 doubleInt [getFutureResult .int r0.1]
  let r2 := add r1.2 doubleInt [getFutureResult .int r1.1]
  let r3 := add r2.2 (constInt 5) []
  r3.2

/-- The state of `cycleWithTail` after the bulk pass. -/
def cycleWithTailRun : World :=
  ((executeTopologicallyDetailed true cycleWithTail).world?).getD cycleWithTail

/-- The constant 10, and a two-argument task both of whose bindings are futures
over the result of the first. -/
def sameTwice : World :=
  let r0 := add (World.empty false) (constInt 10) []
  let r1 := add r0.2 addInts [getFutureResult .int r0.1, getFutureResult .int r0.1]
  r1.2

/-- The constant 10, the constant 5, and a two-argument task both of whose
bindings are futures over the result of the first. -/
def sameTwiceLate : World :=
  let r0 := add (World.empty false) (constInt 10) []
  let r1 := add r0.2 (constInt 5) []
  let r2 := add r1.2 addInts [getFutureResult .int r0.1, getFutureResult .int r0.1]
  r2.2

/-! ## Agreement of the values computed by two runs -/

/-- The states `z` and `a` hold the same value in every cell that is ready in
both. -/
def Agree (z a : World) : Prop :=
  ∀ c, (z.cell c).ready = true → (a.cell c).ready = true → (a.cell c).value = (z.cell c).value

/-- The relation of a run that keeps the agreement with the state `z`. -/
def Sim (z a b : World) : Prop := Step a b ∧ (Agree z a → Agree z b)

/-! ## Flags left by forces that failed -/

/-- The tie-break scenario of the specification, the task numbers being the
registration indices: constant 10 (task 0), double the future of task 0
(task 1), constant 5 (task 2), registered in this order. -/
def tieBreak (rtl : Bool) : World :=
  let r0 := add (World.empty rtl) (constInt 10) []
  let r1 := add r0.2 doubleInt [getFutureResult .int r0.1]
  let r2 := add r1.2 (constInt 5) []
  r2.2

/-- The state of the tie-break scenario after the bulk pass. -/
def tieBreakRun (rtl pre : Bool) : World :=
  ((executeTopologicallyDetailed pre (tieBreak rtl)).world?).getD (tieBreak rtl)

/-- The state of `externalReady` after the bulk pass. -/
def externalReadyRun : World :=
  ((executeTopologicallyDetailed true externalReady).world?).getD externalReady

/-- A cell that the client filled with the `int` 7 and marked ready (cell 0), a
registered task whose callable throws (task 0), and a registered task that
doubles a future over the client's cell (task 1, output cell 2). -/
def externalAfterFailure : World :=
  let c := makeCell (World.empty false) { ready := true, value := { ptr := some ⟨.int, 7⟩ } }
  let r0 := add c.2 alwaysFails []
  let r1 := add r0.2 doubleInt [.future .int c.1]
  r1.2

/-- A cell that the client filled with the `int` 7 and marked ready (cell 0),
two registered tasks reading the future of each other (tasks 0 and 1, cells 1
and 2), and a registered task that adds the futures over the client's cell and
over the result of task 1 (task 2, output cell 3). -/
def externalAndCycle : World :=
  let c := makeCell (World.empty false) { ready := true, value := { ptr := some ⟨.int, 7⟩ } }
  let r0 := add c.2 doubleInt [getFutureResult .int 2]
  let r1 := add r0.2 doubleInt [getFutureResult .int r0.1]
  let r2 := add r1.2 addInts [.future .int c.1, getFutureResult .int r1.1]
  r2.2

end TaskScheduler

namespace UnrolledList

/-! # The unrolled list of `src/UnrolledLinkedList/unrolled_list.h`

Conventions of the embedding.

* The nodes live in a heap `heap : List (Option (Node α))` indexed by address; a
  pointer is an `Option Nat` (`none` is `nullptr`), a destroyed node leaves
  `none` at its address, and `create_new_node` allocates at the next address.
* The field `Node::size` is the length of `data`: `data` lists the slots
  `[0, size)` of `buffer`. Elements are values: the list model reads the code at
  an element type that is trivially destructible and trivially copyable, such
  as the `int` of `main.cpp`, for which a destructor call does nothing and a
  move is a copy. For other element types the statements that construct, move
  and destroy elements are followed slot by slot in the section on element
  lifetime at the end of the definitions. Allocation failure is not modelled,
  and constructing or moving an element never throws.
* The template parameter `capacity` is the field `capacity` of the list.
* `iterator` and `const_iterator` have the same code and are one type here.
* An outcome is `ok` with a result, `throw` with an exception, `undefined` when
  the code dereferences a null or dangling pointer, reads or writes a slot
  outside `[0, size)` or lets a size wrap around, and `timeout` when a loop of the
  model runs out of fuel.
-/

/-- The exceptions the list's code raises. -/
inductive Exn
  | out_of_range
  | length_error
deriving DecidableEq, Repr

/-- The struct `Node`: the constructed slots of the buffer and the two links. -/
structure Node (α : Type) where
  data : List α := []
  next : Option Nat := none
  prev : Option Nat := none
deriving DecidableEq, Repr

/-- The field `Node::size`. -/
def Node.size {α : Type} (x : Node α) : Nat := x.data.length

/-- The class `unrolled_list<T, capacity>`: the heap of its nodes and the fields
`size_`, `head_`, `tail_`. -/
structure unrolled_list (α : Type) where
  capacity : Nat
  heap : List (Option (Node α)) := []
  size_ : Nat := 0
  head_ : Option Nat := none
  tail_ : Option Nat := none
deriving DecidableEq, Repr

/-- The outcome of a member function. -/
inductive Res (α β : Type)
  | ok (b : β) (l : unrolled_list α)
  | throw (e : Exn) (l : unrolled_list α)
  | undefined
  | timeout
deriving DecidableEq, Repr

/-- The list an outcome leaves behind. -/
def Res.list? {α β : Type} : Res α β → Option (unrolled_list α)
  | .ok _ l => some l
  | .throw _ l => some l
  | .undefined => none
  | .timeout => none

/-- The result of a successful outcome. -/
def Res.val? {α β : Type} : Res α β → Option β
  | .ok b _ => some b
  | _ => none

/-- The exception of a failed outcome. -/
def Res.exn? {α β : Type} : Res α β → Option Exn
  | .throw e _ => some e
  | _ => none

/-! ## Nodes -/

/-- The node at address `n`, when it is live. -/
def unrolled_list.node {α : Type} (l : unrolled_list α) (n : Nat) : Option (Node α) :=
  l.heap.getD n none

/-- Overwrite the node at address `n`. -/
def unrolled_list.setNode {α : Type} (l : unrolled_list α) (n : Nat) (x : Node α) :
    unrolled_list α :=
  { l with heap := l.heap.set n (some x) }

/-- A write through the pointer `n`; `none` when `n` is not a live node. -/
def unrolled_list.modify {α : Type} (l : unrolled_list α) (n : Nat) (f : Node α → Node α) :
    Option (unrolled_list α) :=
  match l.node n with
  | some x => some (l.setNode n (f x))
  | none => none

/-- The method `create_new_node`: the address of the new node and the new heap. -/
def create_new_node {α : Type} (l : unrolled_list α) : Nat × unrolled_list α :=
  (l.heap.length, { l with heap := l.heap ++ [some {}] })

/-- The method `destroy_node` on a non-null pointer. -/
def destroy_node {α : Type} (l : unrolled_list α) (n : Nat) : unrolled_list α :=
  { l with heap := l.heap.set n none }

/-- The method `link_after(where, n)`. -/
def link_after {α : Type} (l : unrolled_list α) (wh : Option Nat) (n : Nat) :
    Option (unrolled_list α) :=
  match wh with
  | none =>
    match l.modify n (fun x => { x with prev := none, next := none }) with
    | none => none
    | some l1 => some { l1 with head_ := some n, tail_ := some n }
  | some w =>
    match l.node w with
    | none => none
    | some wn =>
      match l.modify n (fun x => { x with prev := some w, next := wn.next }) with
      | none => none
      | some l1 =>
        match (match wn.next with
            | some q => l1.modify q (fun x => { x with prev := some n })
            | none => some l1) with
        | none => none
        | some l2 =>
          match l2.modify w (fun x => { x with next := some n }) with
          | none => none
          | some l3 => some (if l3.tail_ = some w then { l3 with tail_ := some n } else l3)

/-- The method `link_before(where, n)`. -/
def link_before {α : Type} (l : unrolled_list α) (wh : Option Nat) (n : Nat) :
    Option (unrolled_list α) :=
  match wh with
  | none =>
    match l.modify n (fun x => { x with next := none, prev := none }) with
    | none => none
    | some l1 => some { l1 with head_ := some n, tail_ := some n }
  | some w =>
    match l.node w with
    | none => none
    | some wn =>
      match l.modify n (fun x => { x with next := some w, prev := wn.prev }) with
      | none => none
      | some l1 =>
        match (match wn.prev with
            | some p => l1.modify p (fun x => { x with next := some n })
            | none => some l1) with
        | none => none
        | some l2 =>
          match l2.modify w (fun x => { x with prev := some n }) with
          | none => none
          | some l3 => some (if l3.head_ = some w then { l3 with head_ := some n } else l3)

/-- The method `unlink_and_destroy(n)`. -/
def unlink_and_destroy {α : Type} (l : unrolled_list α) (n : Nat) : Option (unrolled_list α) :=
  match l.node n with
  | none => none
  | some x =>
    match (match x.prev with
        | some p => l.modify p (fun y => { y with next := x.next })
        | none => some { l with head_ := x.next }) with
    | none => none
    | some l1 =>
      match (match x.next with
          | some q => l1.modify q (fun y => { y with prev := x.prev })
          | none => some { l1 with tail_ := x.prev }) with
      | none => none
      | some l2 => some (destroy_node l2 n)

/-- The method `shift_right(node, from, count)` on the values of a node of a list
of capacity `cap`, at a trivially destructible element type (the destructor
loop over the slots `[from, old_size)` has no effect), together with the
construction that follows it in every caller: the caller constructs the values
`fill` in the `count` slots opened at `from`. `none` when `from` is past the
size. The slot-by-slot reading is `shift_right_slots`. -/
def shift_right {α : Type} (cap : Nat) (data : List α) (from_ count : Nat) (fill : List α) :
    Option (Except Exn (List α)) :=
  if count = 0 then some (.ok data)
  else if data.length + count > cap then some (.error .length_error)
  else if data.length < from_ then none
  else some (.ok (data.take from_ ++ fill ++ data.drop from_))

/-- The method `shift_left(node, from, count)` on the values of a node, at a
trivially destructible element type: the values from `from + count` on move
`count` places down and the size drops by `count`; with `from` at or past the
size nothing moves and the last `count` values go. The slot-by-slot reading is
`shift_left_slots`. -/
def shift_left {α : Type} (data : List α) (from_ count : Nat) : List α :=
  if count = 0 then data
  else (data.take from_ ++ data.drop (from_ + count)).take (data.length - count)

/-- The method `split_node(node)`: the address of the new right node and the list. -/
def split_node {α : Type} (l : unrolled_list α) (n : Nat) : Option (Nat × unrolled_list α) :=
  match link_after (create_new_node l).2 (some n) (create_new_node l).1 with
  | none => none
  | some l1 =>
    match l1.node n with
    | none => none
    | some x =>
      match l1.modify (create_new_node l).1
          (fun y => { y with data := x.data.drop (x.size / 2) }) with
      | none => none
      | some l2 =>
        match l2.modify n (fun y => { y with data := y.data.take (x.size / 2) }) with
        | none => none
        | some l3 => some ((create_new_node l).1, l3)

/-! ## Iterators -/

/-- The classes `iterator` and `const_iterator`. -/
structure iterator where
  node_ : Option Nat := none
  pos_ : Nat := 0
  tail_ : Option Nat := none
deriving DecidableEq, Repr

/-- The operator `*` of an iterator: `node_->data()[pos_]`. -/
def iterator.deref {α : Type} (l : unrolled_list α) (it : iterator) : Option α :=
  match it.node_ with
  | none => none
  | some n =>
    match l.node n with
    | none => none
    | some x => x.data[it.pos_]?

/-- The operator `++` of an iterator. -/
def iterator.inc {α : Type} (l : unrolled_list α) (it : iterator) : Option iterator :=
  match it.node_ with
  | none => some it
  | some n =>
    match l.node n with
    | none => none
    | some x =>
      if it.pos_ + 1 = x.size then some { it with node_ := x.next, pos_ := 0 }
      else some { it with pos_ := it.pos_ + 1 }

/-- The assignment `pos_ = node_->size ? node_->size - 1 : 0` after `node_` moved to `p`. -/
def iterator.to_last {α : Type} (l : unrolled_list α) (it : iterator) (p : Option Nat) :
    Option iterator :=
  match p with
  | none => some { it with node_ := none }
  | some m =>
    match l.node m with
    | none => none
    | some y => some { it with node_ := some m, pos_ := if y.size ≠ 0 then y.size - 1 else 0 }

/-- The operator `--` of an iterator. -/
def iterator.dec {α : Type} (l : unrolled_list α) (it : iterator) : Option iterator :=
  match it.node_ with
  | none => it.to_last l it.tail_
  | some n =>
    if it.pos_ = 0 then
      match l.node n with
      | none => none
      | some x => it.to_last l x.prev
    else some { it with pos_ := it.pos_ - 1 }

/-- The operator `==` of iterators: the node and the position, not the tail. -/
def iterator.eq (a b : iterator) : Bool := a.node_ == b.node_ && a.pos_ == b.pos_

/-- The method `begin()`. -/
def unrolled_list.begin {α : Type} (l : unrolled_list α) : iterator :=
  { node_ := l.head_, pos_ := 0, tail_ := l.tail_ }

/-- The method `end()`. -/
def unrolled_list.end_ {α : Type} (l : unrolled_list α) : iterator :=
  { node_ := none, pos_ := 0, tail_ := l.tail_ }

/-- The method `cbegin()`. -/
def unrolled_list.cbegin {α : Type} (l : unrolled_list α) : iterator :=
  { node_ := l.head_, pos_ := 0, tail_ := l.tail_ }

/-- The method `cend()`. -/
def unrolled_list.cend {α : Type} (l : unrolled_list α) : iterator :=
  { node_ := none, pos_ := 0, tail_ := l.tail_ }

/-- The adaptor `std::reverse_iterator<iterator>` of the standard library: it
wraps the iterator `current`. -/
structure reverse_iterator where
  current : iterator
deriving DecidableEq, Repr

/-- The operator `*` of a reverse iterator: `tmp = current; return *--tmp`. -/
def reverse_iterator.deref {α : Type} (l : unrolled_list α) (r : reverse_iterator) : Option α :=
  match r.current.dec l with
  | none => none
  | some t => t.deref l

/-- The operator `++` of a reverse iterator: `--current`. -/
def reverse_iterator.inc {α : Type} (l : unrolled_list α) (r : reverse_iterator) :
    Option reverse_iterator :=
  match r.current.dec l with
  | none => none
  | some t => some { current := t }

/-- The operator `==` of reverse iterators: that of the wrapped iterators. -/
def reverse_iterator.eq (a b : reverse_iterator) : Bool := a.current.eq b.current

/-- The method `rbegin()`. -/
def unrolled_list.rbegin {α : Type} (l : unrolled_list α) : reverse_iterator :=
  { current := l.end_ }

/-- The method `rend()`. -/
def unrolled_list.rend {α : Type} (l : unrolled_list α) : reverse_iterator :=
  { current := l.begin }

/-! ## Capacity and element access -/

/-- The constructor `unrolled_list()` at capacity `cap`. -/
def unrolled_list.new (α : Type) (cap : Nat) : unrolled_list α := { capacity := cap }

/-- The method `empty()`. -/
def unrolled_list.empty {α : Type} (l : unrolled_list α) : Bool := l.size_ == 0

/-- The method `size()`. -/
def unrolled_list.size {α : Type} (l : unrolled_list α) : Nat := l.size_

/-- The method `front()`. -/
def unrolled_list.front {α : Type} (l : unrolled_list α) : Res α α :=
  if l.empty then .throw .out_of_range l
  else
    match l.head_ with
    | none => .undefined
    | some h =>
      match l.node h with
      | none => .undefined
      | some x =>
        match x.data[0]? with
        | none => .undefined
        | some v => .ok v l

/-- The method `back()`. -/
def unrolled_list.back {α : Type} (l : unrolled_list α) : Res α α :=
  if l.empty then .throw .out_of_range l
  else
    match l.tail_ with
    | none => .undefined
    | some t =>
      match l.node t with
      | none => .undefined
      | some x =>
        if x.size = 0 then .undefined
        else
          match x.data[x.size - 1]? with
          | none => .undefined
          | some v => .ok v l

/-! ## Modifiers at the two ends -/

/-- The test `!p || p->size == capacity` of `push_back` and `push_front`. -/
def unrolled_list.is_full {α : Type} (l : unrolled_list α) (p : Option Nat) : Option Bool :=
  match p with
  | none => some true
  | some n =>
    match l.node n with
    | none => none
    | some x => some (decide (x.size = l.capacity))

/-- The branch of `push_back` that makes the new node `n` the tail. -/
def unrolled_list.link_tail {α : Type} (l : unrolled_list α) (n : Nat) :
    Option (unrolled_list α) :=
  match l.head_ with
  | none => some { l with head_ := some n, tail_ := some n }
  | some _ =>
    match l.tail_ with
    | none => none
    | some t =>
      match l.modify t (fun x => { x with next := some n }) with
      | none => none
      | some l1 =>
        match l1.modify n (fun x => { x with prev := some t }) with
        | none => none
        | some l2 => some { l2 with tail_ := some n }

/-- The construction of `v` in the slot `data()[size]` of node `n`, with
`size += 1`; `none` when the node is not live or the slot is outside the buffer. -/
def unrolled_list.construct_back {α : Type} (l : unrolled_list α) (n : Option Nat) (v : α) :
    Option (unrolled_list α) :=
  match n with
  | none => none
  | some t =>
    match l.node t with
    | none => none
    | some x =>
      if x.size < l.capacity then some (l.setNode t { x with data := x.data ++ [v] })
      else none

/-- The method `push_back(v)`. -/
def unrolled_list.push_back {α : Type} (l : unrolled_list α) (v : α) : Res α Unit :=
  match l.is_full l.tail_ with
  | none => .undefined
  | some b =>
    match (if b then (create_new_node l).2.link_tail (create_new_node l).1 else some l) with
    | none => .undefined
    | some l1 =>
      match l1.construct_back l1.tail_ v with
      | none => .undefined
      | some l2 => .ok () { l2 with size_ := l2.size_ + 1 }

/-- The statements `shift_right(node, idx, 1)`, the construction of `v` in the
slot `idx`, and `size_ += 1`, shared by `push_front` and `insert`. -/
def unrolled_list.place {α : Type} (l : unrolled_list α) (n : Option Nat) (idx : Nat) (v : α) :
    Res α Unit :=
  match n with
  | none => .undefined
  | some m =>
    match l.node m with
    | none => .undefined
    | some x =>
      match shift_right l.capacity x.data idx 1 [v] with
      | none => .undefined
      | some (.error e) => .throw e l
      | some (.ok d) => .ok () { l.setNode m { x with data := d } with size_ := l.size_ + 1 }

/-- The method `push_front(v)`. -/
def unrolled_list.push_front {α : Type} (l : unrolled_list α) (v : α) : Res α Unit :=
  match l.is_full l.head_ with
  | none => .undefined
  | some b =>
    match (if b then link_before (create_new_node l).2 l.head_ (create_new_node l).1
        else some l) with
    | none => .undefined
    | some l1 => l1.place l1.head_ 0 v

/-- The end of `pop_back`: when the tail `t` is empty, unlink it. -/
def unrolled_list.drop_tail {α : Type} (l : unrolled_list α) (t : Nat) : Res α Unit :=
  match l.node t with
  | none => .undefined
  | some x =>
    if x.size = 0 then
      match unlink_and_destroy l t with
      | none => .undefined
      | some l1 => .ok () { l1 with tail_ := x.prev }
    else .ok () l

/-- The method `pop_back()`. -/
def unrolled_list.pop_back {α : Type} (l : unrolled_list α) : Res α Unit :=
  if l.empty then .throw .out_of_range l
  else
    match l.tail_ with
    | none => .undefined
    | some t =>
      match l.node t with
      | none => .undefined
      | some x =>
        if x.size = 0 then .undefined
        else
          unrolled_list.drop_tail
            { l.setNode t { x with data := x.data.dropLast } with size_ := l.size_ - 1 } t

/-- The end of `pop_front`: when the head `h` is empty, unlink it. -/
def unrolled_list.drop_head {α : Type} (l : unrolled_list α) (h : Nat) : Res α Unit :=
  match l.node h with
  | none => .undefined
  | some x =>
    if x.size = 0 then
      match unlink_and_destroy l h with
      | none => .undefined
      | some l1 => .ok () { l1 with head_ := x.next }
    else .ok () l

/-- The method `pop_front()`, at a trivially destructible element type: the
call `ValAT::destroy` on slot 0 has no effect, and `shift_left(head_, 0, 1)`
moves the other values down. -/
def unrolled_list.pop_front {α : Type} (l : unrolled_list α) : Res α Unit :=
  if l.empty then .throw .out_of_range l
  else
    match l.head_ with
    | none => .undefined
    | some h =>
      match l.node h with
      | none => .undefined
      | some x =>
        if x.size = 0 then .undefined
        else
          unrolled_list.drop_head
            { l.setNode h { x with data := shift_left x.data 0 1 } with size_ := l.size_ - 1 } h

/-! ## Insertion and erasure at a position -/

/-- The end of `insert(pos, value)`: place `v` at slot `idx` of node `n` and
return the iterator `iterator(node, idx, tail_)`. -/
def unrolled_list.insert_at {α : Type} (l : unrolled_list α) (n idx : Nat) (v : α) :
    Res α iterator :=
  match l.place (some n) idx v with
  | .ok _ l1 => .ok { node_ := some n, pos_ := idx, tail_ := l1.tail_ } l1
  | .throw e l1 => .throw e l1
  | .undefined => .undefined
  | .timeout => .timeout

/-- The method `insert(pos, value)`. -/
def unrolled_list.insert {α : Type} (l : unrolled_list α) (pos : iterator) (v : α) :
    Res α iterator :=
  if pos.eq l.cend then
    match l.push_back v with
    | .ok _ l1 =>
      match l1.tail_ with
      | none => .undefined
      | some t =>
        match l1.node t with
        | none => .undefined
        | some x => .ok { node_ := some t, pos_ := x.size - 1, tail_ := some t } l1
    | .throw e l1 => .throw e l1
    | .undefined => .undefined
    | .timeout => .timeout
  else
    match pos.node_ with
    | none => .undefined
    | some n =>
      match l.node n with
      | none => .undefined
      | some x =>
        if x.size = l.capacity then
          match split_node l n with
          | none => .undefined
          | some (right, l1) =>
            match l1.node n with
            | none => .undefined
            | some y =>
              if pos.pos_ ≥ y.size then l1.insert_at right (pos.pos_ - y.size) v
              else l1.insert_at n pos.pos_ v
        else l.insert_at n pos.pos_ v

/-- The loop `it = insert(it, value)` of the two bulk overloads of `insert`,
over the values in the order in which the loop reads them. -/
def unrolled_list.insert_loop {α : Type} (l : unrolled_list α) (it : iterator) :
    List α → Res α iterator
  | [] => .ok it l
  | v :: vs =>
    match l.insert it v with
    | .ok it1 l1 => unrolled_list.insert_loop l1 it1 vs
    | .throw e l1 => .throw e l1
    | .undefined => .undefined
    | .timeout => .timeout

/-- The method `insert(pos, n, value)`. -/
def unrolled_list.insert_n {α : Type} (l : unrolled_list α) (pos : iterator) (n : Nat) (v : α) :
    Res α iterator :=
  l.insert_loop { node_ := pos.node_, pos_ := pos.pos_, tail_ := l.tail_ } (List.replicate n v)

/-- The method `insert(pos, first, last)`, the range `[first, last)` given by its
elements in order. -/
def unrolled_list.insert_range {α : Type} (l : unrolled_list α) (pos : iterator)
    (range : List α) : Res α iterator :=
  l.insert_loop { node_ := pos.node_, pos_ := pos.pos_, tail_ := l.tail_ } range

/-- The end of `erase(cpos)`: unlink the node `n` when it is empty, and build
the returned iterator. -/
def unrolled_list.erase_end {α : Type} (l : unrolled_list α) (n idx : Nat) : Res α iterator :=
  match l.node n with
  | none => .undefined
  | some x =>
    if x.size = 0 then
      match unlink_and_destroy l n with
      | none => .undefined
      | some l1 => .ok { node_ := x.next, pos_ := 0, tail_ := l1.tail_ } l1
    else .ok { node_ := some n, pos_ := idx, tail_ := l.tail_ } l

/-- The method `erase(cpos)`, at a trivially destructible element type: the
call `ValAT::destroy` on the slot `idx` has no effect, and `shift_left(node, idx, 1)`
moves the values above `idx` down and drops the size by one, so that a position
at or past the size of its node removes the last element of the node. On a
node of size 0 the size wraps around. -/
def unrolled_list.erase {α : Type} (l : unrolled_list α) (cpos : iterator) : Res α iterator :=
  if cpos.eq l.cend then .ok l.end_ l
  else
    match cpos.node_ with
    | none => .undefined
    | some n =>
      match l.node n with
      | none => .undefined
      | some x =>
        if x.size = 0 then .undefined
        else
          unrolled_list.erase_end
            { l.setNode n { x with data := shift_left x.data cpos.pos_ 1 } with
              size_ := l.size_ - 1 } n cpos.pos_

/-- The loop of `erase(first, last)`, at most `fuel` iterations. -/
def unrolled_list.erase_loop {α : Type} :
    Nat → unrolled_list α → iterator → iterator → Res α iterator
  | 0, _, _, _ => .timeout
  | fuel + 1, l, it, last =>
    if it.eq { node_ := last.node_, pos_ := last.pos_, tail_ := l.tail_ } then .ok it l
    else
      match l.erase it with
      | .ok it1 l1 => unrolled_list.erase_loop fuel l1 it1 last
      | .throw e l1 => .throw e l1
      | .undefined => .undefined
      | .timeout => .timeout

/-- The method `erase(first, last)`, at most `fuel` iterations of its loop. -/
def unrolled_list.erase_range {α : Type} (fuel : Nat) (l : unrolled_list α)
    (first last : iterator) : Res α iterator :=
  unrolled_list.erase_loop fuel l
    { node_ := first.node_, pos_ := first.pos_, tail_ := l.tail_ } last

/-! ## Traversal, copy and comparison -/

/-- The loop `for (; it != end(); ++it)` reading `*it`, at most `fuel` tests. -/
def unrolled_list.walk {α : Type} (l : unrolled_list α) : Nat → iterator → Res α (List α)
  | 0, _ => .timeout
  | fuel + 1, it =>
    if it.eq l.end_ then .ok [] l
    else
      match it.deref l with
      | none => .undefined
      | some v =>
        match it.inc l with
        | none => .undefined
        | some it1 =>
          match unrolled_list.walk l fuel it1 with
          | .ok vs _ => .ok (v :: vs) l
          | .throw e l1 => .throw e l1
          | .undefined => .undefined
          | .timeout => .timeout

/-- Forward traversal `for (it = begin(); it != end(); ++it)`: the elements read. -/
def unrolled_list.traverse {α : Type} (l : unrolled_list α) : Res α (List α) :=
  l.walk (l.size_ + 1) l.begin

/-- The loop `for (; rit != rend(); ++rit)` reading `*rit`, at most `fuel` tests. -/
def unrolled_list.rwalk {α : Type} (l : unrolled_list α) :
    Nat → reverse_iterator → Res α (List α)
  | 0, _ => .timeout
  | fuel + 1, r =>
    if r.eq l.rend then .ok [] l
    else
      match r.deref l with
      | none => .undefined
      | some v =>
        match r.inc l with
        | none => .undefined
        | some r1 =>
          match unrolled_list.rwalk l fuel r1 with
          | .ok vs _ => .ok (v :: vs) l
          | .throw e l1 => .throw e l1
          | .undefined => .undefined
          | .timeout => .timeout

/-- Reverse traversal `for (rit = rbegin(); rit != rend(); ++rit)`: the elements read. -/
def unrolled_list.rtraverse {α : Type} (l : unrolled_list α) : Res α (List α) :=
  l.rwalk (l.size_ + 1) l.rbegin

/-- The loop `push_back(v)` over the values `vs` of the copying constructors. -/
def unrolled_list.push_all {α : Type} (l : unrolled_list α) : List α → Res α Unit
  | [] => .ok () l
  | v :: vs =>
    match l.push_back v with
    | .ok _ l1 => unrolled_list.push_all l1 vs
    | .throw e l1 => .throw e l1
    | .undefined => .undefined
    | .timeout => .timeout

/-- The constructor `unrolled_list(std::initializer_list<T>)` at capacity `cap`. -/
def unrolled_list.of_list {α : Type} (cap : Nat) (il : List α) : Res α Unit :=
  (unrolled_list.new α cap).push_all il

/-- The copy constructor `unrolled_list(const unrolled_list& other)`: the values
read by the range-for loop over `other` are pushed back into a new list. -/
def unrolled_list.copy {α : Type} (other : unrolled_list α) : Res α Unit :=
  match other.traverse with
  | .ok vs _ => (unrolled_list.new α other.capacity).push_all vs
  | .throw e l => .throw e l
  | .undefined => .undefined
  | .timeout => .timeout

/-- The loop of `operator==`, at most `fuel` tests. -/
def unrolled_list.eq_loop {α : Type} [DecidableEq α] (l other : unrolled_list α) :
    Nat → iterator → iterator → Res α Bool
  | 0, _, _ => .timeout
  | fuel + 1, it1, it2 =>
    if it1.eq l.end_ then .ok true l
    else
      match it1.deref l, it2.deref other with
      | some a, some b =>
        if a = b then
          match it1.inc l, it2.inc other with
          | some j1, some j2 => unrolled_list.eq_loop l other fuel j1 j2
          | _, _ => .undefined
        else .ok false l
      | _, _ => .undefined

/-- The operator `==` of lists. -/
def unrolled_list.operator_eq {α : Type} [DecidableEq α] (l other : unrolled_list α) :
    Res α Bool :=
  if l.size_ ≠ other.size_ then .ok false l
  else l.eq_loop other (l.size_ + 1) l.begin other.begin

/-- The operator `!=` of lists. -/
def unrolled_list.operator_ne {α : Type} [DecidableEq α] (l other : unrolled_list α) :
    Res α Bool :=
  match l.operator_eq other with
  | .ok b l1 => .ok (!b) l1
  | .throw e l1 => .throw e l1
  | .undefined => .undefined
  | .timeout => .timeout

/-! ## Well-formed lists and the sequence they hold -/

/-- The slots of the node at address `n` (none when the node is not live). -/
def unrolled_list.dataOf {α : Type} (l : unrolled_list α) (n : Nat) : List α :=
  match l.node n with
  | some x => x.data
  | none => []

/-- The elements stored in the nodes at the addresses `ids`, in order. -/
def unrolled_list.elems {α : Type} (l : unrolled_list α) (ids : List Nat) : List α :=
  ids.flatMap l.dataOf

/-- The nodes at the addresses `ids` are the doubly linked chain of the list:
they are distinct and live, `head_` is the first and `tail_` the last, and the
links of each lead to its neighbours. -/
structure Chain {α : Type} (l : unrolled_list α) (ids : List Nat) : Prop where
  nodup : ids.Nodup
  head : l.head_ = ids.head?
  tail : l.tail_ = ids.getLast?
  link : ∀ (a : List Nat) (n : Nat) (b : List Nat), ids = a ++ n :: b →
    ∃ x, l.node n = some x ∧ x.prev = a.getLast? ∧ x.next = b.head?

/-- The list is well formed with the chain `ids`: no node is empty, no node
exceeds the capacity, the capacity is positive, and `size_` counts the elements. -/
structure Rep {α : Type} (l : unrolled_list α) (ids : List Nat) : Prop where
  chain : Chain l ids
  cap : 1 ≤ l.capacity
  filled : ∀ n ∈ ids, l.dataOf n ≠ [] ∧ (l.dataOf n).length ≤ l.capacity
  size : l.size_ = (l.elems ids).length

/-- The list is well formed and holds the sequence `s`, whatever the
distribution of `s` over its nodes. -/
def Holds {α : Type} (l : unrolled_list α) (s : List α) : Prop :=
  ∃ ids, Rep l ids ∧ l.elems ids = s

/-- The iterator `it` stands at offset `k` of the sequence of the list: at the
element of index `k`, or past the end when `k` is the length. -/
def Pos {α : Type} (l : unrolled_list α) (ids : List Nat) (it : iterator) (k : Nat) : Prop :=
  (it.node_ = none ∧ it.pos_ = 0 ∧ k = (l.elems ids).length) ∨
  ∃ (a : List Nat) (n : Nat) (b : List Nat), ids = a ++ n :: b ∧ it.node_ = some n ∧
    it.pos_ < (l.dataOf n).length ∧ k = (l.elems a).length + it.pos_

/-! ## Sequences of operations and their specification -/

/-- The operations at the two ends of the list. -/
inductive Op (α : Type)
  | push_back (v : α)
  | push_front (v : α)
  | pop_back
  | pop_front
deriving DecidableEq, Repr

/-- One operation on the list. -/
def unrolled_list.run_op {α : Type} (l : unrolled_list α) : Op α → Res α Unit
  | .push_back v => l.push_back v
  | .push_front v => l.push_front v
  | .pop_back => l.pop_back
  | .pop_front => l.pop_front

/-- A sequence of operations, one after the other, up to the first that fails. -/
def unrolled_list.run_ops {α : Type} (l : unrolled_list α) : List (Op α) → Res α Unit
  | [] => .ok () l
  | op :: ops =>
    match l.run_op op with
    | .ok _ l1 => unrolled_list.run_ops l1 ops
    | .throw e l1 => .throw e l1
    | .undefined => .undefined
    | .timeout => .timeout

/-- The specification of one operation on a plain sequence, as the
specification words it: `push_back(v)` yields `s ++ [v]`, `push_front(v)` yields
`[v] ++ s`, `pop_back()` removes the last element and `pop_front()` the first;
the two removals are not defined on the empty sequence. -/
def spec_op {α : Type} (s : List α) : Op α → Option (List α)
  | .push_back v => some (s ++ [v])
  | .push_front v => some ([v] ++ s)
  | .pop_back => if s.isEmpty then none else some s.dropLast
  | .pop_front => if s.isEmpty then none else some s.tail

/-- The specification of a sequence of operations on a plain sequence. -/
def spec_ops {α : Type} (s : List α) : List (Op α) → Option (List α)
  | [] => some s
  | op :: ops =>
    match spec_op s op with
    | some s1 => spec_ops s1 ops
    | none => none

/-- The list that a sequence of operations builds from the empty list of
capacity `cap`. -/
def unrolled_list.build {α : Type} (cap : Nat) (ops : List (Op α)) : unrolled_list α :=
  (((unrolled_list.new α cap).run_ops ops).list?).getD (unrolled_list.new α cap)

/-- The iterator `std::next(begin(), k)`: `k` increments from `begin()`. -/
def unrolled_list.advance {α : Type} (l : unrolled_list α) : Nat → Option iterator
  | 0 => some l.begin
  | k + 1 =>
    match unrolled_list.advance l k with
    | some it => it.inc l
    | none => none

/-! ## Lists used as examples -/

/-- The list `{1, 2, 3}` of capacity 4: one node. -/
def three : unrolled_list Nat :=
  unrolled_list.build 4 [.push_back 1, .push_back 2, .push_back 3]

/-- The list `{5}` of capacity 1. -/
def single_cap1 : unrolled_list Nat := unrolled_list.build 1 [.push_back 5]

/-- The list `{1, 2}` of capacity 4. -/
def pair : unrolled_list Nat := unrolled_list.build 4 [.push_back 1, .push_back 2]

/-- The list `1, 2, 3, 4, 5` of capacity 4 built by `push_back`: the nodes hold
`1, 2, 3, 4` and `5`. -/
def back_built : unrolled_list Nat :=
  unrolled_list.build 4
    [.push_back 1, .push_back 2, .push_back 3, .push_back 4, .push_back 5]

/-- The list `1, 2, 3, 4, 5` of capacity 4 built by `push_front`: the nodes hold
`1` and `2, 3, 4, 5`. -/
def front_built : unrolled_list Nat :=
  unrolled_list.build 4
    [.push_front 5, .push_front 4, .push_front 3, .push_front 2, .push_front 1]

/-! ## Sequences of calls at the ends and at positions -/

/-- A call that changes the list: the four operations at the ends, and the
single-element `insert(pos, v)` and `erase(pos)` at the position
`pos = std::next(begin(), k)`. -/
inductive Edit (α : Type)
  | push_back (v : α)
  | push_front (v : α)
  | pop_back
  | pop_front
  | insert (k : Nat) (v : α)
  | erase (k : Nat)
deriving DecidableEq, Repr

/-- The outcome of a call without the iterator it returns. -/
def Res.discard {α β : Type} : Res α β → Res α Unit
  | .ok _ l => .ok () l
  | .throw e l => .throw e l
  | .undefined => .undefined
  | .timeout => .timeout

/-- One call on the list. -/
def unrolled_list.run_edit {α : Type} (l : unrolled_list α) : Edit α → Res α Unit
  | .push_back v => l.push_back v
  | .push_front v => l.push_front v
  | .pop_back => l.pop_back
  | .pop_front => l.pop_front
  | .insert k v =>
    match l.advance k with
    | none => .undefined
    | some it => (l.insert it v).discard
  | .erase k =>
    match l.advance k with
    | none => .undefined
    | some it => (l.erase it).discard

/-- A sequence of calls, one after the other, the caller catching the
exceptions: the list that is left, `none` when a call has no defined outcome. -/
def unrolled_list.run_edits {α : Type} (l : unrolled_list α) :
    List (Edit α) → Option (unrolled_list α)
  | [] => some l
  | e :: es =>
    match (l.run_edit e).list? with
    | some l1 => unrolled_list.run_edits l1 es
    | none => none

/-- The sequence after one call on a list that holds the sequence `s`; `none`
when the position of an `insert` or `erase` is not valid, that is, lies beyond
the end.  A removal at an end of the empty sequence leaves it empty (the call
throws), and so does `erase` at the end position (the call returns `end()`). -/
def seq_edit {α : Type} (s : List α) : Edit α → Option (List α)
  | .push_back v => some (s ++ [v])
  | .push_front v => some (v :: s)
  | .pop_back => some s.dropLast
  | .pop_front => some s.tail
  | .insert k v => if k ≤ s.length then some (s.take k ++ v :: s.drop k) else none
  | .erase k => if k ≤ s.length then some (s.take k ++ s.drop (k + 1)) else none

/-- The sequence after a sequence of calls, `none` when a position is not valid. -/
def seq_edits {α : Type} (s : List α) : List (Edit α) → Option (List α)
  | [] => some s
  | e :: es =>
    match seq_edit s e with
    | some s1 => seq_edits s1 es
    | none => none

/-! ## Element lifetime in the buffer of a node

The definitions above read the code at an element type that is trivially
destructible and trivially copyable, such as `int`: a destructor call does
nothing and a move is a copy, so a node is described by the values of its slots
`[0, size)`. The definitions of this section follow the same statements slot by
slot for an arbitrary element type, the flag `trivial` telling which kind of type
`T` is. With `trivial = false` the type has a destructor that must run exactly
once per object and a `noexcept` move constructor (`std::string`, the `Tracer` of
`main.cpp`): a move leaves the source alive with an unspecified value, a
destructor call ends the lifetime of the object, and destroying, reading or
assigning to a slot that holds no object is undefined behaviour. Constructing
into a slot overwrites whatever it held, without running a destructor. -/

/-- The state of one slot of `Node::buffer`: `raw` storage in which no object
was constructed yet, an object with the value `v`, a moved-from object (alive,
its value unspecified), or storage whose object was destroyed. -/
inductive Slot (α : Type)
  | raw
  | live (v : α)
  | moved
  | dead
deriving DecidableEq, Repr

/-- The fields `buffer` (all `capacity` slots) and `size` of a node. -/
structure SlotNode (α : Type) where
  buffer : List (Slot α)
  size : Nat
deriving DecidableEq, Repr

/-- The node of a list of capacity `capacity` whose slots `[0, size)` hold the
elements `data`, the other slots being storage never used. -/
def SlotNode.of {α : Type} (capacity : Nat) (data : List α) : SlotNode α :=
  { buffer := data.map Slot.live ++ List.replicate (capacity - data.length) Slot.raw,
    size := data.length }

/-- The values of a run of slots; `none` when one of them does not hold an
object with a value. -/
def Slot.values {α : Type} : List (Slot α) → Option (List α)
  | [] => some []
  | .live v :: rest => (Slot.values rest).map (fun vs => v :: vs)
  | .raw :: _ => none
  | .moved :: _ => none
  | .dead :: _ => none

/-- The elements that the slots `[0, size)` hold; `none` when one of them does
not hold an object with a value. -/
def SlotNode.elements {α : Type} (x : SlotNode α) : Option (List α) :=
  if x.buffer.length < x.size then none else Slot.values (x.buffer.take x.size)

/-- The slots `[0, size)` of the node `x` of a list of capacity `capacity` hold
the values `d`. -/
def Shows {α : Type} (x : SlotNode α) (capacity : Nat) (d : List α) : Prop :=
  x.buffer.length = capacity ∧ x.size = d.length ∧ d.length ≤ capacity ∧
    ∀ j, j < d.length → x.buffer[j]? = d[j]?.map Slot.live

/-- The call `ValAT::construct(value_alloc_, &data()[i], x)`, `c` being the
object constructed: `live v` for a value, `moved` for a copy of a moved-from
object. -/
def construct_at {α : Type} (buf : List (Slot α)) (i : Nat) (c : Slot α) :
    Option (List (Slot α)) :=
  if i < buf.length then some (buf.set i c) else none

/-- The expression `std::move(data()[i])` (or `std::move_if_noexcept`) as the
source of a construction or an assignment: the object handed over and the
buffer afterwards. -/
def move_from {α : Type} (trivial : Bool) (buf : List (Slot α)) (i : Nat) :
    Option (Slot α × List (Slot α)) :=
  match buf.getD i .raw with
  | .live v => some (.live v, if trivial then buf else buf.set i .moved)
  | .moved => some (.moved, buf)
  | .raw => none
  | .dead => none

/-- The destructor call `data()[i].~T()`, also as `ValAT::destroy`. -/
def destroy_at {α : Type} (trivial : Bool) (buf : List (Slot α)) (i : Nat) :
    Option (List (Slot α)) :=
  if trivial then some buf
  else
    match buf.getD i .raw with
    | .live _ => some (buf.set i .dead)
    | .moved => some (buf.set i .dead)
    | .raw => none
    | .dead => none

/-- The assignment `data()[i] = std::move(data()[j])`. -/
def move_assign {α : Type} (trivial : Bool) (buf : List (Slot α)) (i j : Nat) :
    Option (List (Slot α)) :=
  match move_from trivial buf j with
  | none => none
  | some (c, b1) =>
    if trivial then construct_at b1 i c
    else
      match b1.getD i .raw with
      | .live _ => some (b1.set i c)
      | .moved => some (b1.set i c)
      | .raw => none
      | .dead => none

/-- The first loop of `shift_right`, from iteration `i` on, `n` iterations
remaining: construct in the slot `src_idx + count` from the moved slot
`src_idx = old_size - 1 - i`. -/
def shift_right_moves {α : Type} (trivial : Bool) (count old_size : Nat) :
    Nat → Nat → List (Slot α) → Option (List (Slot α))
  | 0, _, buf => some buf
  | n + 1, i, buf =>
    match move_from trivial buf (old_size - 1 - i) with
    | none => none
    | some (c, b1) =>
      match construct_at b1 (old_size - 1 - i + count) c with
      | none => none
      | some b2 => shift_right_moves trivial count old_size n (i + 1) b2

/-- A loop of destructor calls on the slots `i, i + 1, ...`, `n` of them. -/
def destroy_range {α : Type} (trivial : Bool) :
    Nat → Nat → List (Slot α) → Option (List (Slot α))
  | 0, _, buf => some buf
  | n + 1, i, buf =>
    match destroy_at trivial buf i with
    | none => none
    | some b1 => destroy_range trivial n (i + 1) b1

/-- The method `shift_right(node, from, count)` slot by slot: the moves from the
top down, then the destructor calls on the slots `[from, old_size)`, then
`size += count`. `none` is undefined behaviour (also when `from` is past the
size, where `old_size - from` wraps around). -/
def shift_right_slots {α : Type} (trivial : Bool) (capacity : Nat) (x : SlotNode α)
    (from_ count : Nat) : Option (Except Exn (SlotNode α)) :=
  if count = 0 then some (.ok x)
  else if x.size + count > capacity then some (.error .length_error)
  else if x.size < from_ then none
  else
    match shift_right_moves trivial count x.size (x.size - from_) 0 x.buffer with
    | none => none
    | some b1 =>
      match destroy_range trivial (x.size - from_) from_ b1 with
      | none => none
      | some b2 => some (.ok { buffer := b2, size := x.size + count })

/-- The first loop of `shift_left`, from index `i` on, `n` iterations remaining. -/
def shift_left_moves {α : Type} (trivial : Bool) (count : Nat) :
    Nat → Nat → List (Slot α) → Option (List (Slot α))
  | 0, _, buf => some buf
  | n + 1, i, buf =>
    match move_assign trivial buf (i - count) i with
    | none => none
    | some b1 => shift_left_moves trivial count n (i + 1) b1

/-- The second loop of `shift_left`, from iteration `i` on, `n` iterations
remaining: the destructor call on the slot `old_size - 1 - i`. -/
def shift_left_destroys {α : Type} (trivial : Bool) (old_size : Nat) :
    Nat → Nat → List (Slot α) → Option (List (Slot α))
  | 0, _, buf => some buf
  | n + 1, i, buf =>
    match destroy_at trivial buf (old_size - 1 - i) with
    | none => none
    | some b1 => shift_left_destroys trivial old_size n (i + 1) b1

/-- The method `shift_left(node, from, count)` slot by slot: the move
assignments upwards from `from + count`, then the destructor calls on the last
`count` slots, then `size -= count`. `none` is undefined behaviour (also when
`count` exceeds the size, where the indices and the size wrap around). -/
def shift_left_slots {α : Type} (trivial : Bool) (x : SlotNode α) (from_ count : Nat) :
    Option (SlotNode α) :=
  if count = 0 then some x
  else if x.size < count then none
  else
    match shift_left_moves trivial count (x.size - (from_ + count)) (from_ + count)
        x.buffer with
    | none => none
    | some b1 =>
      match shift_left_destroys trivial x.size count 0 b1 with
      | none => none
      | some b2 => some { buffer := b2, size := x.size - count }

/-- The statements `shift_right(node, idx, 1)` and
`ValAT::construct(value_alloc_, &node->data()[idx], v)` of `push_front`
(`idx = 0`) and `insert`, on the slots of the node. -/
def place_slots {α : Type} (trivial : Bool) (capacity : Nat) (x : SlotNode α) (idx : Nat)
    (v : α) : Option (Except Exn (SlotNode α)) :=
  match shift_right_slots trivial capacity x idx 1 with
  | none => none
  | some (.error e) => some (.error e)
  | some (.ok y) =>
    match construct_at y.buffer idx (.live v) with
    | none => none
    | some b => some (.ok { y with buffer := b })

/-- The statements `ValAT::destroy(value_alloc_, &node->data()[idx])` and
`shift_left(node, idx, 1)` of `pop_front` (`idx = 0`) and `erase`, on the slots
of the node. -/
def remove_slots {α : Type} (trivial : Bool) (x : SlotNode α) (idx : Nat) :
    Option (SlotNode α) :=
  match destroy_at trivial x.buffer idx with
  | none => none
  | some b => shift_left_slots trivial { x with buffer := b } idx 1

/-- The statements `ValAT::construct(value_alloc_, &tail_->data()[tail_->size], v)`
and `tail_->size += 1` of `push_back`. -/
def push_back_slots {α : Type} (x : SlotNode α) (v : α) : Option (SlotNode α) :=
  match construct_at x.buffer x.size (.live v) with
  | none => none
  | some b => some { buffer := b, size := x.size + 1 }

/-- The statements `ValAT::destroy(value_alloc_, &tail_->data()[tail_->size - 1])`
and `tail_->size -= 1` of `pop_back`. -/
def pop_back_slots {α : Type} (trivial : Bool) (x : SlotNode α) : Option (SlotNode α) :=
  if x.size = 0 then none
  else
    match destroy_at trivial x.buffer (x.size - 1) with
    | none => none
    | some b => some { buffer := b, size := x.size - 1 }

end UnrolledList

/-! # Theorems -/

namespace TaskScheduler

open Relation

theorem cell_setCell (w : World) (c c' : Nat) (x : ResultCellAny) :
    (w.setCell c x).cell c' = if c = c' ∧ c < w.cells.length then x else w.cell c' := by
  unfold World.setCell World.cell
  simp only [List.getD_eq_getElem?_getD, List.getElem?_set]
  by_cases h : c = c'
  · subst h
    by_cases h2 : c < w.cells.length
    · simp [h2]
    · have h3 : w.cells[c]? = none := List.getElem?_eq_none (by omega)
      simp [h2, h3]
  · simp [h]

theorem cell_setCell_ne (w : World) {c c' : Nat} (x : ResultCellAny) (h : c ≠ c') :
    (w.setCell c x).cell c' = w.cell c' := by
  rw [cell_setCell]; simp [h]

theorem cell_setCell_self (w : World) {c : Nat} (x : ResultCellAny) (h : c < w.cells.length) :
    (w.setCell c x).cell c = x := by
  rw [cell_setCell]; simp [h]

theorem cell_default_of_le (w : World) {c : Nat} (h : w.cells.length ≤ c) : w.cell c = {} := by
  unfold World.cell
  rw [List.getD_eq_getElem?_getD, List.getElem?_eq_none h]; rfl

theorem lt_of_producer (w : World) {c p : Nat} (h : (w.cell c).producer = some p) :
    c < w.cells.length := by
  by_contra hc
  rw [cell_default_of_le w (by omega)] at h
  cases h

theorem lt_of_lock (w : World) {c : Nat} {pt : Nat × Task} (h : w.lock c = some pt) :
    c < w.cells.length := by
  unfold World.lock at h
  cases hp : (w.cell c).producer with
  | none => rw [hp] at h; cases h
  | some p => exact lt_of_producer w hp

theorem Step.refl (w : World) : Step w w :=
  { tasks := rfl, tasks_ := rfl, rtl := rfl, len := rfl, producer := fun _ => rfl,
    frozen := fun _ _ => rfl, calls := List.prefix_refl _, running_mono := fun _ h => h }

theorem Step.trans {a b c : World} (h1 : Step a b) (h2 : Step b c) : Step a c :=
  { tasks := h2.tasks.trans h1.tasks, tasks_ := h2.tasks_.trans h1.tasks_,
    rtl := h2.rtl.trans h1.rtl, len := h2.len.trans h1.len,
    producer := fun x => (h2.producer x).trans (h1.producer x),
    frozen := fun x hx => by
      have e1 := h1.frozen x hx
      have : (b.cell x).ready = true := by rw [e1]; exact hx
      rw [h2.frozen x this, e1],
    calls := h1.calls.trans h2.calls,
    running_mono := fun x hx => h2.running_mono x (h1.running_mono x hx) }

theorem Step.lock {w w' : World} (h : Step w w') (c : Nat) : w'.lock c = w.lock c := by
  unfold World.lock
  rw [h.producer c, h.tasks]

theorem Step.taskAt {w w' : World} (h : Step w w') (u : Nat) : w'.taskAt u = w.taskAt u := by
  unfold World.taskAt
  rw [h.tasks_, h.tasks]

theorem Step.fuel {w w' : World} (h : Step w w') : w'.fuel = w.fuel := by
  unfold World.fuel
  rw [h.len]

theorem Step.ready_mono {w w' : World} (h : Step w w') {c : Nat}
    (hc : (w.cell c).ready = true) : (w'.cell c).ready = true := by
  rw [h.frozen c hc]; exact hc

/-! ### Inversion of the definitions -/

theorem Future.get_eq_ok {force : World → Nat → Res Unit} {w w' : World} {T : Ty} {c : Nat}
    {h : Holder} (hr : Future.get force w T c = .ok h w') :
    force w c = .ok () w' ∧ (w'.cell c).value.as T = .ok h := by
  unfold Future.get at hr
  split at hr
  · split at hr
    · simp only [Res.ok.injEq] at hr
      obtain ⟨rfl, rfl⟩ := hr
      simp_all
    · cases hr
  · cases hr
  · cases hr

theorem Future.get_eq_throw {force : World → Nat → Res Unit} {w w' : World} {T : Ty} {c : Nat}
    {e : Exn} (hr : Future.get force w T c = .throw e w') :
    force w c = .throw e w' ∨
      (force w c = .ok () w' ∧ (w'.cell c).value.as T = .error e) := by
  unfold Future.get at hr
  split at hr
  · split at hr
    · cases hr
    · simp only [Res.throw.injEq] at hr
      obtain ⟨rfl, rfl⟩ := hr
      right
      simp_all
  · simp only [Res.throw.injEq] at hr
    obtain ⟨rfl, rfl⟩ := hr
    left; assumption
  · cases hr

theorem Future.get_eq_undefined {force : World → Nat → Res Unit} {w : World} {T : Ty} {c : Nat}
    (hr : Future.get force w T c = .undefined) : force w c = .undefined := by
  unfold Future.get at hr
  split at hr
  · split at hr <;> cases hr
  · cases hr
  · assumption

theorem evalArgs_cons_ok {force : World → Nat → Res Unit} {w w' : World} {a : ArgWrap}
    {rest : List ArgWrap} {vs : List Holder} (hr : evalArgs force w (a :: rest) = .ok vs w') :
    ∃ h hs w1, a.get force w = .ok h w1 ∧ evalArgs force w1 rest = .ok hs w' ∧ vs = h :: hs := by
  rw [evalArgs] at hr
  split at hr
  · split at hr
    · simp only [Res.ok.injEq] at hr
      obtain ⟨rfl, rfl⟩ := hr
      exact ⟨_, _, _, by assumption, by assumption, rfl⟩
    · cases hr
    · cases hr
  · cases hr
  · cases hr

theorem evalArgs_cons_throw {force : World → Nat → Res Unit} {w w' : World} {a : ArgWrap}
    {rest : List ArgWrap} {e : Exn} (hr : evalArgs force w (a :: rest) = .throw e w') :
    a.get force w = .throw e w' ∨
      ∃ h w1, a.get force w = .ok h w1 ∧ evalArgs force w1 rest = .throw e w' := by
  rw [evalArgs] at hr
  split at hr
  · split at hr
    · cases hr
    · simp only [Res.throw.injEq] at hr
      obtain ⟨rfl, rfl⟩ := hr
      exact Or.inr ⟨_, _, by assumption, by assumption⟩
    · cases hr
  · simp only [Res.throw.injEq] at hr
    obtain ⟨rfl, rfl⟩ := hr
    exact Or.inl (by assumption)
  · cases hr

theorem evalArgs_cons_undefined {force : World → Nat → Res Unit} {w : World} {a : ArgWrap}
    {rest : List ArgWrap} (hr : evalArgs force w (a :: rest) = .undefined) :
    a.get force w = .undefined ∨
      ∃ h w1, a.get force w = .ok h w1 ∧ evalArgs force w1 rest = .undefined := by
  rw [evalArgs] at hr
  split at hr
  · split at hr
    · cases hr
    · cases hr
    · exact Or.inr ⟨_, _, by assumption, by assumption⟩
  · cases hr
  · exact Or.inl (by assumption)

theorem callArgs_ok {force : World → Nat → Res Unit} {w w' : World} {args : List ArgWrap}
    {vs : List Holder} (hr : callArgs force w args = .ok vs w') :
    (w.rtl = false ∧ evalArgs force w args = .ok vs w') ∨
      (w.rtl = true ∧ evalArgs force w args.reverse = .ok vs.reverse w') := by
  unfold callArgs at hr
  split at hr
  · split at hr
    · simp only [Res.ok.injEq] at hr
      obtain ⟨rfl, rfl⟩ := hr
      right
      simp_all
    · cases hr
    · cases hr
  · left
    simp_all

theorem callArgs_throw {force : World → Nat → Res Unit} {w w' : World} {args : List ArgWrap}
    {e : Exn} (hr : callArgs force w args = .throw e w') :
    evalArgs force w args = .throw e w' ∨ evalArgs force w args.reverse = .throw e w' := by
  unfold callArgs at hr
  split at hr
  · split at hr
    · cases hr
    · simp only [Res.throw.injEq] at hr
      obtain ⟨rfl, rfl⟩ := hr
      right; assumption
    · cases hr
  · left; assumption

theorem callArgs_undefined {force : World → Nat → Res Unit} {w : World} {args : List ArgWrap}
    (hr : callArgs force w args = .undefined) :
    evalArgs force w args = .undefined ∨ evalArgs force w args.reverse = .undefined := by
  unfold callArgs at hr
  split at hr
  · split at hr
    · cases hr
    · cases hr
    · right; assumption
  · left; assumption

theorem Task.execute_ok {force : World → Nat → Res Unit} {w w' : World} {p : Nat} {t : Task}
    (hr : t.execute force w p = .ok () w') :
    ((w.cell t.out).ready = true ∧ w' = w) ∨
      ((w.cell t.out).ready = false ∧ ∃ hs w1 r, callArgs force w t.args = .ok hs w1 ∧
        t.fn hs = some r ∧ w' = w1.publish p t.out r) := by
  unfold Task.execute at hr
  split at hr
  · simp only [Res.ok.injEq, true_and] at hr
    left
    exact ⟨by assumption, hr.symm⟩
  · split at hr
    · split at hr
      · simp only [Res.ok.injEq, true_and] at hr
        right
        refine ⟨by simp_all, _, _, _, by assumption, by assumption, ?_⟩
        rw [← hr]
      · cases hr
    · cases hr
    · cases hr

theorem Task.execute_throw {force : World → Nat → Res Unit} {w w' : World} {p : Nat} {t : Task}
    {e : Exn} (hr : t.execute force w p = .throw e w') :
    (w.cell t.out).ready = false ∧
      (callArgs force w t.args = .throw e w' ∨
        ∃ hs w1, callArgs force w t.args = .ok hs w1 ∧ t.fn hs = none ∧
          e = .callable_failed ∧ w' = w1.logCall p) := by
  unfold Task.execute at hr
  split at hr
  · cases hr
  · refine ⟨by simp_all, ?_⟩
    split at hr
    · split at hr
      · cases hr
      · simp only [Res.throw.injEq] at hr
        right
        exact ⟨_, _, by assumption, by assumption, hr.1.symm, by rw [← hr.2]⟩
    · simp only [Res.throw.injEq] at hr
      obtain ⟨rfl, rfl⟩ := hr
      left; assumption
    · cases hr

theorem Task.execute_undefined {force : World → Nat → Res Unit} {w : World} {p : Nat} {t : Task}
    (hr : t.execute force w p = .undefined) :
    (w.cell t.out).ready = false ∧ callArgs force w t.args = .undefined := by
  unfold Task.execute at hr
  split at hr
  · cases hr
  · refine ⟨by simp_all, ?_⟩
    split at hr
    · split at hr <;> cases hr
    · cases hr
    · assumption

theorem ensureReady_ok {fuel : Nat} {w w' : World} {c : Nat}
    (hr : ensureReady (fuel + 1) w c = .ok () w') :
    ((w.cell c).ready = true ∧ w' = w) ∨
      ((w.cell c).ready = false ∧ (w.cell c).running = false ∧ ∃ p t w2,
        w.lock c = some (p, t) ∧
        t.execute (ensureReady fuel) (w.setRunning c true) p = .ok () w2 ∧
        w' = w2.setRunning c false ∧ (w'.cell c).ready = true) := by
  rw [ensureReady] at hr
  split at hr
  · simp only [Res.ok.injEq, true_and] at hr
    left
    exact ⟨by assumption, hr.symm⟩
  · split at hr
    · cases hr
    · split at hr
      · cases hr
      · split at hr
        · split at hr
          · simp only [Res.ok.injEq, true_and] at hr
            right
            refine ⟨by simp_all, by simp_all, _, _, _, by assumption, by assumption, ?_, ?_⟩
            · rw [← hr]
            · rw [← hr]; assumption
          · cases hr
        · cases hr
        · cases hr

theorem ensureReady_throw {fuel : Nat} {w w' : World} {c : Nat} {e : Exn}
    (hr : ensureReady (fuel + 1) w c = .throw e w') :
    (w.cell c).ready = false ∧
      ((w.lock c = none ∧ e = .no_producer ∧ w' = w) ∨
       (∃ pt, w.lock c = some pt ∧ (w.cell c).running = true ∧ e = .cycle_detected ∧ w' = w) ∨
       ((w.cell c).running = false ∧ ∃ p t, w.lock c = some (p, t) ∧
          (t.execute (ensureReady fuel) (w.setRunning c true) p = .throw e w' ∨
           ∃ w2, t.execute (ensureReady fuel) (w.setRunning c true) p = .ok () w2 ∧
             w' = w2.setRunning c false ∧ (w'.cell c).ready = false ∧
             e = .producer_incomplete))) := by
  rw [ensureReady] at hr
  split at hr
  · cases hr
  · refine ⟨by simp_all, ?_⟩
    split at hr
    · simp only [Res.throw.injEq] at hr
      left
      exact ⟨by assumption, hr.1.symm, hr.2.symm⟩
    · split at hr
      · simp only [Res.throw.injEq] at hr
        right; left
        exact ⟨_, by assumption, by assumption, hr.1.symm, hr.2.symm⟩
      · right; right
        refine ⟨by simp_all, _, _, by assumption, ?_⟩
        split at hr
        · split at hr
          · cases hr
          · simp only [Res.throw.injEq] at hr
            right
            refine ⟨_, by assumption, ?_, ?_, hr.1.symm⟩
            · rw [← hr.2]
            · rw [← hr.2]; simp_all
        · simp only [Res.throw.injEq] at hr
          obtain ⟨rfl, rfl⟩ := hr
          left; assumption
        · cases hr

theorem ensureReady_undefined {fuel : Nat} {w : World} {c : Nat}
    (hr : ensureReady (fuel + 1) w c = .undefined) :
    (w.cell c).ready = false ∧ (w.cell c).running = false ∧ ∃ p t, w.lock c = some (p, t) ∧
      t.execute (ensureReady fuel) (w.setRunning c true) p = .undefined := by
  rw [ensureReady] at hr
  split at hr
  · cases hr
  · split at hr
    · cases hr
    · split at hr
      · cases hr
      · refine ⟨by simp_all, by simp_all, _, _, by assumption, ?_⟩
        split at hr
        · split at hr <;> cases hr
        · cases hr
        · assumption

/-! ### Sequencing: relations carried through argument evaluation

`R` relates the states around a run that returned, `E` those around a run that
threw. -/

theorem ArgWrap.get_rel {R E : World → World → Prop} (hs : Seq R E)
    (force : World → Nat → Res Unit) (a : ArgWrap) (w : World)
    (hf : ∀ c, a.depCell = some c → Respects R E force w c) :
    (∀ h w', a.get force w = .ok h w' → R w w') ∧
      (∀ e w', a.get force w = .throw e w' → E w w') := by
  cases a with
  | plain v =>
    constructor
    · intro h w' hr
      simp only [ArgWrap.get, Res.ok.injEq] at hr
      rw [← hr.2]; exact hs.refl w
    · intro e w' hr
      simp [ArgWrap.get] at hr
  | future U c =>
    constructor
    · intro h w' hr
      exact (hf c rfl).1 _ _ (Future.get_eq_ok hr).1
    · intro e w' hr
      rcases Future.get_eq_throw hr with h1 | ⟨h1, _⟩
      · exact (hf c rfl).2 _ _ h1
      · exact hs.weaken ((hf c rfl).1 _ _ h1)

theorem evalArgs_rel {R E : World → World → Prop} (hs : Seq R E)
    (force : World → Nat → Res Unit) :
    ∀ (args : List ArgWrap) (w : World),
      (∀ c, c ∈ args.filterMap ArgWrap.depCell → ∀ w1, R w w1 → Respects R E force w1 c) →
      (∀ vs w', evalArgs force w args = .ok vs w' → R w w') ∧
        (∀ e w', evalArgs force w args = .throw e w' → E w w') := by
  intro args
  induction args with
  | nil =>
    intro w _
    constructor
    · intro vs w' hr
      simp only [evalArgs, Res.ok.injEq] at hr
      rw [← hr.2]; exact hs.refl w
    · intro e w' hr
      simp [evalArgs] at hr
  | cons a rest ih =>
    intro w hf
    have ha := ArgWrap.get_rel hs force a w
      (fun c hc => hf c (by simp [List.filterMap_cons, hc]) w (hs.refl w))
    have hrest : ∀ w1, R w w1 → (∀ vs w', evalArgs force w1 rest = .ok vs w' → R w1 w') ∧
        (∀ e w', evalArgs force w1 rest = .throw e w' → E w1 w') := by
      intro w1 h1
      apply ih
      intro c hc w2 h2
      apply hf c _ w2 (hs.trans h1 h2)
      cases hd : a.depCell <;> simp [List.filterMap_cons, hd, hc]
    constructor
    · intro vs w' hr
      obtain ⟨h, hs', w1, e1, e2, _⟩ := evalArgs_cons_ok hr
      have r1 := ha.1 _ _ e1
      exact hs.trans r1 ((hrest w1 r1).1 _ _ e2)
    · intro e w' hr
      rcases evalArgs_cons_throw hr with e1 | ⟨h, w1, e1, e2⟩
      · exact ha.2 _ _ e1
      · have r1 := ha.1 _ _ e1
        exact hs.absorb r1 ((hrest w1 r1).2 _ _ e2)

theorem callArgs_rel {R E : World → World → Prop} (hs : Seq R E)
    (force : World → Nat → Res Unit) (args : List ArgWrap) (w : World)
    (hf : ∀ c, c ∈ args.filterMap ArgWrap.depCell → ∀ w1, R w w1 → Respects R E force w1 c) :
    (∀ vs w', callArgs force w args = .ok vs w' → R w w') ∧
      (∀ e w', callArgs force w args = .throw e w' → E w w') := by
  have h1 := evalArgs_rel hs force args w hf
  have h2 := evalArgs_rel hs force args.reverse w
    (fun c hc => hf c (by rw [List.filterMap_reverse] at hc; exact List.mem_reverse.mp hc))
  constructor
  · intro vs w' hr
    rcases callArgs_ok hr with ⟨_, e⟩ | ⟨_, e⟩
    · exact h1.1 _ _ e
    · exact h2.1 _ _ e
  · intro e w' hr
    rcases callArgs_throw hr with e1 | e1
    · exact h1.2 _ _ e1
    · exact h2.2 _ _ e1

/-! ### What every run guarantees -/

theorem seq_step : Seq StepOk Step :=
  { refl := fun w => ⟨Step.refl w, fun _ => rfl⟩,
    trans := fun h1 h2 => ⟨h1.1.trans h2.1, fun c => (h2.2 c).trans (h1.2 c)⟩,
    absorb := fun h1 h2 => h1.1.trans h2,
    weaken := fun h => h.1 }

/-! ### Field-wise effect of the state updates -/

@[simp] theorem setRunning_tasks (w : World) (c : Nat) (b : Bool) :
    (w.setRunning c b).tasks = w.tasks := rfl

@[simp] theorem setRunning_tasks_ (w : World) (c : Nat) (b : Bool) :
    (w.setRunning c b).tasks_ = w.tasks_ := rfl

@[simp] theorem setRunning_rtl (w : World) (c : Nat) (b : Bool) :
    (w.setRunning c b).rtl = w.rtl := rfl

@[simp] theorem setRunning_calls (w : World) (c : Nat) (b : Bool) :
    (w.setRunning c b).calls = w.calls := rfl

@[simp] theorem setRunning_length (w : World) (c : Nat) (b : Bool) :
    (w.setRunning c b).cells.length = w.cells.length := by
  simp [World.setRunning, World.setCell]

theorem setRunning_cell (w : World) (c x : Nat) (b : Bool) :
    (w.setRunning c b).cell x =
      if c = x ∧ c < w.cells.length then { w.cell c with running := b } else w.cell x := by
  rw [World.setRunning, cell_setCell]

@[simp] theorem setRunning_ready (w : World) (c x : Nat) (b : Bool) :
    ((w.setRunning c b).cell x).ready = (w.cell x).ready := by
  rw [setRunning_cell]; split
  · rename_i h; rw [h.1]
  · rfl

@[simp] theorem setRunning_value (w : World) (c x : Nat) (b : Bool) :
    ((w.setRunning c b).cell x).value = (w.cell x).value := by
  rw [setRunning_cell]; split
  · rename_i h; rw [h.1]
  · rfl

@[simp] theorem setRunning_producer (w : World) (c x : Nat) (b : Bool) :
    ((w.setRunning c b).cell x).producer = (w.cell x).producer := by
  rw [setRunning_cell]; split
  · rename_i h; rw [h.1]
  · rfl

theorem setRunning_running (w : World) (c x : Nat) (b : Bool) :
    ((w.setRunning c b).cell x).running =
      if c = x ∧ c < w.cells.length then b else (w.cell x).running := by
  rw [setRunning_cell]; split <;> rfl

theorem setRunning_cell_ne (w : World) {c x : Nat} (b : Bool) (h : c ≠ x) :
    (w.setRunning c b).cell x = w.cell x := by
  rw [setRunning_cell]; simp [h]

@[simp] theorem setRunning_lock (w : World) (c x : Nat) (b : Bool) :
    (w.setRunning c b).lock x = w.lock x := by
  simp [World.lock]

@[simp] theorem setRunning_taskAt (w : World) (c x : Nat) (b : Bool) :
    (w.setRunning c b).taskAt x = w.taskAt x := rfl

@[simp] theorem logCall_tasks (w : World) (p : Nat) : (w.logCall p).tasks = w.tasks := rfl

@[simp] theorem logCall_tasks_ (w : World) (p : Nat) : (w.logCall p).tasks_ = w.tasks_ := rfl

@[simp] theorem logCall_rtl (w : World) (p : Nat) : (w.logCall p).rtl = w.rtl := rfl

@[simp] theorem logCall_cells (w : World) (p : Nat) : (w.logCall p).cells = w.cells := rfl

@[simp] theorem logCall_cell (w : World) (p x : Nat) : (w.logCall p).cell x = w.cell x := rfl

@[simp] theorem logCall_calls (w : World) (p : Nat) : (w.logCall p).calls = w.calls ++ [p] := rfl

@[simp] theorem logCall_lock (w : World) (p x : Nat) : (w.logCall p).lock x = w.lock x := rfl

@[simp] theorem publish_tasks (w : World) (p o : Nat) (r : Holder) :
    (w.publish p o r).tasks = w.tasks := rfl

@[simp] theorem publish_tasks_ (w : World) (p o : Nat) (r : Holder) :
    (w.publish p o r).tasks_ = w.tasks_ := rfl

@[simp] theorem publish_rtl (w : World) (p o : Nat) (r : Holder) :
    (w.publish p o r).rtl = w.rtl := rfl

@[simp] theorem publish_calls (w : World) (p o : Nat) (r : Holder) :
    (w.publish p o r).calls = w.calls ++ [p] := rfl

@[simp] theorem publish_length (w : World) (p o : Nat) (r : Holder) :
    (w.publish p o r).cells.length = w.cells.length := by
  simp [World.publish, World.setCell]

theorem publish_cell (w : World) (p o x : Nat) (r : Holder) :
    (w.publish p o r).cell x =
      if o = x ∧ o < w.cells.length then
        { w.cell o with value := { ptr := some r }, ready := true }
      else w.cell x := by
  rw [World.publish, cell_setCell]; rfl

theorem publish_cell_ne (w : World) (p : Nat) {o x : Nat} (r : Holder) (h : o ≠ x) :
    (w.publish p o r).cell x = w.cell x := by
  rw [publish_cell]; simp [h]

theorem publish_cell_self (w : World) (p : Nat) {o : Nat} (r : Holder) (h : o < w.cells.length) :
    (w.publish p o r).cell o = { w.cell o with value := { ptr := some r }, ready := true } := by
  rw [publish_cell]; simp [h]

@[simp] theorem publish_running (w : World) (p o x : Nat) (r : Holder) :
    ((w.publish p o r).cell x).running = (w.cell x).running := by
  rw [publish_cell]; split
  · rename_i h; rw [h.1]
  · rfl

@[simp] theorem publish_producer (w : World) (p o x : Nat) (r : Holder) :
    ((w.publish p o r).cell x).producer = (w.cell x).producer := by
  rw [publish_cell]; split
  · rename_i h; rw [h.1]
  · rfl

@[simp] theorem publish_lock (w : World) (p o x : Nat) (r : Holder) :
    (w.publish p o r).lock x = w.lock x := by
  simp [World.lock]

theorem Step.publish {w w1 : World} (h1 : Step w w1) (p : Nat) {o : Nat} (r : Holder)
    (h : (w.cell o).ready = false) : Step w (w1.publish p o r) := by
  refine { tasks := h1.tasks, tasks_ := h1.tasks_, rtl := h1.rtl, len := by simp [h1.len],
           producer := by simp [h1.producer],
           frozen := ?_, calls := h1.calls.trans (by simp),
           running_mono := by simpa using h1.running_mono }
  intro x hx
  rw [publish_cell_ne, h1.frozen x hx]
  rintro rfl
  rw [h] at hx; cases hx

theorem Step.logCall (w : World) (p : Nat) : Step w (w.logCall p) :=
  { tasks := rfl, tasks_ := rfl, rtl := rfl, len := rfl, producer := fun _ => rfl,
    frozen := fun _ _ => rfl, calls := by simp, running_mono := fun _ h => h }

theorem ForceSpec.respects {force : World → Nat → Res Unit} (hf : ForceSpec force)
    (w : World) (c : Nat) : Respects StepOk Step force w c :=
  ⟨fun _ _ h => (hf.ok h).1, fun _ _ h => hf.throw h⟩

theorem Task.execute_step {force : World → Nat → Res Unit} (hf : ForceSpec force)
    (w : World) (p : Nat) (t : Task) :
    (∀ w', t.execute force w p = .ok () w' →
        StepOk w w' ∧ ((w.cell t.out).ready = true ∨ t.out < w.cells.length →
          (w'.cell t.out).ready = true)) ∧
      (∀ e w', t.execute force w p = .throw e w' → Step w w') := by
  have hc := callArgs_rel seq_step force t.args w (fun c _ w1 _ => hf.respects w1 c)
  constructor
  · intro w' hr
    rcases Task.execute_ok hr with ⟨hrd, rfl⟩ | ⟨hnr, hs, w1, r, e1, _, rfl⟩
    · refine ⟨seq_step.refl _, fun h => ?_⟩
      exact hrd
    · have h1 := hc.1 _ _ e1
      refine ⟨⟨h1.1.publish p r hnr, fun c => by simp [h1.2 c]⟩, fun h => ?_⟩
      rcases h with h | h
      · rw [hnr] at h; cases h
      · rw [publish_cell_self _ _ _ (by rw [h1.1.len]; exact h)]
  · intro e w' hr
    obtain ⟨_, e1 | ⟨hs, w1, e1, _, _, rfl⟩⟩ := Task.execute_throw hr
    · exact hc.2 _ _ e1
    · exact (hc.1 _ _ e1).1.trans (Step.logCall w1 p)

theorem ensureReady_spec : ∀ fuel, ForceSpec (ensureReady fuel) := by
  intro fuel
  induction fuel with
  | zero =>
    constructor
    · intro w c u w' h; cases h
    · intro w c e w' h; cases h
  | succ fuel ih =>
    constructor
    · intro w c u w' hr
      rcases ensureReady_ok hr with ⟨hrd, rfl⟩ | ⟨hnr, hnrun, p, t, w2, hl, he, rfl, hrd⟩
      · exact ⟨seq_step.refl _, hrd⟩
      · refine ⟨?_, hrd⟩
        have h2 := ((Task.execute_step ih (w.setRunning c true) p t).1 _ he).1
        have hlt := lt_of_lock w hl
        constructor
        · refine { tasks := by simp [h2.1.tasks], tasks_ := by simp [h2.1.tasks_],
                   rtl := by simp [h2.1.rtl], len := by simp [h2.1.len],
                   producer := by simp [h2.1.producer], frozen := ?_,
                   calls := by simpa using h2.1.calls, running_mono := ?_ }
          · intro x hx
            have hne : c ≠ x := by rintro rfl; rw [hnr] at hx; cases hx
            rw [setRunning_cell_ne _ _ hne, h2.1.frozen x (by simpa using hx),
              setRunning_cell_ne _ _ hne]
          · intro x hx
            have hne : c ≠ x := by rintro rfl; rw [hnrun] at hx; cases hx
            rw [setRunning_cell_ne _ _ hne]
            apply h2.1.running_mono
            rw [setRunning_cell_ne _ _ hne]; exact hx
        · intro x
          by_cases hne : c = x
          · subst hne
            rw [setRunning_running, hnrun]
            simp [h2.1.len, hlt]
          · rw [setRunning_cell_ne _ _ hne, h2.2 x, setRunning_cell_ne _ _ hne]
    · intro w c e w' hr
      obtain ⟨hnr, h⟩ := ensureReady_throw hr
      rcases h with ⟨_, _, rfl⟩ | ⟨_, _, _, _, rfl⟩ | ⟨hnrun, p, t, hl, h⟩
      · exact Step.refl _
      · exact Step.refl _
      · have hs1 : Step w (w.setRunning c true) := by
          refine { tasks := rfl, tasks_ := rfl, rtl := rfl, len := by simp,
                   producer := by simp, frozen := ?_, calls := by simp, running_mono := ?_ }
          · intro x hx
            apply setRunning_cell_ne
            rintro rfl; rw [hnr] at hx; cases hx
          · intro x hx
            rw [setRunning_running]; split
            · rfl
            · exact hx
        rcases h with he | ⟨w2, he, rfl, _, _⟩
        · exact hs1.trans ((Task.execute_step ih _ p t).2 _ _ he)
        · have h2 := ((Task.execute_step ih (w.setRunning c true) p t).1 _ he).1
          refine { tasks := by simp [h2.1.tasks], tasks_ := by simp [h2.1.tasks_],
                   rtl := by simp [h2.1.rtl], len := by simp [h2.1.len],
                   producer := by simp [h2.1.producer], frozen := ?_,
                   calls := by simpa using h2.1.calls, running_mono := ?_ }
          · intro x hx
            have hne : c ≠ x := by rintro rfl; rw [hnr] at hx; cases hx
            rw [setRunning_cell_ne _ _ hne, h2.1.frozen x (by simpa using hx),
              setRunning_cell_ne _ _ hne]
          · intro x hx
            have hne : c ≠ x := by rintro rfl; rw [hnrun] at hx; cases hx
            rw [setRunning_cell_ne _ _ hne]
            apply h2.1.running_mono
            rw [setRunning_cell_ne _ _ hne]; exact hx

/-! ## The tie-break scenario -/

/-- With the two constants registered first (constant 10, constant 5, then the
doubling task) the pass returns the order `[0, 1, 2]`: the order lists
registration indices. -/
theorem scenario_order :
    (executeTopologicallyDetailed true scenario).val? =
      some { ok := true, order := [0, 1, 2], stuck := [] } := by
  decide

/-- C8: in the tie-break scenario (task 0 the constant 10, task 1 doubling the
future of task 0, task 2 the unrelated constant 5) the bulk pass, with the flag
set either way, returns `ok = true`, an empty `stuck` list and the order
`[0, 2, 1]`: the two tasks of in-degree zero run first, in index order, and the
doubling task after them.  The callables are invoked in that order, and after
the pass `getResult<int>` of task 1 is 20 and of task 2 is 5. -/
theorem tie_break_order (rtl pre : Bool) :
    executeTopologicallyDetailed pre (tieBreak rtl) =
      .ok { ok := true, order := [0, 2, 1], stuck := [] } (tieBreakRun rtl pre) ∧
    (tieBreakRun rtl pre).calls = [0, 2, 1] ∧
    getResult (tieBreakRun rtl pre) .int 1 =
      .ok { ty := .int, value := 20 } (tieBreakRun rtl pre) ∧
    getResult (tieBreakRun rtl pre) .int 2 =
      .ok { ty := .int, value := 5 } (tieBreakRun rtl pre) := by
  cases rtl <;> cases pre <;> exact ⟨rfl, rfl, rfl, rfl⟩

/-! ## Fuel: forcing nests at most once per cell -/

theorem idle_le (w : World) : w.idle ≤ w.cells.length := by
  unfold World.idle
  calc _ ≤ (Finset.range w.cells.length).card := Finset.card_filter_le _ _
    _ = _ := Finset.card_range _

theorem idle_lt_fuel (w : World) : w.idle < w.fuel := by
  have := idle_le w
  unfold World.fuel; omega

theorem idle_congr {w w' : World} (h : StepOk w w') : w'.idle = w.idle := by
  unfold World.idle
  rw [h.1.len]
  congr 1
  apply Finset.filter_congr
  intro x _
  rw [h.2 x]

theorem idle_setRunning {w : World} {c : Nat} (hlt : c < w.cells.length)
    (hr : (w.cell c).running = false) : (w.setRunning c true).idle + 1 = w.idle := by
  unfold World.idle
  have hmem : c ∈ (Finset.range w.cells.length).filter (fun c => (w.cell c).running = false) := by
    simp [hlt, hr]
  have : (Finset.range (w.setRunning c true).cells.length).filter
      (fun x => ((w.setRunning c true).cell x).running = false) =
      ((Finset.range w.cells.length).filter (fun c => (w.cell c).running = false)).erase c := by
    ext x
    simp only [setRunning_length, Finset.mem_filter, Finset.mem_range, Finset.mem_erase,
      setRunning_running]
    by_cases hx : c = x
    · subst hx; simp [hlt]
    · simp [hx, Ne.symm hx]
  rw [this, Finset.card_erase_of_mem hmem]
  have : 0 < ((Finset.range w.cells.length).filter (fun c => (w.cell c).running = false)).card :=
    Finset.card_pos.mpr ⟨c, hmem⟩
  omega

theorem ArgWrap.get_defined (force : World → Nat → Res Unit) (a : ArgWrap) (w : World)
    (hd : ∀ c, a.depCell = some c → force w c ≠ .undefined) :
    a.get force w ≠ .undefined := by
  cases a with
  | plain v => simp [ArgWrap.get]
  | future U c =>
    intro h
    exact hd c rfl (Future.get_eq_undefined h)

theorem evalArgs_defined {R E : World → World → Prop} (hs : Seq R E)
    (force : World → Nat → Res Unit) :
    ∀ (args : List ArgWrap) (w : World),
      (∀ c, c ∈ args.filterMap ArgWrap.depCell → ∀ w1, R w w1 →
        Respects R E force w1 c ∧ force w1 c ≠ .undefined) →
      evalArgs force w args ≠ .undefined := by
  intro args
  induction args with
  | nil => intro w _; simp [evalArgs]
  | cons a rest ih =>
    intro w hf h
    rcases evalArgs_cons_undefined h with h1 | ⟨v, w1, h1, h2⟩
    · exact ArgWrap.get_defined force a w
        (fun c hc => (hf c (by simp [List.filterMap_cons, hc]) w (hs.refl w)).2) h1
    · have r1 := (ArgWrap.get_rel hs force a w
        (fun c hc => (hf c (by simp [List.filterMap_cons, hc]) w (hs.refl w)).1)).1 _ _ h1
      refine ih w1 ?_ h2
      intro c hc w2 h2
      apply hf c _ w2 (hs.trans r1 h2)
      cases hd : a.depCell <;> simp [List.filterMap_cons, hd, hc]

theorem callArgs_defined {R E : World → World → Prop} (hs : Seq R E)
    (force : World → Nat → Res Unit) (args : List ArgWrap) (w : World)
    (hf : ∀ c, c ∈ args.filterMap ArgWrap.depCell → ∀ w1, R w w1 →
        Respects R E force w1 c ∧ force w1 c ≠ .undefined) :
    callArgs force w args ≠ .undefined := by
  intro h
  rcases callArgs_undefined h with h1 | h1
  · exact evalArgs_defined hs force args w hf h1
  · exact evalArgs_defined hs force args.reverse w
      (fun c hc => hf c (by rw [List.filterMap_reverse] at hc; exact List.mem_reverse.mp hc)) h1

/-- Forcing with fuel above the number of idle cells never exhausts the fuel. -/
theorem ensureReady_defined : ∀ (fuel : Nat) (w : World) (c : Nat),
    w.idle < fuel → ensureReady fuel w c ≠ .undefined := by
  intro fuel
  induction fuel with
  | zero => intro w c h; omega
  | succ fuel ih =>
    intro w c hlt h
    obtain ⟨_, hnrun, p, t, hl, he⟩ := ensureReady_undefined h
    have hidle := idle_setRunning (lt_of_lock w hl) hnrun
    refine callArgs_defined seq_step (ensureReady fuel) t.args (w.setRunning c true) ?_
      (Task.execute_undefined he).2
    intro d _ w1 h1
    refine ⟨(ensureReady_spec fuel).respects w1 d, ih w1 d ?_⟩
    rw [idle_congr h1]; omega

/-- Executing a task directly, as the bulk pass does, never exhausts the fuel. -/
theorem runTask_defined (w : World) (p : Nat) (t : Task) : runTask w p t ≠ .undefined := by
  unfold runTask
  split
  · simp
  · intro h
    refine callArgs_defined seq_step (ensureReady w.fuel) t.args w ?_ (Task.execute_undefined h).2
    intro d _ w1 h1
    refine ⟨(ensureReady_spec _).respects w1 d, ensureReady_defined _ w1 d ?_⟩
    rw [idle_congr h1]; exact idle_lt_fuel w

theorem getResult_defined (w : World) (T : Ty) (id : Nat) : getResult w T id ≠ .undefined := by
  intro h
  exact ensureReady_defined _ w id (idle_lt_fuel w) (Future.get_eq_undefined h)

/-! ## The graph that the pass builds -/

theorem indexLoop_not_mem (ps : List Nat) (i : Nat) (m : Nat → Option Nat) (q : Nat)
    (h : q ∉ ps) : indexLoop ps i m q = m q := by
  induction ps generalizing i m with
  | nil => rfl
  | cons p ps ih =>
    simp only [List.mem_cons, not_or] at h
    rw [indexLoop, ih _ _ h.2]
    simp [h.1]

theorem indexLoop_getElem (ps : List Nat) (i : Nat) (m : Nat → Option Nat) (q k : Nat)
    (hn : ps.Nodup) (h : ps[k]? = some q) : indexLoop ps i m q = some (i + k) := by
  induction ps generalizing i m k with
  | nil => simp at h
  | cons p ps ih =>
    rw [List.nodup_cons] at hn
    cases k with
    | zero =>
      simp only [List.getElem?_cons_zero, Option.some.injEq] at h
      subst h
      rw [indexLoop, indexLoop_not_mem _ _ _ _ hn.1]
      simp
    | succ k =>
      simp only [List.getElem?_cons_succ] at h
      rw [indexLoop, ih _ _ _ hn.2 h]
      congr 1; omega

theorem indexByPtr_eq_some {w : World} (hn : w.tasks_.Nodup) (p u : Nat) :
    indexByPtr w p = some u ↔ w.tasks_[u]? = some p := by
  unfold indexByPtr
  constructor
  · intro h
    by_cases hm : p ∈ w.tasks_
    · obtain ⟨k, hk⟩ := List.getElem?_of_mem hm
      rw [indexLoop_getElem _ _ _ _ _ hn hk] at h
      simp only [zero_add, Option.some.injEq] at h
      rw [← h]; exact hk
    · rw [indexLoop_not_mem _ _ _ _ hm] at h
      cases h
  · intro h
    rw [indexLoop_getElem _ _ _ _ _ hn h]
    simp

theorem lt_of_indexByPtr {w : World} (hn : w.tasks_.Nodup) {p u : Nat}
    (h : indexByPtr w p = some u) : u < w.tasks_.length := by
  rw [indexByPtr_eq_some hn] at h
  by_contra hc
  rw [List.getElem?_eq_none (by omega)] at h
  cases h

theorem edgeStep_eq (w : World) (v c : Nat) (seen : List Nat) (g : Graph) :
    edgeStep (indexByPtr w) w v c seen g =
      match prodIdx w c with
      | none => (seen, g)
      | some u => edgeAdd v (seen, g) u := by
  unfold edgeStep prodIdx edgeAdd
  cases hl : w.lock c with
  | none => rfl
  | some pt =>
    obtain ⟨p, t⟩ := pt
    cases hi : indexByPtr w p <;> simp [hi]

theorem isExternal_iff (w : World) (c : Nat) :
    isExternal (indexByPtr w) w c = true ↔ prodIdx w c = none := by
  unfold isExternal prodIdx
  cases hl : w.lock c with
  | none => simp
  | some pt =>
    obtain ⟨p, t⟩ := pt
    simp only [Option.some_bind]
    cases hi : indexByPtr w p <;> simp

theorem Step.indexByPtr {w w' : World} (h : Step w w') : indexByPtr w' = indexByPtr w := by
  unfold TaskScheduler.indexByPtr
  rw [h.tasks_]

theorem Step.prodIdx {w w' : World} (h : Step w w') (c : Nat) : prodIdx w' c = prodIdx w c := by
  unfold TaskScheduler.prodIdx
  rw [h.lock, h.indexByPtr]

theorem Step.predsOf {w w' : World} (h : Step w w') (v : Nat) : predsOf w' v = predsOf w v := by
  unfold TaskScheduler.predsOf
  rw [h.taskAt]
  cases w.taskAt v with
  | none => rfl
  | some pt =>
    simp only
    congr 1
    funext c
    exact h.prodIdx c

theorem forceIfNotReady_spec (w : World) (c : Nat) :
    (∀ u w', forceIfNotReady w c = .ok u w' → StepOk w w' ∧ (w'.cell c).ready = true) ∧
    (∀ e w', forceIfNotReady w c = .throw e w' → Step w w') ∧
    forceIfNotReady w c ≠ .undefined := by
  unfold forceIfNotReady
  split
  · refine ⟨?_, ?_, by simp⟩
    · intro u w' h
      simp only [Res.ok.injEq] at h
      obtain ⟨_, rfl⟩ := h
      exact ⟨seq_step.refl _, by assumption⟩
    · intro e w' h; cases h
  · exact ⟨fun u w' h => (ensureReady_spec _).ok h, fun e w' h => (ensureReady_spec _).throw h,
      ensureReady_defined _ _ _ (idle_lt_fuel w)⟩

/-- The inner loop computes the fold of `edgeAdd` over the registered producers
of the cells, whatever the flag; forcing only changes the state. -/
theorem buildDeps_spec (pre : Bool) (w0 : World) (v : Nat) :
    ∀ (cs : List Nat) (seen : List Nat) (g : Graph) (w : World), Step w0 w →
      (∀ sg w', buildDeps pre (indexByPtr w0) v cs seen g w = .ok sg w' →
        sg = (cs.filterMap (prodIdx w0)).foldl (edgeAdd v) (seen, g) ∧ Step w0 w') ∧
      (∀ e w', buildDeps pre (indexByPtr w0) v cs seen g w = .throw e w' → Step w0 w') ∧
      buildDeps pre (indexByPtr w0) v cs seen g w ≠ .undefined := by
  intro cs
  induction cs with
  | nil =>
    intro seen g w hw
    refine ⟨?_, ?_, by simp [buildDeps]⟩
    · intro sg w' h
      simp only [buildDeps, Res.ok.injEq] at h
      obtain ⟨rfl, rfl⟩ := h
      exact ⟨rfl, hw⟩
    · intro e w' h; simp [buildDeps] at h
  | cons c cs ih =>
    intro seen g w hw
    have hidx : indexByPtr w0 = indexByPtr w := hw.indexByPtr.symm
    rw [buildDeps]
    by_cases hx : (pre && isExternal (indexByPtr w0) w c) = true
    · rw [if_pos hx]
      simp only [Bool.and_eq_true] at hx
      have hnone : prodIdx w0 c = none := by
        rw [← hw.prodIdx, ← isExternal_iff, ← hidx]; exact hx.2
      obtain ⟨fok, fthrow, fdef⟩ := forceIfNotReady_spec w c
      cases hf : forceIfNotReady w c with
      | ok u w1 =>
        simp only
        have := ih seen g w1 (hw.trans (fok u w1 hf).1.1)
        simpa [List.filterMap_cons, hnone] using this
      | throw e w1 =>
        refine ⟨(by intro sg w' h; cases h), ?_, by simp⟩
        intro e' w' h
        simp only [Res.throw.injEq] at h
        obtain ⟨_, rfl⟩ := h
        exact hw.trans (fthrow e w1 hf)
      | undefined => exact absurd hf fdef
    · rw [if_neg hx]
      have he : edgeStep (indexByPtr w0) w v c seen g =
          match prodIdx w0 c with
          | none => (seen, g)
          | some u => edgeAdd v (seen, g) u := by
        rw [← hw.prodIdx, ← edgeStep_eq, hidx]
      have := ih (edgeStep (indexByPtr w0) w v c seen g).1
        (edgeStep (indexByPtr w0) w v c seen g).2 w hw
      rw [he] at this ⊢
      cases hp : prodIdx w0 c with
      | none => simpa [List.filterMap_cons, hp] using this
      | some u => simpa [List.filterMap_cons, hp] using this

theorem getD_set {α : Type} (l : List α) (i j : Nat) (a d : α) :
    (l.set i a).getD j d = if i = j ∧ i < l.length then a else l.getD j d := by
  simp only [List.getD_eq_getElem?_getD, List.getElem?_set]
  by_cases h : i = j
  · subst h
    by_cases h2 : i < l.length
    · simp [h2]
    · have h3 : l[i]? = none := List.getElem?_eq_none (by omega)
      simp [h2, h3]
  · simp [h]

theorem predsOf_eq {w : World} {v p : Nat} {t : Task} (h : w.taskAt v = some (p, t)) :
    predsOf w v = t.deps.filterMap (prodIdx w) := by
  unfold predsOf; rw [h]

theorem lt_of_mem_predsOf {w : World} (hn : w.tasks_.Nodup) {u v : Nat}
    (h : u ∈ predsOf w v) : u < w.tasks_.length := by
  unfold predsOf at h
  cases ht : w.taskAt v with
  | none => rw [ht] at h; simp at h
  | some pt =>
    rw [ht] at h
    simp only [List.mem_filterMap] at h
    obtain ⟨c, _, hc⟩ := h
    unfold prodIdx at hc
    cases hl : w.lock c with
    | none => rw [hl] at hc; cases hc
    | some qt =>
      rw [hl] at hc
      exact lt_of_indexByPtr hn hc

theorem buildGraph_spec (pre : Bool) (w0 : World) :
    ∀ (vs : List Nat) (g : Graph) (w : World), Step w0 w →
      (∀ v ∈ vs, w0.taskAt v ≠ none) →
      (∀ g' w', buildGraph pre (indexByPtr w0) vs g w = .ok g' w' →
        g' = vs.foldl (graphStep w0) g ∧ Step w0 w') ∧
      (∀ e w', buildGraph pre (indexByPtr w0) vs g w = .throw e w' → Step w0 w') ∧
      buildGraph pre (indexByPtr w0) vs g w ≠ .undefined := by
  intro vs
  induction vs with
  | nil =>
    intro g w hw _
    refine ⟨?_, ?_, by simp [buildGraph]⟩
    · intro g' w' h
      simp only [buildGraph, Res.ok.injEq] at h
      obtain ⟨rfl, rfl⟩ := h
      exact ⟨rfl, hw⟩
    · intro e w' h; simp [buildGraph] at h
  | cons v vs ih =>
    intro g w hw hv
    rw [buildGraph, hw.taskAt]
    cases ht : w0.taskAt v with
    | none => exact absurd ht (hv v (List.mem_cons_self _ _))
    | some pt =>
      obtain ⟨p, t⟩ := pt
      simp only
      obtain ⟨dok, dthrow, ddef⟩ := buildDeps_spec pre w0 v t.deps [] g w hw
      cases hd : buildDeps pre (indexByPtr w0) v t.deps [] g w with
      | ok sg w1 =>
        simp only
        obtain ⟨hsg, hw1⟩ := dok sg w1 hd
        have := ih sg.2 w1 hw1 (fun x hx => hv x (List.mem_cons_of_mem _ hx))
        have hg : sg.2 = graphStep w0 g v := by
          rw [hsg, graphStep, predsOf_eq ht]
        rw [hg] at this
        rw [hg, List.foldl_cons]
        exact this
      | throw e w1 =>
        refine ⟨(by intro g' w' h; cases h), ?_, by simp⟩
        intro e' w' h
        simp only [Res.throw.injEq] at h
        obtain ⟨_, rfl⟩ := h
        exact dthrow e w1 hd
      | undefined => exact absurd hd ddef

theorem addEdge_adj (g : Graph) (u v x : Nat) :
    (g.addEdge u v).adj.getD x [] =
      if u = x ∧ u < g.adj.length then g.adj.getD u [] ++ [v] else g.adj.getD x [] := by
  unfold Graph.addEdge
  rw [getD_set]

theorem addEdge_indeg (g : Graph) (u v x : Nat) :
    (g.addEdge u v).indeg.getD x 0 =
      if v = x ∧ v < g.indeg.length then g.indeg.getD v 0 + 1 else g.indeg.getD x 0 := by
  unfold Graph.addEdge
  rw [getD_set]

theorem edgeAdd_fold (v : Nat) :
    ∀ (us seen : List Nat) (g : Graph), (∀ u ∈ us, u < g.adj.length) → v < g.indeg.length →
      ((us.foldl (edgeAdd v) (seen, g)).2.adj.length = g.adj.length ∧
       (us.foldl (edgeAdd v) (seen, g)).2.indeg.length = g.indeg.length) ∧
      (∀ x, (us.foldl (edgeAdd v) (seen, g)).2.adj.getD x [] =
        g.adj.getD x [] ++ (if x ∈ us ∧ x ∉ seen then [v] else [])) ∧
      (∀ x, (us.foldl (edgeAdd v) (seen, g)).2.indeg.getD x 0 =
        if v = x then g.indeg.getD x 0 + (us.toFinset \ seen.toFinset).card
        else g.indeg.getD x 0) := by
  intro us
  induction us with
  | nil =>
    intro seen g _ _
    simp
  | cons u us ih =>
    intro seen g hu hv
    rw [List.foldl_cons]
    have hus : ∀ x ∈ us, x < g.adj.length := fun x hx => hu x (List.mem_cons_of_mem _ hx)
    by_cases hs : u ∈ seen
    · have he : edgeAdd v (seen, g) u = (seen, g) := by simp [edgeAdd, hs]
      rw [he]
      obtain ⟨h1, h2, h3⟩ := ih seen g hus hv
      refine ⟨h1, ?_, ?_⟩
      · intro x
        rw [h2 x]
        congr 1
        by_cases hxu : x = u
        · subst hxu; simp [hs]
        · simp [hxu]
      · intro x
        rw [h3 x]
        have : (u :: us).toFinset \ seen.toFinset = us.toFinset \ seen.toFinset := by
          ext y
          simp only [List.toFinset_cons, Finset.mem_sdiff, Finset.mem_insert, List.mem_toFinset]
          constructor
          · rintro ⟨h | h, h'⟩
            · subst h; exact absurd hs h'
            · exact ⟨h, h'⟩
          · rintro ⟨h, h'⟩; exact ⟨Or.inr h, h'⟩
        rw [this]
    · have he : edgeAdd v (seen, g) u = (u :: seen, g.addEdge u v) := by simp [edgeAdd, hs]
      rw [he]
      have hul : u < g.adj.length := hu u (List.mem_cons_self _ _)
      have hlen1 : (g.addEdge u v).adj.length = g.adj.length := by simp [Graph.addEdge]
      have hlen2 : (g.addEdge u v).indeg.length = g.indeg.length := by simp [Graph.addEdge]
      obtain ⟨h1, h2, h3⟩ := ih (u :: seen) (g.addEdge u v) (by rw [hlen1]; exact hus)
        (by rw [hlen2]; exact hv)
      refine ⟨⟨h1.1.trans hlen1, h1.2.trans hlen2⟩, ?_, ?_⟩
      · intro x
        rw [h2 x, addEdge_adj]
        by_cases hxu : u = x
        · subst hxu
          simp [hul, hs]
        · have hxu' : ¬ x = u := fun h => hxu h.symm
          simp [hxu, hxu']
      · intro x
        rw [h3 x, addEdge_indeg]
        by_cases hvx : v = x
        · subst hvx
          simp only [true_and, hv, if_true]
          have : (u :: us).toFinset \ seen.toFinset =
              insert u (us.toFinset \ (u :: seen).toFinset) := by
            ext y
            simp only [List.toFinset_cons, Finset.mem_sdiff, Finset.mem_insert, List.mem_toFinset]
            constructor
            · rintro ⟨h | h, h'⟩
              · exact Or.inl h
              · by_cases hyu : y = u
                · exact Or.inl hyu
                · exact Or.inr ⟨h, by simp [hyu, h']⟩
            · rintro (h | ⟨h, h'⟩)
              · subst h; exact ⟨Or.inl rfl, hs⟩
              · exact ⟨Or.inr h, fun h'' => h' (Or.inr h'')⟩
          rw [this, Finset.card_insert_of_not_mem]
          · omega
          · simp
        · simp [hvx]

theorem graphFold_spec (w : World) (hn : w.tasks_.Nodup) :
    ∀ k, k ≤ w.tasks_.length →
      (((List.range k).foldl (graphStep w)
          { adj := List.replicate w.tasks_.length [],
            indeg := List.replicate w.tasks_.length 0 }).adj.length = w.tasks_.length ∧
       ((List.range k).foldl (graphStep w)
          { adj := List.replicate w.tasks_.length [],
            indeg := List.replicate w.tasks_.length 0 }).indeg.length = w.tasks_.length) ∧
      (∀ x, ((List.range k).foldl (graphStep w)
          { adj := List.replicate w.tasks_.length [],
            indeg := List.replicate w.tasks_.length 0 }).adj.getD x [] =
        (List.range k).filter (fun v => decide (x ∈ predsOf w v))) ∧
      (∀ x, ((List.range k).foldl (graphStep w)
          { adj := List.replicate w.tasks_.length [],
            indeg := List.replicate w.tasks_.length 0 }).indeg.getD x 0 =
        if x < k then (predsOf w x).toFinset.card else 0) := by
  intro k
  induction k with
  | zero =>
    intro _
    refine ⟨⟨by simp, by simp⟩, ?_, ?_⟩
    · intro x
      simp only [List.range_zero, List.foldl_nil, List.filter_nil]
      rw [List.getD_eq_getElem?_getD]
      by_cases hx : x < w.tasks_.length
      · simp [List.getElem?_replicate, hx]
      · simp [List.getElem?_replicate, hx]
    · intro x
      simp only [List.range_zero, List.foldl_nil, Nat.not_lt_zero, if_false]
      rw [List.getD_eq_getElem?_getD]
      by_cases hx : x < w.tasks_.length
      · simp [List.getElem?_replicate, hx]
      · simp [List.getElem?_replicate, hx]
  | succ k ih =>
    intro hk
    obtain ⟨⟨l1, l2⟩, a, d⟩ := ih (by omega)
    rw [List.range_succ, List.foldl_append, List.foldl_cons, List.foldl_nil]
    generalize hg : (List.range k).foldl (graphStep w)
      { adj := List.replicate w.tasks_.length [],
        indeg := List.replicate w.tasks_.length 0 } = g at l1 l2 a d
    obtain ⟨⟨e1, e2⟩, ea, ed⟩ := edgeAdd_fold k (predsOf w k) [] g
      (fun u hu => by rw [l1]; exact lt_of_mem_predsOf hn hu) (by rw [l2]; omega)
    unfold graphStep
    refine ⟨⟨e1.trans l1, e2.trans l2⟩, ?_, ?_⟩
    · intro x
      rw [ea x, a x, List.filter_append]
      congr 1
      by_cases hx : x ∈ predsOf w k
      · simp [hx]
      · simp [hx]
    · intro x
      rw [ed x, d x]
      by_cases hx : k = x
      · subst hx
        simp
      · simp only [hx, if_false]
        by_cases h1 : x < k
        · simp [h1, Nat.lt_succ_of_lt h1]
        · have : ¬ x < k + 1 := by omega
          simp [h1, this]

theorem graphOf_spec (w : World) (hn : w.tasks_.Nodup) : GraphSpec w (graphOf w) := by
  obtain ⟨⟨l1, l2⟩, a, d⟩ := graphFold_spec w hn w.tasks_.length (le_refl _)
  exact { adj_len := l1, indeg_len := l2, adj := fun u _ => a u,
          indeg := fun v hv => by rw [graphOf, d v, if_pos hv] }

/-! ## The Kahn loop -/

theorem relax_spec :
    ∀ (vs indeg q : List Nat), vs.Nodup → (∀ v ∈ vs, v < indeg.length) →
      (relax vs indeg q).1.length = indeg.length ∧
      (∀ x, (relax vs indeg q).1.getD x 0 =
        if x ∈ vs then indeg.getD x 0 - 1 else indeg.getD x 0) ∧
      (relax vs indeg q).2 = q ++ vs.filter (fun v => decide (indeg.getD v 0 = 1)) := by
  intro vs
  induction vs with
  | nil => intro indeg q _ _; simp [relax]
  | cons v vs ih =>
    intro indeg q hnd hlt
    rw [List.nodup_cons] at hnd
    have hv : v < indeg.length := hlt v (List.mem_cons_self _ _)
    have hvs : ∀ x ∈ vs, x < indeg.length := fun x hx => hlt x (List.mem_cons_of_mem _ hx)
    rw [relax]
    by_cases hpos : indeg.getD v 0 > 0
    · rw [if_pos hpos]
      simp only
      have hset : ∀ x, (indeg.set v (indeg.getD v 0 - 1)).getD x 0 =
          if v = x then indeg.getD v 0 - 1 else indeg.getD x 0 := by
        intro x
        rw [getD_set]
        by_cases hx : v = x
        · subst hx; rw [if_pos ⟨rfl, hv⟩, if_pos rfl]
        · rw [if_neg (fun h => hx h.1), if_neg hx]
      have hlen : (indeg.set v (indeg.getD v 0 - 1)).length = indeg.length := by simp
      have hfilter : vs.filter (fun x => decide ((indeg.set v (indeg.getD v 0 - 1)).getD x 0 = 1)) =
          vs.filter (fun x => decide (indeg.getD x 0 = 1)) := by
        apply List.filter_congr
        intro x hx
        rw [hset x]
        have : v ≠ x := by rintro rfl; exact hnd.1 hx
        simp [this]
      have hget : ∀ x, (if x ∈ vs then (indeg.set v (indeg.getD v 0 - 1)).getD x 0 - 1
            else (indeg.set v (indeg.getD v 0 - 1)).getD x 0) =
          if x ∈ v :: vs then indeg.getD x 0 - 1 else indeg.getD x 0 := by
        intro x
        rw [hset x]
        by_cases hx : v = x
        · subst hx; simp [-List.getD_eq_getElem?_getD, hnd.1]
        · have hx' : ¬ x = v := fun h => hx h.symm
          simp [-List.getD_eq_getElem?_getD, hx, hx']
      by_cases hz : (indeg.set v (indeg.getD v 0 - 1)).getD v 0 = 0
      · rw [if_pos hz]
        obtain ⟨h1, h2, h3⟩ := ih (indeg.set v (indeg.getD v 0 - 1)) (q ++ [v]) hnd.2
          (by rw [hlen]; exact hvs)
        refine ⟨h1.trans hlen, fun x => (h2 x).trans (hget x), ?_⟩
        rw [h3, hfilter]
        have h1' : indeg.getD v 0 = 1 := by
          rw [hset v, if_pos rfl] at hz; omega
        simp [-List.getD_eq_getElem?_getD, List.filter_cons, h1']
      · rw [if_neg hz]
        obtain ⟨h1, h2, h3⟩ := ih (indeg.set v (indeg.getD v 0 - 1)) q hnd.2
          (by rw [hlen]; exact hvs)
        refine ⟨h1.trans hlen, fun x => (h2 x).trans (hget x), ?_⟩
        rw [h3, hfilter]
        have h1' : ¬ indeg.getD v 0 = 1 := by
          rw [hset v, if_pos rfl] at hz; omega
        simp [-List.getD_eq_getElem?_getD, List.filter_cons, h1']
    · rw [if_neg hpos]
      obtain ⟨h1, h2, h3⟩ := ih indeg q hnd.2 hvs
      have h0 : indeg.getD v 0 = 0 := by omega
      refine ⟨h1, ?_, ?_⟩
      · intro x
        rw [h2 x]
        by_cases hx : x = v
        · subst hx; simp [-List.getD_eq_getElem?_getD, hnd.1, h0]
        · simp [-List.getD_eq_getElem?_getD, hx]
      · rw [h3]
        simp [-List.getD_eq_getElem?_getD, List.filter_cons, h0]

theorem length_le_of_nodup_bound {l : List Nat} {n : Nat} (hnd : l.Nodup) (hb : ∀ x ∈ l, x < n) :
    l.length ≤ n := by
  have h1 : l.toFinset ⊆ Finset.range n := by
    intro x hx
    rw [List.mem_toFinset] at hx
    exact Finset.mem_range.mpr (hb x hx)
  have h2 := Finset.card_le_card h1
  rw [List.toFinset_card_of_nodup hnd, Finset.card_range] at h2
  exact h2

theorem mem_adj_iff {w : World} {g : Graph} (hg : GraphSpec w g) {u v : Nat}
    (hu : u < w.tasks_.length) : v ∈ g.adj.getD u [] ↔ v < w.tasks_.length ∧ u ∈ predsOf w v := by
  rw [hg.adj u hu]
  simp

theorem adj_nodup {w : World} {g : Graph} (hg : GraphSpec w g) {u : Nat}
    (hu : u < w.tasks_.length) : (g.adj.getD u []).Nodup := by
  rw [hg.adj u hu]
  exact (List.nodup_range _).filter _

theorem seedQueue_mem (indeg : List Nat) (v : Nat) :
    v ∈ seedQueue indeg ↔ v < indeg.length ∧ indeg.getD v 0 = 0 := by
  unfold seedQueue
  simp [-List.getD_eq_getElem?_getD]

theorem kinv_init (w : World) (hn : w.tasks_.Nodup) :
    KInv w (seedQueue (graphOf w).indeg) (graphOf w).indeg [] := by
  have hg := graphOf_spec w hn
  refine { len := hg.indeg_len, nodup := ?_, bound := ?_, count := ?_, zero := ?_, topo := ?_,
           seeds := ⟨[], by simp, by simp⟩ }
  · simp only [List.nil_append]
    exact (List.nodup_range _).filter _
  · intro x hx
    simp only [List.nil_append, seedQueue_mem] at hx
    rw [← hg.indeg_len]; exact hx.1
  · intro v hv
    rw [hg.indeg v hv]
    congr 1
    simp
  · intro v hv
    simp only [List.nil_append, seedQueue_mem, hg.indeg_len, hv, true_and]
  · intro j v hj
    simp at hj

theorem kinv_step {w : World} (hn : w.tasks_.Nodup) {q indeg order : List Nat} {u : Nat}
    (h : KInv w (u :: q) indeg order) :
    KInv w (relax ((graphOf w).adj.getD u []) indeg q).2
      (relax ((graphOf w).adj.getD u []) indeg q).1 (order ++ [u]) := by
  have hg := graphOf_spec w hn
  have hu : u < w.tasks_.length := h.bound u (by simp)
  have hvs_nodup := adj_nodup hg hu
  have hvs_mem : ∀ v, v ∈ (graphOf w).adj.getD u [] ↔ v < w.tasks_.length ∧ u ∈ predsOf w v :=
    fun v => mem_adj_iff hg hu
  obtain ⟨r1, r2, r3⟩ := relax_spec ((graphOf w).adj.getD u []) indeg q hvs_nodup
    (fun v hv => by rw [h.len]; exact ((hvs_mem v).1 hv).1)
  have hnd := h.nodup
  have hu_notin : u ∉ order := by
    intro hm
    have := List.disjoint_of_nodup_append hnd hm
    exact this (List.mem_cons_self _ _)
  have hcnt : ∀ v, v < w.tasks_.length →
      ((predsOf w v).toFinset.filter (fun x => x ∉ order ++ [u])).card =
        if v ∈ (graphOf w).adj.getD u [] then indeg.getD v 0 - 1 else indeg.getD v 0 := by
    intro v hv
    rw [h.count v hv]
    by_cases hvm : v ∈ (graphOf w).adj.getD u []
    · rw [if_pos hvm]
      have hup : u ∈ (predsOf w v).toFinset.filter (fun x => x ∉ order) := by
        simp [((hvs_mem v).1 hvm).2, hu_notin]
      rw [← Finset.card_erase_of_mem hup]
      congr 1
      ext x
      simp only [Finset.mem_filter, List.mem_toFinset, List.mem_append, List.mem_singleton,
        not_or, Finset.mem_erase]
      tauto
    · rw [if_neg hvm]
      congr 1
      apply Finset.filter_congr
      intro x hx
      rw [List.mem_toFinset] at hx
      have : x ≠ u := by
        rintro rfl
        exact hvm ((hvs_mem v).2 ⟨hv, hx⟩)
      simp [this]
  have hpos : ∀ v, v ∈ (graphOf w).adj.getD u [] → 0 < indeg.getD v 0 := by
    intro v hvm
    have hv := ((hvs_mem v).1 hvm).1
    rw [h.count v hv]
    apply Finset.card_pos.mpr
    exact ⟨u, by simp [((hvs_mem v).1 hvm).2, hu_notin]⟩
  have hold : order ++ [u] ++ q = order ++ u :: q := by simp
  refine { len := r1.trans h.len, nodup := ?_, bound := ?_, count := ?_, zero := ?_, topo := ?_,
           seeds := ?_ }
  · rw [r3, ← List.append_assoc, hold]
    rw [List.nodup_append]
    refine ⟨hnd, hvs_nodup.filter _, ?_⟩
    intro x hx1 hx2
    simp only [List.mem_filter, decide_eq_true_eq] at hx2
    have hxlt := ((hvs_mem x).1 hx2.1).1
    have := (h.zero x hxlt).1 hx1
    omega
  · intro x hx
    rw [r3, ← List.append_assoc, hold, List.mem_append] at hx
    rcases hx with hx | hx
    · exact h.bound x hx
    · simp only [List.mem_filter] at hx
      exact ((hvs_mem x).1 hx.1).1
  · intro v hv
    rw [r2 v, hcnt v hv]
  · intro v hv
    rw [r3, ← List.append_assoc, hold, List.mem_append, r2 v, h.zero v hv]
    simp only [List.mem_filter, decide_eq_true_eq]
    by_cases hvm : v ∈ (graphOf w).adj.getD u []
    · have := hpos v hvm
      rw [if_pos hvm]
      constructor
      · rintro (h0 | ⟨_, h1⟩) <;> omega
      · intro h0; right; exact ⟨hvm, by omega⟩
    · rw [if_neg hvm]
      constructor
      · rintro (h0 | ⟨h1, _⟩)
        · exact h0
        · exact absurd h1 hvm
      · intro h0; left; exact h0
  · intro j v hj x hx
    by_cases hjl : j < order.length
    · rw [List.getElem?_append_left hjl] at hj
      obtain ⟨i, hi, hio⟩ := h.topo j v hj x hx
      exact ⟨i, hi, by rw [List.getElem?_append_left (by omega)]; exact hio⟩
    · have hjeq : j = order.length := by
        by_contra hne
        have : (order ++ [u])[j]? = none := List.getElem?_eq_none (by simp; omega)
        rw [this] at hj; cases hj
      subst hjeq
      have hvu : v = u := by
        simp at hj
        exact hj.symm
      subst hvu
      have hz : indeg.getD v 0 = 0 := (h.zero v hu).1 (by simp)
      rw [h.count v hu, Finset.card_eq_zero] at hz
      have hxo : x ∈ order := by
        by_contra hxo
        have : x ∈ (predsOf w v).toFinset.filter (fun u => u ∉ order) := by
          simp [hx, hxo]
        rw [hz] at this
        simp at this
      obtain ⟨i, hi⟩ := List.getElem?_of_mem hxo
      have hil : i < order.length := by
        by_contra hc
        rw [List.getElem?_eq_none (by omega)] at hi
        cases hi
      exact ⟨i, hil, by rw [List.getElem?_append_left hil]; exact hi⟩
  · obtain ⟨extra, he, hex⟩ := h.seeds
    refine ⟨extra ++ ((graphOf w).adj.getD u []).filter (fun v => decide (indeg.getD v 0 = 1)),
      ?_, ?_⟩
    · rw [r3, ← List.append_assoc, hold, he, List.append_assoc]
    · intro v hv
      rw [List.mem_append] at hv
      rcases hv with hv | hv
      · exact hex v hv
      · simp only [List.mem_filter] at hv
        have := ((hvs_mem v).1 hv.1).2
        intro hnil
        rw [hnil] at this
        simp at this

theorem WF.taskAt_ne_none {w : World} (h : WF w) {v : Nat} (hv : v < w.tasks_.length) :
    w.taskAt v ≠ none := by
  unfold World.taskAt
  rw [List.getElem?_eq_getElem hv]
  simp only
  have := h.registered _ (List.getElem_mem hv)
  rw [List.getElem?_eq_getElem this]
  simp

theorem runTask_spec (w : World) (p : Nat) (t : Task) :
    (∀ u w', runTask w p t = .ok u w' → StepOk w w' ∧
      (t.out < w.cells.length → (w'.cell t.out).ready = true)) ∧
    (∀ e w', runTask w p t = .throw e w' → Step w w') := by
  unfold runTask
  split
  · rename_i hr
    refine ⟨?_, ?_⟩
    · intro u w' h
      simp only [Res.ok.injEq] at h
      obtain ⟨_, rfl⟩ := h
      exact ⟨seq_step.refl _, fun _ => hr⟩
    · intro e w' h; cases h
  · have := Task.execute_step (ensureReady_spec w.fuel) w p t
    refine ⟨?_, this.2⟩
    intro u w' h
    obtain ⟨h1, h2⟩ := this.1 w' h
    exact ⟨h1, fun hlt => h2 (Or.inr hlt)⟩

theorem kahnLoop_spec (w0 : World) (hn : w0.tasks_.Nodup)
    (hreg : ∀ v, v < w0.tasks_.length → w0.taskAt v ≠ none) :
    ∀ (fuel : Nat) (q indeg order : List Nat) (w : World),
      KInv w0 q indeg order → Step w0 w → w0.tasks_.length < fuel + order.length →
      (∀ oi w', kahnLoop fuel (graphOf w0).adj q indeg order w = .ok oi w' →
        KInv w0 [] oi.2 oi.1 ∧ Step w0 w') ∧
      (∀ e w', kahnLoop fuel (graphOf w0).adj q indeg order w = .throw e w' → Step w0 w') ∧
      kahnLoop fuel (graphOf w0).adj q indeg order w ≠ .undefined := by
  intro fuel
  induction fuel with
  | zero =>
    intro q indeg order w hk _ hf
    have := length_le_of_nodup_bound hk.nodup hk.bound
    simp only [List.length_append] at this
    omega
  | succ fuel ih =>
    intro q indeg order w hk hw hf
    cases q with
    | nil =>
      rw [kahnLoop]
      refine ⟨?_, (by intro e w' h; cases h), by simp⟩
      intro oi w' h
      simp only [Res.ok.injEq] at h
      obtain ⟨rfl, rfl⟩ := h
      exact ⟨hk, hw⟩
    | cons u q =>
      have hu : u < w0.tasks_.length := hk.bound u (by simp)
      rw [kahnLoop, hw.taskAt]
      cases ht : w0.taskAt u with
      | none => exact absurd ht (hreg u hu)
      | some pt =>
        obtain ⟨p, t⟩ := pt
        simp only
        have hlen := length_le_of_nodup_bound hk.nodup hk.bound
        simp only [List.length_append, List.length_cons] at hlen
        cases hr : runTask w p t with
        | ok x w1 =>
          simp only
          exact ih _ _ _ w1 (kinv_step hn hk)
            (hw.trans ((runTask_spec w p t).1 x w1 hr).1.1)
            (by simp only [List.length_append, List.length_singleton]; omega)
        | throw e w1 =>
          refine ⟨(by intro oi w' h; cases h), ?_, by simp⟩
          intro e' w' h
          simp only [Res.throw.injEq] at h
          obtain ⟨_, rfl⟩ := h
          exact hw.trans ((runTask_spec w p t).2 e w1 hr)
        | undefined => exact absurd hr (runTask_defined w p t)

/-- The bulk pass always terminates; when it returns, its result is the one
of the Kahn loop on the graph of the initial state. -/
theorem executeTopologicallyDetailed_spec (pre : Bool) (w : World) (hwf : WF w) :
    (∀ r w', executeTopologicallyDetailed pre w = .ok r w' → TopoSpec w r ∧ Step w w') ∧
    (∀ e w', executeTopologicallyDetailed pre w = .throw e w' → Step w w') ∧
    executeTopologicallyDetailed pre w ≠ .undefined := by
  have hreg : ∀ v, v < w.tasks_.length → w.taskAt v ≠ none := fun v hv => hwf.taskAt_ne_none hv
  obtain ⟨gok, gthrow, gdef⟩ := buildGraph_spec pre w (List.range w.tasks_.length)
    { adj := List.replicate w.tasks_.length [], indeg := List.replicate w.tasks_.length 0 } w
    (Step.refl w) (fun v hv => hreg v (List.mem_range.mp hv))
  unfold executeTopologicallyDetailed
  simp only
  cases hb : buildGraph pre (indexByPtr w) (List.range w.tasks_.length)
    { adj := List.replicate w.tasks_.length [], indeg := List.replicate w.tasks_.length 0 } w with
  | ok g w1 =>
    simp only
    obtain ⟨hg, hw1⟩ := gok g w1 hb
    have hg' : g = graphOf w := hg
    subst hg'
    obtain ⟨kok, kthrow, kdef⟩ := kahnLoop_spec w hwf.nodup hreg (w.tasks_.length + 1)
      (seedQueue (graphOf w).indeg) (graphOf w).indeg [] w1 (kinv_init w hwf.nodup) hw1
      (by simp)
    cases hk : kahnLoop (w.tasks_.length + 1) (graphOf w).adj (seedQueue (graphOf w).indeg)
      (graphOf w).indeg [] w1 with
    | ok oi w2 =>
      simp only
      obtain ⟨hinv, hw2⟩ := kok oi w2 hk
      refine ⟨?_, (by intro e w' h; split at h <;> cases h), by split <;> simp⟩
      intro r w' h
      split at h
      · rename_i hne
        simp only [Res.ok.injEq] at h
        obtain ⟨rfl, rfl⟩ := h
        exact ⟨{ inv := ⟨oi.2, hinv, by simp [hne]⟩, ok := by simp [hne] }, hw2⟩
      · rename_i hne
        simp only [ne_eq, not_not] at hne
        simp only [Res.ok.injEq] at h
        obtain ⟨rfl, rfl⟩ := h
        exact ⟨{ inv := ⟨oi.2, hinv, by simp [hne]⟩, ok := by simp [hne] }, hw2⟩
    | throw e w2 =>
      refine ⟨(by intro r w' h; cases h), ?_, by simp⟩
      intro e' w' h
      simp only [Res.throw.injEq] at h
      obtain ⟨_, rfl⟩ := h
      exact kthrow e w2 hk
    | undefined => exact absurd hk kdef
  | throw e w1 =>
    refine ⟨(by intro r w' h; cases h), ?_, by simp⟩
    intro e' w' h
    simp only [Res.throw.injEq] at h
    obtain ⟨_, rfl⟩ := h
    exact gthrow e w1 hb
  | undefined => exact absurd hb gdef

/-! ## Edges of the specification, acyclic graphs -/

theorem taskAt_eq_some {w : World} {v p : Nat} {t : Task} :
    w.taskAt v = some (p, t) ↔ w.tasks_[v]? = some p ∧ w.tasks[p]? = some t := by
  unfold World.taskAt
  cases h1 : w.tasks_[v]? with
  | none => simp
  | some q =>
    simp only [Option.map_eq_some', Prod.mk.injEq, Option.some.injEq]
    constructor
    · rintro ⟨t', h2, rfl, rfl⟩
      exact ⟨rfl, h2⟩
    · rintro ⟨rfl, h2⟩
      exact ⟨t, h2, rfl, rfl⟩

theorem lock_eq_some {w : World} {c p : Nat} {t : Task} :
    w.lock c = some (p, t) ↔ (w.cell c).producer = some p ∧ w.tasks[p]? = some t := by
  unfold World.lock
  cases h1 : (w.cell c).producer with
  | none => simp
  | some q =>
    simp only [Option.map_eq_some', Prod.mk.injEq, Option.some.injEq]
    constructor
    · rintro ⟨t', h2, rfl, rfl⟩
      exact ⟨rfl, h2⟩
    · rintro ⟨rfl, h2⟩
      exact ⟨t, h2, rfl, rfl⟩

theorem lt_of_taskAt {w : World} {v : Nat} {pt : Nat × Task} (h : w.taskAt v = some pt) :
    v < w.tasks_.length := by
  obtain ⟨p, t⟩ := pt
  have := (taskAt_eq_some.mp h).1
  by_contra hc
  rw [List.getElem?_eq_none (by omega)] at this
  cases this

theorem mem_predsOf_iff {w : World} {u v : Nat} :
    u ∈ predsOf w v ↔ ∃ pv tv c, w.taskAt v = some (pv, tv) ∧ c ∈ tv.deps ∧ prodIdx w c = some u := by
  unfold predsOf
  cases ht : w.taskAt v with
  | none => simp
  | some pt =>
    obtain ⟨p, t⟩ := pt
    simp only [List.mem_filterMap, Option.some.injEq, Prod.mk.injEq]
    constructor
    · rintro ⟨c, h1, h2⟩
      exact ⟨p, t, c, ⟨rfl, rfl⟩, h1, h2⟩
    · rintro ⟨_, _, c, ⟨rfl, rfl⟩, h1, h2⟩
      exact ⟨c, h1, h2⟩

theorem prodIdx_eq_some {w : World} (hn : w.tasks_.Nodup) {c u : Nat} :
    prodIdx w c = some u ↔ ∃ p t, w.lock c = some (p, t) ∧ w.tasks_[u]? = some p := by
  unfold prodIdx
  cases hl : w.lock c with
  | none => simp
  | some pt =>
    obtain ⟨p, t⟩ := pt
    simp only [Option.some_bind, indexByPtr_eq_some hn, Option.some.injEq, Prod.mk.injEq]
    constructor
    · intro h; exact ⟨p, t, ⟨rfl, rfl⟩, h⟩
    · rintro ⟨_, _, ⟨rfl, rfl⟩, h⟩; exact h

/-- On a well-formed state the edges of the built graph are the edges of the
specification. -/
theorem gedge_iff_edge {w : World} (hwf : WF w) (u v : Nat) : GEdge w u v ↔ Edge w u v := by
  unfold GEdge Edge
  rw [mem_predsOf_iff]
  constructor
  · rintro ⟨_, pv, tv, c, htv, hc, hp⟩
    obtain ⟨p, t, hl, hu⟩ := (prodIdx_eq_some hwf.nodup).mp hp
    obtain ⟨hprod, htask⟩ := lock_eq_some.mp hl
    obtain ⟨t', ht', hout⟩ := hwf.owner c p hprod
    rw [htask] at ht'
    cases ht'
    exact ⟨p, t, pv, tv, taskAt_eq_some.mpr ⟨hu, htask⟩, htv, by rw [hout]; exact hc⟩
  · rintro ⟨pu, tu, pv, tv, htu, htv, hc⟩
    obtain ⟨hu, htask⟩ := taskAt_eq_some.mp htu
    refine ⟨lt_of_taskAt htv, pv, tv, tu.out, htv, hc, ?_⟩
    exact (prodIdx_eq_some hwf.nodup).mpr
      ⟨pu, tu, lock_eq_some.mpr ⟨hwf.bound pu tu htask, htask⟩, hu⟩

theorem transGen_gedge_iff {w : World} (hwf : WF w) (u v : Nat) :
    TransGen (GEdge w) u v ↔ TransGen (Edge w) u v := by
  constructor
  · intro h; exact h.mono (fun a b hab => (gedge_iff_edge hwf a b).mp hab)
  · intro h; exact h.mono (fun a b hab => (gedge_iff_edge hwf a b).mpr hab)

/-- At the end of the Kahn loop on a graph without cycle every task is in the order. -/
theorem all_ordered {w : World} (hn : w.tasks_.Nodup) (hac : ∀ v, ¬ TransGen (GEdge w) v v)
    {indeg order : List Nat} (hk : KInv w [] indeg order) :
    ∀ v, v < w.tasks_.length → v ∈ order := by
  intro v hv
  by_contra hvo
  let r : Fin w.tasks_.length → Fin w.tasks_.length → Prop := fun a b => GEdge w a.1 b.1
  have hirr : IsIrrefl (Fin w.tasks_.length) (TransGen r) :=
    ⟨fun a h => hac a.1 (TransGen.lift Fin.val (fun _ _ h => h) h)⟩
  have hwf : WellFounded (TransGen r) := Finite.wellFounded_of_trans_of_irrefl _
  obtain ⟨m, hm, hmin⟩ := hwf.has_min {x : Fin w.tasks_.length | x.1 ∉ order} ⟨⟨v, hv⟩, hvo⟩
  have hz : indeg.getD m.1 0 ≠ 0 := by
    intro h0
    have := (hk.zero m.1 m.2).2 h0
    simp only [List.append_nil] at this
    exact hm this
  rw [hk.count m.1 m.2] at hz
  obtain ⟨u, hu⟩ := Finset.card_pos.mp (Nat.pos_of_ne_zero hz)
  simp only [Finset.mem_filter, List.mem_toFinset] at hu
  have hult := lt_of_mem_predsOf hn hu.1
  exact hmin ⟨u, hult⟩ hu.2 (TransGen.single ⟨m.2, hu.1⟩)

theorem perm_range_of_all {order : List Nat} {n : Nat} (hnd : order.Nodup)
    (hb : ∀ x ∈ order, x < n) (hall : ∀ v, v < n → v ∈ order) : order.Perm (List.range n) := by
  apply (List.perm_ext_iff_of_nodup hnd (List.nodup_range n)).mpr
  intro a
  rw [List.mem_range]
  exact ⟨hb a, hall a⟩

/-! ## Registration keeps the invariants; claim C1 -/

theorem add_cell (w : World) (fn : List Holder → Option Holder) (args : List ArgWrap) (c : Nat) :
    (add w fn args).2.cell c =
      if c < w.cells.length then w.cell c
      else if c = w.cells.length then { producer := some w.tasks.length } else {} := by
  unfold add World.cell
  simp only [List.getD_eq_getElem?_getD]
  by_cases h1 : c < w.cells.length
  · rw [if_pos h1, List.getElem?_append_left h1]
  · rw [if_neg h1]
    by_cases h2 : c = w.cells.length
    · subst h2
      simp
    · rw [if_neg h2, List.getElem?_eq_none (by simp; omega)]
      rfl

theorem add_tasks (w : World) (fn : List Holder → Option Holder) (args : List ArgWrap) (p : Nat) :
    (add w fn args).2.tasks[p]? =
      if p < w.tasks.length then w.tasks[p]?
      else if p = w.tasks.length then
        some { fn := fn, args := args, out := w.cells.length } else none := by
  unfold add
  simp only
  by_cases h1 : p < w.tasks.length
  · rw [if_pos h1, List.getElem?_append_left h1]
  · rw [if_neg h1]
    by_cases h2 : p = w.tasks.length
    · subst h2
      simp
    · rw [if_neg h2, List.getElem?_eq_none (by simp; omega)]

theorem empty_wf (rtl : Bool) : WF (World.empty rtl) :=
  { nodup := List.nodup_nil,
    registered := fun p hp => by simp [World.empty] at hp,
    bound := fun p t h => by simp [World.empty] at h,
    owner := fun c p h => by simp [World.empty, World.cell] at h }

/-- Registration keeps the state well formed. -/
theorem add_wf {w : World} (hwf : WF w) (fn : List Holder → Option Holder)
    (args : List ArgWrap) : WF (add w fn args).2 := by
  refine { nodup := ?_, registered := ?_, bound := ?_, owner := ?_ }
  · show (w.tasks_ ++ [w.tasks.length]).Nodup
    rw [List.nodup_append]
    refine ⟨hwf.nodup, List.nodup_singleton _, ?_⟩
    intro x hx hx'
    rw [List.mem_singleton] at hx'
    have := hwf.registered x hx
    omega
  · intro p hp
    have hp' : p ∈ w.tasks_ ++ [w.tasks.length] := hp
    have hl : (add w fn args).2.tasks.length = w.tasks.length + 1 := by simp [add]
    rw [hl]
    rw [List.mem_append, List.mem_singleton] at hp'
    rcases hp' with h | h
    · have := hwf.registered p h; omega
    · omega
  · intro p t ht
    rw [add_tasks] at ht
    rw [add_cell]
    by_cases h1 : p < w.tasks.length
    · rw [if_pos h1] at ht
      have hb := hwf.bound p t ht
      rw [if_pos (lt_of_producer w hb)]
      exact hb
    · rw [if_neg h1] at ht
      by_cases h2 : p = w.tasks.length
      · rw [if_pos h2] at ht
        simp only [Option.some.injEq] at ht
        subst ht
        simp [h2]
      · rw [if_neg h2] at ht; cases ht
  · intro c p hc
    rw [add_cell] at hc
    rw [add_tasks]
    by_cases h1 : c < w.cells.length
    · rw [if_pos h1] at hc
      obtain ⟨t, ht, hout⟩ := hwf.owner c p hc
      have hp : p < w.tasks.length := by
        by_contra hne
        rw [List.getElem?_eq_none (by omega)] at ht
        cases ht
      exact ⟨t, by rw [if_pos hp]; exact ht, hout⟩
    · rw [if_neg h1] at hc
      by_cases h2 : c = w.cells.length
      · rw [if_pos h2] at hc
        simp only [Option.some.injEq] at hc
        subst hc
        exact ⟨{ fn := fn, args := args, out := w.cells.length }, by simp, h2.symm⟩
      · rw [if_neg h2] at hc
        cases hc

theorem transGen_lt_of_preds_lt {w : World} (h : ∀ v, v < w.tasks_.length → ∀ u ∈ predsOf w v, u < v)
    {a b : Nat} (hab : TransGen (GEdge w) a b) : a < b := by
  induction hab with
  | single h1 => exact h _ h1.1 _ h1.2
  | tail _ h1 ih => exact lt_trans ih (h _ h1.1 _ h1.2)

/-- A graph in which every registered producer of a task's dependencies was
registered before the task has no cycle. -/
theorem acyclic_of_preds_lt {w : World} (hwf : WF w)
    (h : ∀ v, v < w.tasks_.length → ∀ u ∈ predsOf w v, u < v) : Acyclic w := by
  intro v hv
  have := transGen_lt_of_preds_lt h ((transGen_gedge_iff hwf v v).mpr hv)
  omega

theorem scenario_wf : WF scenario :=
  add_wf (add_wf (add_wf (empty_wf false) _ _) _ _) _ _

theorem scenario_acyclic : Acyclic scenario :=
  acyclic_of_preds_lt scenario_wf (by decide)

theorem mistyped_wf : WF mistyped :=
  add_wf (add_wf (empty_wf false) _ _) _ _

/-- C1, as stated, fails: the graph of `mistyped` is acyclic, and the pass
does not return `ok = true`: the `std::bad_cast` raised when the second task reads
its argument leaves `executeTopologicallyDetailed`. -/
theorem mistyped_pass_throws :
    WF mistyped ∧ Acyclic mistyped ∧
      (executeTopologicallyDetailed true mistyped).exn? = some .bad_cast ∧
      (executeTopologically mistyped).exn? = some .bad_cast :=
  ⟨mistyped_wf, acyclic_of_preds_lt mistyped_wf (by decide), by decide, by decide⟩

/-- C1, amended: on a well-formed state whose dependency graph is acyclic, the
bulk pass terminates, and unless an exception leaves it (a failing callable, a
mismatched future type, an unproducible external cell) it returns `ok = true`,
an empty `stuck` list and an order that is a permutation of `0..n-1`;
`executeTopologically` then returns `true`. -/
theorem acyclic_pass_ok (w : World) (hwf : WF w) (hac : Acyclic w) :
    (∀ pre, (executeTopologicallyDetailed pre w).exn? = none →
      ∃ order w', executeTopologicallyDetailed pre w =
          .ok { ok := true, order := order, stuck := [] } w' ∧
        order.Perm (List.range w.size)) ∧
    ((executeTopologically w).exn? = none → ∃ w', executeTopologically w = .ok true w') := by
  have key : ∀ pre, (executeTopologicallyDetailed pre w).exn? = none →
      ∃ order w', executeTopologicallyDetailed pre w =
          .ok { ok := true, order := order, stuck := [] } w' ∧
        order.Perm (List.range w.size) := by
    intro pre hno
    obtain ⟨hok, _, hdef⟩ := executeTopologicallyDetailed_spec pre w hwf
    cases hr : executeTopologicallyDetailed pre w with
    | ok r w' =>
      obtain ⟨⟨⟨indeg, hk, hstuck⟩, hrok⟩, _⟩ := hok r w' hr
      have hnd : r.order.Nodup := by simpa using hk.nodup
      have hb : ∀ x ∈ r.order, x < w.tasks_.length := fun x hx => hk.bound x (by simpa using hx)
      have hall := all_ordered hwf.nodup
        (fun v hv => hac v ((transGen_gedge_iff hwf v v).mp hv)) hk
      have hperm := perm_range_of_all hnd hb hall
      have hlen : r.order.length = w.tasks_.length := by
        rw [hperm.length_eq, List.length_range]
      refine ⟨r.order, w', ?_, hperm⟩
      congr 1
      cases r with
      | mk ok order stuck =>
        simp only [hlen, if_true, decide_True] at hstuck hrok
        simp only at hlen
        rw [hstuck, hrok]
    | throw e w' => rw [hr] at hno; simp [Res.exn?] at hno
    | undefined => exact absurd hr hdef
  refine ⟨key, ?_⟩
  intro hno
  unfold executeTopologically at hno ⊢
  cases hr : executeTopologicallyDetailed true w with
  | ok r w' =>
    obtain ⟨order, w'', h1, _⟩ := key true (by rw [hr]; rfl)
    rw [hr] at h1
    simp only [Res.ok.injEq] at h1
    exact ⟨w', by simp [h1.1]⟩
  | throw e w' => rw [hr] at hno; simp [Res.exn?] at hno
  | undefined => exact absurd hr (executeTopologicallyDetailed_spec true w hwf).2.2

/-- The amended C1 at the scenario of the specification: no exception leaves
the pass, so it returns `ok = true` and a permutation of `[0, 1, 2]`. -/
theorem acyclic_pass_ok_witness :
    (∃ order w', executeTopologicallyDetailed true scenario =
          .ok { ok := true, order := order, stuck := [] } w' ∧
        order.Perm (List.range scenario.size)) ∧
    (∃ w', executeTopologically scenario = .ok true w') :=
  ⟨(acyclic_pass_ok scenario scenario_wf scenario_acyclic).1 true (by decide),
   (acyclic_pass_ok scenario scenario_wf scenario_acyclic).2 (by decide)⟩

/-! ## Claims C2 and C9: the returned order -/

theorem val?_eq_some {α : Type} {r : Res α} {a : α} (h : r.val? = some a) :
    ∃ w', r = .ok a w' := by
  cases r with
  | ok b w' =>
    simp only [Res.val?, Option.some.injEq] at h
    exact ⟨w', by rw [h]⟩
  | throw e w' => simp [Res.val?] at h
  | undefined => simp [Res.val?] at h

/-- C2: in the order that `executeTopologicallyDetailed` returns, with `ok` true
or false, every task stands after each of its registered upstream tasks: for an
edge `u → v` with `v` at position `j`, `u` is at an earlier position `i`.  The pass
executes task `order[j]` in iteration `j`, so it never executes a task before its
registered upstream tasks. -/
theorem order_respects_edges (pre : Bool) (w : World) (hwf : WF w) (r : TopoExec)
    (hr : (executeTopologicallyDetailed pre w).val? = some r) (u v j : Nat)
    (he : Edge w u v) (hj : r.order[j]? = some v) :
    ∃ i, i < j ∧ r.order[i]? = some u := by
  obtain ⟨w', hr'⟩ := val?_eq_some hr
  obtain ⟨⟨⟨indeg, hk, _⟩, _⟩, _⟩ := (executeTopologicallyDetailed_spec pre w hwf).1 r w' hr'
  exact hk.topo j v hj u ((gedge_iff_edge hwf u v).mpr he).2

theorem scenario_edge : Edge scenario 0 2 :=
  ⟨0, { fn := constInt 10, args := [], out := 0 }, 2,
    { fn := doubleInt, args := [getFutureResult .int 0], out := 2 }, rfl, rfl, by decide⟩

/-- C2 at the scenario: task 2 reads the future of task 0 and stands at
position 2 of the returned order, task 0 at an earlier position. -/
theorem order_respects_edges_witness :
    ∃ i, i < 2 ∧ ([0, 1, 2] : List Nat)[i]? = some 0 :=
  order_respects_edges true scenario scenario_wf { ok := true, order := [0, 1, 2], stuck := [] }
    (by decide) 0 2 2 scenario_edge (by decide)

theorem predsOf_eq_nil_iff {w : World} (hwf : WF w) {v : Nat} (hv : v < w.tasks_.length) :
    predsOf w v = [] ↔ ¬ ∃ u, Edge w u v := by
  constructor
  · rintro h ⟨u, hu⟩
    have := ((gedge_iff_edge hwf u v).mpr hu).2
    rw [h] at this
    simp at this
  · intro h
    by_contra hne
    obtain ⟨u, hu⟩ := List.exists_mem_of_ne_nil _ hne
    exact h ⟨u, (gedge_iff_edge hwf u v).mp ⟨hv, hu⟩⟩

theorem seedQueue_graphOf {w : World} (hn : w.tasks_.Nodup) :
    seedQueue (graphOf w).indeg =
      (List.range w.tasks_.length).filter (fun v => decide (predsOf w v = [])) := by
  have hg := graphOf_spec w hn
  unfold seedQueue
  rw [hg.indeg_len]
  apply List.filter_congr
  intro v hv
  rw [List.mem_range] at hv
  rw [hg.indeg v hv]
  by_cases h : predsOf w v = []
  · rw [h]; simp
  · have hc : (predsOf w v).toFinset.card ≠ 0 := by
      rw [Ne, Finset.card_eq_zero, List.toFinset_eq_empty_iff]
      exact h
    rw [decide_eq_false h]
    exact beq_false_of_ne hc

/-- C9: the returned order starts with the tasks that have no registered
upstream dependency, in ascending registration index; every task after them has
such a dependency; and when no task has one the order is `[0, 1, ..., n-1]`. -/
theorem independent_first (pre : Bool) (w : World) (hwf : WF w) (r : TopoExec)
    (hr : (executeTopologicallyDetailed pre w).val? = some r) :
    ∃ front rest, r.order = front ++ rest ∧
      front.Sorted (· < ·) ∧
      (∀ v, v ∈ front ↔ v < w.size ∧ ¬ ∃ u, Edge w u v) ∧
      (∀ v ∈ rest, ∃ u, Edge w u v) ∧
      ((∀ u v, ¬ Edge w u v) → r.order = List.range w.size) := by
  obtain ⟨w', hr'⟩ := val?_eq_some hr
  obtain ⟨⟨⟨indeg, hk, _⟩, _⟩, _⟩ := (executeTopologicallyDetailed_spec pre w hwf).1 r w' hr'
  obtain ⟨extra, he, hex⟩ := hk.seeds
  rw [List.append_nil, seedQueue_graphOf hwf.nodup] at he
  have hfront : ∀ v, v ∈ (List.range w.tasks_.length).filter (fun v => decide (predsOf w v = [])) ↔
      v < w.size ∧ ¬ ∃ u, Edge w u v := by
    intro v
    simp only [List.mem_filter, List.mem_range, decide_eq_true_eq, World.size]
    constructor
    · rintro ⟨h1, h2⟩; exact ⟨h1, (predsOf_eq_nil_iff hwf h1).mp h2⟩
    · rintro ⟨h1, h2⟩; exact ⟨h1, (predsOf_eq_nil_iff hwf h1).mpr h2⟩
  have hb : ∀ x ∈ r.order, x < w.tasks_.length := fun x hx => hk.bound x (by simpa using hx)
  have hrest : ∀ v ∈ extra, ∃ u, Edge w u v := by
    intro v hv
    have hvlt : v < w.tasks_.length := hb v (by rw [he]; exact List.mem_append_right _ hv)
    by_contra hne
    exact hex v hv ((predsOf_eq_nil_iff hwf hvlt).mpr hne)
  refine ⟨_, extra, he, ?_, hfront, hrest, ?_⟩
  · apply List.Pairwise.filter
    exact List.pairwise_lt_range _
  · intro hno
    have hnil : extra = [] := by
      cases extra with
      | nil => rfl
      | cons x xs =>
        obtain ⟨u, hu⟩ := hrest x (List.mem_cons_self _ _)
        exact absurd hu (hno u x)
    rw [he, hnil, List.append_nil]
    apply List.filter_eq_self.mpr
    intro v hv
    rw [List.mem_range] at hv
    simp only [decide_eq_true_eq]
    exact (predsOf_eq_nil_iff hwf hv).mpr (fun ⟨u, hu⟩ => hno u v hu)

/-- C9 at the scenario: the two constants come first. -/
theorem independent_first_witness :
    ∃ front rest, ([0, 1, 2] : List Nat) = front ++ rest ∧
      front.Sorted (· < ·) ∧
      (∀ v, v ∈ front ↔ v < scenario.size ∧ ¬ ∃ u, Edge scenario u v) ∧
      (∀ v ∈ rest, ∃ u, Edge scenario u v) ∧
      ((∀ u v, ¬ Edge scenario u v) → ([0, 1, 2] : List Nat) = List.range scenario.size) :=
  independent_first true scenario scenario_wf { ok := true, order := [0, 1, 2], stuck := [] }
    (by decide)

/-! ## Lazy forcing: what a run of `ensureReady` guarantees -/

theorem calls_eq_append {w w' : World} (h : Step w w') :
    w'.calls = w.calls ++ newCalls w w' := by
  obtain ⟨l, hl⟩ := h.calls
  unfold newCalls
  rw [← hl]
  simp

theorem newCalls_self (w : World) : newCalls w w = [] := by
  unfold newCalls; simp

theorem newCalls_trans {a b c : World} (h1 : Step a b) (h2 : Step b c) :
    newCalls a c = newCalls a b ++ newCalls b c := by
  have e1 := calls_eq_append h1
  have e2 := calls_eq_append h2
  have e3 := calls_eq_append (h1.trans h2)
  rw [e2, e1, List.append_assoc] at e3
  exact (List.append_cancel_left e3).symm

theorem ArgVal.stable {w w' : World} (hf : ∀ c, (w.cell c).ready = true → w'.cell c = w.cell c)
    {a : ArgWrap} {h : Holder} (hv : ArgVal w a h) : ArgVal w' a h := by
  cases a with
  | plain v => exact hv
  | future U c =>
    obtain ⟨h1, h2⟩ := hv
    have := hf c h1
    exact ⟨by rw [this]; exact h1, by rw [this]; exact h2⟩

theorem forall₂_argVal_frozen {w w' : World}
    (hf : ∀ c, (w.cell c).ready = true → w'.cell c = w.cell c)
    {args : List ArgWrap} {vs : List Holder} (hv : List.Forall₂ (ArgVal w) args vs) :
    List.Forall₂ (ArgVal w') args vs :=
  hv.imp (fun _ _ h => h.stable hf)

theorem Computed.frozen {w w' : World} (hf : ∀ c, (w.cell c).ready = true → w'.cell c = w.cell c)
    {t : Task} (hr : (w.cell t.out).ready = true) (hc : Computed w t) : Computed w' t := by
  obtain ⟨vs, r, h1, h2, h3⟩ := hc
  exact ⟨vs, r, forall₂_argVal_frozen hf h1, h2, by rw [hf _ hr]; exact h3⟩

theorem Future.get_argVal {force : World → Nat → Res Unit} (hf : ForceSpec force)
    {w w' : World} {T : Ty} {c : Nat} {h : Holder} (hr : Future.get force w T c = .ok h w') :
    ArgVal w' (.future T c) h := by
  obtain ⟨h1, h2⟩ := Future.get_eq_ok hr
  exact ⟨(hf.ok h1).2, h2⟩

theorem ArgWrap.get_val {force : World → Nat → Res Unit} (hf : ForceSpec force)
    {w w' : World} {a : ArgWrap} {h : Holder} (hr : a.get force w = .ok h w') :
    ArgVal w' a h := by
  cases a with
  | plain v =>
    simp only [ArgWrap.get, Res.ok.injEq] at hr
    exact hr.1.symm
  | future U c => exact Future.get_argVal hf hr

/-- The values that argument evaluation returns are the values of the bindings
in the state it leaves. -/
theorem evalArgs_vals {force : World → Nat → Res Unit} (hf : ForceSpec force) :
    ∀ (args : List ArgWrap) (w w' : World) (vs : List Holder),
      evalArgs force w args = .ok vs w' → List.Forall₂ (ArgVal w') args vs := by
  intro args
  induction args with
  | nil =>
    intro w w' vs hr
    simp only [evalArgs, Res.ok.injEq] at hr
    rw [← hr.1]; exact List.Forall₂.nil
  | cons a rest ih =>
    intro w w' vs hr
    obtain ⟨h, hs, w1, e1, e2, rfl⟩ := evalArgs_cons_ok hr
    have hstep := ((evalArgs_rel seq_step force rest w1
      (fun c _ w2 _ => hf.respects w2 c)).1 _ _ e2).1
    exact List.Forall₂.cons ((ArgWrap.get_val hf e1).stable hstep.frozen) (ih _ _ _ e2)

theorem callArgs_vals {force : World → Nat → Res Unit} (hf : ForceSpec force)
    {args : List ArgWrap} {w w' : World} {vs : List Holder}
    (hr : callArgs force w args = .ok vs w') : List.Forall₂ (ArgVal w') args vs := by
  rcases callArgs_ok hr with ⟨_, e⟩ | ⟨_, e⟩
  · exact evalArgs_vals hf _ _ _ _ e
  · have := evalArgs_vals hf _ _ _ _ e
    have h2 := List.forall₂_reverse_iff.mpr this
    simpa using h2

theorem WF.step {w w' : World} (hwf : WF w) (h : Step w w') : WF w' :=
  { nodup := by rw [h.tasks_]; exact hwf.nodup,
    registered := by rw [h.tasks_, h.tasks]; exact hwf.registered,
    bound := fun p t ht => by
      rw [h.tasks] at ht
      rw [h.producer]; exact hwf.bound p t ht,
    owner := fun c p hc => by
      rw [h.producer] at hc
      rw [h.tasks]; exact hwf.owner c p hc }

theorem WF.out_of_lock {w : World} (hwf : WF w) {c p : Nat} {t : Task}
    (hl : w.lock c = some (p, t)) : t.out = c := by
  obtain ⟨h1, h2⟩ := lock_eq_some.mp hl
  obtain ⟨t', ht', hout⟩ := hwf.owner c p h1
  rw [h2] at ht'
  cases ht'
  exact hout

theorem WF.out_inj {w : World} (hwf : WF w) {p q : Nat} {t s : Task}
    (hp : w.tasks[p]? = some t) (hq : w.tasks[q]? = some s) (h : t.out = s.out) : p = q := by
  have h1 := hwf.bound p t hp
  have h2 := hwf.bound q s hq
  rw [h, h2] at h1
  cases h1; rfl

theorem lz_refl (w : World) : Lz w w :=
  { step := Step.refl w,
    blocked := fun _ _ h => h,
    once := by rw [newCalls_self]; exact List.nodup_nil,
    called := fun p hp => (by rw [newCalls_self] at hp; cases hp),
    made := fun c h1 h2 => by rw [h1] at h2; cases h2 }

theorem lz_trans {a b c : World} (h1 : Lz a b) (h2 : Lz b c) : Lz a c := by
  have hn := newCalls_trans h1.step h2.step
  refine { step := h1.step.trans h2.step, blocked := ?_, once := ?_, called := ?_, made := ?_ }
  · intro d hr hnr
    exact h2.blocked d (h1.step.running_mono d hr) (h1.blocked d hr hnr)
  · rw [hn, List.nodup_append]
    refine ⟨h1.once, h2.once, ?_⟩
    intro x hx1 hx2
    obtain ⟨t, ht, _, _, hor⟩ := h1.called x hx1
    obtain ⟨t', ht', hnr, hnrun, _⟩ := h2.called x hx2
    rw [h1.step.tasks, ht] at ht'
    cases ht'
    rcases hor with h | h
    · rw [h] at hnr; cases hnr
    · rw [h] at hnrun; cases hnrun
  · intro p hp
    rw [hn, List.mem_append] at hp
    rcases hp with hp | hp
    · obtain ⟨t, ht, hnr, hnrun, hor⟩ := h1.called p hp
      refine ⟨t, ht, hnr, hnrun, ?_⟩
      rcases hor with h | h
      · exact Or.inl (h2.step.ready_mono h)
      · exact Or.inr (h2.step.running_mono _ h)
    · obtain ⟨t, ht, hnr, hnrun, hor⟩ := h2.called p hp
      rw [h1.step.tasks] at ht
      refine ⟨t, ht, ?_, ?_, hor⟩
      · cases hra : (a.cell t.out).ready with
        | false => rfl
        | true => rw [h1.step.ready_mono hra] at hnr; cases hnr
      · cases hra : (a.cell t.out).running with
        | false => rfl
        | true => rw [h1.step.running_mono _ hra] at hnrun; cases hnrun
  · intro x hxa hxc
    cases hxb : (b.cell x).ready with
    | true =>
      obtain ⟨p, t, ht, hout, hp, hc⟩ := h1.made x hxa hxb
      refine ⟨p, t, ht, hout, by rw [hn]; exact List.mem_append_left _ hp, ?_⟩
      exact hc.frozen h2.step.frozen (by rw [hout]; exact hxb)
    | false =>
      obtain ⟨p, t, ht, hout, hp, hc⟩ := h2.made x hxb hxc
      rw [h1.step.tasks] at ht
      exact ⟨p, t, ht, hout, by rw [hn]; exact List.mem_append_right _ hp, hc⟩

theorem seq_lazy : Seq LzOk Lz :=
  { refl := fun w => ⟨lz_refl w, fun _ => rfl⟩,
    trans := fun h1 h2 => ⟨lz_trans h1.1 h2.1, fun c => (h2.2 c).trans (h1.2 c)⟩,
    absorb := fun h1 h2 => lz_trans h1.1 h2,
    weaken := fun h => h.1 }

theorem newCalls_setRunning_left (w w' : World) (c : Nat) (b : Bool) :
    newCalls (w.setRunning c b) w' = newCalls w w' := rfl

theorem newCalls_setRunning_right (w w' : World) (c : Nat) (b : Bool) :
    newCalls w (w'.setRunning c b) = newCalls w w' := rfl

theorem newCalls_logCall {w w' : World} (h : Step w w') (p : Nat) :
    newCalls w (w'.logCall p) = newCalls w w' ++ [p] := by
  unfold newCalls
  rw [logCall_calls, calls_eq_append h]
  simp

theorem newCalls_publish {w w' : World} (h : Step w w') (p o : Nat) (r : Holder) :
    newCalls w (w'.publish p o r) = newCalls w w' ++ [p] := by
  unfold newCalls
  rw [publish_calls, calls_eq_append h]
  simp

theorem step_setRunning_true {w : World} {c : Nat} (hnr : (w.cell c).ready = false) :
    Step w (w.setRunning c true) := by
  refine { tasks := rfl, tasks_ := rfl, rtl := rfl, len := by simp,
           producer := by simp, frozen := ?_, calls := by simp, running_mono := ?_ }
  · intro x hx
    apply setRunning_cell_ne
    rintro rfl; rw [hnr] at hx; cases hx
  · intro x hx
    rw [setRunning_running]; split
    · rfl
    · exact hx

theorem step_setRunning_false {w w1 : World} {c : Nat} (h : Step w w1)
    (hnr : (w.cell c).ready = false) (hnrun : (w.cell c).running = false) :
    Step w (w1.setRunning c false) := by
  refine { tasks := h.tasks, tasks_ := h.tasks_, rtl := h.rtl, len := by simp [h.len],
           producer := by simp [h.producer], frozen := ?_, calls := h.calls,
           running_mono := ?_ }
  · intro x hx
    have hne : c ≠ x := by rintro rfl; rw [hnr] at hx; cases hx
    rw [setRunning_cell_ne _ _ hne, h.frozen x hx]
  · intro x hx
    have hne : c ≠ x := by rintro rfl; rw [hnrun] at hx; cases hx
    rw [setRunning_cell_ne _ _ hne]
    exact h.running_mono x hx

/-- Entering `ensureReady` on the cell `c`: a run from the state in which `c`
is marked running is a run from the state before; it leaves `c` running and not
ready, and does not invoke the callable of the producer of `c`. -/
theorem lz_enter {w w' : World} {c : Nat} (hlt : c < w.cells.length)
    (hnr : (w.cell c).ready = false) (h : Lz (w.setRunning c true) w') :
    Lz w w' ∧ (w'.cell c).ready = false ∧ (w'.cell c).running = true ∧
      ∀ (p : Nat) (t : Task), w.tasks[p]? = some t → t.out = c → p ∉ newCalls w w' := by
  have hstep : Step w (w.setRunning c true) := step_setRunning_true hnr
  have hcrun : ((w.setRunning c true).cell c).running = true := by
    rw [setRunning_running]; simp [hlt]
  have hcnr : ((w.setRunning c true).cell c).ready = false := by simpa using hnr
  refine ⟨{ step := hstep.trans h.step, blocked := ?_, once := h.once, called := ?_,
            made := ?_ }, h.blocked c hcrun hcnr, h.step.running_mono c hcrun, ?_⟩
  · intro d hr hnrd
    exact h.blocked d (hstep.running_mono d hr) (by simpa using hnrd)
  · intro p hp
    obtain ⟨t, ht, h1, h2, h3⟩ := h.called p hp
    refine ⟨t, ht, by simpa using h1, ?_, h3⟩
    rw [setRunning_running] at h2
    split at h2
    · cases h2
    · exact h2
  · intro x hx1 hx2
    exact h.made x (by simpa using hx1) hx2
  · intro p t ht hout hp
    obtain ⟨t', ht', _, h2, _⟩ := h.called p hp
    rw [setRunning_tasks, ht] at ht'
    cases ht'
    rw [hout, hcrun] at h2
    cases h2

/-- Leaving `ensureReady` after the producer published its result. -/
theorem lz_publish {w w1 : World} (hwf : WF w) {c p : Nat} {t : Task} {hs : List Holder}
    {r : Holder} (hlt : c < w.cells.length) (hnr : (w.cell c).ready = false)
    (hnrun : (w.cell c).running = false) (ht : w.tasks[p]? = some t) (hout : t.out = c)
    (h : Lz w w1) (hnr1 : (w1.cell c).ready = false)
    (hp : p ∉ newCalls w w1) (hv : List.Forall₂ (ArgVal w1) t.args hs) (hfn : t.fn hs = some r) :
    Lz w ((w1.publish p c r).setRunning c false) := by
  have hfz : ∀ y, (w1.cell y).ready = true →
      ((w1.publish p c r).setRunning c false).cell y = w1.cell y := by
    intro y hy
    have hne : c ≠ y := by rintro rfl; rw [hnr1] at hy; cases hy
    rw [setRunning_cell_ne _ _ hne, publish_cell_ne _ _ _ hne]
  have hlt1 : c < w1.cells.length := by rw [h.step.len]; exact hlt
  have hself : (((w1.publish p c r).setRunning c false).cell c).ready = true ∧
      (((w1.publish p c r).setRunning c false).cell c).value = { ptr := some r } := by
    rw [setRunning_ready, setRunning_value, publish_cell_self _ _ _ hlt1]
    exact ⟨rfl, rfl⟩
  have hnc : newCalls w ((w1.publish p c r).setRunning c false) = newCalls w w1 ++ [p] := by
    rw [newCalls_setRunning_right, newCalls_publish h.step]
  refine { step := step_setRunning_false (h.step.publish p r hnr) hnr hnrun,
           blocked := ?_, once := ?_, called := ?_, made := ?_ }
  · intro d hr hnrd
    have hne : c ≠ d := by rintro rfl; rw [hnrun] at hr; cases hr
    rw [setRunning_ready, publish_cell_ne _ _ _ hne]
    exact h.blocked d hr hnrd
  · rw [hnc, List.nodup_append]
    refine ⟨h.once, List.nodup_singleton _, ?_⟩
    intro x hx hx'
    rw [List.mem_singleton] at hx'
    subst hx'
    exact hp hx
  · intro q hq
    rw [hnc, List.mem_append, List.mem_singleton] at hq
    rcases hq with hq | rfl
    · obtain ⟨s, hs', h1, h2, h3⟩ := h.called q hq
      refine ⟨s, hs', h1, h2, ?_⟩
      have hne : c ≠ s.out := by
        intro heq
        have := hwf.out_inj ht hs' (hout.trans heq)
        subst this
        exact hp hq
      rw [setRunning_cell_ne _ _ hne, publish_cell_ne _ _ _ hne]
      exact h3
    · exact ⟨t, ht, by rw [hout]; exact hnr, by rw [hout]; exact hnrun,
        Or.inl (by rw [hout]; exact hself.1)⟩
  · intro x hx1 hx2
    by_cases hxc : x = c
    · subst hxc
      refine ⟨p, t, ht, hout, by rw [hnc]; simp, ?_⟩
      exact ⟨hs, r, forall₂_argVal_frozen (fun y hy => hfz y hy) hv, hfn,
        by rw [hout]; exact hself.2⟩
    · have hne : c ≠ x := fun h => hxc h.symm
      rw [setRunning_ready, publish_cell_ne _ _ _ hne] at hx2
      obtain ⟨q, s, hs', hsout, hq, hc⟩ := h.made x hx1 hx2
      refine ⟨q, s, hs', hsout, by rw [hnc]; exact List.mem_append_left _ hq, ?_⟩
      exact hc.frozen hfz (by rw [hsout]; exact hx2)

/-- Leaving `ensureReady` by the failure of the producer's callable. -/
theorem lz_fail {w w1 : World} {c p : Nat} {t : Task}
    (hnr : (w.cell c).ready = false) (hnrun : (w.cell c).running = false)
    (ht : w.tasks[p]? = some t) (hout : t.out = c)
    (h : Lz w w1) (hrun1 : (w1.cell c).running = true) (hp : p ∉ newCalls w w1) :
    Lz w (w1.logCall p) := by
  have hnc : newCalls w (w1.logCall p) = newCalls w w1 ++ [p] := newCalls_logCall h.step p
  refine { step := h.step.trans (Step.logCall w1 p), blocked := ?_, once := ?_, called := ?_,
           made := ?_ }
  · intro d hr hnrd
    exact h.blocked d hr hnrd
  · rw [hnc, List.nodup_append]
    refine ⟨h.once, List.nodup_singleton _, ?_⟩
    intro x hx hx'
    rw [List.mem_singleton] at hx'
    subst hx'
    exact hp hx
  · intro q hq
    rw [hnc, List.mem_append, List.mem_singleton] at hq
    rcases hq with hq | rfl
    · exact h.called q hq
    · exact ⟨t, ht, by rw [hout]; exact hnr, by rw [hout]; exact hnrun,
        Or.inr (by rw [hout]; exact hrun1)⟩
  · intro x hx1 hx2
    obtain ⟨q, s, hs', hsout, hq, hc⟩ := h.made x hx1 hx2
    exact ⟨q, s, hs', hsout, by rw [hnc]; exact List.mem_append_left _ hq, hc⟩

/-- Every run of `ensureReady` on a well-formed state is a lazy force. -/
theorem ensureReady_lazy : ∀ (fuel : Nat) (w : World), WF w → ∀ c,
    Respects LzOk Lz (ensureReady fuel) w c := by
  intro fuel
  induction fuel with
  | zero =>
    intro w _ c
    exact ⟨fun u w' h => (by cases h), fun e w' h => (by cases h)⟩
  | succ fuel ih =>
    intro w hwf c
    have hargs : ∀ (p : Nat) (t : Task), (w.cell c).ready = false →
        (∀ vs w1, callArgs (ensureReady fuel) (w.setRunning c true) t.args = .ok vs w1 →
          LzOk (w.setRunning c true) w1) ∧
        (∀ e w1, callArgs (ensureReady fuel) (w.setRunning c true) t.args = .throw e w1 →
          Lz (w.setRunning c true) w1) := by
      intro p t hnr
      apply callArgs_rel seq_lazy
      intro d _ w1 h1
      exact ih w1 (hwf.step ((step_setRunning_true hnr).trans h1.1.step)) d
    constructor
    · intro u w' hr
      rcases ensureReady_ok hr with ⟨_, rfl⟩ | ⟨hnr, hnrun, p, t, w2, hl, he, rfl, hrd⟩
      · exact seq_lazy.refl _
      · refine ⟨?_, ((ensureReady_spec (fuel + 1)).ok hr).1.2⟩
        have hlt := lt_of_lock w hl
        have hout := hwf.out_of_lock hl
        have ht := (lock_eq_some.mp hl).2
        rcases Task.execute_ok he with ⟨hrd1, _⟩ | ⟨_, hs, w1, r, e1, hfn, rfl⟩
        · rw [setRunning_ready, hout, hnr] at hrd1; cases hrd1
        · obtain ⟨hlz, hnr1, _, hp⟩ := lz_enter hlt hnr ((hargs p t hnr).1 _ _ e1).1
          rw [hout]
          exact lz_publish hwf hlt hnr hnrun ht hout hlz hnr1 (hp p t ht hout)
            (callArgs_vals (ensureReady_spec fuel) e1) hfn
    · intro e w' hr
      obtain ⟨hnr, h⟩ := ensureReady_throw hr
      rcases h with ⟨_, _, rfl⟩ | ⟨_, _, _, _, rfl⟩ | ⟨hnrun, p, t, hl, h⟩
      · exact lz_refl _
      · exact lz_refl _
      · have hlt := lt_of_lock w hl
        have hout := hwf.out_of_lock hl
        have ht := (lock_eq_some.mp hl).2
        rcases h with he | ⟨w2, he, rfl, hnrd, _⟩
        · obtain ⟨_, he' | ⟨hs, w1, e1, _, _, rfl⟩⟩ := Task.execute_throw he
          · exact (lz_enter hlt hnr ((hargs p t hnr).2 _ _ he')).1
          · obtain ⟨hlz, _, hrun1, hp⟩ := lz_enter hlt hnr ((hargs p t hnr).1 _ _ e1).1
            exact lz_fail hnr hnrun ht hout hlz hrun1 (hp p t ht hout)
        · exfalso
          have := ((Task.execute_step (ensureReady_spec fuel) (w.setRunning c true) p t).1 _ he).2
            (Or.inr (by rw [hout]; simpa using hlt))
          rw [setRunning_ready, ← hout, this] at hnrd
          cases hnrd

theorem getResult_lazy {w : World} (hwf : WF w) {T : Ty} {id : Nat} :
    (∀ h w', getResult w T id = .ok h w' → LzOk w w' ∧ ArgVal w' (.future T id) h) ∧
    (∀ e w', getResult w T id = .throw e w' → Lz w w') := by
  have hr := ensureReady_lazy w.fuel w hwf id
  constructor
  · intro h w' hg
    exact ⟨hr.1 _ _ (Future.get_eq_ok hg).1, Future.get_argVal (ensureReady_spec _) hg⟩
  · intro e w' hg
    rcases Future.get_eq_throw hg with h1 | ⟨h1, _⟩
    · exact hr.2 _ _ h1
    · exact (hr.1 _ _ h1).1

/-! ## Claim C6: repeated `getResult` -/

theorem ensureReady_of_ready {w : World} {c : Nat} (h : (w.cell c).ready = true) (fuel : Nat) :
    ensureReady (fuel + 1) w c = .ok () w := by
  rw [ensureReady, if_pos h]

/-- Reading a ready cell of the right type returns its value and changes nothing. -/
theorem getResult_of_ready {w : World} {T : Ty} {id : Nat} {h : Holder}
    (hv : ArgVal w (.future T id) h) : getResult w T id = .ok h w := by
  obtain ⟨h1, h2⟩ := hv
  unfold getResult Future.get World.fuel
  rw [ensureReady_of_ready h1]
  simp only [h2]

theorem getResultTimes_spec (T : Ty) (id : Nat) :
    ∀ (n : Nat) (w : World), WF w →
      Lz w (getResultTimes T id n w).2 ∧
      (∀ h1 h2, some h1 ∈ (getResultTimes T id n w).1 → some h2 ∈ (getResultTimes T id n w).1 →
        h1 = h2) ∧
      (∀ h0, ArgVal w (.future T id) h0 → ∀ h, some h ∈ (getResultTimes T id n w).1 → h = h0) := by
  intro n
  induction n with
  | zero =>
    intro w _
    simp only [getResultTimes]
    exact ⟨lz_refl w, fun _ _ h => (by cases h), fun _ _ _ h => (by cases h)⟩
  | succ n ih =>
    intro w hwf
    obtain ⟨gok, gthrow⟩ := @getResult_lazy w hwf T id
    rw [getResultTimes]
    cases hg : getResult w T id with
    | ok h w' =>
      simp only
      obtain ⟨hlz, hval⟩ := gok h w' hg
      obtain ⟨i1, i2, i3⟩ := ih w' (hwf.step hlz.1.step)
      refine ⟨lz_trans hlz.1 i1, ?_, ?_⟩
      · intro h1 h2 m1 m2
        simp only [List.mem_cons, Option.some.injEq] at m1 m2
        rcases m1 with rfl | m1 <;> rcases m2 with rfl | m2
        · rfl
        · exact (i3 _ hval _ m2).symm
        · exact i3 _ hval _ m1
        · exact i2 _ _ m1 m2
      · intro h0 hv0 x mx
        have := getResult_of_ready hv0
        rw [hg] at this
        simp only [Res.ok.injEq] at this
        obtain ⟨rfl, rfl⟩ := this
        simp only [List.mem_cons, Option.some.injEq] at mx
        rcases mx with rfl | mx
        · rfl
        · exact i3 _ hval _ mx
    | throw e w' =>
      simp only
      have hlz := gthrow e w' hg
      obtain ⟨i1, i2, i3⟩ := ih w' (hwf.step hlz.step)
      refine ⟨lz_trans hlz i1, ?_, ?_⟩
      · intro h1 h2 m1 m2
        simp only [List.mem_cons] at m1 m2
        rcases m1 with m1 | m1
        · cases m1
        rcases m2 with m2 | m2
        · cases m2
        exact i2 _ _ m1 m2
      · intro h0 hv0 x mx
        have := getResult_of_ready hv0
        rw [hg] at this
        cases this
    | undefined => exact absurd hg (getResult_defined w T id)

/-- C6: however many times `getResult<T>` is called on the same handle, no
callable (of the producer, of a dependency, of any task) is invoked more than
once over all the calls together, and all the calls that return a value return
the same value. -/
theorem getResult_idempotent (w : World) (hwf : WF w) (T : Ty) (id n : Nat) :
    (newCalls w (getResultTimes T id n w).2).Nodup ∧
    ∀ h1 h2, some h1 ∈ (getResultTimes T id n w).1 → some h2 ∈ (getResultTimes T id n w).1 →
      h1 = h2 :=
  ⟨(getResultTimes_spec T id n w hwf).1.once, (getResultTimes_spec T id n w hwf).2.1⟩

/-- C6 at the scenario: three calls on the handle of the doubling task. -/
theorem getResult_idempotent_witness :
    (newCalls scenario (getResultTimes .int 2 3 scenario).2).Nodup ∧
    ∀ h1 h2, some h1 ∈ (getResultTimes .int 2 3 scenario).1 →
      some h2 ∈ (getResultTimes .int 2 3 scenario).1 → h1 = h2 :=
  getResult_idempotent scenario scenario_wf .int 2 3

theorem getResultTimes_scenario :
    (getResultTimes .int 2 3 scenario).1 =
        [some { ty := .int, value := 20 }, some { ty := .int, value := 20 },
         some { ty := .int, value := 20 }] ∧
      (getResultTimes .int 2 3 scenario).2.calls = [0, 2] := by
  decide

/-! ## Claim C7: typed extraction -/

/-- A lazy force keeps every ready output cell computed. -/
theorem lz_consistent {w w' : World} (hwf : WF w) (hc : Consistent w) (h : Lz w w') :
    Consistent w' := by
  intro p t ht hr
  rw [h.step.tasks] at ht
  cases hrw : (w.cell t.out).ready with
  | true => exact (hc p t ht hrw).frozen h.step.frozen hrw
  | false =>
    obtain ⟨q, s, hs, hout, _, hcomp⟩ := h.made t.out hrw hr
    have := hwf.out_inj hs ht hout
    subst this
    rw [ht] at hs
    cases hs
    exact hcomp

theorem as_eq_ok {a : Any} {T : Ty} {h : Holder} :
    a.as T = .ok h ↔ a.ptr = some h ∧ h.ty = T := by
  unfold Any.as
  cases a.ptr with
  | none => simp
  | some x =>
    by_cases hx : x.ty = T
    · simp only [hx, if_true, Except.ok.injEq, Option.some.injEq]
      constructor
      · rintro rfl; exact ⟨rfl, hx⟩
      · rintro ⟨rfl, _⟩; rfl
    · simp only [hx, if_false, Option.some.injEq]
      constructor
      · intro h'; cases h'
      · rintro ⟨rfl, h2⟩; exact absurd h2 hx

theorem as_error {a : Any} {T : Ty} {e : Exn} (h : a.as T = .error e) : e = .bad_cast := by
  unfold Any.as at h
  split at h
  · split at h
    · cases h
    · cases h; rfl
  · cases h; rfl

/-- C7: once the force of a task's cell has completed, the cell holds the value
`r` that the callable produced; `getResult<T>` returns `r` when `T` is the type of
`r` and fails with `std::bad_cast` for every other `T`; and whenever `getResult<T>`
returns, it returns the stored value, whose type is `T`. -/
theorem getResult_type_safe (w : World) (hwf : WF w) (hc : Consistent w) (id p : Nat)
    (t : Task) (hl : w.lock id = some (p, t)) (w' : World)
    (hforce : ensureReady w.fuel w id = .ok () w') :
    ∃ vs r, List.Forall₂ (ArgVal w') t.args vs ∧ t.fn vs = some r ∧
      (w'.cell id).value = { ptr := some r } ∧
      getResult w r.ty id = .ok r w' ∧
      (∀ T, T ≠ r.ty → getResult w T id = .throw .bad_cast w') ∧
      (∀ T h w'', getResult w T id = .ok h w'' → h = r ∧ T = r.ty ∧ w'' = w') := by
  have hlz := (ensureReady_lazy w.fuel w hwf id).1 _ _ hforce
  have hrd := ((ensureReady_spec w.fuel).ok hforce).2
  have hout := hwf.out_of_lock hl
  have ht := (lock_eq_some.mp hl).2
  obtain ⟨vs, r, h1, h2, h3⟩ := lz_consistent hwf hc hlz.1 p t (by rw [hlz.1.step.tasks]; exact ht)
    (by rw [hout]; exact hrd)
  rw [hout] at h3
  have hget : ∀ T, getResult w T id =
      match (w'.cell id).value.as T with
      | .ok h => .ok h w'
      | .error e => .throw e w' := by
    intro T
    simp only [getResult, Future.get, hforce]
  refine ⟨vs, r, h1, h2, h3, ?_, ?_, ?_⟩
  · rw [hget, as_eq_ok.mpr ⟨by rw [h3], rfl⟩]
  · intro T hT
    rw [hget]
    cases hv : (w'.cell id).value.as T with
    | ok h =>
      obtain ⟨e1, e2⟩ := as_eq_ok.mp hv
      rw [h3] at e1
      cases e1
      exact absurd e2.symm hT
    | error e => rw [as_error hv]
  · intro T h w'' hg
    rw [hget] at hg
    cases hv : (w'.cell id).value.as T with
    | ok h' =>
      rw [hv] at hg
      simp only [Res.ok.injEq] at hg
      obtain ⟨e1, e2⟩ := as_eq_ok.mp hv
      rw [h3] at e1
      cases e1
      exact ⟨hg.1.symm, e2.symm, hg.2.symm⟩
    | error e => rw [hv] at hg; cases hg

theorem fresh_consistent {w : World} (h : ∀ c, (w.cell c).ready = false) : Consistent w := by
  intro p t _ hr
  rw [h] at hr; cases hr

theorem scenario_consistent : Consistent scenario :=
  fresh_consistent (by
    intro c
    unfold World.cell scenario
    simp only [add, World.empty, List.nil_append, List.length_nil, List.length_cons,
      List.singleton_append, List.cons_append]
    match c with
    | 0 => rfl
    | 1 => rfl
    | 2 => rfl
    | n + 3 => rfl)

/-- C7 at the scenario: the doubling task produces the `int` 20; `getResult<int>`
returns it and `getResult<std::string>` fails with `std::bad_cast`. -/
theorem getResult_type_safe_witness :
    getResult scenario .int 2 = .ok { ty := .int, value := 20 } scenarioForced ∧
      getResult scenario .string 2 = .throw .bad_cast scenarioForced := by
  obtain ⟨vs, r, _, _, h3, h4, h5, _⟩ := getResult_type_safe scenario scenario_wf
    scenario_consistent 2 2 { fn := doubleInt, args := [getFutureResult .int 0], out := 2 } rfl
    scenarioForced rfl
  have hv : (scenarioForced.cell 2).value = { ptr := some { ty := .int, value := 20 } } := rfl
  rw [hv] at h3
  simp only [Any.mk.injEq, Option.some.injEq] at h3
  subst h3
  exact ⟨h4, h5 .string (by decide)⟩

/-! ## Claim C5: a ring of tasks -/

theorem evalArgs_single_throw (force : World → Nat → Res Unit) {w w' : World} {c : Nat}
    {e : Exn} (hf : force w c = .throw e w') :
    ∀ args : List ArgWrap, args.filterMap ArgWrap.depCell = [c] →
      evalArgs force w args = .throw e w' := by
  intro args
  induction args with
  | nil => intro h; simp at h
  | cons a rest ih =>
    intro h
    cases a with
    | plain v =>
      have h' : rest.filterMap ArgWrap.depCell = [c] := by
        simpa [List.filterMap_cons, ArgWrap.depCell] using h
      rw [evalArgs]
      simp only [ArgWrap.get]
      rw [ih h']
    | future U d =>
      have hd : d = c := by
        simp only [List.filterMap_cons, ArgWrap.depCell, List.cons.injEq] at h
        exact h.1
      subst hd
      rw [evalArgs]
      simp only [ArgWrap.get, Future.get, hf]

theorem callArgs_single_throw (force : World → Nat → Res Unit) {w w' : World} {c : Nat}
    {e : Exn} (hf : force w c = .throw e w') (args : List ArgWrap)
    (h : args.filterMap ArgWrap.depCell = [c]) : callArgs force w args = .throw e w' := by
  unfold callArgs
  split
  · rw [evalArgs_single_throw force hf args.reverse (by rw [List.filterMap_reverse, h]; rfl)]
  · exact evalArgs_single_throw force hf args h

theorem onRing_setRunning {w : World} {C : Nat → Prop} (h : OnRing w C) (c : Nat) (b : Bool) :
    OnRing (w.setRunning c b) C := by
  intro x hx
  obtain ⟨h1, p, t, c', h2, h3⟩ := h x hx
  exact ⟨by simpa using h1, p, t, c', by simpa using h2, h3⟩

/-- Forcing a cell of such a set fails with the cycle error, and invokes no callable. -/
theorem ring_throws (C : Nat → Prop) : ∀ (fuel : Nat) (w : World) (c : Nat),
    OnRing w C → C c → w.idle < fuel →
      ∃ w', ensureReady fuel w c = .throw .cycle_detected w' ∧ w'.calls = w.calls := by
  intro fuel
  induction fuel with
  | zero => intro w c _ _ h; omega
  | succ fuel ih =>
    intro w c hring hc hidle
    obtain ⟨hnr, p, t, c', hl, hout, hc', hdeps⟩ := hring c hc
    rw [ensureReady, if_neg (by simp [hnr]), hl]
    simp only
    by_cases hrun : (w.cell c).running = true
    · rw [if_pos hrun]
      exact ⟨w, rfl, rfl⟩
    · rw [if_neg hrun]
      have hrun' : (w.cell c).running = false := by simpa using hrun
      have hi := idle_setRunning (lt_of_lock w hl) hrun'
      obtain ⟨w', he, hcalls⟩ := ih (w.setRunning c true) c' (onRing_setRunning hring c true) hc'
        (by omega)
      have hexec : t.execute (ensureReady fuel) (w.setRunning c true) p = .throw .cycle_detected w' := by
        unfold Task.execute
        rw [if_neg (by rw [hout]; simp [hnr]),
          callArgs_single_throw (ensureReady fuel) he t.args hdeps]
      rw [hexec]
      exact ⟨w', rfl, by rw [hcalls]; rfl⟩

/-- C5: for tasks `t0 .. t(k-1)` whose cells are not ready and in which the only
future binding of `ti` is over the output of `t((i+1) mod k)`, `getResult` on any
of them fails with the cycle error of `ensureReady`, and no callable is invoked. -/
theorem ring_getResult_cycle (w : World) (hwf : WF w) (k : Nat) (tk : Nat → Nat)
    (hring : ∀ i, i < k → ∃ t t', w.tasks[tk i]? = some t ∧
      w.tasks[tk ((i + 1) % k)]? = some t' ∧ t.deps = [t'.out] ∧ (w.cell t.out).ready = false)
    (i : Nat) (hi : i < k) (T : Ty) :
    ∃ t w', w.tasks[tk i]? = some t ∧
      getResult w T t.out = .throw .cycle_detected w' ∧ w'.calls = w.calls := by
  have hon : OnRing w (fun c => ∃ j, j < k ∧ ∃ t, w.tasks[tk j]? = some t ∧ t.out = c) := by
    rintro c ⟨j, hj, t, ht, rfl⟩
    obtain ⟨t1, t', h1, h2, h3, h4⟩ := hring j hj
    rw [ht] at h1
    cases h1
    refine ⟨h4, tk j, t, t'.out, lock_eq_some.mpr ⟨hwf.bound _ _ ht, ht⟩, rfl, ?_, h3⟩
    exact ⟨(j + 1) % k, Nat.mod_lt _ (by omega), t', h2, rfl⟩
  obtain ⟨t, _, ht, _, _, _⟩ := hring i hi
  obtain ⟨w', he, hcalls⟩ := ring_throws _ w.fuel w t.out hon ⟨i, hi, t, ht, rfl⟩ (idle_lt_fuel w)
  refine ⟨t, w', ht, ?_, hcalls⟩
  simp only [getResult, Future.get, he]

theorem mutualPair_wf : WF mutualPair :=
  add_wf (add_wf (empty_wf false) _ _) _ _

/-- C5 at two mutually dependent tasks: `getResult` on the first fails with the
cycle error and the log of invocations stays empty. -/
theorem ring_getResult_cycle_witness :
    ∃ t w', mutualPair.tasks[0]? = some t ∧
      getResult mutualPair .int t.out = .throw .cycle_detected w' ∧ w'.calls = mutualPair.calls :=
  ring_getResult_cycle mutualPair mutualPair_wf 2 id
    (by
      intro i hi
      interval_cases i
      · exact ⟨_, _, rfl, rfl, rfl, rfl⟩
      · exact ⟨_, _, rfl, rfl, rfl, rfl⟩)
    0 (by decide) .int

/-! ## Claim C10: a lazy force executes the dependency closure -/

theorem seq_within (S : Nat → Prop) : Seq (Within S) (Within S) := by
  have htrans : ∀ {a b c : World}, Within S a b → Within S b c → Within S a c := by
    intro a b c h1 h2
    refine ⟨h1.1.trans h2.1, ?_⟩
    intro x hxa hxc
    cases hxb : (b.cell x).ready with
    | true => exact h1.2 x hxa hxb
    | false =>
      obtain ⟨p, t, ht, h⟩ := h2.2 x hxb hxc
      rw [h1.1.tasks] at ht
      exact ⟨p, t, ht, h⟩
  exact { refl := fun w => ⟨Step.refl w, fun c h1 h2 => by rw [h1] at h2; cases h2⟩,
          trans := htrans, absorb := htrans, weaken := fun h => h }

theorem argVal_ready_of_mem {w : World} {args : List ArgWrap} {vs : List Holder}
    (h : List.Forall₂ (ArgVal w) args vs) {c : Nat} (hc : c ∈ args.filterMap ArgWrap.depCell) :
    (w.cell c).ready = true := by
  induction h with
  | nil => simp at hc
  | @cons a b l1 l2 hab _ ih =>
    cases a with
    | plain v =>
      apply ih
      simpa [List.filterMap_cons, ArgWrap.depCell] using hc
    | future U d =>
      simp only [List.filterMap_cons, ArgWrap.depCell, List.mem_cons] at hc
      rcases hc with rfl | hc
      · exact hab.1
      · exact ih hc

theorem execute_within {S : Nat → Prop} {force : World → Nat → Res Unit} (hfs : ForceSpec force)
    {w : World} {p : Nat} {t : Task} (hp : S p) (ht : w.tasks[p]? = some t)
    (hf : ∀ d, d ∈ t.deps → ∀ w1, Within S w w1 → Respects (Within S) (Within S) force w1 d) :
    (∀ w', t.execute force w p = .ok () w' → Within S w w') ∧
    (∀ e w', t.execute force w p = .throw e w' → Within S w w') := by
  have hc := callArgs_rel (seq_within S) force t.args w hf
  have hst := Task.execute_step hfs w p t
  constructor
  · intro w' hr
    refine ⟨(hst.1 w' hr).1.1, ?_⟩
    rcases Task.execute_ok hr with ⟨_, rfl⟩ | ⟨_, hs, w1, r, e1, _, rfl⟩
    · intro c h1 h2; rw [h1] at h2; cases h2
    · intro c h1 h2
      by_cases hco : t.out = c
      · exact ⟨p, t, ht, hco, hp⟩
      · rw [publish_cell_ne _ _ _ hco] at h2
        exact (hc.1 _ _ e1).2 c h1 h2
  · intro e w' hr
    refine ⟨hst.2 e w' hr, ?_⟩
    obtain ⟨_, e1 | ⟨hs, w1, e1, _, _, rfl⟩⟩ := Task.execute_throw hr
    · exact (hc.2 _ _ e1).2
    · intro c h1 h2
      exact (hc.1 _ _ e1).2 c h1 h2

/-- A force makes ready only outputs of tasks in a set that contains the
producer of the forced cell and is closed under dependencies. -/
theorem ensureReady_within (S : Nat → Prop) : ∀ (fuel : Nat) (w : World) (c : Nat), WF w →
    (∀ p q, S p → DepOn w p q → S q) → (∀ p t, w.lock c = some (p, t) → S p) →
    Respects (Within S) (Within S) (ensureReady fuel) w c := by
  intro fuel
  induction fuel with
  | zero =>
    intro w c _ _ _
    exact ⟨fun u w' h => (by cases h), fun e w' h => (by cases h)⟩
  | succ fuel ih =>
    intro w c hwf hcl hroot
    have hexec : ∀ (p : Nat) (t : Task), w.lock c = some (p, t) → (w.cell c).ready = false →
        (∀ w', t.execute (ensureReady fuel) (w.setRunning c true) p = .ok () w' →
          Within S (w.setRunning c true) w') ∧
        (∀ e w', t.execute (ensureReady fuel) (w.setRunning c true) p = .throw e w' →
          Within S (w.setRunning c true) w') := by
      intro p t hl hnr
      have ht := (lock_eq_some.mp hl).2
      apply execute_within (ensureReady_spec fuel) (hroot p t hl) (by simpa using ht)
      intro d hd w1 h1
      have hs1 : Step w w1 := (step_setRunning_true hnr).trans h1.1
      apply ih w1 d (hwf.step hs1)
      · intro a b ha hab
        obtain ⟨ta, tb, h1', h2', h3'⟩ := hab
        rw [hs1.tasks] at h1' h2'
        exact hcl a b ha ⟨ta, tb, h1', h2', h3'⟩
      · intro q tq hlq
        rw [hs1.lock] at hlq
        have hq := (lock_eq_some.mp hlq).2
        exact hcl p q (hroot p t hl) ⟨t, tq, ht, hq, by rw [hwf.out_of_lock hlq]; exact hd⟩
    constructor
    · intro u w' hr
      refine ⟨((ensureReady_spec (fuel + 1)).ok hr).1.1, ?_⟩
      rcases ensureReady_ok hr with ⟨_, rfl⟩ | ⟨hnr, _, p, t, w2, hl, he, rfl, _⟩
      · intro x h1 h2; rw [h1] at h2; cases h2
      · intro x h1 h2
        exact ((hexec p t hl hnr).1 _ he).2 x (by simpa using h1) (by simpa using h2)
    · intro e w' hr
      refine ⟨(ensureReady_spec (fuel + 1)).throw hr, ?_⟩
      obtain ⟨hnr, h⟩ := ensureReady_throw hr
      rcases h with ⟨_, _, rfl⟩ | ⟨_, _, _, _, rfl⟩ | ⟨_, p, t, hl, h⟩
      · intro x h1 h2; rw [h1] at h2; cases h2
      · intro x h1 h2; rw [h1] at h2; cases h2
      · rcases h with he | ⟨w2, he, rfl, _, _⟩
        · intro x h1 h2
          exact ((hexec p t hl hnr).2 _ _ he).2 x (by simpa using h1) h2
        · intro x h1 h2
          exact ((hexec p t hl hnr).1 _ he).2 x (by simpa using h1) (by simpa using h2)

theorem fresh_of_add_empty (rtl : Bool) : Fresh (World.empty rtl) := by
  intro c
  simp [World.empty, World.cell]

theorem add_fresh {w : World} (h : Fresh w) (fn : List Holder → Option Holder)
    (args : List ArgWrap) : Fresh (add w fn args).2 := by
  intro c
  rw [add_cell]
  split
  · exact h c
  · split <;> exact ⟨rfl, rfl⟩

/-- C10, as stated, fails: in the acyclic, not yet executed `mistyped`, `getResult`
on the handle of the second task invokes the callable of the first task only:
the second task, which is in its own dependency closure, is never invoked and its
cell is not ready afterwards (the read of its argument throws `std::bad_cast`). -/
theorem mistyped_getResult_partial :
    WF mistyped ∧ Fresh mistyped ∧ Acyclic mistyped ∧
      (getResult mistyped .int 1).exn? = some .bad_cast ∧
      (getResult mistyped .int 1).world?.map (fun w => w.calls) = some [0] ∧
      (getResult mistyped .int 1).world?.map (fun w => (w.cell 1).ready) = some false :=
  ⟨mistyped_wf, add_fresh (add_fresh (fresh_of_add_empty false) _ _) _ _,
    acyclic_of_preds_lt mistyped_wf (by decide), by decide, by decide, by decide⟩

/-- C10, amended: on a well-formed state in which no task has been executed
yet, a `getResult` on a handle that returns has invoked the callable of exactly
the tasks in the transitive dependency closure of the handle's task (that task
included), each exactly once, and afterwards exactly the output cells of those
tasks are ready. -/
theorem getResult_forces_closure (w : World) (hwf : WF w) (hfresh : Fresh w)
    (T : Ty) (id p : Nat) (t : Task) (hl : w.lock id = some (p, t)) (h : Holder) (w' : World)
    (hres : getResult w T id = .ok h w') :
    (newCalls w w').Nodup ∧
    (∀ q, q ∈ newCalls w w' ↔ ReflTransGen (DepOn w) p q) ∧
    (∀ c, (w'.cell c).ready = true ↔
      ∃ (q : Nat) (tq : Task), w.tasks[q]? = some tq ∧ tq.out = c ∧
        ReflTransGen (DepOn w) p q) := by
  have hforce := (Future.get_eq_ok hres).1
  have hlz := (ensureReady_lazy w.fuel w hwf id).1 _ _ hforce
  have hrd := ((ensureReady_spec w.fuel).ok hforce).2
  have hin : Within (ReflTransGen (DepOn w) p) w w' :=
    (ensureReady_within _ w.fuel w id hwf (fun a b ha hab => ha.tail hab)
      (fun q tq hlq => by
        rw [hl] at hlq
        simp only [Option.some.injEq, Prod.mk.injEq] at hlq
        rw [← hlq.1])).1 _ _ hforce
  have hout := hwf.out_of_lock hl
  have ht := (lock_eq_some.mp hl).2
  have hA : ∀ q, ReflTransGen (DepOn w) p q →
      ∃ tq : Task, w.tasks[q]? = some tq ∧ (w'.cell tq.out).ready = true := by
    intro q hq
    induction hq with
    | refl => exact ⟨t, ht, by rw [hout]; exact hrd⟩
    | tail _ hab ih =>
      obtain ⟨tq, htq, hrq⟩ := ih
      obtain ⟨ta, tb, h1, h2, h3⟩ := hab
      rw [htq] at h1
      cases h1
      obtain ⟨p2, t2, hp2, ho2, _, hcomp⟩ := hlz.1.made tq.out (hfresh _).1 hrq
      have := hwf.out_inj hp2 htq ho2
      subst this
      rw [htq] at hp2
      cases hp2
      obtain ⟨vs, r, hv, _⟩ := hcomp
      exact ⟨tb, h2, argVal_ready_of_mem hv h3⟩
  have hB : ∀ q (tq : Task), w.tasks[q]? = some tq → (w'.cell tq.out).ready = true →
      q ∈ newCalls w w' := by
    intro q tq htq hrq
    obtain ⟨p2, t2, hp2, ho2, hmem, _⟩ := hlz.1.made tq.out (hfresh _).1 hrq
    have := hwf.out_inj hp2 htq ho2
    subst this
    exact hmem
  refine ⟨hlz.1.once, ?_, ?_⟩
  · intro q
    constructor
    · intro hq
      obtain ⟨tq, htq, _, _, hor⟩ := hlz.1.called q hq
      have hrq : (w'.cell tq.out).ready = true := by
        rcases hor with h1 | h1
        · exact h1
        · rw [hlz.2, (hfresh _).2] at h1; cases h1
      obtain ⟨p2, t2, hp2, ho2, hS⟩ := hin.2 tq.out (hfresh _).1 hrq
      have := hwf.out_inj hp2 htq ho2
      subst this
      exact hS
    · intro hq
      obtain ⟨tq, htq, hrq⟩ := hA q hq
      exact hB q tq htq hrq
  · intro c
    constructor
    · intro hc
      exact hin.2 c (hfresh _).1 hc
    · rintro ⟨q, tq, htq, rfl, hq⟩
      obtain ⟨tq', htq', hrq⟩ := hA q hq
      rw [htq] at htq'
      cases htq'
      exact hrq

theorem scenario_fresh : Fresh scenario :=
  add_fresh (add_fresh (add_fresh (fresh_of_add_empty false) _ _) _ _) _ _

/-- The amended C10 at the scenario: `getResult<int>` on the doubling task. -/
theorem getResult_forces_closure_witness :
    (newCalls scenario scenarioForced).Nodup ∧
    (∀ q, q ∈ newCalls scenario scenarioForced ↔ ReflTransGen (DepOn scenario) 2 q) ∧
    (∀ c, (scenarioForced.cell c).ready = true ↔
      ∃ (q : Nat) (tq : Task), scenario.tasks[q]? = some tq ∧ tq.out = c ∧
        ReflTransGen (DepOn scenario) 2 q) :=
  getResult_forces_closure scenario scenario_wf scenario_fresh .int 2 2
    { fn := doubleInt, args := [getFutureResult .int 0], out := 2 } rfl
    { ty := .int, value := 20 } scenarioForced rfl

/-! ## Relations carried through the bulk pass -/

theorem forceIfNotReady_rel {R E : World → World → Prop} (hs : Seq R E) (w : World) (c : Nat)
    (hf : Respects R E (ensureReady w.fuel) w c) :
    (∀ u w', forceIfNotReady w c = .ok u w' → R w w') ∧
    (∀ e w', forceIfNotReady w c = .throw e w' → E w w') := by
  unfold forceIfNotReady
  split
  · refine ⟨?_, ?_⟩
    · intro u w' h
      simp only [Res.ok.injEq] at h
      rw [← h.2]; exact hs.refl w
    · intro e w' h; cases h
  · exact hf

theorem buildDeps_rel {R E : World → World → Prop} (hs : Seq R E) (pre : Bool)
    (idx : Nat → Option Nat) (v : Nat) (w0 : World)
    (hforce : ∀ w c, R w0 w → Respects R E (ensureReady w.fuel) w c) :
    ∀ (cs seen : List Nat) (g : Graph) (w : World), R w0 w →
      (∀ sg w', buildDeps pre idx v cs seen g w = .ok sg w' → R w0 w') ∧
      (∀ e w', buildDeps pre idx v cs seen g w = .throw e w' → E w0 w') := by
  intro cs
  induction cs with
  | nil =>
    intro seen g w hw
    refine ⟨?_, ?_⟩
    · intro sg w' h
      simp only [buildDeps, Res.ok.injEq] at h
      rw [← h.2]; exact hw
    · intro e w' h; simp [buildDeps] at h
  | cons c cs ih =>
    intro seen g w hw
    rw [buildDeps]
    split
    · obtain ⟨fok, fthrow⟩ := forceIfNotReady_rel hs w c (hforce w c hw)
      cases hf : forceIfNotReady w c with
      | ok u w1 =>
        simp only
        exact ih seen g w1 (hs.trans hw (fok u w1 hf))
      | throw e w1 =>
        refine ⟨(by intro sg w' h; cases h), ?_⟩
        intro e' w' h
        simp only [Res.throw.injEq] at h
        obtain ⟨rfl, rfl⟩ := h
        exact hs.absorb hw (fthrow _ _ hf)
      | undefined =>
        exact ⟨(by intro sg w' h; cases h), (by intro e w' h; cases h)⟩
    · exact ih _ _ w hw

theorem buildGraph_rel {R E : World → World → Prop} (hs : Seq R E) (pre : Bool)
    (idx : Nat → Option Nat) (w0 : World)
    (hforce : ∀ w c, R w0 w → Respects R E (ensureReady w.fuel) w c) :
    ∀ (vs : List Nat) (g : Graph) (w : World), R w0 w →
      (∀ g' w', buildGraph pre idx vs g w = .ok g' w' → R w0 w') ∧
      (∀ e w', buildGraph pre idx vs g w = .throw e w' → E w0 w') := by
  intro vs
  induction vs with
  | nil =>
    intro g w hw
    refine ⟨?_, ?_⟩
    · intro g' w' h
      simp only [buildGraph, Res.ok.injEq] at h
      rw [← h.2]; exact hw
    · intro e w' h; simp [buildGraph] at h
  | cons v vs ih =>
    intro g w hw
    rw [buildGraph]
    cases ht : w.taskAt v with
    | none => exact ⟨(by intro sg w' h; cases h), (by intro e w' h; cases h)⟩
    | some pt =>
      obtain ⟨p, t⟩ := pt
      simp only
      obtain ⟨dok, dthrow⟩ := buildDeps_rel hs pre idx v w0 hforce t.deps [] g w hw
      cases hd : buildDeps pre idx v t.deps [] g w with
      | ok sg w1 =>
        simp only
        exact ih sg.2 w1 (dok sg w1 hd)
      | throw e w1 =>
        refine ⟨(by intro sg w' h; cases h), ?_⟩
        intro e' w' h
        simp only [Res.throw.injEq] at h
        obtain ⟨rfl, rfl⟩ := h
        exact dthrow _ _ hd
      | undefined =>
        exact ⟨(by intro sg w' h; cases h), (by intro e w' h; cases h)⟩

theorem kahnLoop_rel {R E : World → World → Prop} (hs : Seq R E) (adj : List (List Nat))
    (w0 : World)
    (htask : ∀ w u p t, R w0 w → w.taskAt u = some (p, t) →
      (∀ x w', runTask w p t = .ok x w' → R w w') ∧
      (∀ e w', runTask w p t = .throw e w' → E w w')) :
    ∀ (fuel : Nat) (q indeg order : List Nat) (w : World), R w0 w →
      (∀ oi w', kahnLoop fuel adj q indeg order w = .ok oi w' → R w0 w') ∧
      (∀ e w', kahnLoop fuel adj q indeg order w = .throw e w' → E w0 w') := by
  intro fuel
  induction fuel with
  | zero =>
    intro q indeg order w _
    exact ⟨(by intro oi w' h; cases h), (by intro e w' h; cases h)⟩
  | succ fuel ih =>
    intro q indeg order w hw
    cases q with
    | nil =>
      rw [kahnLoop]
      refine ⟨?_, (by intro e w' h; cases h)⟩
      intro oi w' h
      simp only [Res.ok.injEq] at h
      rw [← h.2]; exact hw
    | cons u q =>
      rw [kahnLoop]
      cases ht : w.taskAt u with
      | none => exact ⟨(by intro oi w' h; cases h), (by intro e w' h; cases h)⟩
      | some pt =>
        obtain ⟨p, t⟩ := pt
        simp only
        obtain ⟨tok, tthrow⟩ := htask w u p t hw ht
        cases hr : runTask w p t with
        | ok x w1 =>
          simp only
          exact ih _ _ _ w1 (hs.trans hw (tok x w1 hr))
        | throw e w1 =>
          refine ⟨(by intro oi w' h; cases h), ?_⟩
          intro e' w' h
          simp only [Res.throw.injEq] at h
          obtain ⟨rfl, rfl⟩ := h
          exact hs.absorb hw (tthrow _ _ hr)
        | undefined =>
          exact ⟨(by intro oi w' h; cases h), (by intro e w' h; cases h)⟩

/-- A relation that every force and every direct execution respects holds
around the whole bulk pass. -/
theorem executeTopologicallyDetailed_rel {R E : World → World → Prop} (hs : Seq R E)
    (pre : Bool) (w0 : World)
    (hforce : ∀ w c, R w0 w → Respects R E (ensureReady w.fuel) w c)
    (htask : ∀ w u p t, R w0 w → w.taskAt u = some (p, t) →
      (∀ x w', runTask w p t = .ok x w' → R w w') ∧
      (∀ e w', runTask w p t = .throw e w' → E w w')) :
    (∀ r w', executeTopologicallyDetailed pre w0 = .ok r w' → R w0 w') ∧
    (∀ e w', executeTopologicallyDetailed pre w0 = .throw e w' → E w0 w') := by
  obtain ⟨gok, gthrow⟩ := buildGraph_rel hs pre (indexByPtr w0) w0 hforce
    (List.range w0.tasks_.length)
    { adj := List.replicate w0.tasks_.length [], indeg := List.replicate w0.tasks_.length 0 } w0
    (hs.refl w0)
  unfold executeTopologicallyDetailed
  simp only
  cases hb : buildGraph pre (indexByPtr w0) (List.range w0.tasks_.length)
    { adj := List.replicate w0.tasks_.length [], indeg := List.replicate w0.tasks_.length 0 }
    w0 with
  | ok g w1 =>
    simp only
    obtain ⟨kok, kthrow⟩ := kahnLoop_rel hs g.adj w0 htask (w0.tasks_.length + 1)
      (seedQueue g.indeg) g.indeg [] w1 (gok g w1 hb)
    cases hk : kahnLoop (w0.tasks_.length + 1) g.adj (seedQueue g.indeg) g.indeg [] w1 with
    | ok oi w2 =>
      simp only
      refine ⟨?_, (by intro e w' h; split at h <;> cases h)⟩
      intro r w' h
      have : w' = w2 := by
        split at h <;>
        · simp only [Res.ok.injEq] at h
          exact h.2.symm
      rw [this]
      exact kok oi w2 hk
    | throw e w2 =>
      refine ⟨(by intro r w' h; cases h), ?_⟩
      intro e' w' h
      simp only [Res.throw.injEq] at h
      obtain ⟨rfl, rfl⟩ := h
      exact kthrow _ _ hk
    | undefined => exact ⟨(by intro r w' h; cases h), (by intro e w' h; cases h)⟩
  | throw e w1 =>
    refine ⟨(by intro r w' h; cases h), ?_⟩
    intro e' w' h
    simp only [Res.throw.injEq] at h
    obtain ⟨rfl, rfl⟩ := h
    exact gthrow _ _ hb
  | undefined => exact ⟨(by intro r w' h; cases h), (by intro e w' h; cases h)⟩

/-! ## Claim C3: the values after the bulk pass -/

/-- Forcing a dependency of a task never makes the output of that task ready:
a force that came back to the task would have to read the dependency being
forced. -/
theorem force_dep_keeps_unready {w : World} (hwf : WF w) {p : Nat} {t : Task}
    (ht : w.tasks[p]? = some t) {c : Nat} (hd : c ∈ t.deps)
    (hnr : (w.cell t.out).ready = false) {fuel : Nat} {w' : World}
    (hr : ensureReady fuel w c = .ok () w') : (w'.cell t.out).ready = false := by
  cases fuel with
  | zero => cases hr
  | succ fuel =>
    rcases ensureReady_ok hr with ⟨_, rfl⟩ | ⟨hnrc, _, q, tq, w2, hl, he, rfl, _⟩
    · exact hnr
    · have hlt := lt_of_lock w hl
      have hout := hwf.out_of_lock hl
      have htq := (lock_eq_some.mp hl).2
      rcases Task.execute_ok he with ⟨hrd1, _⟩ | ⟨_, hs, v', r, e1, _, rfl⟩
      · rw [setRunning_ready, hout, hnrc] at hrd1; cases hrd1
      · have hlzv : LzOk (w.setRunning c true) v' :=
          (callArgs_rel seq_lazy (ensureReady fuel) tq.args (w.setRunning c true)
            (fun d _ w1 h1 => ensureReady_lazy fuel w1
              (hwf.step ((step_setRunning_true hnrc).trans h1.1.step)) d)).1 _ _ e1
        obtain ⟨hlz, hnrc', _, _⟩ := lz_enter hlt hnrc hlzv.1
        have hvals := callArgs_vals (ensureReady_spec fuel) e1
        by_cases heq : t.out = c
        · exfalso
          have := hwf.out_inj ht htq (heq.trans hout.symm)
          subst this
          rw [ht] at htq
          cases htq
          rw [argVal_ready_of_mem hvals hd] at hnrc'
          cases hnrc'
        · have hne : tq.out ≠ t.out := by rw [hout]; exact fun h => heq h.symm
          rw [setRunning_ready, publish_cell_ne _ _ _ hne]
          cases hrv : (v'.cell t.out).ready with
          | false => rfl
          | true =>
            exfalso
            obtain ⟨p2, t2, hp2, ho2, _, vs, r2, hv2, _⟩ := hlz.made t.out hnr hrv
            have := hwf.out_inj hp2 ht ho2
            subst this
            rw [ht] at hp2
            cases hp2
            rw [argVal_ready_of_mem hv2 hd] at hnrc'
            cases hnrc'

theorem seq_argsOf (t : Task) : Seq (ArgsOf t) Lz :=
  { refl := fun w => ⟨seq_lazy.refl w, fun h => h⟩,
    trans := fun h1 h2 => ⟨seq_lazy.trans h1.1 h2.1, fun h => h2.2 (h1.2 h)⟩,
    absorb := fun h1 h2 => lz_trans h1.1.1 h2,
    weaken := fun h => h.1.1 }

theorem callArgs_direct {w : World} (hwf : WF w) {p : Nat} {t : Task}
    (ht : w.tasks[p]? = some t) (fuel : Nat) :
    (∀ vs w1, callArgs (ensureReady fuel) w t.args = .ok vs w1 → ArgsOf t w w1) ∧
    (∀ e w1, callArgs (ensureReady fuel) w t.args = .throw e w1 → Lz w w1) := by
  apply callArgs_rel (seq_argsOf t)
  intro d hd w1 h1
  have hwf1 := hwf.step h1.1.1.step
  have hr := ensureReady_lazy fuel w1 hwf1 d
  refine ⟨fun u w' h => ⟨hr.1 u w' h, fun hnr => ?_⟩, hr.2⟩
  exact force_dep_keeps_unready hwf1 (by rw [h1.1.1.step.tasks]; exact ht) hd hnr h

theorem consistent_publish {w : World} (hwf : WF w) (hc : Consistent w) {p : Nat} {t : Task}
    (ht : w.tasks[p]? = some t) (hnr : (w.cell t.out).ready = false) {vs : List Holder}
    {r : Holder} (hv : List.Forall₂ (ArgVal w) t.args vs) (hfn : t.fn vs = some r) :
    Consistent (w.publish p t.out r) := by
  have hfz : ∀ y, (w.cell y).ready = true → (w.publish p t.out r).cell y = w.cell y := by
    intro y hy
    apply publish_cell_ne
    rintro rfl
    rw [hnr] at hy; cases hy
  have hlt : t.out < w.cells.length := lt_of_producer w (hwf.bound p t ht)
  intro q s hs hrs
  rw [publish_tasks] at hs
  by_cases heq : t.out = s.out
  · have := hwf.out_inj ht hs heq
    subst this
    rw [ht] at hs
    cases hs
    exact ⟨vs, r, forall₂_argVal_frozen hfz hv, hfn, by rw [publish_cell_self _ _ _ hlt]⟩
  · rw [publish_cell_ne _ _ _ heq] at hrs
    exact (hc q s hs hrs).frozen hfz hrs

theorem consistent_logCall {w : World} (hc : Consistent w) (p : Nat) :
    Consistent (w.logCall p) := by
  intro q s hs hrs
  obtain ⟨vs, r, h1, h2, h3⟩ := hc q s hs hrs
  exact ⟨vs, r, forall₂_argVal_frozen (fun _ _ => rfl) h1, h2, h3⟩

/-- Executing a task directly keeps every ready output cell computed. -/
theorem runTask_consistent {w : World} (hwf : WF w) (hc : Consistent w) {p : Nat} {t : Task}
    (ht : w.tasks[p]? = some t) :
    (∀ x w', runTask w p t = .ok x w' → Consistent w') ∧
    (∀ e w', runTask w p t = .throw e w' → Consistent w') := by
  obtain ⟨aok, athrow⟩ := callArgs_direct hwf ht w.fuel
  unfold runTask
  split
  · refine ⟨?_, (by intro e w' h; cases h)⟩
    intro x w' h
    simp only [Res.ok.injEq] at h
    rw [← h.2]; exact hc
  · constructor
    · intro x w' h
      rcases Task.execute_ok h with ⟨_, rfl⟩ | ⟨hnr, hs, w1, r, e1, hfn, rfl⟩
      · exact hc
      · obtain ⟨hlz, hnr1⟩ := aok _ _ e1
        exact consistent_publish (hwf.step hlz.1.step) (lz_consistent hwf hc hlz.1)
          (by rw [hlz.1.step.tasks]; exact ht) (hnr1 hnr)
          (callArgs_vals (ensureReady_spec _) e1) hfn
    · intro e w' h
      obtain ⟨_, e1 | ⟨hs, w1, e1, _, _, rfl⟩⟩ := Task.execute_throw h
      · exact lz_consistent hwf hc (athrow _ _ e1)
      · exact consistent_logCall (lz_consistent hwf hc (aok _ _ e1).1.1) p

theorem seq_keeps : Seq Keeps Keeps := by
  have htrans : ∀ {a b c : World}, Keeps a b → Keeps b c → Keeps a c :=
    fun h1 h2 => ⟨h1.1.trans h2.1, fun hwf hc => h2.2 (hwf.step h1.1) (h1.2 hwf hc)⟩
  exact { refl := fun w => ⟨Step.refl w, fun _ h => h⟩, trans := htrans, absorb := htrans,
          weaken := fun h => h }

/-- The bulk pass, returned or thrown, keeps the state consistent. -/
theorem pass_keeps (pre : Bool) (w : World) (hwf : WF w) :
    (∀ r w', executeTopologicallyDetailed pre w = .ok r w' → Keeps w w') ∧
    (∀ e w', executeTopologicallyDetailed pre w = .throw e w' → Keeps w w') := by
  apply executeTopologicallyDetailed_rel seq_keeps
  · intro w1 c h1
    have hwf1 := hwf.step h1.1
    have hl := ensureReady_lazy w1.fuel w1 hwf1 c
    exact ⟨fun u w' h => ⟨(hl.1 u w' h).1.step, fun hw hc => lz_consistent hw hc (hl.1 u w' h).1⟩,
      fun e w' h => ⟨(hl.2 e w' h).step, fun hw hc => lz_consistent hw hc (hl.2 e w' h)⟩⟩
  · intro w1 u p t h1 ht
    have hwf1 := hwf.step h1.1
    have ht' := (taskAt_eq_some.mp ht).2
    have hs := runTask_spec w1 p t
    exact ⟨fun x w' h => ⟨(hs.1 x w' h).1.1, fun hw hc => (runTask_consistent hw hc ht').1 x w' h⟩,
      fun e w' h => ⟨hs.2 e w' h, fun hw hc => (runTask_consistent hw hc ht').2 e w' h⟩⟩

theorem kahnLoop_ready (w0 : World) (hwf : WF w0) (adj : List (List Nat)) :
    ∀ (fuel : Nat) (q indeg order : List Nat) (w : World), Step w0 w →
      (∀ u ∈ order, ∀ p t, w0.taskAt u = some (p, t) → (w.cell t.out).ready = true) →
      ∀ oi w', kahnLoop fuel adj q indeg order w = .ok oi w' →
        ∀ u ∈ oi.1, ∀ p t, w0.taskAt u = some (p, t) → (w'.cell t.out).ready = true := by
  intro fuel
  induction fuel with
  | zero => intro q indeg order w _ _ oi w' h; cases h
  | succ fuel ih =>
    intro q indeg order w hw hord oi w' h
    cases q with
    | nil =>
      simp only [kahnLoop, Res.ok.injEq] at h
      obtain ⟨rfl, rfl⟩ := h
      exact hord
    | cons u q =>
      rw [kahnLoop, hw.taskAt] at h
      cases ht : w0.taskAt u with
      | none => rw [ht] at h; cases h
      | some pt =>
        obtain ⟨p, t⟩ := pt
        rw [ht] at h
        simp only at h
        cases hr : runTask w p t with
        | ok x w1 =>
          rw [hr] at h
          simp only at h
          obtain ⟨hs1, hrd⟩ := (runTask_spec w p t).1 x w1 hr
          refine ih _ _ _ w1 (hw.trans hs1.1) ?_ oi w' h
          intro v hv pv tv htv
          rw [List.mem_append, List.mem_singleton] at hv
          rcases hv with hv | rfl
          · exact hs1.1.ready_mono (hord v hv pv tv htv)
          · rw [ht] at htv
            simp only [Option.some.injEq, Prod.mk.injEq] at htv
            obtain ⟨rfl, rfl⟩ := htv
            apply hrd
            rw [hw.len]
            exact lt_of_producer w0 (hwf.bound p t (taskAt_eq_some.mp ht).2)
        | throw e w1 => rw [hr] at h; cases h
        | undefined => rw [hr] at h; cases h

/-- After the bulk pass returns, the output cell of every task in the order is ready. -/
theorem pass_ready (pre : Bool) (w : World) (hwf : WF w) (r : TopoExec) (w' : World)
    (h : executeTopologicallyDetailed pre w = .ok r w') :
    ∀ u ∈ r.order, ∀ p t, w.taskAt u = some (p, t) → (w'.cell t.out).ready = true := by
  unfold executeTopologicallyDetailed at h
  simp only at h
  cases hb : buildGraph pre (indexByPtr w) (List.range w.tasks_.length)
    { adj := List.replicate w.tasks_.length [], indeg := List.replicate w.tasks_.length 0 } w with
  | ok g w1 =>
    rw [hb] at h
    simp only at h
    have hw1 : Step w w1 := ((buildGraph_spec pre w (List.range w.tasks_.length) _ w (Step.refl w)
      (fun v hv => hwf.taskAt_ne_none (List.mem_range.mp hv))).1 g w1 hb).2
    cases hk : kahnLoop (w.tasks_.length + 1) g.adj (seedQueue g.indeg) g.indeg [] w1 with
    | ok oi w2 =>
      rw [hk] at h
      simp only at h
      have key := kahnLoop_ready w hwf g.adj _ _ _ _ w1 hw1 (by intro u hu; cases hu) oi w2 hk
      split at h <;>
      · simp only [Res.ok.injEq] at h
        obtain ⟨rfl, rfl⟩ := h
        exact key
    | throw e w2 => rw [hk] at h; cases h
    | undefined => rw [hk] at h; cases h
  | throw e w1 => rw [hb] at h; cases h
  | undefined => rw [hb] at h; cases h

theorem mem_of_length_eq {l : List Nat} {n : Nat} (hnd : l.Nodup) (hb : ∀ x ∈ l, x < n)
    (hlen : l.length = n) : ∀ v, v < n → v ∈ l := by
  intro v hv
  have h1 : l.toFinset ⊆ Finset.range n := by
    intro x hx
    rw [List.mem_toFinset] at hx
    exact Finset.mem_range.mpr (hb x hx)
  have h2 : l.toFinset = Finset.range n := by
    apply Finset.eq_of_subset_of_card_le h1
    rw [List.toFinset_card_of_nodup hnd, Finset.card_range, hlen]
  have : v ∈ l.toFinset := by rw [h2]; exact Finset.mem_range.mpr hv
  exact List.mem_toFinset.mp this

/-- C3: after `executeTopologicallyDetailed` returns `ok = true` on a consistent
state, the output cell of every registered task is ready and holds the result of
the task's callable applied to the values of its bindings (a plain binding as
captured, a future binding as the value stored in its cell).  In the scenario,
after the pass, `getResult<int>` of the doubling task is 20 and of the constant-5
task is 5. -/
theorem pass_computes (pre : Bool) (w : World) (hwf : WF w) (hc : Consistent w) (r : TopoExec)
    (w' : World) (hres : executeTopologicallyDetailed pre w = .ok r w') (hok : r.ok = true) :
    (∀ v p t, w'.taskAt v = some (p, t) → (w'.cell t.out).ready = true ∧ Computed w' t) ∧
    ((getResult scenarioRun .int 2).val? = some { ty := .int, value := 20 } ∧
     (getResult scenarioRun .int 1).val? = some { ty := .int, value := 5 }) := by
  refine ⟨?_, by decide, by decide⟩
  obtain ⟨⟨⟨indeg, hk, _⟩, hrok⟩, hstep⟩ := (executeTopologicallyDetailed_spec pre w hwf).1 r w' hres
  have hlen : r.order.length = w.tasks_.length := by
    rw [hok] at hrok
    exact of_decide_eq_true hrok.symm
  have hall := mem_of_length_eq (by simpa using hk.nodup)
    (fun x hx => hk.bound x (by simpa using hx)) hlen
  have hkeep := ((pass_keeps pre w hwf).1 r w' hres).2 hwf hc
  intro v p t ht
  have hrd : (w'.cell t.out).ready = true := by
    rw [hstep.taskAt] at ht
    exact pass_ready pre w hwf r w' hres v (hall v (lt_of_taskAt ht)) p t ht
  exact ⟨hrd, hkeep p t (taskAt_eq_some.mp ht).2 hrd⟩

/-- C3 at the scenario. -/
theorem pass_computes_witness :
    (∀ v p t, scenarioRun.taskAt v = some (p, t) →
      (scenarioRun.cell t.out).ready = true ∧ Computed scenarioRun t) ∧
    ((getResult scenarioRun .int 2).val? = some { ty := .int, value := 20 } ∧
     (getResult scenarioRun .int 1).val? = some { ty := .int, value := 5 }) :=
  pass_computes true scenario scenario_wf scenario_consistent
    { ok := true, order := [0, 1, 2], stuck := [] } scenarioRun rfl rfl

/-! ## Claim C4: cycles in the bulk pass -/

theorem seq_avoids (S : Nat → Prop) : Seq (Avoids S) (Avoids S) := by
  have htrans : ∀ {a b c : World}, Avoids S a b → Avoids S b c → Avoids S a c := by
    intro a b c h1 h2
    refine ⟨h1.1.trans h2.1, fun hu => ?_⟩
    obtain ⟨hub, hnb⟩ := h1.2 hu
    obtain ⟨huc, hnc⟩ := h2.2 hub
    refine ⟨huc, fun p hp => ?_⟩
    rw [newCalls_trans h1.1 h2.1, List.mem_append]
    rintro (h | h)
    · exact hnb p hp h
    · exact hnc p hp h
  exact { refl := fun w => ⟨Step.refl w, fun hu => ⟨hu, fun p _ => by simp [newCalls_self]⟩⟩,
          trans := htrans, absorb := htrans, weaken := fun h => h }

theorem execute_avoids {S : Nat → Prop} {force : World → Nat → Res Unit} (hfs : ForceSpec force)
    {w : World} (hwf : WF w) (hsup : SelfSupported S w) {p : Nat} {t : Task}
    (ht : w.tasks[p]? = some t)
    (hf : ∀ d, d ∈ t.deps → ∀ w1, Avoids S w w1 → Respects (Avoids S) (Avoids S) force w1 d) :
    (∀ w', t.execute force w p = .ok () w' → Avoids S w w') ∧
    (∀ e w', t.execute force w p = .throw e w' → Avoids S w w') := by
  have hc := callArgs_rel (seq_avoids S) force t.args w hf
  have hst := Task.execute_step hfs w p t
  have hnot : ∀ (vs : List Holder) (w1 : World), callArgs force w t.args = .ok vs w1 →
      Unready S w1 → ¬ S p := by
    intro vs w1 e1 hu1 hp
    have hs1 := (hc.1 _ _ e1).1
    obtain ⟨c, hcd, q, tq, htq, hout, hq⟩ := hsup p t hp ht
    have h1 := hu1 q tq hq (by rw [hs1.tasks]; exact htq)
    rw [hout, argVal_ready_of_mem (callArgs_vals hfs e1) hcd] at h1
    cases h1
  constructor
  · intro w' hr
    refine ⟨(hst.1 w' hr).1.1, fun hu => ?_⟩
    rcases Task.execute_ok hr with ⟨_, rfl⟩ | ⟨_, hs, w1, r, e1, _, rfl⟩
    · exact ⟨hu, fun p _ => by simp [newCalls_self]⟩
    · obtain ⟨hs1, h1⟩ := hc.1 _ _ e1
      obtain ⟨hu1, hn1⟩ := h1 hu
      have hp := hnot _ _ e1 hu1
      refine ⟨?_, ?_⟩
      · intro q tq hq htq
        rw [publish_tasks] at htq
        have hne : t.out ≠ tq.out := by
          intro heq
          have := hwf.out_inj ht (by rw [← hs1.tasks]; exact htq) heq
          subst this
          exact hp hq
        rw [publish_cell_ne _ _ _ hne]
        exact hu1 q tq hq htq
      · intro q hq
        rw [newCalls_publish hs1, List.mem_append, List.mem_singleton]
        rintro (h | rfl)
        · exact hn1 q hq h
        · exact hp hq
  · intro e w' hr
    refine ⟨hst.2 e w' hr, fun hu => ?_⟩
    obtain ⟨_, e1 | ⟨hs, w1, e1, _, _, rfl⟩⟩ := Task.execute_throw hr
    · exact (hc.2 _ _ e1).2 hu
    · obtain ⟨hs1, h1⟩ := hc.1 _ _ e1
      obtain ⟨hu1, hn1⟩ := h1 hu
      have hp := hnot _ _ e1 hu1
      refine ⟨fun q tq hq htq => hu1 q tq hq htq, ?_⟩
      intro q hq
      rw [newCalls_logCall hs1, List.mem_append, List.mem_singleton]
      rintro (h | rfl)
      · exact hn1 q hq h
      · exact hp hq

theorem SelfSupported.mono_step {S : Nat → Prop} {w w' : World} (h : SelfSupported S w)
    (hs : Step w w') : SelfSupported S w' := by
  intro p t hp ht
  rw [hs.tasks] at ht ⊢
  exact h p t hp ht

theorem avoids_bracket {S : Nat → Prop} {w w2 : World} {c : Nat} (b : Bool)
    (hs : Step w (w2.setRunning c b)) (h : Avoids S (w.setRunning c true) w2) :
    Avoids S w (w2.setRunning c b) := by
  refine ⟨hs, fun hu => ?_⟩
  have hu1 : Unready S (w.setRunning c true) := by
    intro p t hp ht
    rw [setRunning_ready]
    exact hu p t hp ht
  obtain ⟨hu2, hn2⟩ := h.2 hu1
  refine ⟨?_, hn2⟩
  intro p t hp ht
  rw [setRunning_ready]
  exact hu2 p t hp ht

/-- A force never completes a task of a self-supported set of unready tasks,
and never invokes its callable. -/
theorem ensureReady_avoids (S : Nat → Prop) : ∀ (fuel : Nat) (w : World) (c : Nat), WF w →
    SelfSupported S w → Respects (Avoids S) (Avoids S) (ensureReady fuel) w c := by
  intro fuel
  induction fuel with
  | zero =>
    intro w c _ _
    exact ⟨fun u w' h => (by cases h), fun e w' h => (by cases h)⟩
  | succ fuel ih =>
    intro w c hwf hsup
    have hexec : ∀ (p : Nat) (t : Task), w.lock c = some (p, t) → (w.cell c).ready = false →
        (∀ w', t.execute (ensureReady fuel) (w.setRunning c true) p = .ok () w' →
          Avoids S (w.setRunning c true) w') ∧
        (∀ e w', t.execute (ensureReady fuel) (w.setRunning c true) p = .throw e w' →
          Avoids S (w.setRunning c true) w') := by
      intro p t hl hnr
      have hs0 := step_setRunning_true hnr
      apply execute_avoids (ensureReady_spec fuel) (hwf.step hs0) (hsup.mono_step hs0)
        (by simpa using (lock_eq_some.mp hl).2)
      intro d _ w1 h1
      exact ih w1 d (hwf.step (hs0.trans h1.1)) (hsup.mono_step (hs0.trans h1.1))
    constructor
    · intro u w' hr
      have hstep := ((ensureReady_spec (fuel + 1)).ok hr).1.1
      rcases ensureReady_ok hr with ⟨_, rfl⟩ | ⟨hnr, _, p, t, w2, hl, he, rfl, _⟩
      · exact (seq_avoids S).refl _
      · exact avoids_bracket false hstep ((hexec p t hl hnr).1 _ he)
    · intro e w' hr
      have hstep := (ensureReady_spec (fuel + 1)).throw hr
      obtain ⟨hnr, h⟩ := ensureReady_throw hr
      rcases h with ⟨_, _, rfl⟩ | ⟨_, _, _, _, rfl⟩ | ⟨_, p, t, hl, h⟩
      · exact (seq_avoids S).refl _
      · exact (seq_avoids S).refl _
      · rcases h with he | ⟨w2, he, rfl, _, _⟩
        · have h1 := (hexec p t hl hnr).2 _ _ he
          refine ⟨hstep, fun hu => ?_⟩
          exact h1.2 (fun p t hp ht => by rw [setRunning_ready]; exact hu p t hp ht)
        · exact avoids_bracket false hstep ((hexec p t hl hnr).1 _ he)

theorem runTask_avoids {S : Nat → Prop} {w : World} (hwf : WF w) (hsup : SelfSupported S w)
    {p : Nat} {t : Task} (ht : w.tasks[p]? = some t) :
    (∀ x w', runTask w p t = .ok x w' → Avoids S w w') ∧
    (∀ e w', runTask w p t = .throw e w' → Avoids S w w') := by
  unfold runTask
  split
  · refine ⟨?_, (by intro e w' h; cases h)⟩
    intro x w' h
    simp only [Res.ok.injEq] at h
    rw [← h.2]; exact (seq_avoids S).refl _
  · have := execute_avoids (ensureReady_spec w.fuel) hwf hsup ht
      (fun d _ w1 h1 => ensureReady_avoids S w.fuel w1 d (hwf.step h1.1) (hsup.mono_step h1.1))
    exact ⟨fun _ w' h => this.1 w' h, this.2⟩

/-- The bulk pass, returned or thrown, never invokes the callable of a task of
a self-supported set of unready tasks. -/
theorem pass_avoids (S : Nat → Prop) (pre : Bool) (w : World) (hwf : WF w)
    (hsup : SelfSupported S w) :
    (∀ r w', executeTopologicallyDetailed pre w = .ok r w' → Avoids S w w') ∧
    (∀ e w', executeTopologicallyDetailed pre w = .throw e w' → Avoids S w w') := by
  apply executeTopologicallyDetailed_rel (seq_avoids S)
  · intro w1 c h1
    exact ensureReady_avoids S _ w1 c (hwf.step h1.1) (hsup.mono_step h1.1)
  · intro w1 u p t h1 ht
    exact runTask_avoids (hwf.step h1.1) (hsup.mono_step h1.1) (taskAt_eq_some.mp ht).2

theorem transGen_topo {w : World} {indeg order : List Nat} (hk : KInv w [] indeg order)
    {u v : Nat} (h : TransGen (GEdge w) u v) :
    ∀ j : Nat, order[j]? = some v → ∃ i : Nat, i < j ∧ order[i]? = some u := by
  induction h with
  | single h1 => exact fun j hj => hk.topo j _ hj u h1.2
  | tail _ h1 ih =>
    intro j hj
    obtain ⟨i, hi, hio⟩ := hk.topo j _ hj _ h1.2
    obtain ⟨i', hi', hio'⟩ := ih i hio
    exact ⟨i', by omega, hio'⟩

/-- A task on a cycle is never in the order. -/
theorem cycle_not_ordered {w : World} {indeg order : List Nat} (hk : KInv w [] indeg order)
    {v : Nat} (h : TransGen (GEdge w) v v) : v ∉ order := by
  intro hv
  obtain ⟨j, hj⟩ := List.getElem?_of_mem hv
  obtain ⟨i, hi, hio⟩ := transGen_topo hk h j hj
  have hnd : order.Nodup := by simpa using hk.nodup
  have hjl : j < order.length := by
    by_contra hc
    rw [List.getElem?_eq_none (by omega)] at hj
    cases hj
  have hil : i < order.length := by omega
  rw [List.getElem?_eq_getElem hjl] at hj
  rw [List.getElem?_eq_getElem hil] at hio
  have := (List.Nodup.getElem_inj_iff hnd).mp ((Option.some.inj hio).trans (Option.some.inj hj).symm)
  omega

theorem onCycle_selfSupported (w : World) : SelfSupported (OnCycle w) w := by
  rintro p t ⟨u, hcyc, hu⟩ ht
  obtain ⟨u', h1, h2⟩ := TransGen.tail'_iff.mp hcyc
  obtain ⟨pu', tu', pu, tu, e1, e2, e3⟩ := h2
  obtain ⟨e2a, e2b⟩ := taskAt_eq_some.mp e2
  rw [hu] at e2a
  cases e2a
  rw [ht] at e2b
  cases e2b
  obtain ⟨e1a, e1b⟩ := taskAt_eq_some.mp e1
  exact ⟨tu'.out, e3, pu', tu', e1b, rfl,
    u', TransGen.head' ⟨pu', tu', p, t, e1, e2, e3⟩ h1, e1a⟩

theorem stuckOf_mem (indeg : List Nat) (v : Nat) :
    v ∈ stuckOf indeg ↔ v < indeg.length ∧ indeg.getD v 0 ≠ 0 := by
  unfold stuckOf
  simp [-List.getD_eq_getElem?_getD]

theorem mutualAndMistyped_wf : WF mutualAndMistyped :=
  add_wf (add_wf (add_wf (add_wf (empty_wf false) _ _) _ _) _ _) _ _

theorem mutualAndMistyped_edge01 : Edge mutualAndMistyped 0 1 :=
  ⟨0, { fn := doubleInt, args := [getFutureResult .int 1], out := 0 }, 1,
    { fn := doubleInt, args := [getFutureResult .int 0], out := 1 }, rfl, rfl, by decide⟩

theorem mutualAndMistyped_edge10 : Edge mutualAndMistyped 1 0 :=
  ⟨1, { fn := doubleInt, args := [getFutureResult .int 0], out := 1 }, 0,
    { fn := doubleInt, args := [getFutureResult .int 1], out := 0 }, rfl, rfl, by decide⟩

theorem mutualAndMistyped_cycle : TransGen (Edge mutualAndMistyped) 0 0 :=
  TransGen.tail (TransGen.single mutualAndMistyped_edge01) mutualAndMistyped_edge10

/-- C4, as stated, fails: the graph of `mutualAndMistyped` contains the cycle
of the tasks 0 and 1, and the pass does not return normally: the `std::bad_cast`
raised by the unrelated task 3 leaves `executeTopologicallyDetailed`. -/
theorem cycle_pass_throws :
    WF mutualAndMistyped ∧ TransGen (Edge mutualAndMistyped) 0 0 ∧
      (executeTopologicallyDetailed true mutualAndMistyped).exn? = some .bad_cast :=
  ⟨mutualAndMistyped_wf, mutualAndMistyped_cycle, by decide⟩

/-- C4, amended: when the registered dependency graph contains a cycle, the
bulk pass terminates; unless an exception raised while a task outside the cycle
is forced or executed leaves it, it returns `ok = false` and a non-empty `stuck`
list that contains the index of every task on a cycle; and, returned or thrown,
it has invoked the callable of no task on a cycle (the cells of those tasks not
being ready when the pass starts). -/
theorem cycle_reported (pre : Bool) (w : World) (hwf : WF w) (v : Nat)
    (hcyc : TransGen (Edge w) v v) :
    ((executeTopologicallyDetailed pre w).exn? = none →
      ∃ r w', executeTopologicallyDetailed pre w = .ok r w' ∧ r.ok = false ∧ r.stuck ≠ [] ∧
        ∀ u, TransGen (Edge w) u u → u ∈ r.stuck) ∧
    (Unready (OnCycle w) w → ∀ w', (executeTopologicallyDetailed pre w).world? = some w' →
      ∀ u p t, TransGen (Edge w) u u → w.taskAt u = some (p, t) → p ∉ newCalls w w') := by
  constructor
  · intro hno
    obtain ⟨hok, _, hdef⟩ := executeTopologicallyDetailed_spec pre w hwf
    cases hr : executeTopologicallyDetailed pre w with
    | ok r w' =>
      obtain ⟨⟨⟨indeg, hk, hstuck⟩, hrok⟩, _⟩ := hok r w' hr
      have hnd : r.order.Nodup := by simpa using hk.nodup
      have hb : ∀ x ∈ r.order, x < w.tasks_.length := fun x hx => hk.bound x (by simpa using hx)
      have hmem : ∀ u, TransGen (Edge w) u u → u < w.tasks_.length ∧ u ∉ r.order := by
        intro u hu
        have hg := (transGen_gedge_iff hwf u u).mpr hu
        refine ⟨?_, cycle_not_ordered hk hg⟩
        obtain ⟨x, _, hx⟩ := TransGen.tail'_iff.mp hg
        exact hx.1
      have hlen : r.order.length ≠ w.tasks_.length := by
        intro hl
        exact (hmem v hcyc).2 (mem_of_length_eq hnd hb hl v (hmem v hcyc).1)
      rw [if_neg hlen] at hstuck
      have hall : ∀ u, TransGen (Edge w) u u → u ∈ r.stuck := by
        intro u hu
        obtain ⟨h1, h2⟩ := hmem u hu
        rw [hstuck, stuckOf_mem, hk.len]
        refine ⟨h1, fun h0 => h2 ?_⟩
        simpa using (hk.zero u h1).2 h0
      refine ⟨r, w', rfl, ?_, ?_, hall⟩
      · rw [hrok]; exact decide_eq_false hlen
      · intro hnil
        have := hall v hcyc
        rw [hnil] at this
        cases this
    | throw e w' => rw [hr] at hno; simp [Res.exn?] at hno
    | undefined => exact absurd hr hdef
  · intro hun w' hw' u p t hu ht
    obtain ⟨aok, athrow⟩ := pass_avoids (OnCycle w) pre w hwf (onCycle_selfSupported w)
    have hav : Avoids (OnCycle w) w w' := by
      cases hr : executeTopologicallyDetailed pre w with
      | ok r w1 =>
        rw [hr] at hw'
        simp only [Res.world?, Option.some.injEq] at hw'
        rw [← hw']; exact aok r w1 hr
      | throw e w1 =>
        rw [hr] at hw'
        simp only [Res.world?, Option.some.injEq] at hw'
        rw [← hw']; exact athrow e w1 hr
      | undefined => rw [hr] at hw'; simp [Res.world?] at hw'
    exact (hav.2 hun).2 p ⟨u, hu, (taskAt_eq_some.mp ht).1⟩

theorem mutualPair_edge01 : Edge mutualPair 0 1 :=
  ⟨0, { fn := doubleInt, args := [getFutureResult .int 1], out := 0 }, 1,
    { fn := doubleInt, args := [getFutureResult .int 0], out := 1 }, rfl, rfl, by decide⟩

theorem mutualPair_edge10 : Edge mutualPair 1 0 :=
  ⟨1, { fn := doubleInt, args := [getFutureResult .int 0], out := 1 }, 0,
    { fn := doubleInt, args := [getFutureResult .int 1], out := 0 }, rfl, rfl, by decide⟩

theorem mutualPair_cycle : TransGen (Edge mutualPair) 0 0 :=
  TransGen.tail (TransGen.single mutualPair_edge01) mutualPair_edge10

theorem mutualPair_fresh : Fresh mutualPair :=
  add_fresh (add_fresh (fresh_of_add_empty false) _ _) _ _

/-- The amended C4 at two mutually dependent tasks: the pass returns, reports
both indices as stuck, and invokes neither callable. -/
theorem cycle_reported_witness :
    (∃ r w', executeTopologicallyDetailed true mutualPair = .ok r w' ∧ r.ok = false ∧
        r.stuck ≠ [] ∧ ∀ u, TransGen (Edge mutualPair) u u → u ∈ r.stuck) ∧
    (∀ w', (executeTopologicallyDetailed true mutualPair).world? = some w' →
      ∀ u p t, TransGen (Edge mutualPair) u u → mutualPair.taskAt u = some (p, t) →
        p ∉ newCalls mutualPair w') :=
  ⟨(cycle_reported true mutualPair mutualPair_wf 0 mutualPair_cycle).1 (by decide),
   (cycle_reported true mutualPair mutualPair_wf 0 mutualPair_cycle).2
     (fun p t _ _ => (mutualPair_fresh t.out).1)⟩

theorem mutualPair_pass :
    (executeTopologicallyDetailed true mutualPair).val? =
        some { ok := false, order := [], stuck := [0, 1] } ∧
      (executeTopologicallyDetailed true mutualPair).world?.map (fun w => w.calls) = some [] := by
  decide

/-! ## Exception-indexed relations carried through the runs -/

theorem ArgWrap.get_relE {R : World → World → Prop} {E : Exn → World → World → Prop}
    (hs : SeqE R E) (force : World → Nat → Res Unit) (a : ArgWrap) (w : World)
    (hf : ∀ c, a.depCell = some c → RespectsE R E force w c) :
    (∀ h w', a.get force w = .ok h w' → R w w') ∧
      (∀ e w', a.get force w = .throw e w' → E e w w') := by
  cases a with
  | plain v =>
    constructor
    · intro h w' hr
      simp only [ArgWrap.get, Res.ok.injEq] at hr
      rw [← hr.2]; exact hs.refl w
    · intro e w' hr
      simp [ArgWrap.get] at hr
  | future U c =>
    constructor
    · intro h w' hr
      exact (hf c rfl).1 _ _ (Future.get_eq_ok hr).1
    · intro e w' hr
      rcases Future.get_eq_throw hr with h1 | ⟨h1, h2⟩
      · exact (hf c rfl).2 _ _ h1
      · rw [as_error h2]
        exact hs.weaken ((hf c rfl).1 _ _ h1)

theorem evalArgs_relE {R : World → World → Prop} {E : Exn → World → World → Prop}
    (hs : SeqE R E) (force : World → Nat → Res Unit) :
    ∀ (args : List ArgWrap) (w : World),
      (∀ c, c ∈ args.filterMap ArgWrap.depCell → ∀ w1, R w w1 → RespectsE R E force w1 c) →
      (∀ vs w', evalArgs force w args = .ok vs w' → R w w') ∧
        (∀ e w', evalArgs force w args = .throw e w' → E e w w') := by
  intro args
  induction args with
  | nil =>
    intro w _
    constructor
    · intro vs w' hr
      simp only [evalArgs, Res.ok.injEq] at hr
      rw [← hr.2]; exact hs.refl w
    · intro e w' hr
      simp [evalArgs] at hr
  | cons a rest ih =>
    intro w hf
    have ha := ArgWrap.get_relE hs force a w
      (fun c hc => hf c (by simp [List.filterMap_cons, hc]) w (hs.refl w))
    have hrest : ∀ w1, R w w1 → (∀ vs w', evalArgs force w1 rest = .ok vs w' → R w1 w') ∧
        (∀ e w', evalArgs force w1 rest = .throw e w' → E e w1 w') := by
      intro w1 h1
      apply ih
      intro c hc w2 h2
      apply hf c _ w2 (hs.trans h1 h2)
      cases hd : a.depCell <;> simp [List.filterMap_cons, hd, hc]
    constructor
    · intro vs w' hr
      obtain ⟨h, hs', w1, e1, e2, _⟩ := evalArgs_cons_ok hr
      have r1 := ha.1 _ _ e1
      exact hs.trans r1 ((hrest w1 r1).1 _ _ e2)
    · intro e w' hr
      rcases evalArgs_cons_throw hr with e1 | ⟨h, w1, e1, e2⟩
      · exact ha.2 _ _ e1
      · have r1 := ha.1 _ _ e1
        exact hs.absorb r1 ((hrest w1 r1).2 _ _ e2)

theorem callArgs_relE {R : World → World → Prop} {E : Exn → World → World → Prop}
    (hs : SeqE R E) (force : World → Nat → Res Unit) (args : List ArgWrap) (w : World)
    (hf : ∀ c, c ∈ args.filterMap ArgWrap.depCell → ∀ w1, R w w1 → RespectsE R E force w1 c) :
    (∀ vs w', callArgs force w args = .ok vs w' → R w w') ∧
      (∀ e w', callArgs force w args = .throw e w' → E e w w') := by
  have h1 := evalArgs_relE hs force args w hf
  have h2 := evalArgs_relE hs force args.reverse w
    (fun c hc => hf c (by rw [List.filterMap_reverse] at hc; exact List.mem_reverse.mp hc))
  constructor
  · intro vs w' hr
    rcases callArgs_ok hr with ⟨_, e⟩ | ⟨_, e⟩
    · exact h1.1 _ _ e
    · exact h2.1 _ _ e
  · intro e w' hr
    rcases callArgs_throw hr with e1 | e1
    · exact h1.2 _ _ e1
    · exact h2.2 _ _ e1

theorem forceIfNotReady_relE {R : World → World → Prop} {E : Exn → World → World → Prop}
    (hs : SeqE R E) (w : World) (c : Nat)
    (hf : RespectsE R E (ensureReady w.fuel) w c) :
    (∀ u w', forceIfNotReady w c = .ok u w' → R w w') ∧
    (∀ e w', forceIfNotReady w c = .throw e w' → E e w w') := by
  unfold forceIfNotReady
  split
  · refine ⟨?_, ?_⟩
    · intro u w' h
      simp only [Res.ok.injEq] at h
      rw [← h.2]; exact hs.refl w
    · intro e w' h; cases h
  · exact hf

theorem buildDeps_relE {R : World → World → Prop} {E : Exn → World → World → Prop}
    (hs : SeqE R E) (pre : Bool) (idx : Nat → Option Nat) (v : Nat) (w0 : World)
    (hforce : ∀ w c, R w0 w → RespectsE R E (ensureReady w.fuel) w c) :
    ∀ (cs seen : List Nat) (g : Graph) (w : World), R w0 w →
      (∀ sg w', buildDeps pre idx v cs seen g w = .ok sg w' → R w0 w') ∧
      (∀ e w', buildDeps pre idx v cs seen g w = .throw e w' → E e w0 w') := by
  intro cs
  induction cs with
  | nil =>
    intro seen g w hw
    refine ⟨?_, ?_⟩
    · intro sg w' h
      simp only [buildDeps, Res.ok.injEq] at h
      rw [← h.2]; exact hw
    · intro e w' h; simp [buildDeps] at h
  | cons c cs ih =>
    intro seen g w hw
    rw [buildDeps]
    split
    · obtain ⟨fok, fthrow⟩ := forceIfNotReady_relE hs w c (hforce w c hw)
      cases hf : forceIfNotReady w c with
      | ok u w1 =>
        simp only
        exact ih seen g w1 (hs.trans hw (fok u w1 hf))
      | throw e w1 =>
        refine ⟨(by intro sg w' h; cases h), ?_⟩
        intro e' w' h
        simp only [Res.throw.injEq] at h
        obtain ⟨rfl, rfl⟩ := h
        exact hs.absorb hw (fthrow _ _ hf)
      | undefined =>
        exact ⟨(by intro sg w' h; cases h), (by intro e w' h; cases h)⟩
    · exact ih _ _ w hw

theorem buildGraph_relE {R : World → World → Prop} {E : Exn → World → World → Prop}
    (hs : SeqE R E) (pre : Bool) (idx : Nat → Option Nat) (w0 : World)
    (hforce : ∀ w c, R w0 w → RespectsE R E (ensureReady w.fuel) w c) :
    ∀ (vs : List Nat) (g : Graph) (w : World), R w0 w →
      (∀ g' w', buildGraph pre idx vs g w = .ok g' w' → R w0 w') ∧
      (∀ e w', buildGraph pre idx vs g w = .throw e w' → E e w0 w') := by
  intro vs
  induction vs with
  | nil =>
    intro g w hw
    refine ⟨?_, ?_⟩
    · intro g' w' h
      simp only [buildGraph, Res.ok.injEq] at h
      rw [← h.2]; exact hw
    · intro e w' h; simp [buildGraph] at h
  | cons v vs ih =>
    intro g w hw
    rw [buildGraph]
    cases ht : w.taskAt v with
    | none => exact ⟨(by intro sg w' h; cases h), (by intro e w' h; cases h)⟩
    | some pt =>
      obtain ⟨p, t⟩ := pt
      simp only
      obtain ⟨dok, dthrow⟩ := buildDeps_relE hs pre idx v w0 hforce t.deps [] g w hw
      cases hd : buildDeps pre idx v t.deps [] g w with
      | ok sg w1 =>
        simp only
        exact ih sg.2 w1 (dok sg w1 hd)
      | throw e w1 =>
        refine ⟨(by intro sg w' h; cases h), ?_⟩
        intro e' w' h
        simp only [Res.throw.injEq] at h
        obtain ⟨rfl, rfl⟩ := h
        exact dthrow _ _ hd
      | undefined =>
        exact ⟨(by intro sg w' h; cases h), (by intro e w' h; cases h)⟩

theorem kahnLoop_relE {R : World → World → Prop} {E : Exn → World → World → Prop}
    (hs : SeqE R E) (adj : List (List Nat)) (w0 : World)
    (htask : ∀ w u p t, R w0 w → w.taskAt u = some (p, t) →
      (∀ x w', runTask w p t = .ok x w' → R w w') ∧
      (∀ e w', runTask w p t = .throw e w' → E e w w')) :
    ∀ (fuel : Nat) (q indeg order : List Nat) (w : World), R w0 w →
      (∀ oi w', kahnLoop fuel adj q indeg order w = .ok oi w' → R w0 w') ∧
      (∀ e w', kahnLoop fuel adj q indeg order w = .throw e w' → E e w0 w') := by
  intro fuel
  induction fuel with
  | zero =>
    intro q indeg order w _
    exact ⟨(by intro oi w' h; cases h), (by intro e w' h; cases h)⟩
  | succ fuel ih =>
    intro q indeg order w hw
    cases q with
    | nil =>
      rw [kahnLoop]
      refine ⟨?_, (by intro e w' h; cases h)⟩
      intro oi w' h
      simp only [Res.ok.injEq] at h
      rw [← h.2]; exact hw
    | cons u q =>
      rw [kahnLoop]
      cases ht : w.taskAt u with
      | none => exact ⟨(by intro oi w' h; cases h), (by intro e w' h; cases h)⟩
      | some pt =>
        obtain ⟨p, t⟩ := pt
        simp only
        obtain ⟨tok, tthrow⟩ := htask w u p t hw ht
        cases hr : runTask w p t with
        | ok x w1 =>
          simp only
          exact ih _ _ _ w1 (hs.trans hw (tok x w1 hr))
        | throw e w1 =>
          refine ⟨(by intro oi w' h; cases h), ?_⟩
          intro e' w' h
          simp only [Res.throw.injEq] at h
          obtain ⟨rfl, rfl⟩ := h
          exact hs.absorb hw (tthrow _ _ hr)
        | undefined =>
          exact ⟨(by intro oi w' h; cases h), (by intro e w' h; cases h)⟩

/-- An exception-indexed relation that every force and every direct execution
respects holds around the whole bulk pass. -/
theorem executeTopologicallyDetailed_relE {R : World → World → Prop}
    {E : Exn → World → World → Prop} (hs : SeqE R E)
    (pre : Bool) (w0 : World)
    (hforce : ∀ w c, R w0 w → RespectsE R E (ensureReady w.fuel) w c)
    (htask : ∀ w u p t, R w0 w → w.taskAt u = some (p, t) →
      (∀ x w', runTask w p t = .ok x w' → R w w') ∧
      (∀ e w', runTask w p t = .throw e w' → E e w w')) :
    (∀ r w', executeTopologicallyDetailed pre w0 = .ok r w' → R w0 w') ∧
    (∀ e w', executeTopologicallyDetailed pre w0 = .throw e w' → E e w0 w') := by
  obtain ⟨gok, gthrow⟩ := buildGraph_relE hs pre (indexByPtr w0) w0 hforce
    (List.range w0.tasks_.length)
    { adj := List.replicate w0.tasks_.length [], indeg := List.replicate w0.tasks_.length 0 } w0
    (hs.refl w0)
  unfold executeTopologicallyDetailed
  simp only
  cases hb : buildGraph pre (indexByPtr w0) (List.range w0.tasks_.length)
    { adj := List.replicate w0.tasks_.length [], indeg := List.replicate w0.tasks_.length 0 }
    w0 with
  | ok g w1 =>
    simp only
    obtain ⟨kok, kthrow⟩ := kahnLoop_relE hs g.adj w0 htask (w0.tasks_.length + 1)
      (seedQueue g.indeg) g.indeg [] w1 (gok g w1 hb)
    cases hk : kahnLoop (w0.tasks_.length + 1) g.adj (seedQueue g.indeg) g.indeg [] w1 with
    | ok oi w2 =>
      simp only
      refine ⟨?_, (by intro e w' h; split at h <;> cases h)⟩
      intro r w' h
      have : w' = w2 := by
        split at h <;>
        · simp only [Res.ok.injEq] at h
          exact h.2.symm
      rw [this]
      exact kok oi w2 hk
    | throw e w2 =>
      refine ⟨(by intro r w' h; cases h), ?_⟩
      intro e' w' h
      simp only [Res.throw.injEq] at h
      obtain ⟨rfl, rfl⟩ := h
      exact kthrow _ _ hk
    | undefined => exact ⟨(by intro r w' h; cases h), (by intro e w' h; cases h)⟩
  | throw e w1 =>
    refine ⟨(by intro r w' h; cases h), ?_⟩
    intro e' w' h
    simp only [Res.throw.injEq] at h
    obtain ⟨rfl, rfl⟩ := h
    exact gthrow _ _ hb
  | undefined => exact ⟨(by intro r w' h; cases h), (by intro e w' h; cases h)⟩

theorem not_ready_of_step {a b : World} (h : Step a b) {c : Nat}
    (hb : (b.cell c).ready = false) : (a.cell c).ready = false := by
  cases ha : (a.cell c).ready with
  | false => rfl
  | true => rw [h.ready_mono ha] at hb; cases hb

theorem AllDone.mono_right {a b c : World} {ps : List Nat} (h : AllDone a b ps)
    (hs : Step b c) : AllDone a c ps := by
  intro p hp
  obtain ⟨t, ht, h1, h2⟩ := h p hp
  exact ⟨t, ht, h1, hs.ready_mono h2⟩

theorem AllDone.mono_left {a b c : World} {ps : List Nat} (hs : Step a b)
    (h : AllDone b c ps) : AllDone a c ps := by
  intro p hp
  obtain ⟨t, ht, h1, h2⟩ := h p hp
  exact ⟨t, by rw [← hs.tasks]; exact ht, not_ready_of_step hs h1, h2⟩

theorem AllDone.append {a b : World} {ps qs : List Nat} (h1 : AllDone a b ps)
    (h2 : AllDone a b qs) : AllDone a b (ps ++ qs) := by
  intro p hp
  rcases List.mem_append.mp hp with h | h
  · exact h1 p h
  · exact h2 p h

/-- The callables invoked by a run that returned and those invoked by a run
that follows it are different. -/
theorem nodup_newCalls_append {a b c : World} (h1 : RunOk a b) (hs : Step b c)
    (hn : (newCalls b c).Nodup)
    (hc : ∀ p ∈ newCalls b c, ∃ t : Task, b.tasks[p]? = some t ∧ (b.cell t.out).ready = false) :
    (newCalls a c).Nodup := by
  rw [newCalls_trans h1.step hs, List.nodup_append]
  refine ⟨h1.once, hn, ?_⟩
  intro p hp hp'
  obtain ⟨t, ht, _, hr⟩ := h1.done p hp
  obtain ⟨t', ht', hr'⟩ := hc p hp'
  rw [h1.step.tasks, ht] at ht'
  cases ht'
  rw [hr] at hr'
  cases hr'

theorem runOk_trans {a b c : World} (h1 : RunOk a b) (h2 : RunOk b c) : RunOk a c := by
  refine { step := h1.step.trans h2.step, once := ?_, done := ?_ }
  · exact nodup_newCalls_append h1 h2.step h2.once
      (fun p hp => by obtain ⟨t, ht, h, _⟩ := h2.done p hp; exact ⟨t, ht, h⟩)
  · rw [newCalls_trans h1.step h2.step]
    exact (h1.done.mono_right h2.step).append (AllDone.mono_left h1.step h2.done)

theorem runOk_absorb {e : Exn} {a b c : World} (h1 : RunOk a b) (h2 : RunThrow e b c) :
    RunThrow e a c := by
  have hnc := newCalls_trans h1.step h2.step
  refine { step := h1.step.trans h2.step, complete := h2.complete, once := ?_, called := ?_,
           done := ?_, failed := ?_ }
  · exact nodup_newCalls_append h1 h2.step h2.once h2.called
  · intro p hp
    rw [hnc] at hp
    rcases List.mem_append.mp hp with h | h
    · obtain ⟨t, ht, h, _⟩ := h1.done p h
      exact ⟨t, ht, h⟩
    · obtain ⟨t, ht, h⟩ := h2.called p h
      exact ⟨t, by rw [← h1.step.tasks]; exact ht, not_ready_of_step h1.step h⟩
  · intro he
    rw [hnc]
    exact (h1.done.mono_right h2.step).append (AllDone.mono_left h1.step (h2.done he))
  · intro he
    obtain ⟨front, q, t, vs, e1, e2, e3, e4, e5, e6⟩ := h2.failed he
    refine ⟨newCalls a b ++ front, q, t, vs, ?_, by rw [← h1.step.tasks]; exact e2, e3, e4, e5, ?_⟩
    · rw [hnc, e1, List.append_assoc]
    · exact (h1.done.mono_right h2.step).append (AllDone.mono_left h1.step e6)

theorem runOk_refl (w : World) : RunOk w w :=
  { step := Step.refl w, once := by simp [newCalls_self],
    done := by intro p hp; simp [newCalls_self] at hp }

theorem runOk_weaken {a b : World} (h : RunOk a b) : RunThrow .bad_cast a b :=
  { step := h.step, complete := (by intro he; cases he), once := h.once,
    called := fun p hp => by obtain ⟨t, ht, h1, _⟩ := h.done p hp; exact ⟨t, ht, h1⟩,
    done := fun _ => h.done,
    failed := fun he => by cases he }

theorem seqE_run : SeqE RunOk RunThrow :=
  { refl := runOk_refl, trans := runOk_trans, absorb := runOk_absorb, weaken := runOk_weaken }

/-! ## Runs: which callables a run invokes -/

/-- Executing a task of a well-formed state: the run invokes each callable at
most once, and only callables of tasks whose output was not ready. -/
theorem execute_run {w : World} (hwf : WF w) {p : Nat} {t : Task} (ht : w.tasks[p]? = some t)
    (fuel : Nat)
    (hf : ∀ d, d ∈ t.deps → ∀ w1, RunOk w w1 →
      RespectsE RunOk RunThrow (ensureReady fuel) w1 d) :
    (∀ w', t.execute (ensureReady fuel) w p = .ok () w' → RunOk w w') ∧
    (∀ e w', t.execute (ensureReady fuel) w p = .throw e w' → RunThrow e w w') := by
  have hc := callArgs_relE seqE_run (ensureReady fuel) t.args w hf
  obtain ⟨aok, _⟩ := callArgs_direct hwf ht fuel
  have hlt : t.out < w.cells.length := lt_of_producer w (hwf.bound p t ht)
  have hnot : ∀ vs w1, callArgs (ensureReady fuel) w t.args = .ok vs w1 →
      (w.cell t.out).ready = false → (w1.cell t.out).ready = false ∧ p ∉ newCalls w w1 := by
    intro vs w1 e1 hnr
    have h1 := (aok vs w1 e1).2 hnr
    refine ⟨h1, fun hp => ?_⟩
    obtain ⟨t', ht', _, hr⟩ := (hc.1 _ _ e1).done p hp
    rw [ht] at ht'
    cases ht'
    rw [h1] at hr
    cases hr
  constructor
  · intro w' hr
    rcases Task.execute_ok hr with ⟨_, rfl⟩ | ⟨hnr, hs, w1, r, e1, hfn, rfl⟩
    · exact runOk_refl _
    · have h1 := hc.1 _ _ e1
      obtain ⟨hnr1, hp⟩ := hnot _ _ e1 hnr
      have hpub : Step w1 (w1.publish p t.out r) := (Step.refl w1).publish p r hnr1
      refine { step := h1.step.publish p r hnr, once := ?_, done := ?_ }
      · rw [newCalls_publish h1.step, List.nodup_append]
        refine ⟨h1.once, List.nodup_singleton _, ?_⟩
        intro x hx hx'
        rw [List.mem_singleton] at hx'
        subst hx'
        exact hp hx
      · rw [newCalls_publish h1.step]
        refine (h1.done.mono_right hpub).append ?_
        intro q hq
        rw [List.mem_singleton] at hq
        subst hq
        exact ⟨t, ht, hnr, by rw [publish_cell_self _ _ _ (by rw [h1.step.len]; exact hlt)]⟩
  · intro e w' hr
    obtain ⟨hnr, e1 | ⟨hs, w1, e1, hfn, rfl, rfl⟩⟩ := Task.execute_throw hr
    · exact hc.2 _ _ e1
    · have h1 := hc.1 _ _ e1
      obtain ⟨hnr1, hp⟩ := hnot _ _ e1 hnr
      have hlog : Step w1 (w1.logCall p) := Step.logCall w1 p
      have hnc : newCalls w (w1.logCall p) = newCalls w w1 ++ [p] := newCalls_logCall h1.step p
      have hv := callArgs_vals (ensureReady_spec fuel) e1
      refine { step := h1.step.trans hlog, complete := (by intro he; cases he), once := ?_,
               called := ?_, done := ?_, failed := ?_ }
      · rw [hnc, List.nodup_append]
        refine ⟨h1.once, List.nodup_singleton _, ?_⟩
        intro x hx hx'
        rw [List.mem_singleton] at hx'
        subst hx'
        exact hp hx
      · intro q hq
        rw [hnc, List.mem_append, List.mem_singleton] at hq
        rcases hq with hq | rfl
        · obtain ⟨t', ht', h, _⟩ := h1.done q hq
          exact ⟨t', ht', h⟩
        · exact ⟨t, ht, hnr⟩
      · intro he; exact absurd rfl he
      · intro _
        exact ⟨newCalls w w1, p, t, hs, hnc, ht, hnr1,
          forall₂_argVal_frozen (fun _ _ => rfl) hv,
          hfn, h1.done.mono_right hlog⟩

theorem runOk_bracket {w w2 : World} {c : Nat} (b : Bool) (hs : Step w (w2.setRunning c b))
    (h : RunOk (w.setRunning c true) w2) : RunOk w (w2.setRunning c b) := by
  refine { step := hs, once := h.once, done := ?_ }
  intro p hp
  obtain ⟨t, ht, h1, h2⟩ := h.done p hp
  exact ⟨t, ht, by simpa using h1, by simpa using h2⟩

theorem runThrow_bracket {e : Exn} {w w2 : World} {c : Nat} (hs : Step w w2)
    (h : RunThrow e (w.setRunning c true) w2) : RunThrow e w w2 := by
  refine { step := hs, complete := h.complete, once := h.once, called := ?_, done := ?_,
           failed := ?_ }
  · intro p hp
    obtain ⟨t, ht, h1⟩ := h.called p hp
    exact ⟨t, ht, by simpa using h1⟩
  · intro he p hp
    obtain ⟨t, ht, h1, h2⟩ := h.done he p hp
    exact ⟨t, ht, by simpa using h1, h2⟩
  · intro he
    obtain ⟨front, q, t, vs, e1, e2, e3, e4, e5, e6⟩ := h.failed he
    refine ⟨front, q, t, vs, e1, e2, e3, e4, e5, ?_⟩
    intro p hp
    obtain ⟨t', ht', h1, h2⟩ := e6 p hp
    exact ⟨t', ht', by simpa using h1, h2⟩

/-- Every run of `ensureReady` on a well-formed state invokes each callable at
most once, invokes only callables of tasks whose output was not ready, and
leaves the output of every callable that returned ready. -/
theorem ensureReady_run : ∀ (fuel : Nat) (w : World), WF w → ∀ c,
    RespectsE RunOk RunThrow (ensureReady fuel) w c := by
  intro fuel
  induction fuel with
  | zero =>
    intro w _ c
    exact ⟨fun u w' h => (by cases h), fun e w' h => (by cases h)⟩
  | succ fuel ih =>
    intro w hwf c
    have hexec : ∀ (p : Nat) (t : Task), w.lock c = some (p, t) → (w.cell c).ready = false →
        (∀ w', t.execute (ensureReady fuel) (w.setRunning c true) p = .ok () w' →
          RunOk (w.setRunning c true) w') ∧
        (∀ e w', t.execute (ensureReady fuel) (w.setRunning c true) p = .throw e w' →
          RunThrow e (w.setRunning c true) w') := by
      intro p t hl hnr
      have hs0 := step_setRunning_true hnr
      apply execute_run (hwf.step hs0) (by simpa using (lock_eq_some.mp hl).2)
      intro d _ w1 h1
      exact ih w1 (hwf.step (hs0.trans h1.step)) d
    constructor
    · intro u w' hr
      have hstep := ((ensureReady_spec (fuel + 1)).ok hr).1.1
      rcases ensureReady_ok hr with ⟨_, rfl⟩ | ⟨hnr, _, p, t, w2, hl, he, rfl, _⟩
      · exact runOk_refl _
      · exact runOk_bracket false hstep ((hexec p t hl hnr).1 _ he)
    · intro e w' hr
      have hstep := (ensureReady_spec (fuel + 1)).throw hr
      obtain ⟨hnr, h⟩ := ensureReady_throw hr
      rcases h with ⟨_, rfl, rfl⟩ | ⟨_, _, _, rfl, rfl⟩ | ⟨_, p, t, hl, h⟩
      · exact { step := Step.refl _, complete := (by intro he; cases he),
                once := by simp [newCalls_self],
                called := by intro p hp; simp [newCalls_self] at hp,
                done := by intro _ p hp; simp [newCalls_self] at hp,
                failed := by intro he; cases he }
      · exact { step := Step.refl _, complete := (by intro he; cases he),
                once := by simp [newCalls_self],
                called := by intro p hp; simp [newCalls_self] at hp,
                done := by intro _ p hp; simp [newCalls_self] at hp,
                failed := by intro he; cases he }
      · rcases h with he | ⟨w2, he, rfl, hnrd, _⟩
        · exact runThrow_bracket hstep ((hexec p t hl hnr).2 _ _ he)
        · exfalso
          have hlt := lt_of_lock w hl
          have hout := hwf.out_of_lock hl
          have := ((Task.execute_step (ensureReady_spec fuel) (w.setRunning c true) p t).1 _ he).2
            (Or.inr (by rw [hout]; simpa using hlt))
          rw [setRunning_ready, ← hout, this] at hnrd
          cases hnrd

theorem runTask_run {w : World} (hwf : WF w) {p : Nat} {t : Task} (ht : w.tasks[p]? = some t) :
    (∀ x w', runTask w p t = .ok x w' → RunOk w w') ∧
    (∀ e w', runTask w p t = .throw e w' → RunThrow e w w') := by
  unfold runTask
  split
  · refine ⟨?_, (by intro e w' h; cases h)⟩
    intro x w' h
    simp only [Res.ok.injEq] at h
    rw [← h.2]; exact runOk_refl _
  · have := execute_run hwf ht w.fuel
      (fun d _ w1 h1 => ensureReady_run w.fuel w1 (hwf.step h1.step) d)
    exact ⟨fun _ w' h => this.1 w' h, this.2⟩

/-- The bulk pass invokes each callable at most once, invokes only callables of
tasks whose output was not ready, and leaves the output of every callable that
returned ready. -/
theorem pass_run (pre : Bool) (w : World) (hwf : WF w) :
    (∀ r w', executeTopologicallyDetailed pre w = .ok r w' → RunOk w w') ∧
    (∀ e w', executeTopologicallyDetailed pre w = .throw e w' → RunThrow e w w') := by
  apply executeTopologicallyDetailed_relE seqE_run
  · intro w1 c h1
    exact ensureReady_run _ w1 (hwf.step h1.step) c
  · intro w1 u p t h1 ht
    exact runTask_run (hwf.step h1.step) (taskAt_eq_some.mp ht).2

theorem getResult_run {w : World} (hwf : WF w) (T : Ty) (id : Nat) :
    (∀ h w', getResult w T id = .ok h w' → RunOk w w') ∧
    (∀ e w', getResult w T id = .throw e w' → RunThrow e w w') := by
  have hr := ensureReady_run w.fuel w hwf id
  constructor
  · intro h w' hg
    exact hr.1 _ _ (Future.get_eq_ok hg).1
  · intro e w' hg
    rcases Future.get_eq_throw hg with h1 | ⟨h1, h2⟩
    · exact hr.2 _ _ h1
    · rw [as_error h2]
      exact runOk_weaken (hr.1 _ _ h1)

theorem executeTopologically_run (w : World) (hwf : WF w) :
    (∀ b w', executeTopologically w = .ok b w' → RunOk w w') ∧
    (∀ e w', executeTopologically w = .throw e w' → RunThrow e w w') := by
  obtain ⟨pok, pthrow⟩ := pass_run true w hwf
  unfold executeTopologically
  cases hr : executeTopologicallyDetailed true w with
  | ok r w1 =>
    refine ⟨?_, (by intro e w' h; cases h)⟩
    intro b w' h
    simp only [Res.ok.injEq] at h
    rw [← h.2]; exact pok r w1 hr
  | throw e w1 =>
    refine ⟨(by intro b w' h; cases h), ?_⟩
    intro e' w' h
    simp only [Res.throw.injEq] at h
    obtain ⟨rfl, rfl⟩ := h
    exact pthrow _ _ hr
  | undefined => exact ⟨(by intro b w' h; cases h), (by intro e w' h; cases h)⟩

/-! ## Claim C11: a ready cell is final -/

theorem hist_refl (w : World) : Hist w w :=
  { step := Step.refl w,
    ready := by intro p t _ _; simp [newCalls_self],
    total := by intro p t _ _; simp [newCalls_self] }

theorem hist_trans {a b c : World} (h1 : Hist a b) (h2 : Hist b c) : Hist a c := by
  have hnc := newCalls_trans h1.step h2.step
  refine { step := h1.step.trans h2.step, ready := ?_, total := ?_ }
  · intro p t ht hr
    rw [hnc, List.mem_append]
    rintro (h | h)
    · exact h1.ready p t ht hr h
    · exact h2.ready p t (by rw [h1.step.tasks]; exact ht) (h1.step.ready_mono hr) h
  · intro p t ht htot
    have ht' : b.tasks[p]? = some t := by rw [h1.step.tasks]; exact ht
    obtain ⟨c1, r1⟩ := h1.total p t ht htot
    obtain ⟨c2, r2⟩ := h2.total p t ht' htot
    rw [hnc]
    constructor
    · rw [List.count_append]
      by_cases hp : p ∈ newCalls a b
      · have := h2.ready p t ht' (r1 hp)
        rw [List.count_eq_zero_of_not_mem this]
        omega
      · rw [List.count_eq_zero_of_not_mem hp]
        omega
    · intro hp
      rcases List.mem_append.mp hp with h | h
      · exact h2.step.ready_mono (r1 h)
      · exact r2 h

theorem runOk_hist {w w' : World} (h : RunOk w w') : Hist w w' := by
  refine { step := h.step, ready := ?_, total := ?_ }
  · intro p t ht hr hp
    obtain ⟨t', ht', h1, _⟩ := h.done p hp
    rw [ht] at ht'
    cases ht'
    rw [hr] at h1
    cases h1
  · intro p t ht _
    refine ⟨List.nodup_iff_count_le_one.mp h.once p, fun hp => ?_⟩
    obtain ⟨t', ht', _, h2⟩ := h.done p hp
    rw [ht] at ht'
    cases ht'
    exact h2

theorem runThrow_hist {e : Exn} {w w' : World} (h : RunThrow e w w') : Hist w w' := by
  refine { step := h.step, ready := ?_, total := ?_ }
  · intro p t ht hr hp
    obtain ⟨t', ht', h1⟩ := h.called p hp
    rw [ht] at ht'
    cases ht'
    rw [hr] at h1
    cases h1
  · intro p t ht htot
    refine ⟨List.nodup_iff_count_le_one.mp h.once p, fun hp => ?_⟩
    have key : ∀ ps, AllDone w w' ps → p ∈ ps → (w'.cell t.out).ready = true := by
      intro ps hd hps
      obtain ⟨t', ht', _, h2⟩ := hd p hps
      rw [ht] at ht'
      cases ht'
      exact h2
    by_cases he : e = .callable_failed
    · obtain ⟨front, q, tq, vs, e1, e2, _, e4, e5, e6⟩ := h.failed he
      rw [e1, List.mem_append, List.mem_singleton] at hp
      rcases hp with hp | rfl
      · exact key front e6 hp
      · rw [ht] at e2
        cases e2
        exact absurd e5 (htot vs e4.length_eq.symm)
    · exact key _ (h.done he) hp

/-- Every call on a well-formed state returns or throws. -/
theorem runCall_outcome {w : World} (hwf : WF w) (c : Call) :
    ∃ w', runCall w c = some w' ∧ (RunOk w w' ∨ ∃ e, RunThrow e w w') := by
  cases c with
  | getResult T id =>
    obtain ⟨gok, gthrow⟩ := getResult_run hwf T id
    cases hr : getResult w T id with
    | ok h w' => exact ⟨w', by simp [runCall, hr, Res.world?], Or.inl (gok h w' hr)⟩
    | throw e w' => exact ⟨w', by simp [runCall, hr, Res.world?], Or.inr ⟨e, gthrow e w' hr⟩⟩
    | undefined => exact absurd hr (getResult_defined w T id)
  | ensureReady c =>
    obtain ⟨gok, gthrow⟩ := ensureReady_run w.fuel w hwf c
    cases hr : ensureReady w.fuel w c with
    | ok h w' => exact ⟨w', by simp [runCall, hr, Res.world?], Or.inl (gok h w' hr)⟩
    | throw e w' => exact ⟨w', by simp [runCall, hr, Res.world?], Or.inr ⟨e, gthrow e w' hr⟩⟩
    | undefined => exact absurd hr (ensureReady_defined w.fuel w c (idle_lt_fuel w))
  | executeTopologicallyDetailed pre =>
    obtain ⟨gok, gthrow⟩ := pass_run pre w hwf
    cases hr : executeTopologicallyDetailed pre w with
    | ok h w' => exact ⟨w', by simp [runCall, hr, Res.world?], Or.inl (gok h w' hr)⟩
    | throw e w' => exact ⟨w', by simp [runCall, hr, Res.world?], Or.inr ⟨e, gthrow e w' hr⟩⟩
    | undefined => exact absurd hr (executeTopologicallyDetailed_spec pre w hwf).2.2
  | executeTopologically =>
    obtain ⟨gok, gthrow⟩ := executeTopologically_run w hwf
    cases hr : executeTopologically w with
    | ok h w' => exact ⟨w', by simp [runCall, hr, Res.world?], Or.inl (gok h w' hr)⟩
    | throw e w' => exact ⟨w', by simp [runCall, hr, Res.world?], Or.inr ⟨e, gthrow e w' hr⟩⟩
    | undefined =>
      exfalso
      unfold executeTopologically at hr
      cases hd : executeTopologicallyDetailed true w with
      | ok r w1 => rw [hd] at hr; cases hr
      | throw e w1 => rw [hd] at hr; cases hr
      | undefined => exact (executeTopologicallyDetailed_spec true w hwf).2.2 hd

theorem runCall_hist {w : World} (hwf : WF w) (c : Call) :
    ∃ w', runCall w c = some w' ∧ Hist w w' := by
  obtain ⟨w', h, hr | ⟨e, hr⟩⟩ := runCall_outcome hwf c
  · exact ⟨w', h, runOk_hist hr⟩
  · exact ⟨w', h, runThrow_hist hr⟩

theorem runCalls_hist : ∀ (cs : List Call) (w : World), WF w →
    ∃ w', runCalls cs w = some w' ∧ Hist w w' := by
  intro cs
  induction cs with
  | nil => intro w _; exact ⟨w, rfl, hist_refl w⟩
  | cons c cs ih =>
    intro w hwf
    obtain ⟨w1, h1, hh1⟩ := runCall_hist hwf c
    obtain ⟨w2, h2, hh2⟩ := ih w1 (hwf.step hh1.step)
    exact ⟨w2, by simp [runCalls, h1, h2], hist_trans hh1 hh2⟩

theorem runCalls_append (cs ds : List Call) (w : World) :
    runCalls (cs ++ ds) w = (runCalls cs w).bind (runCalls ds) := by
  induction cs generalizing w with
  | nil => rfl
  | cons c cs ih =>
    simp only [List.cons_append, runCalls]
    cases runCall w c with
    | none => rfl
    | some w1 => simp only [Option.some_bind]; exact ih w1

/-- C11: in any history of calls on a scheduler (`getResult`, `ensureReady`,
bulk passes, in any order, from a well-formed state), take the state `w1` reached
at some moment and the state `w2` reached after any later calls.  Every cell
that is ready in `w1` is the same cell in `w2` (still ready, same value), and
the callable of a task whose output cell is ready in `w1` is not invoked by the
later calls; in particular a bulk pass after lazy forcing does not run a
completed task again. -/
theorem ready_is_final (w0 : World) (hwf : WF w0) (before later : List Call) :
    ∃ w1 w2, runCalls before w0 = some w1 ∧ runCalls later w1 = some w2 ∧
      runCalls (before ++ later) w0 = some w2 ∧
      (∀ c, (w1.cell c).ready = true →
        (w2.cell c).ready = true ∧ (w2.cell c).value = (w1.cell c).value) ∧
      (∀ (p : Nat) (t : Task), w1.tasks[p]? = some t → (w1.cell t.out).ready = true →
        p ∉ newCalls w1 w2) := by
  obtain ⟨w1, h1, hh1⟩ := runCalls_hist before w0 hwf
  obtain ⟨w2, h2, hh2⟩ := runCalls_hist later w1 (hwf.step hh1.step)
  refine ⟨w1, w2, h1, h2, by rw [runCalls_append, h1]; exact h2, ?_, hh2.ready⟩
  intro c hc
  rw [hh2.step.frozen c hc]
  exact ⟨hc, rfl⟩

/-- C11 at the scenario: `getResult` on the doubling task, then a bulk pass. -/
theorem ready_is_final_witness :
    ∃ w1 w2, runCalls [.getResult .int 2] scenario = some w1 ∧
      runCalls [.executeTopologicallyDetailed true] w1 = some w2 ∧
      runCalls ([.getResult .int 2] ++ [.executeTopologicallyDetailed true]) scenario = some w2 ∧
      (∀ c, (w1.cell c).ready = true →
        (w2.cell c).ready = true ∧ (w2.cell c).value = (w1.cell c).value) ∧
      (∀ (p : Nat) (t : Task), w1.tasks[p]? = some t → (w1.cell t.out).ready = true →
        p ∉ newCalls w1 w2) :=
  ready_is_final scenario scenario_wf [.getResult .int 2] [.executeTopologicallyDetailed true]

/-- In the scenario, `getResult` on the doubling task invokes the callables of
the tasks 0 and 2, and the bulk pass that follows invokes only that of task 1. -/
theorem scenario_mixed :
    (runCalls [.getResult .int 2] scenario).map (fun w => w.calls) = some [0, 2] ∧
    (runCalls [.getResult .int 2, .executeTopologicallyDetailed true] scenario).map
      (fun w => w.calls) = some [0, 2, 1] := by
  decide

/-! ## Claim C12: how often a callable is invoked -/

/-- A sequence of `getResult` and `ensureReady` calls is, as a whole, a lazy force. -/
theorem runCalls_lazy : ∀ (cs : List Call) (w : World), WF w →
    (∀ c ∈ cs, c.isLazy = true) → ∃ w', runCalls cs w = some w' ∧ Lz w w' := by
  intro cs
  induction cs with
  | nil => intro w _ _; exact ⟨w, rfl, lz_refl w⟩
  | cons c cs ih =>
    intro w hwf hl
    have hc := hl c (List.mem_cons_self _ _)
    have h1 : ∃ w1, runCall w c = some w1 ∧ Lz w w1 := by
      cases c with
      | getResult T id =>
        obtain ⟨gok, gthrow⟩ := @getResult_lazy w hwf T id
        cases hr : getResult w T id with
        | ok h w' => exact ⟨w', by simp [runCall, hr, Res.world?], (gok h w' hr).1.1⟩
        | throw e w' => exact ⟨w', by simp [runCall, hr, Res.world?], gthrow e w' hr⟩
        | undefined => exact absurd hr (getResult_defined w T id)
      | ensureReady c =>
        obtain ⟨gok, gthrow⟩ := ensureReady_lazy w.fuel w hwf c
        cases hr : ensureReady w.fuel w c with
        | ok h w' => exact ⟨w', by simp [runCall, hr, Res.world?], (gok h w' hr).1⟩
        | throw e w' => exact ⟨w', by simp [runCall, hr, Res.world?], gthrow e w' hr⟩
        | undefined => exact absurd hr (ensureReady_defined w.fuel w c (idle_lt_fuel w))
      | executeTopologicallyDetailed pre => cases hc
      | executeTopologically => cases hc
    obtain ⟨w1, e1, hz1⟩ := h1
    obtain ⟨w2, e2, hz2⟩ := ih w1 (hwf.step hz1.step) (fun x hx => hl x (List.mem_cons_of_mem _ hx))
    exact ⟨w2, by simp [runCalls, e1, e2], lz_trans hz1 hz2⟩

/-- C12, as stated, fails: the only task of `failingTask` has a callable that
throws; two bulk passes in a row invoke it twice, and so do a `getResult` on its
handle followed by a bulk pass. -/
theorem failed_task_retried :
    WF failingTask ∧
    (runCalls [.executeTopologically, .executeTopologically] failingTask).map
      (fun w => w.calls.count 0) = some 2 ∧
    (runCalls [.getResult .int 0, .executeTopologicallyDetailed true] failingTask).map
      (fun w => w.calls.count 0) = some 2 :=
  ⟨add_wf (empty_wf false) _ _, by decide, by decide⟩

/-- C12, amended: across any sequence of `getResult`, `ensureReady` and bulk
pass calls, the callable of a task that does not throw is invoked at most once;
across any sequence of `getResult` and `ensureReady` calls alone, and within any
single call, every callable is invoked at most once, whether or not the attempt
succeeds. -/
theorem callable_once (w : World) (hwf : WF w) (cs : List Call) :
    ∃ w', runCalls cs w = some w' ∧
      (∀ (p : Nat) (t : Task), w.tasks[p]? = some t → t.total →
        (newCalls w w').count p ≤ 1) ∧
      ((∀ c ∈ cs, c.isLazy = true) → (newCalls w w').Nodup) ∧
      (∀ c, cs = [c] → (newCalls w w').Nodup) := by
  obtain ⟨w', h, hh⟩ := runCalls_hist cs w hwf
  refine ⟨w', h, fun p t ht htot => (hh.total p t ht htot).1, ?_, ?_⟩
  · intro hl
    obtain ⟨w2, h2, hz⟩ := runCalls_lazy cs w hwf hl
    rw [h] at h2
    cases h2
    exact hz.once
  · rintro c rfl
    obtain ⟨w1, h1, hr⟩ := runCall_outcome hwf c
    simp only [runCalls, h1, Option.some_bind, Option.some.injEq] at h
    subst h
    rcases hr with hr | ⟨e, hr⟩
    · exact hr.once
    · exact hr.once

theorem constInt_total (k : Int) (out : Nat) :
    Task.total { fn := constInt k, args := [], out := out } := by
  intro vs h
  cases vs with
  | nil => simp [constInt]
  | cons _ _ => cases h

theorem doubleInt_total (a : ArgWrap) (out : Nat) :
    Task.total { fn := doubleInt, args := [a], out := out } := by
  intro vs h
  match vs, h with
  | [x], _ => simp [doubleInt]

/-- The amended C12 at the scenario: after a `getResult` on the doubling task
and two bulk passes, each of the three callables has been invoked at most once. -/
theorem callable_once_witness :
    ∃ w', runCalls [.getResult .int 2, .executeTopologically, .executeTopologically] scenario
        = some w' ∧
      (newCalls scenario w').count 0 ≤ 1 ∧ (newCalls scenario w').count 1 ≤ 1 ∧
      (newCalls scenario w').count 2 ≤ 1 := by
  obtain ⟨w', h, h1, _, _⟩ := callable_once scenario scenario_wf
    [.getResult .int 2, .executeTopologically, .executeTopologically]
  exact ⟨w', h, h1 0 _ rfl (constInt_total 10 0), h1 1 _ rfl (constInt_total 5 1),
    h1 2 _ rfl (doubleInt_total _ 2)⟩

/-! ## Claim C13: a force that failed in a callable -/

theorem argVal_unique {w : World} {a : ArgWrap} {h h' : Holder} (h1 : ArgVal w a h)
    (h2 : ArgVal w a h') : h = h' := by
  cases a with
  | plain v => exact h1.trans h2.symm
  | future U c =>
    have := h1.2.symm.trans h2.2
    exact Except.ok.inj this

theorem forall₂_argVal_unique {w : World} {args : List ArgWrap} {vs vs' : List Holder}
    (h1 : List.Forall₂ (ArgVal w) args vs) (h2 : List.Forall₂ (ArgVal w) args vs') :
    vs = vs' := by
  induction h1 generalizing vs' with
  | nil => cases h2; rfl
  | cons ha _ ih =>
    cases h2 with
    | cons hb hrest => rw [argVal_unique ha hb, ih hrest]

/-- In a consistent state the output of a task whose callable fails on the
values of its bindings is not ready. -/
theorem not_ready_of_failed {w : World} (hc : Consistent w) {p : Nat} {t : Task}
    {vs : List Holder} (ht : w.tasks[p]? = some t) (hv : List.Forall₂ (ArgVal w) t.args vs)
    (hfn : t.fn vs = none) : (w.cell t.out).ready = false := by
  cases hr : (w.cell t.out).ready with
  | false => rfl
  | true =>
    obtain ⟨vs', r, hv', hfn', _⟩ := hc p t ht hr
    rw [forall₂_argVal_unique hv hv', hfn'] at hfn
    cases hfn

theorem runCall_consistent {w : World} (hwf : WF w) (hc : Consistent w) (c : Call) :
    ∃ w', runCall w c = some w' ∧ Step w w' ∧ Consistent w' := by
  cases c with
  | getResult T id =>
    obtain ⟨gok, gthrow⟩ := @getResult_lazy w hwf T id
    cases hr : getResult w T id with
    | ok h w' =>
      exact ⟨w', by simp [runCall, hr, Res.world?], (gok h w' hr).1.1.step,
        lz_consistent hwf hc (gok h w' hr).1.1⟩
    | throw e w' =>
      exact ⟨w', by simp [runCall, hr, Res.world?], (gthrow e w' hr).step,
        lz_consistent hwf hc (gthrow e w' hr)⟩
    | undefined => exact absurd hr (getResult_defined w T id)
  | ensureReady c =>
    obtain ⟨gok, gthrow⟩ := ensureReady_lazy w.fuel w hwf c
    cases hr : ensureReady w.fuel w c with
    | ok h w' =>
      exact ⟨w', by simp [runCall, hr, Res.world?], (gok h w' hr).1.step,
        lz_consistent hwf hc (gok h w' hr).1⟩
    | throw e w' =>
      exact ⟨w', by simp [runCall, hr, Res.world?], (gthrow e w' hr).step,
        lz_consistent hwf hc (gthrow e w' hr)⟩
    | undefined => exact absurd hr (ensureReady_defined w.fuel w c (idle_lt_fuel w))
  | executeTopologicallyDetailed pre =>
    obtain ⟨gok, gthrow⟩ := pass_keeps pre w hwf
    cases hr : executeTopologicallyDetailed pre w with
    | ok h w' =>
      exact ⟨w', by simp [runCall, hr, Res.world?], (gok h w' hr).1, (gok h w' hr).2 hwf hc⟩
    | throw e w' =>
      exact ⟨w', by simp [runCall, hr, Res.world?], (gthrow e w' hr).1, (gthrow e w' hr).2 hwf hc⟩
    | undefined => exact absurd hr (executeTopologicallyDetailed_spec pre w hwf).2.2
  | executeTopologically =>
    obtain ⟨gok, gthrow⟩ := pass_keeps true w hwf
    cases hr : executeTopologicallyDetailed true w with
    | ok h w' =>
      exact ⟨w', by simp [runCall, executeTopologically, hr, Res.world?], (gok h w' hr).1,
        (gok h w' hr).2 hwf hc⟩
    | throw e w' =>
      exact ⟨w', by simp [runCall, executeTopologically, hr, Res.world?], (gthrow e w' hr).1,
        (gthrow e w' hr).2 hwf hc⟩
    | undefined => exact absurd hr (executeTopologicallyDetailed_spec true w hwf).2.2

/-- Any sequence of calls keeps a consistent state consistent. -/
theorem runCalls_consistent : ∀ (cs : List Call) (w : World), WF w → Consistent w →
    ∃ w', runCalls cs w = some w' ∧ Step w w' ∧ Consistent w' := by
  intro cs
  induction cs with
  | nil => intro w _ hc; exact ⟨w, rfl, Step.refl w, hc⟩
  | cons c cs ih =>
    intro w hwf hc
    obtain ⟨w1, h1, hs1, hc1⟩ := runCall_consistent hwf hc c
    obtain ⟨w2, h2, hs2, hc2⟩ := ih w1 (hwf.step hs1) hc1
    exact ⟨w2, by simp [runCalls, h1, h2], hs1.trans hs2, hc2⟩

/-- Forcing a cell that is not ready, has a live producer and is marked running
throws the cycle error and changes nothing. -/
theorem ensureReady_of_running {w : World} {c : Nat} (hnr : (w.cell c).ready = false)
    (hrun : (w.cell c).running = true) {pt : Nat × Task} (hl : w.lock c = some pt) :
    ensureReady w.fuel w c = .throw .cycle_detected w ∧
    ∀ T, getResult w T c = .throw .cycle_detected w := by
  have h : ensureReady w.fuel w c = .throw .cycle_detected w := by
    unfold World.fuel
    rw [ensureReady]
    simp [hnr, hrun, hl]
  refine ⟨h, fun T => ?_⟩
  unfold getResult Future.get
  rw [h]

/-- C13: if `ensureReady` or `getResult` on a cell throws because a callable
failed, then the callable that failed is the one invoked last, and the output
cell of its task (the cell that was being forced when its producer failed) is
left with `running = true` and `ready = false`.  After any later sequence of
`getResult` and `ensureReady` calls (and, in a consistent state, of calls of any
kind), that cell is still so, and `ensureReady` and `getResult` on it throw the
cycle error, leaving the state as it is: no callable is invoked. -/
theorem failed_force_sticks (w : World) (hwf : WF w) (c : Nat) (w1 : World)
    (hthrow : ensureReady w.fuel w c = .throw .callable_failed w1 ∨
      ∃ T, getResult w T c = .throw .callable_failed w1) :
    ∃ (front : List Nat) (q : Nat) (t : Task),
      newCalls w w1 = front ++ [q] ∧ w.tasks[q]? = some t ∧
      (w1.cell t.out).running = true ∧ (w1.cell t.out).ready = false ∧
      ∀ later : List Call, ((∀ x ∈ later, x.isLazy = true) ∨ Consistent w) →
        ∃ w2, runCalls later w1 = some w2 ∧
          (w2.cell t.out).running = true ∧ (w2.cell t.out).ready = false ∧
          ensureReady w2.fuel w2 t.out = .throw .cycle_detected w2 ∧
          ∀ T, getResult w2 T t.out = .throw .cycle_detected w2 := by
  have hf : ensureReady w.fuel w c = .throw .callable_failed w1 := by
    rcases hthrow with h | ⟨T, h⟩
    · exact h
    · rcases Future.get_eq_throw h with h1 | ⟨_, h2⟩
      · exact h1
      · cases as_error h2
  have hrun := (ensureReady_run w.fuel w hwf c).2 _ _ hf
  have hlz := (ensureReady_lazy w.fuel w hwf c).2 _ _ hf
  obtain ⟨front, q, t, vs, e1, e2, e3, e4, e5, _⟩ := hrun.failed rfl
  have hrun1 : (w1.cell t.out).running = true := by
    obtain ⟨t', ht', _, _, h3⟩ := hlz.called q (by rw [e1]; simp)
    rw [e2] at ht'
    cases ht'
    rcases h3 with h3 | h3
    · rw [e3] at h3; cases h3
    · exact h3
  have hwf1 := hwf.step hlz.step
  have hl1 : w1.lock t.out = some (q, t) := by
    rw [hlz.step.lock]
    exact lock_eq_some.mpr ⟨hwf.bound q t e2, e2⟩
  refine ⟨front, q, t, e1, e2, hrun1, e3, ?_⟩
  intro later hlater
  have key : ∃ w2, runCalls later w1 = some w2 ∧ Step w1 w2 ∧ (w2.cell t.out).ready = false := by
    rcases hlater with hl | hc
    · obtain ⟨w2, h2, hz⟩ := runCalls_lazy later w1 hwf1 hl
      exact ⟨w2, h2, hz.step, hz.blocked _ hrun1 e3⟩
    · obtain ⟨w2, h2, hs2, hc2⟩ := runCalls_consistent later w1 hwf1 (lz_consistent hwf hc hlz)
      refine ⟨w2, h2, hs2, ?_⟩
      exact not_ready_of_failed hc2 (by rw [hs2.tasks, hlz.step.tasks]; exact e2)
        (forall₂_argVal_frozen hs2.frozen e4) e5
  obtain ⟨w2, h2, hs2, hnr2⟩ := key
  have hrun2 := hs2.running_mono _ hrun1
  have hl2 : w2.lock t.out = some (q, t) := by rw [hs2.lock]; exact hl1
  exact ⟨w2, h2, hrun2, hnr2, ensureReady_of_running hnr2 hrun2 hl2⟩

/-- C13 at `failingDep`: `getResult` on the doubling task fails in the callable
of task 0; cell 0 is left running and not ready, and after two more `getResult`
calls forcing it still throws the cycle error. -/
theorem failed_force_sticks_witness :
    ∃ (front : List Nat) (q : Nat) (t : Task),
      newCalls failingDep failingDepForced = front ++ [q] ∧ failingDep.tasks[q]? = some t ∧
      (failingDepForced.cell t.out).running = true ∧
      (failingDepForced.cell t.out).ready = false ∧
      ∃ w2, runCalls [.getResult .int 1, .getResult .int 0] failingDepForced = some w2 ∧
          (w2.cell t.out).running = true ∧ (w2.cell t.out).ready = false ∧
          ensureReady w2.fuel w2 t.out = .throw .cycle_detected w2 ∧
          ∀ T, getResult w2 T t.out = .throw .cycle_detected w2 := by
  obtain ⟨front, q, t, h1, h2, h3, h4, h5⟩ :=
    failed_force_sticks failingDep (add_wf (add_wf (empty_wf false) _ _) _ _) 1 failingDepForced
      (Or.inr ⟨.int, rfl⟩)
  exact ⟨front, q, t, h1, h2, h3, h4,
    h5 [.getResult .int 1, .getResult .int 0] (Or.inl (by decide))⟩

/-- What happens in `failingDep`: the callable of task 0 is the only one
invoked, and the cells 0 and 1 are both left running. -/
theorem failingDep_forced :
    getResult failingDep .int 1 = .throw .callable_failed failingDepForced ∧
    failingDepForced.calls = [0] ∧
    (failingDepForced.cell 0).running = true ∧ (failingDepForced.cell 0).ready = false ∧
    (failingDepForced.cell 1).running = true ∧ (failingDepForced.cell 1).ready = false := by
  refine ⟨rfl, ?_, ?_, ?_, ?_, ?_⟩ <;> decide

/-! ## Claim C14: a cell without a producer -/

/-- C14: `ensureReady` on a cell that is not ready and whose producer was never
bound, or names no live task any more, throws the "no producer bound" error and
returns the state as it was (so `ready`, `running` and `value` are unchanged);
this holds with the `running` flag of the cell set either way, and `getResult`
on the cell fails in the same way. -/
theorem ensureReady_no_producer (w : World) (c : Nat) (hnr : (w.cell c).ready = false)
    (hgone : (w.cell c).producer = none ∨
      ∃ p, (w.cell c).producer = some p ∧ w.tasks[p]? = none) :
    ensureReady w.fuel w c = .throw .no_producer w ∧
    (∀ T, getResult w T c = .throw .no_producer w) ∧
    (∀ b, ensureReady (w.setRunning c b).fuel (w.setRunning c b) c =
      .throw .no_producer (w.setRunning c b)) := by
  have hl : w.lock c = none := by
    unfold World.lock
    rcases hgone with h | ⟨p, h1, h2⟩
    · rw [h]
    · rw [h1]; simp [h2]
  have key : ∀ w' : World, (w'.cell c).ready = false → w'.lock c = none →
      ensureReady w'.fuel w' c = .throw .no_producer w' := by
    intro w' h1 h2
    unfold World.fuel
    rw [ensureReady]
    simp [h1, h2]
  refine ⟨key w hnr hl, fun T => ?_, fun b => key _ (by simpa using hnr) (by simpa using hl)⟩
  unfold getResult Future.get
  rw [key w hnr hl]

/-- C14 at a cell whose producer is gone and whose `running` flag is set. -/
theorem ensureReady_no_producer_witness :
    ensureReady expiredCell.fuel expiredCell 0 = .throw .no_producer expiredCell ∧
    (∀ T, getResult expiredCell T 0 = .throw .no_producer expiredCell) ∧
    (∀ b, ensureReady (expiredCell.setRunning 0 b).fuel (expiredCell.setRunning 0 b) 0 =
      .throw .no_producer (expiredCell.setRunning 0 b)) :=
  ensureReady_no_producer expiredCell 0 rfl (Or.inr ⟨0, rfl, rfl⟩)

/-! ## Dependencies outside the registry -/

theorem makeCell_cell (w : World) (x : ResultCellAny) (c : Nat) :
    (makeCell w x).2.cell c =
      if c < w.cells.length then w.cell c else if c = w.cells.length then x else {} := by
  unfold makeCell World.cell
  simp only [List.getD_eq_getElem?_getD]
  by_cases h1 : c < w.cells.length
  · rw [if_pos h1, List.getElem?_append_left h1]
  · rw [if_neg h1]
    by_cases h2 : c = w.cells.length
    · subst h2
      simp
    · rw [if_neg h2, List.getElem?_eq_none (by simp; omega)]
      rfl

/-- A cell allocated without a producer keeps the state well formed. -/
theorem makeCell_wf {w : World} (hwf : WF w) (x : ResultCellAny) (hx : x.producer = none) :
    WF (makeCell w x).2 := by
  refine { nodup := hwf.nodup, registered := hwf.registered, bound := ?_, owner := ?_ }
  · intro p t ht
    have hb := hwf.bound p t ht
    rw [makeCell_cell, if_pos (lt_of_producer w hb)]
    exact hb
  · intro c p hc
    rw [makeCell_cell] at hc
    by_cases h1 : c < w.cells.length
    · rw [if_pos h1] at hc
      exact hwf.owner c p hc
    · rw [if_neg h1] at hc
      by_cases h2 : c = w.cells.length
      · rw [if_pos h2, hx] at hc
        cases hc
      · rw [if_neg h2] at hc
        cases hc

/-- A task added to another scheduler keeps the state well formed. -/
theorem addExternal_wf {w : World} (hwf : WF w) (fn : List Holder → Option Holder)
    (args : List ArgWrap) : WF (addExternal w fn args).2 :=
  { nodup := hwf.nodup,
    registered := fun p hp => by
      have := hwf.registered p hp
      have hl : (addExternal w fn args).2.tasks.length = w.tasks.length + 1 := by
        simp [addExternal]
      rw [hl]
      omega,
    bound := (add_wf hwf fn args).bound,
    owner := (add_wf hwf fn args).owner }

theorem filterMap_filter_ne {α : Type} (f : Nat → Option α) (c : Nat) (hc : f c = none) :
    ∀ l : List Nat, (l.filter (fun d => d ≠ c)).filterMap f = l.filterMap f := by
  intro l
  induction l with
  | nil => rfl
  | cons d l ih =>
    by_cases hd : d = c
    · subst hd
      rw [List.filter_cons_of_neg (by simp), List.filterMap_cons_none hc, ih]
    · rw [List.filter_cons_of_pos (by simpa using hd), List.filterMap_cons, List.filterMap_cons,
        ih]

/-- In a graph that meets `GraphSpec`, a dependency cell whose producer is not
registered counts neither toward the in-degree of the consumer nor as an edge. -/
theorem graph_ignores_external {w : World} {g : Graph} (hg : GraphSpec w g)
    {v pv : Nat} {tv : Task} (hv : w.taskAt v = some (pv, tv)) {c : Nat}
    (hext : prodIdx w c = none) :
    g.indeg.getD v 0 = ((tv.deps.filter (fun d => d ≠ c)).filterMap (prodIdx w)).toFinset.card ∧
    ∀ u, v ∈ g.adj.getD u [] → ∃ d ∈ tv.deps, d ≠ c ∧ prodIdx w d = some u := by
  have hvl := lt_of_taskAt hv
  constructor
  · rw [hg.indeg v hvl, predsOf_eq hv, filterMap_filter_ne _ c hext]
  · intro u hu
    have hul : u < w.tasks_.length := by
      by_contra hge
      have : g.adj.getD u [] = [] := by
        rw [List.getD_eq_getElem?_getD, List.getElem?_eq_none (by rw [hg.adj_len]; omega)]
        rfl
      rw [this] at hu
      cases hu
    have hp := ((mem_adj_iff hg hul).mp hu).2
    rw [predsOf_eq hv, List.mem_filterMap] at hp
    obtain ⟨d, hd, hpd⟩ := hp
    refine ⟨d, hd, ?_, hpd⟩
    rintro rfl
    rw [hext] at hpd
    cases hpd

/-- The graph that the construction loops return is `graphOf`. -/
theorem buildGraph_graphOf (pre : Bool) (w : World) (hwf : WF w) (g : Graph) (w1 : World)
    (h : buildGraph pre (indexByPtr w) (List.range w.tasks_.length)
      (Graph.init w.tasks_.length) w = .ok g w1) : g = graphOf w ∧ Step w w1 :=
  (buildGraph_spec pre w (List.range w.tasks_.length) _ w (Step.refl w)
    (fun _ hv => hwf.taskAt_ne_none (List.mem_range.mp hv))).1 g w1 h

theorem executeTopologicallyDetailed_of_throw {pre : Bool} {w w1 : World} {e : Exn}
    (h : buildGraph pre (indexByPtr w) (List.range w.tasks_.length)
      (Graph.init w.tasks_.length) w = .throw e w1) :
    executeTopologicallyDetailed pre w = .throw e w1 := by
  unfold executeTopologicallyDetailed
  simp only
  unfold Graph.init at h
  rw [h]

/-! ## Claim C15: a ready cell from outside the registry -/

theorem externalReady_wf : WF externalReady :=
  add_wf (makeCell_wf (empty_wf false) _ rfl) _ _

theorem world?_eq_some {α : Type} {r : Res α} {w' : World} (h : r.world? = some w') :
    (∃ a, r = .ok a w') ∨ ∃ e, r = .throw e w' := by
  cases r with
  | ok a w1 =>
    simp only [Res.world?, Option.some.injEq] at h
    exact Or.inl ⟨a, by rw [h]⟩
  | throw e w1 =>
    simp only [Res.world?, Option.some.injEq] at h
    exact Or.inr ⟨e, by rw [h]⟩
  | undefined => simp [Res.world?] at h

theorem forall₂_exists_of_mem {α β : Type} {R : α → β → Prop} {l1 : List α} {l2 : List β}
    (h : List.Forall₂ R l1 l2) {a : α} (ha : a ∈ l1) : ∃ b ∈ l2, R a b := by
  induction h with
  | nil => cases ha
  | @cons x y l1 l2 hxy _ ih =>
    rcases List.mem_cons.mp ha with rfl | ha'
    · exact ⟨y, List.mem_cons_self _ _, hxy⟩
    · obtain ⟨b, hb, hr⟩ := ih ha'
      exact ⟨b, List.mem_cons_of_mem _ hb, hr⟩

theorem mem_deps_iff {t : Task} {c : Nat} : c ∈ t.deps ↔ ∃ U, ArgWrap.future U c ∈ t.args := by
  unfold Task.deps
  rw [List.mem_filterMap]
  constructor
  · rintro ⟨a, ha, hc⟩
    cases a with
    | plain v => cases hc
    | future U d =>
      simp only [ArgWrap.depCell, Option.some.injEq] at hc
      subst hc
      exact ⟨U, ha⟩
  · rintro ⟨U, ha⟩
    exact ⟨_, ha, rfl⟩

theorem externalReady_consistent : Consistent externalReady := by
  intro p t ht hr
  rcases p with _ | p
  · simp only [externalReady, add, makeCell, World.empty, List.nil_append, List.length_nil,
      List.getElem?_cons_zero, Option.some.injEq] at ht
    subst ht
    exact absurd hr (by decide)
  · simp [externalReady, add, makeCell, World.empty] at ht

theorem externalAfterFailure_wf : WF externalAfterFailure :=
  add_wf (add_wf (makeCell_wf (empty_wf false) _ rfl) _ _) _ _

theorem externalAndCycle_wf : WF externalAndCycle :=
  add_wf (add_wf (add_wf (makeCell_wf (empty_wf false) _ rfl) _ _) _ _) _ _

/-- In `externalReady` the pass, with the flag set either way, runs the task,
which doubles the 7 of the external cell. -/
theorem externalReady_pass :
    (∀ pre, (executeTopologicallyDetailed pre externalReady).val? =
      some { ok := true, order := [0], stuck := [] }) ∧
    (∀ pre, (executeTopologicallyDetailed pre externalReady).world?.map
      (fun w => ((w.cell 1).value, w.calls)) = some ({ ptr := some ⟨.int, 14⟩ }, [0])) := by
  constructor <;> intro pre <;> cases pre <;> decide

theorem isExternal_of_step {w0 w : World} (h : Step w0 w) (c : Nat) :
    isExternal (indexByPtr w0) w c = true ↔ prodIdx w0 c = none := by
  rw [← h.prodIdx, ← isExternal_iff, h.indexByPtr]

theorem ensureReady_of_lock_none {w : World} {c : Nat} (hnr : (w.cell c).ready = false)
    (hl : w.lock c = none) : ensureReady w.fuel w c = .throw .no_producer w := by
  unfold World.fuel
  rw [ensureReady]
  simp [hnr, hl]

/-- With the flag set, the inner construction loop returns only after every
cell of its list whose producer is not registered has become ready. -/
theorem buildDeps_forced (w0 : World) (v : Nat) :
    ∀ (cs seen : List Nat) (g : Graph) (w : World), Step w0 w →
      ∀ sg w', buildDeps true (indexByPtr w0) v cs seen g w = .ok sg w' →
        Step w w' ∧ ∀ c ∈ cs, prodIdx w0 c = none → (w'.cell c).ready = true := by
  intro cs
  induction cs with
  | nil =>
    intro seen g w _ sg w' h
    simp only [buildDeps, Res.ok.injEq] at h
    rw [← h.2]
    exact ⟨Step.refl w, fun c hc => by cases hc⟩
  | cons c cs ih =>
    intro seen g w hw sg w' h
    rw [buildDeps] at h
    by_cases hx : (true && isExternal (indexByPtr w0) w c) = true
    · rw [if_pos hx] at h
      obtain ⟨fok, _, _⟩ := forceIfNotReady_spec w c
      cases hf : forceIfNotReady w c with
      | ok u w1 =>
        rw [hf] at h
        simp only at h
        obtain ⟨hs1, hrd⟩ := fok u w1 hf
        obtain ⟨hs2, hall⟩ := ih seen g w1 (hw.trans hs1.1) sg w' h
        refine ⟨hs1.1.trans hs2, fun d hd hext => ?_⟩
        rcases List.mem_cons.mp hd with rfl | hd'
        · exact hs2.ready_mono hrd
        · exact hall d hd' hext
      | throw e w1 => rw [hf] at h; cases h
      | undefined => rw [hf] at h; cases h
    · rw [if_neg hx] at h
      obtain ⟨hs2, hall⟩ := ih _ _ w hw sg w' h
      refine ⟨hs2, fun d hd hext => ?_⟩
      rcases List.mem_cons.mp hd with rfl | hd'
      · exfalso
        apply hx
        simp only [Bool.true_and]
        exact (isExternal_of_step hw d).mpr hext
      · exact hall d hd' hext

/-- With the flag set, the construction returns only after every dependency
cell whose producer is not registered has become ready. -/
theorem buildGraph_forced (w0 : World) :
    ∀ (vs : List Nat) (g : Graph) (w : World), Step w0 w →
      ∀ g' w', buildGraph true (indexByPtr w0) vs g w = .ok g' w' →
        Step w w' ∧ ∀ v ∈ vs, ∀ pv tv, w0.taskAt v = some (pv, tv) →
          ∀ c ∈ tv.deps, prodIdx w0 c = none → (w'.cell c).ready = true := by
  intro vs
  induction vs with
  | nil =>
    intro g w _ g' w' h
    simp only [buildGraph, Res.ok.injEq] at h
    rw [← h.2]
    exact ⟨Step.refl w, fun v hv => by cases hv⟩
  | cons v vs ih =>
    intro g w hw g' w' h
    rw [buildGraph, hw.taskAt] at h
    cases ht : w0.taskAt v with
    | none => rw [ht] at h; cases h
    | some pt =>
      obtain ⟨p, t⟩ := pt
      rw [ht] at h
      simp only at h
      cases hd : buildDeps true (indexByPtr w0) v t.deps [] g w with
      | ok sg w1 =>
        rw [hd] at h
        simp only at h
        obtain ⟨hs1, hall1⟩ := buildDeps_forced w0 v t.deps [] g w hw sg w1 hd
        obtain ⟨hs2, hall2⟩ := ih sg.2 w1 (hw.trans hs1) g' w' h
        refine ⟨hs1.trans hs2, fun x hx pv tv hxt c hc hext => ?_⟩
        rcases List.mem_cons.mp hx with rfl | hx'
        · rw [ht] at hxt
          simp only [Option.some.injEq, Prod.mk.injEq] at hxt
          obtain ⟨_, rfl⟩ := hxt
          exact hs2.ready_mono (hall1 c hc hext)
        · exact hall2 x hx' pv tv hxt c hc hext
      | throw e w1 => rw [hd] at h; cases h
      | undefined => rw [hd] at h; cases h

/-- No run of the construction makes a cell without a live producer ready. -/
theorem buildGraph_keeps_orphans (pre : Bool) (w : World) (hwf : WF w) (g : Graph) (w1 : World)
    (h : buildGraph pre (indexByPtr w) (List.range w.tasks_.length)
      (Graph.init w.tasks_.length) w = .ok g w1)
    {c : Nat} (hnr : (w.cell c).ready = false) (hl : w.lock c = none) :
    (w1.cell c).ready = false := by
  have hrel := (buildGraph_rel (seq_within (fun _ => True)) pre (indexByPtr w) w
    (fun w2 d h2 => ensureReady_within (fun _ => True) w2.fuel w2 d (hwf.step h2.1)
      (fun _ _ _ _ => trivial) (fun _ _ _ => trivial))
    (List.range w.tasks_.length) (Graph.init w.tasks_.length) w
    ((seq_within (fun _ => True)).refl w)).1 g w1 h
  cases hr : (w1.cell c).ready with
  | false => rfl
  | true =>
    exfalso
    obtain ⟨p, t, ht, hout, _⟩ := hrel.2 c hnr hr
    have := lock_eq_some.mpr ⟨hwf.bound p t ht, ht⟩
    rw [hout, hl] at this
    cases this

/-- When every dependency cell that would have to be produced outside the
registry has no live producer, the inner construction loop changes nothing, and
can only fail with the "no producer bound" error. -/
theorem buildDeps_quiet (w : World) (v : Nat) :
    ∀ (cs seen : List Nat) (g : Graph),
      (∀ c ∈ cs, prodIdx w c = none → (w.cell c).ready = false → w.lock c = none) →
      (∀ sg w', buildDeps true (indexByPtr w) v cs seen g w = .ok sg w' → w' = w) ∧
      (∀ e w', buildDeps true (indexByPtr w) v cs seen g w = .throw e w' →
        e = .no_producer ∧ w' = w) := by
  intro cs
  induction cs with
  | nil =>
    intro seen g _
    refine ⟨?_, ?_⟩
    · intro sg w' h
      simp only [buildDeps, Res.ok.injEq] at h
      exact h.2.symm
    · intro e w' h; simp [buildDeps] at h
  | cons c cs ih =>
    intro seen g hq
    have hrest := fun seen' g' => ih seen' g' (fun d hd => hq d (List.mem_cons_of_mem _ hd))
    rw [buildDeps]
    by_cases hx : (true && isExternal (indexByPtr w) w c) = true
    · rw [if_pos hx]
      simp only [Bool.true_and] at hx
      have hext := (isExternal_iff w c).mp hx
      unfold forceIfNotReady
      cases hr : (w.cell c).ready with
      | true =>
        simp only [if_true]
        exact hrest seen g
      | false =>
        simp only [Bool.false_eq_true, if_false]
        rw [ensureReady_of_lock_none hr (hq c (List.mem_cons_self _ _) hext hr)]
        refine ⟨(by intro sg w' h; cases h), ?_⟩
        intro e w' h
        simp only [Res.throw.injEq] at h
        exact ⟨h.1.symm, h.2.symm⟩
    · rw [if_neg hx]
      exact hrest _ _

theorem buildGraph_quiet (w : World)
    (hq : ∀ v pv tv c, w.taskAt v = some (pv, tv) → c ∈ tv.deps → prodIdx w c = none →
      (w.cell c).ready = false → w.lock c = none) :
    ∀ (vs : List Nat) (g : Graph),
      (∀ g' w', buildGraph true (indexByPtr w) vs g w = .ok g' w' → w' = w) ∧
      (∀ e w', buildGraph true (indexByPtr w) vs g w = .throw e w' →
        e = .no_producer ∧ w' = w) := by
  intro vs
  induction vs with
  | nil =>
    intro g
    refine ⟨?_, ?_⟩
    · intro g' w' h
      simp only [buildGraph, Res.ok.injEq] at h
      exact h.2.symm
    · intro e w' h; simp [buildGraph] at h
  | cons v vs ih =>
    intro g
    rw [buildGraph]
    cases ht : w.taskAt v with
    | none => exact ⟨(by intro g' w' h; cases h), (by intro e w' h; cases h)⟩
    | some pt =>
      obtain ⟨p, t⟩ := pt
      simp only
      obtain ⟨dok, dthrow⟩ := buildDeps_quiet w v t.deps [] g (fun c hc => hq v p t c ht hc)
      cases hd : buildDeps true (indexByPtr w) v t.deps [] g w with
      | ok sg w1 =>
        simp only
        rw [dok sg w1 hd]
        exact ih sg.2
      | throw e w1 =>
        refine ⟨(by intro g' w' h; cases h), ?_⟩
        intro e' w' h
        simp only [Res.throw.injEq] at h
        obtain ⟨rfl, rfl⟩ := h
        exact dthrow _ _ hd
      | undefined => exact ⟨(by intro g' w' h; cases h), (by intro e w' h; cases h)⟩

/-! ## Claim C16: pre-resolving dependencies from outside the registry -/

theorem orphanDep_wf : WF orphanDep :=
  add_wf (makeCell_wf (empty_wf false) _ rfl) _ _

theorem crossScheduler_wf : WF crossScheduler :=
  add_wf (makeCell_wf (addExternal_wf (add_wf (empty_wf false) _ _) _ _) _ rfl) _ _

theorem prodIdx_of_lock_none {w : World} {c : Nat} (h : w.lock c = none) : prodIdx w c = none := by
  simp [prodIdx, h]

/-- C16, as stated, fails: in `crossScheduler` the cell 2 is a dependency of a
registered task, is not ready and has no producer, and the pass with the flag
set fails with the "no producer bound" error; but pre-resolving the cell 1
before it has run its producer and, through it, the registered task 0: the
callables of the tasks 0 and 1 have been invoked. -/
theorem pre_resolve_runs_registered :
    WF crossScheduler ∧ crossScheduler.tasks_ = [0, 2] ∧
    (crossScheduler.taskAt 1).map (fun pt => pt.2.deps) = some [1, 2] ∧
    (crossScheduler.cell 2).ready = false ∧ (crossScheduler.lock 2).isNone = true ∧
    (executeTopologicallyDetailed true crossScheduler).exn? = some .no_producer ∧
    (executeTopologicallyDetailed true crossScheduler).world?.map (fun w => w.calls)
      = some [0, 1] :=
  ⟨crossScheduler_wf, rfl, by decide, by decide, by decide, by decide, by decide⟩

/-- C16, amended: with the flag set, the graph construction returns only when
every dependency cell whose producer is not a registered task is ready (it has
forced each of them that was not), and such a cell counts neither toward the
in-degree of its consumer nor as an edge.  If such a cell is not ready and has
no live producer, the construction throws, so that the pass fails before its
Kahn loop executes any task; and when every dependency cell from outside the
registry that is not ready is without a live producer, the pass throws the "no
producer bound" error in the state in which it started: no callable has been
invoked. -/
theorem pre_resolve_external (w : World) (hwf : WF w) :
    (∀ g w1, buildGraph true (indexByPtr w) (List.range w.tasks_.length)
        (Graph.init w.tasks_.length) w = .ok g w1 →
      ∀ v pv tv c, w.taskAt v = some (pv, tv) → c ∈ tv.deps → prodIdx w c = none →
        (w1.cell c).ready = true ∧
        g.indeg.getD v 0 =
          ((tv.deps.filter (fun d => d ≠ c)).filterMap (prodIdx w)).toFinset.card ∧
        ∀ u, v ∈ g.adj.getD u [] → ∃ d ∈ tv.deps, d ≠ c ∧ prodIdx w d = some u) ∧
    (∀ v pv tv c, w.taskAt v = some (pv, tv) → c ∈ tv.deps → (w.cell c).ready = false →
        w.lock c = none →
      (∃ e w', buildGraph true (indexByPtr w) (List.range w.tasks_.length)
          (Graph.init w.tasks_.length) w = .throw e w' ∧
        executeTopologicallyDetailed true w = .throw e w') ∧
      ((∀ v' pv' tv' c', w.taskAt v' = some (pv', tv') → c' ∈ tv'.deps → prodIdx w c' = none →
          (w.cell c').ready = false → w.lock c' = none) →
        executeTopologicallyDetailed true w = .throw .no_producer w)) := by
  have hforced : ∀ g w1, buildGraph true (indexByPtr w) (List.range w.tasks_.length)
        (Graph.init w.tasks_.length) w = .ok g w1 →
      ∀ v pv tv c, w.taskAt v = some (pv, tv) → c ∈ tv.deps → prodIdx w c = none →
        (w1.cell c).ready = true := by
    intro g w1 hb v pv tv c hv hc hext
    exact (buildGraph_forced w _ _ w (Step.refl w) g w1 hb).2 v
      (List.mem_range.mpr (lt_of_taskAt hv)) pv tv hv c hc hext
  have hthrow : ∀ v pv tv c, w.taskAt v = some (pv, tv) → c ∈ tv.deps →
      (w.cell c).ready = false → w.lock c = none →
      ∃ e w', buildGraph true (indexByPtr w) (List.range w.tasks_.length)
          (Graph.init w.tasks_.length) w = .throw e w' := by
    intro v pv tv c hv hc hnr hl
    cases hb : buildGraph true (indexByPtr w) (List.range w.tasks_.length)
        (Graph.init w.tasks_.length) w with
    | ok g w1 =>
      exfalso
      have h1 := hforced g w1 hb v pv tv c hv hc (prodIdx_of_lock_none hl)
      rw [buildGraph_keeps_orphans true w hwf g w1 hb hnr hl] at h1
      cases h1
    | throw e w' => exact ⟨e, w', rfl⟩
    | undefined =>
      exact absurd hb (buildGraph_spec true w (List.range w.tasks_.length) _ w (Step.refl w)
        (fun _ hx => hwf.taskAt_ne_none (List.mem_range.mp hx))).2.2
  refine ⟨?_, ?_⟩
  · intro g w1 hb v pv tv c hv hc hext
    refine ⟨hforced g w1 hb v pv tv c hv hc hext, ?_⟩
    obtain ⟨rfl, _⟩ := buildGraph_graphOf true w hwf g w1 hb
    exact graph_ignores_external (graphOf_spec w hwf.nodup) hv hext
  · intro v pv tv c hv hc hnr hl
    obtain ⟨e, w', hb⟩ := hthrow v pv tv c hv hc hnr hl
    refine ⟨⟨e, w', hb, executeTopologicallyDetailed_of_throw hb⟩, fun hq => ?_⟩
    obtain ⟨rfl, rfl⟩ := (buildGraph_quiet w hq _ _).2 e w' hb
    exact executeTopologicallyDetailed_of_throw hb

theorem orphanDep_taskAt {v pv : Nat} {tv : Task} (h : orphanDep.taskAt v = some (pv, tv)) :
    v = 0 ∧ pv = 0 ∧ tv.deps = [0] := by
  rcases v with _ | v
  · have : orphanDep.taskAt 0 =
        some (0, { fn := doubleInt, args := [.future .int 0], out := 1 }) := rfl
    rw [this] at h
    simp only [Option.some.injEq, Prod.mk.injEq] at h
    obtain ⟨rfl, rfl⟩ := h
    exact ⟨rfl, rfl, rfl⟩
  · have : orphanDep.taskAt (v + 1) = none := rfl
    rw [this] at h
    cases h

/-- The amended C16 at `orphanDep`: the pass with the flag set fails with the
"no producer bound" error in the state in which it started. -/
theorem pre_resolve_external_witness :
    (∃ e w', buildGraph true (indexByPtr orphanDep) (List.range orphanDep.tasks_.length)
        (Graph.init orphanDep.tasks_.length) orphanDep = .throw e w' ∧
      executeTopologicallyDetailed true orphanDep = .throw e w') ∧
    executeTopologicallyDetailed true orphanDep = .throw .no_producer orphanDep := by
  have h := (pre_resolve_external orphanDep orphanDep_wf).2 0 0
    { fn := doubleInt, args := [.future .int 0], out := 1 } 0 rfl (by decide) rfl rfl
  refine ⟨h.1, h.2 ?_⟩
  intro v' pv' tv' c' hv' hc' _ _
  obtain ⟨_, _, hd⟩ := orphanDep_taskAt hv'
  rw [hd, List.mem_singleton] at hc'
  subst hc'
  rfl

/-! ## Claim C17: dependencies from outside the registry, not pre-resolved -/

/-- With the flag clear the inner construction loop returns in the state in
which it was entered. -/
theorem buildDeps_unforced (idx : Nat → Option Nat) (v : Nat) :
    ∀ (cs seen : List Nat) (g : Graph) (w : World),
      (∀ sg w', buildDeps false idx v cs seen g w = .ok sg w' → w' = w) ∧
      (∀ e w', buildDeps false idx v cs seen g w ≠ .throw e w') := by
  intro cs
  induction cs with
  | nil =>
    intro seen g w
    refine ⟨?_, ?_⟩
    · intro sg w' h
      simp only [buildDeps, Res.ok.injEq] at h
      exact h.2.symm
    · intro e w' h; simp [buildDeps] at h
  | cons c cs ih =>
    intro seen g w
    rw [buildDeps]
    simp only [Bool.false_and, Bool.false_eq_true, if_false]
    exact ih _ _ w

theorem buildGraph_unforced (idx : Nat → Option Nat) :
    ∀ (vs : List Nat) (g : Graph) (w : World),
      (∀ g' w', buildGraph false idx vs g w = .ok g' w' → w' = w) ∧
      (∀ e w', buildGraph false idx vs g w ≠ .throw e w') := by
  intro vs
  induction vs with
  | nil =>
    intro g w
    refine ⟨?_, ?_⟩
    · intro g' w' h
      simp only [buildGraph, Res.ok.injEq] at h
      exact h.2.symm
    · intro e w' h; simp [buildGraph] at h
  | cons v vs ih =>
    intro g w
    rw [buildGraph]
    cases ht : w.taskAt v with
    | none => exact ⟨(by intro g' w' h; cases h), (by intro e w' h; cases h)⟩
    | some pt =>
      obtain ⟨p, t⟩ := pt
      simp only
      obtain ⟨dok, dthrow⟩ := buildDeps_unforced idx v t.deps [] g w
      cases hd : buildDeps false idx v t.deps [] g w with
      | ok sg w1 =>
        simp only
        rw [dok sg w1 hd]
        exact ih sg.2 w
      | throw e w1 => exact absurd hd (dthrow e w1)
      | undefined => exact ⟨(by intro g' w' h; cases h), (by intro e w' h; cases h)⟩

/-- C17, as stated, fails: in `orphanDep` the only dependency cell of the
registered task has no registered producer and is not ready; the pass with the
flag clear fails when the task reads its argument, with the "no producer bound"
error, not with the error of an incomplete producer. -/
theorem external_unready_no_producer :
    WF orphanDep ∧ (orphanDep.taskAt 0).map (fun pt => pt.2.deps) = some [0] ∧
    prodIdx orphanDep 0 = none ∧ (orphanDep.cell 0).ready = false ∧
    (executeTopologicallyDetailed false orphanDep).exn? = some .no_producer ∧
    (executeTopologicallyDetailed false orphanDep).exn? ≠ some .producer_incomplete :=
  ⟨orphanDep_wf, by decide, by decide, by decide, by decide, by decide⟩

/-- C17, amended: with the flag clear, the graph construction forces nothing (it
returns the graph in the state in which the pass started), and a dependency cell
whose producer is not a registered task counts neither toward the in-degree of
its consumer nor as an edge.  In any state, reading a future over a cell that is
not ready and has no live producer throws the "no producer bound" error and
changes nothing, and so does the execution by the pass of a task whose only
dependency is that cell.  The pass never fails with the error of an incomplete
producer. -/
theorem external_unforced (w : World) (hwf : WF w) :
    buildGraph false (indexByPtr w) (List.range w.tasks_.length)
      (Graph.init w.tasks_.length) w = .ok (graphOf w) w ∧
    (∀ v pv tv c, w.taskAt v = some (pv, tv) → c ∈ tv.deps → prodIdx w c = none →
      (graphOf w).indeg.getD v 0 =
        ((tv.deps.filter (fun d => d ≠ c)).filterMap (prodIdx w)).toFinset.card ∧
      ∀ u, v ∈ (graphOf w).adj.getD u [] → ∃ d ∈ tv.deps, d ≠ c ∧ prodIdx w d = some u) ∧
    (∀ (w0 : World) (c : Nat), (w0.cell c).ready = false → w0.lock c = none →
      (∀ U, ArgWrap.get (ensureReady w0.fuel) w0 (.future U c) = .throw .no_producer w0) ∧
      (∀ p t, t.deps = [c] → (w0.cell t.out).ready = false →
        runTask w0 p t = .throw .no_producer w0)) ∧
    (∀ pre e w', executeTopologicallyDetailed pre w = .throw e w' →
      e ≠ .producer_incomplete) := by
  refine ⟨?_, ?_, ?_, ?_⟩
  · cases hb : buildGraph false (indexByPtr w) (List.range w.tasks_.length)
        (Graph.init w.tasks_.length) w with
    | ok g w1 =>
      obtain ⟨rfl, _⟩ := buildGraph_graphOf false w hwf g w1 hb
      rw [(buildGraph_unforced _ _ _ w).1 _ w1 hb]
    | throw e w1 => exact absurd hb ((buildGraph_unforced _ _ _ w).2 e w1)
    | undefined =>
      exact absurd hb (buildGraph_spec false w (List.range w.tasks_.length) _ w (Step.refl w)
        (fun _ hx => hwf.taskAt_ne_none (List.mem_range.mp hx))).2.2
  · intro v pv tv c hv _ hext
    exact graph_ignores_external (graphOf_spec w hwf.nodup) hv hext
  · intro w0 c hnr hl
    have hf := ensureReady_of_lock_none hnr hl
    refine ⟨fun U => ?_, fun p t hd hnrt => ?_⟩
    · simp only [ArgWrap.get, Future.get, hf]
    · unfold runTask Task.execute
      rw [if_neg (by simp [hnrt]), if_neg (by simp [hnrt]),
        callArgs_single_throw (ensureReady w0.fuel) hf t.args hd]
  · intro pre e w' h
    exact ((pass_run pre w hwf).2 e w' h).complete

/-- The amended C17 at `orphanDep`. -/
theorem external_unforced_witness :
    buildGraph false (indexByPtr orphanDep) (List.range orphanDep.tasks_.length)
      (Graph.init orphanDep.tasks_.length) orphanDep = .ok (graphOf orphanDep) orphanDep ∧
    (∀ U, ArgWrap.get (ensureReady orphanDep.fuel) orphanDep (.future U 0) =
      .throw .no_producer orphanDep) ∧
    runTask orphanDep 0 { fn := doubleInt, args := [.future .int 0], out := 1 } =
      .throw .no_producer orphanDep :=
  ⟨(external_unforced orphanDep orphanDep_wf).1,
   ((external_unforced orphanDep orphanDep_wf).2.2.1 orphanDep 0 rfl rfl).1,
   ((external_unforced orphanDep orphanDep_wf).2.2.1 orphanDep 0 rfl rfl).2 0 _ rfl rfl⟩

/-! ## Claim C18: exceptions leave the bulk pass -/

theorem runTask_of_callArgs_throw {w w1 : World} {p : Nat} {t : Task} {e : Exn}
    (hnr : (w.cell t.out).ready = false)
    (h : callArgs (ensureReady w.fuel) w t.args = .throw e w1) :
    runTask w p t = .throw e w1 := by
  unfold runTask Task.execute
  rw [if_neg (by simp [hnr]), if_neg (by simp [hnr]), h]

theorem executeTopologicallyDetailed_of_loop_throw {pre : Bool} {w w1 w2 : World} {g : Graph}
    {e : Exn}
    (hb : buildGraph pre (indexByPtr w) (List.range w.tasks_.length)
      (Graph.init w.tasks_.length) w = .ok g w1)
    (hk : kahnLoop (w.tasks_.length + 1) g.adj (seedQueue g.indeg) g.indeg [] w1 = .throw e w2) :
    executeTopologicallyDetailed pre w = .throw e w2 := by
  unfold executeTopologicallyDetailed
  simp only
  unfold Graph.init at hb
  rw [hb]
  simp only
  rw [hk]

/-- C18: no exception is caught inside the bulk pass.  An exception thrown
while an outside dependency is pre-resolved leaves the inner and the outer
construction loop; an exception thrown while the task at the head of the queue
reads its arguments leaves the Kahn loop; an exception that leaves the
construction or the Kahn loop leaves `executeTopologicallyDetailed`, and with
it `executeTopologically`.  When the pass throws `e` there is no result record;
every cell that was ready before the pass is unchanged; and unless `e` is the
failure of a callable, the output of every task whose callable the pass has
invoked is ready in the state that the exception leaves behind. -/
theorem failure_propagates (pre : Bool) (w : World) (hwf : WF w) :
    (∀ idx v c cs seen g w0 e w1, isExternal idx w0 c = true →
      forceIfNotReady w0 c = .throw e w1 →
      buildDeps true idx v (c :: cs) seen g w0 = .throw e w1) ∧
    (∀ idx v vs g w0 p t e w1, w0.taskAt v = some (p, t) →
      buildDeps pre idx v t.deps [] g w0 = .throw e w1 →
      buildGraph pre idx (v :: vs) g w0 = .throw e w1) ∧
    (∀ fuel adj u q indeg order w0 p t e w1, w0.taskAt u = some (p, t) →
      (w0.cell t.out).ready = false →
      callArgs (ensureReady w0.fuel) w0 t.args = .throw e w1 →
      kahnLoop (fuel + 1) adj (u :: q) indeg order w0 = .throw e w1) ∧
    (∀ e w1, buildGraph pre (indexByPtr w) (List.range w.tasks_.length)
        (Graph.init w.tasks_.length) w = .throw e w1 →
      executeTopologicallyDetailed pre w = .throw e w1) ∧
    (∀ g w1 e w2, buildGraph pre (indexByPtr w) (List.range w.tasks_.length)
        (Graph.init w.tasks_.length) w = .ok g w1 →
      kahnLoop (w.tasks_.length + 1) g.adj (seedQueue g.indeg) g.indeg [] w1 = .throw e w2 →
      executeTopologicallyDetailed pre w = .throw e w2) ∧
    (∀ e w', executeTopologicallyDetailed pre w = .throw e w' →
      (executeTopologicallyDetailed pre w).val? = none ∧
      (pre = true → executeTopologically w = .throw e w') ∧
      (∀ c, (w.cell c).ready = true → w'.cell c = w.cell c) ∧
      (e ≠ .callable_failed → ∀ p ∈ newCalls w w', ∃ t : Task, w.tasks[p]? = some t ∧
        (w'.cell t.out).ready = true)) := by
  refine ⟨?_, ?_, ?_, ?_, ?_, ?_⟩
  · intro idx v c cs seen g w0 e w1 hx hf
    rw [buildDeps, if_pos (by simp [hx]), hf]
  · intro idx v vs g w0 p t e w1 ht hd
    rw [buildGraph, ht]
    simp only
    rw [hd]
  · intro fuel adj u q indeg order w0 p t e w1 ht hnr hc
    rw [kahnLoop, ht]
    simp only
    rw [runTask_of_callArgs_throw hnr hc]
  · intro e w1 hb
    exact executeTopologicallyDetailed_of_throw hb
  · intro g w1 e w2 hb hk
    exact executeTopologicallyDetailed_of_loop_throw hb hk
  · intro e w' h
    have hrun := (pass_run pre w hwf).2 e w' h
    refine ⟨by rw [h]; rfl, ?_, hrun.step.frozen, fun he p hp => ?_⟩
    · rintro rfl
      unfold executeTopologically
      rw [h]
    · obtain ⟨t, ht, _, hr⟩ := hrun.done he p hp
      exact ⟨t, ht, hr⟩

/-- C18 at `mistyped`: the `std::bad_cast` thrown when task 1 reads its
argument leaves both methods, and the cell of task 0, executed before, is
ready. -/
theorem failure_propagates_witness :
    executeTopologicallyDetailed true mistyped = .throw .bad_cast mistypedRun ∧
    (executeTopologicallyDetailed true mistyped).val? = none ∧
    executeTopologically mistyped = .throw .bad_cast mistypedRun ∧
    (∀ p ∈ newCalls mistyped mistypedRun, ∃ t : Task, mistyped.tasks[p]? = some t ∧
      (mistypedRun.cell t.out).ready = true) ∧
    newCalls mistyped mistypedRun = [0] :=
  ⟨rfl,
   ((failure_propagates true mistyped mistyped_wf).2.2.2.2.2 .bad_cast mistypedRun rfl).1,
   ((failure_propagates true mistyped mistyped_wf).2.2.2.2.2 .bad_cast mistypedRun rfl).2.1 rfl,
   ((failure_propagates true mistyped mistyped_wf).2.2.2.2.2 .bad_cast mistypedRun rfl).2.2.2
     (by decide),
   by decide⟩

/-- The failures that leave the pass, by kind: a type mismatch in an argument
read, a missing producer at pre-resolution and in an argument read, a cycle
among outside producers at pre-resolution and in an argument read. -/
theorem failure_kinds :
    (executeTopologicallyDetailed true mistyped).exn? = some .bad_cast ∧
    (executeTopologicallyDetailed true orphanDep).exn? = some .no_producer ∧
    (executeTopologicallyDetailed false orphanDep).exn? = some .no_producer ∧
    (executeTopologicallyDetailed true externalRing).exn? = some .cycle_detected ∧
    (executeTopologicallyDetailed false externalRing).exn? = some .cycle_detected := by
  refine ⟨?_, ?_, ?_, ?_, ?_⟩ <;> decide

/-! ## Claim C19: the stuck tasks -/

/-- At the end of the Kahn loop every task that is not in the order has a
predecessor that is not in the order. -/
theorem unordered_has_pred {w : World} (hn : w.tasks_.Nodup) {indeg order : List Nat}
    (hk : KInv w [] indeg order) {v : Nat} (hv : v < w.tasks_.length) (hvo : v ∉ order) :
    ∃ u, u < w.tasks_.length ∧ u ∉ order ∧ GEdge w u v := by
  have hz : indeg.getD v 0 ≠ 0 := by
    intro h0
    have := (hk.zero v hv).2 h0
    simp only [List.append_nil] at this
    exact hvo this
  rw [hk.count v hv] at hz
  obtain ⟨u, hu⟩ := Finset.card_pos.mp (Nat.pos_of_ne_zero hz)
  simp only [Finset.mem_filter, List.mem_toFinset] at hu
  exact ⟨u, lt_of_mem_predsOf hn hu.1, hu.2, hv, hu.1⟩

/-- At the end of the Kahn loop every task that is not in the order is
reachable from a task on a cycle. -/
theorem unordered_from_cycle {w : World} (hn : w.tasks_.Nodup) {indeg order : List Nat}
    (hk : KInv w [] indeg order) {v : Nat} (hv : v < w.tasks_.length) (hvo : v ∉ order) :
    ∃ c, TransGen (GEdge w) c c ∧ ReflTransGen (GEdge w) c v := by
  by_contra hno
  let A : Fin w.tasks_.length → Prop := fun x => x.1 ∉ order ∧ ReflTransGen (GEdge w) x.1 v
  let r : Fin w.tasks_.length → Fin w.tasks_.length → Prop :=
    fun a b => GEdge w a.1 b.1 ∧ A a
  have hirr : IsIrrefl (Fin w.tasks_.length) (TransGen r) := by
    refine ⟨fun a h => hno ⟨a.1, TransGen.lift Fin.val (fun _ _ h => h.1) h, ?_⟩⟩
    obtain ⟨b, hab, _⟩ := TransGen.head'_iff.mp h
    exact hab.2.2
  have hwf : WellFounded (TransGen r) := Finite.wellFounded_of_trans_of_irrefl _
  obtain ⟨m, hm, hmin⟩ := hwf.has_min {x | A x} ⟨⟨v, hv⟩, hvo, ReflTransGen.refl⟩
  obtain ⟨u, hul, huo, hum⟩ := unordered_has_pred hn hk m.2 hm.1
  have hA : A ⟨u, hul⟩ := ⟨huo, ReflTransGen.head hum hm.2⟩
  exact hmin ⟨u, hul⟩ hA (TransGen.single ⟨hum, hA⟩)

/-- A task reachable from a task on a cycle is not in the order. -/
theorem from_cycle_not_ordered {w : World} {indeg order : List Nat}
    (hk : KInv w [] indeg order) {c v : Nat} (hc : TransGen (GEdge w) c c)
    (hcv : ReflTransGen (GEdge w) c v) : v ∉ order := by
  rcases reflTransGen_iff_eq_or_transGen.mp hcv with rfl | ht
  · exact cycle_not_ordered hk hc
  · intro hv
    obtain ⟨j, hj⟩ := List.getElem?_of_mem hv
    obtain ⟨i, _, hi⟩ := transGen_topo hk ht j hj
    exact cycle_not_ordered hk hc (List.getElem?_mem hi)

theorem reflTransGen_gedge_iff {w : World} (hwf : WF w) (u v : Nat) :
    ReflTransGen (GEdge w) u v ↔ ReflTransGen (Edge w) u v :=
  ⟨ReflTransGen.mono (fun a b h => (gedge_iff_edge hwf a b).mp h),
   ReflTransGen.mono (fun a b h => (gedge_iff_edge hwf a b).mpr h)⟩

/-- C19: when `executeTopologicallyDetailed` returns `ok = false`, the indices
in `stuck` are exactly the registered tasks that lie on a dependency cycle or are
reachable along dependency edges from a task on a cycle; every stuck task has an
upstream task that is stuck as well; and every registered task that is not
reachable from a cycle is in `order`. -/
theorem stuck_from_cycle (pre : Bool) (w : World) (hwf : WF w) (r : TopoExec) (w' : World)
    (hres : executeTopologicallyDetailed pre w = .ok r w') (hok : r.ok = false) :
    (∀ v, v ∈ r.stuck ↔
      v < w.size ∧ ∃ c, TransGen (Edge w) c c ∧ ReflTransGen (Edge w) c v) ∧
    (∀ v ∈ r.stuck, ∃ u ∈ r.stuck, Edge w u v) ∧
    (∀ v, v < w.size → (¬ ∃ c, TransGen (Edge w) c c ∧ ReflTransGen (Edge w) c v) →
      v ∈ r.order) := by
  obtain ⟨⟨⟨indeg, hk, hstuck⟩, hrok⟩, _⟩ :=
    (executeTopologicallyDetailed_spec pre w hwf).1 r w' hres
  have hlen : r.order.length ≠ w.tasks_.length := by
    intro hl
    rw [hok] at hrok
    exact absurd (decide_eq_true hl) (by rw [← hrok]; simp)
  rw [if_neg hlen] at hstuck
  have hmem : ∀ v, v ∈ r.stuck ↔ v < w.tasks_.length ∧ v ∉ r.order := by
    intro v
    rw [hstuck, stuckOf_mem, hk.len]
    constructor
    · rintro ⟨h1, h2⟩
      exact ⟨h1, fun ho => h2 ((hk.zero v h1).1 (by simpa using ho))⟩
    · rintro ⟨h1, h2⟩
      exact ⟨h1, fun h0 => h2 (by simpa using (hk.zero v h1).2 h0)⟩
  have hcyc : ∀ v, v < w.tasks_.length →
      (v ∉ r.order ↔ ∃ c, TransGen (Edge w) c c ∧ ReflTransGen (Edge w) c v) := by
    intro v hv
    constructor
    · intro hvo
      obtain ⟨c, h1, h2⟩ := unordered_from_cycle hwf.nodup hk hv hvo
      exact ⟨c, (transGen_gedge_iff hwf c c).mp h1, (reflTransGen_gedge_iff hwf c v).mp h2⟩
    · rintro ⟨c, h1, h2⟩
      exact from_cycle_not_ordered hk ((transGen_gedge_iff hwf c c).mpr h1)
        ((reflTransGen_gedge_iff hwf c v).mpr h2)
  refine ⟨?_, ?_, ?_⟩
  · intro v
    rw [hmem]
    constructor
    · rintro ⟨h1, h2⟩
      exact ⟨h1, (hcyc v h1).mp h2⟩
    · rintro ⟨h1, h2⟩
      exact ⟨h1, (hcyc v h1).mpr h2⟩
  · intro v hv
    obtain ⟨h1, h2⟩ := (hmem v).mp hv
    obtain ⟨u, hul, huo, hum⟩ := unordered_has_pred hwf.nodup hk h1 h2
    exact ⟨u, (hmem u).mpr ⟨hul, huo⟩, (gedge_iff_edge hwf u v).mp hum⟩
  · intro v hv hno
    by_contra hvo
    exact hno ((hcyc v hv).mp hvo)

/-- C19 at `cycleWithTail`: the pass returns the order `[3]` and the stuck list
`[0, 1, 2]`. -/
theorem stuck_from_cycle_witness :
    (∀ v, v ∈ [0, 1, 2] ↔ v < cycleWithTail.size ∧
      ∃ c, TransGen (Edge cycleWithTail) c c ∧ ReflTransGen (Edge cycleWithTail) c v) ∧
    (∀ v ∈ [0, 1, 2], ∃ u ∈ [0, 1, 2], Edge cycleWithTail u v) ∧
    (∀ v, v < cycleWithTail.size →
      (¬ ∃ c, TransGen (Edge cycleWithTail) c c ∧ ReflTransGen (Edge cycleWithTail) c v) →
      v ∈ [3]) :=
  stuck_from_cycle true cycleWithTail
    (add_wf (add_wf (add_wf (add_wf (empty_wf false) _ _) _ _) _ _) _ _)
    { ok := false, order := [3], stuck := [0, 1, 2] } cycleWithTailRun rfl rfl

/-! ## Claim C20: the dependency list of a task -/

theorem forall₂_future_deps : ∀ args : List ArgWrap,
    List.Forall₂ (fun a c => ∃ U, a = ArgWrap.future U c)
      (args.filter (fun a => a.depCell.isSome)) (args.filterMap ArgWrap.depCell) := by
  intro args
  induction args with
  | nil => exact List.Forall₂.nil
  | cons a rest ih =>
    cases a with
    | plain v =>
      rw [List.filter_cons_of_neg (by simp [ArgWrap.depCell]),
        List.filterMap_cons_none (by rfl)]
      exact ih
    | future U c =>
      rw [List.filter_cons_of_pos (by simp [ArgWrap.depCell]),
        List.filterMap_cons_some (by rfl)]
      exact List.Forall₂.cons ⟨U, rfl⟩ ih

theorem mem_specDependencies : ∀ (args : List ArgWrap) (c : Nat),
    c ∈ specDependencies args ↔ c ∈ args.filterMap ArgWrap.depCell := by
  intro args
  induction args with
  | nil => intro c; simp [specDependencies]
  | cons a rest ih =>
    intro c
    cases a with
    | plain v =>
      rw [specDependencies, List.filterMap_cons_none (by rfl)]
      exact ih c
    | future U d =>
      rw [specDependencies, List.filterMap_cons_some (by rfl), List.mem_cons, List.mem_cons,
        List.mem_filter, ih c]
      constructor
      · rintro (h | ⟨h, _⟩)
        · exact Or.inl h
        · exact Or.inr h
      · intro h
        by_cases hcd : c = d
        · exact Or.inl hcd
        · rcases h with h | h
          · exact Or.inl h
          · exact Or.inr ⟨h, by simpa using hcd⟩

theorem nodup_specDependencies : ∀ args : List ArgWrap, (specDependencies args).Nodup := by
  intro args
  induction args with
  | nil => exact List.nodup_nil
  | cons a rest ih =>
    cases a with
    | plain v => exact ih
    | future U d =>
      rw [specDependencies, List.nodup_cons]
      refine ⟨?_, ih.filter _⟩
      rw [List.mem_filter]
      rintro ⟨_, h⟩
      simp at h

theorem specDependencies_of_nodup : ∀ args : List ArgWrap,
    (args.filterMap ArgWrap.depCell).Nodup →
    args.filterMap ArgWrap.depCell = specDependencies args := by
  intro args
  induction args with
  | nil => intro _; rfl
  | cons a rest ih =>
    intro hn
    cases a with
    | plain v =>
      rw [List.filterMap_cons_none (by rfl)] at hn ⊢
      exact ih hn
    | future U d =>
      rw [List.filterMap_cons_some (by rfl)] at hn ⊢
      rw [List.nodup_cons] at hn
      rw [specDependencies, ← ih hn.2, List.filter_eq_self.mpr]
      intro x hx
      have : x ≠ d := by rintro rfl; exact hn.1 hx
      simpa using this

/-- C20, as stated, fails: the second task of `sameTwice` has two future
bindings over the cell 0, and its `deps()` is `[0, 0]`, not the duplicate-free
list `[0]` of the specification. -/
theorem deps_keeps_duplicates :
    (sameTwice.taskAt 1).map (fun pt => pt.2.args) =
      some [.future .int 0, .future .int 0] ∧
    (sameTwice.taskAt 1).map (fun pt => pt.2.deps) = some [0, 0] ∧
    (sameTwice.taskAt 1).map (fun pt => specDependencies pt.2.args) = some [0] ∧
    (sameTwice.taskAt 1).map (fun pt => pt.2.deps) ≠
      (sameTwice.taskAt 1).map (fun pt => specDependencies pt.2.args) := by
  refine ⟨?_, ?_, ?_, ?_⟩ <;> decide

/-- C20, amended: `deps()` lists, in binding order, the cell of each
future-kind binding of the task, one entry per binding: a cell is listed as
often as there are future bindings over it (twice for a two-argument task whose
two bindings are futures over the same cell), and a plain-value binding
contributes nothing.  The list has the same members as the duplicate-free list
of the specification, and equals it exactly when the future bindings are over
distinct cells. -/
theorem deps_per_binding (t : Task) :
    List.Forall₂ (fun a c => ∃ U, a = ArgWrap.future U c)
      (t.args.filter (fun a => a.depCell.isSome)) t.deps ∧
    (∀ c, c ∈ t.deps ↔ ∃ U, ArgWrap.future U c ∈ t.args) ∧
    (∀ v rest, t.args = .plain v :: rest →
      t.deps = Task.deps { fn := t.fn, args := rest, out := t.out }) ∧
    (∀ U V c, t.args = [.future U c, .future V c] → t.deps = [c, c]) ∧
    (∀ c, c ∈ specDependencies t.args ↔ c ∈ t.deps) ∧
    (t.deps = specDependencies t.args ↔ t.deps.Nodup) := by
  refine ⟨forall₂_future_deps t.args, fun c => mem_deps_iff, ?_, ?_,
    mem_specDependencies t.args, ?_⟩
  · intro v rest h
    unfold Task.deps
    rw [h]
    rfl
  · intro U V c h
    unfold Task.deps
    rw [h]
    rfl
  · constructor
    · intro h
      rw [h]
      exact nodup_specDependencies t.args
    · exact specDependencies_of_nodup t.args

/-- In the graph built for `sameTwice` the two bindings over the cell 0 make a
single edge: the duplicate is dropped when the graph is built, not by `deps()`. -/
theorem sameTwice_graph :
    graphOf sameTwice = { adj := [[1], []], indeg := [0, 1] } ∧
    (executeTopologicallyDetailed true sameTwice).val? =
      some { ok := true, order := [0, 1], stuck := [] } := by
  constructor <;> decide

/-! ## Claim C21: registration executes nothing -/

theorem taskAt_add_old {w : World} (hwf : WF w) (fn : List Holder → Option Holder)
    (args : List ArgWrap) (u : Nat) (hu : u < w.size) :
    (add w fn args).2.taskAt u = w.taskAt u := by
  unfold World.size at hu
  have h1 : (add w fn args).2.tasks_[u]? = w.tasks_[u]? := by
    show (w.tasks_ ++ [w.tasks.length])[u]? = w.tasks_[u]?
    exact List.getElem?_append_left hu
  unfold World.taskAt
  rw [h1]
  cases hp : w.tasks_[u]? with
  | none => rfl
  | some p =>
    have hlt : p < w.tasks.length := hwf.registered p (List.getElem?_mem hp)
    simp only [add_tasks, if_pos hlt]

theorem taskAt_add_new (w : World) (fn : List Holder → Option Holder) (args : List ArgWrap) :
    (add w fn args).2.taskAt w.size =
      some (w.tasks.length, { fn := fn, args := args, out := (add w fn args).1 }) := by
  have h1 : (add w fn args).2.tasks_[w.size]? = some w.tasks.length := by
    show (w.tasks_ ++ [w.tasks.length])[w.tasks_.length]? = some w.tasks.length
    simp
  unfold World.taskAt
  rw [h1]
  simp only [add_tasks, lt_irrefl, if_false, if_true]
  rfl

theorem lock_add_new (w : World) (fn : List Holder → Option Holder) (args : List ArgWrap) :
    (add w fn args).2.lock (add w fn args).1 =
      some (w.tasks.length, { fn := fn, args := args, out := (add w fn args).1 }) := by
  have h1 : (add w fn args).1 = w.cells.length := rfl
  unfold World.lock
  rw [h1, add_cell]
  simp only [lt_irrefl, if_false, if_true, add_tasks]
  rfl

/-- Claim C21: `add` registers a task and executes nothing. In a well-formed
state, after `add` the scheduler has one task more, the new task sits at the
last index `size() - 1` and the earlier indices hold the tasks they held; the
handle is the address of a new cell, not ready, not running, without a value,
whose producer is the new task; every other cell is as it was; no callable has
been invoked. The future that `getFutureResult` builds for a handle refers to
the handle's cell, and building it involves no program state. -/
theorem add_registers_only (w : World) (hwf : WF w) (fn : List Holder → Option Holder)
    (args : List ArgWrap) (T : Ty) :
    (add w fn args).2.size = w.size + 1 ∧
    (add w fn args).2.taskAt ((add w fn args).2.size - 1) =
      some (w.tasks.length, { fn := fn, args := args, out := (add w fn args).1 }) ∧
    (∀ u, u < w.size → (add w fn args).2.taskAt u = w.taskAt u) ∧
    (add w fn args).1 = w.cells.length ∧
    ((add w fn args).2.cell (add w fn args).1).ready = false ∧
    ((add w fn args).2.cell (add w fn args).1).running = false ∧
    ((add w fn args).2.cell (add w fn args).1).value.has_value = false ∧
    (add w fn args).2.lock (add w fn args).1 =
      some (w.tasks.length, { fn := fn, args := args, out := (add w fn args).1 }) ∧
    (∀ c, c ≠ (add w fn args).1 → (add w fn args).2.cell c = w.cell c) ∧
    (add w fn args).2.calls = w.calls ∧
    (getFutureResult T (add w fn args).1).depCell = some (add w fn args).1 := by
  have hsz : (add w fn args).2.size = w.size + 1 := by
    show (w.tasks_ ++ [w.tasks.length]).length = w.tasks_.length + 1
    simp
  have h1 : (add w fn args).1 = w.cells.length := rfl
  have hc : (add w fn args).2.cell (add w fn args).1 = { producer := some w.tasks.length } := by
    rw [h1, add_cell]; simp
  refine ⟨hsz, ?_, fun u hu => taskAt_add_old hwf fn args u hu, h1, ?_, ?_, ?_,
    lock_add_new w fn args, ?_, rfl, rfl⟩
  · rw [hsz, Nat.add_sub_cancel]; exact taskAt_add_new w fn args
  · rw [hc]
  · rw [hc]
  · rw [hc]; rfl
  · intro c hne
    rw [h1] at hne
    rw [add_cell]
    by_cases h : c < w.cells.length
    · rw [if_pos h]
    · rw [if_neg h, if_neg hne]
      unfold World.cell
      rw [List.getD_eq_default _ _ (by omega)]

/-- Witness for C21 at a scheduler that already holds one task. -/
theorem add_registers_only_witness :
    WF (add (World.empty false) (constInt 1) []).2 ∧
    (add (add (World.empty false) (constInt 1) []).2 doubleInt
        [getFutureResult .int 0]).2.size = 2 ∧
    (add (add (World.empty false) (constInt 1) []).2 doubleInt
        [getFutureResult .int 0]).2.calls = [] :=
  ⟨add_wf (empty_wf false) _ _,
   (add_registers_only _ (add_wf (empty_wf false) _ _) doubleInt
      [getFutureResult .int 0] .int).1,
   (add_registers_only _ (add_wf (empty_wf false) _ _) doubleInt
      [getFutureResult .int 0] .int).2.2.2.2.2.2.2.2.2.1⟩

/-! ## Claim C22: the container `Any` -/

/-- Claim C22: an `Any` built from a value `v` of type `T` gives back `v` through
`as<T>` and fails with `bad_cast` through `as<U>` for every other type `U`; a
default-constructed `Any` fails `as<T>` for every `T`; a copy answers every
`as<T>` as its original does, holds a value exactly when the original does,
and the copy of an empty `Any` is empty. -/
theorem any_round_trip (T : Ty) (v : Int) (a : Any) :
    (Any.of T v).as T = .ok { ty := T, value := v } ∧
    (∀ U, U ≠ T → (Any.of T v).as U = .error .bad_cast) ∧
    (∀ U, ({} : Any).as U = .error .bad_cast) ∧
    (∀ U, a.copy.as U = a.as U) ∧
    a.copy.has_value = a.has_value ∧
    (Any.of T v).copy = Any.of T v ∧
    ({} : Any).copy = {} := by
  refine ⟨by simp [Any.of, Any.as], ?_, fun U => rfl, ?_, ?_, rfl, rfl⟩
  · intro U hU
    simp [Any.of, Any.as, Ne.symm hU]
  · intro U
    cases a with
    | mk ptr => cases ptr <;> rfl
  · cases a with
    | mk ptr => cases ptr <;> rfl

/-- Witness for C22: an `Any` built from the `int` 7 fails `as<string>`. -/
theorem any_round_trip_witness : (Any.of .int 7).as .string = .error .bad_cast :=
  (any_round_trip .int 7 {}).2.1 .string (by decide)

/-! ## Claim C32: shape of the result of the pass -/

theorem stuckOf_sorted (indeg : List Nat) : (stuckOf indeg).Sorted (fun a b => a < b) := by
  unfold stuckOf
  exact (List.sorted_lt_range _).filter _

theorem exists_not_mem_of_length_lt {l : List Nat} {n : Nat} (hlen : l.length < n) :
    ∃ v, v < n ∧ v ∉ l := by
  by_contra hcon
  push_neg at hcon
  have h1 : Finset.range n ⊆ l.toFinset := by
    intro x hx
    rw [List.mem_toFinset]
    exact hcon x (Finset.mem_range.mp hx)
  have h2 := Finset.card_le_card h1
  rw [Finset.card_range] at h2
  have h3 := List.toFinset_card_le l
  omega

theorem topoSpec_shape {w : World} {r : TopoExec} (hs : TopoSpec w r) :
    r.order.Nodup ∧
    (∀ v, v ∈ r.order ++ r.stuck → v < w.tasks_.length) ∧
    (∀ v, v < w.tasks_.length → (v ∈ r.order ∨ v ∈ r.stuck) ∧ ¬ (v ∈ r.order ∧ v ∈ r.stuck)) ∧
    r.stuck.Sorted (fun a b => a < b) ∧
    (r.ok = true ↔ r.stuck = []) ∧
    (r.stuck = [] ↔ r.order.length = w.tasks_.length) := by
  obtain ⟨indeg, hk, hst⟩ := hs.inv
  have hnd : r.order.Nodup := by simpa using hk.nodup
  have hb : ∀ x ∈ r.order, x < w.tasks_.length := fun x hx => hk.bound x (by simpa using hx)
  have hz : ∀ v, v < w.tasks_.length → (v ∈ r.order ↔ indeg.getD v 0 = 0) := by
    intro v hv
    have := hk.zero v hv
    simpa [-List.getD_eq_getElem?_getD] using this
  by_cases hlen : r.order.length = w.tasks_.length
  · rw [if_pos hlen] at hst
    have hall := mem_of_length_eq hnd hb hlen
    refine ⟨hnd, ?_, ?_, ?_, ?_, ?_⟩
    · intro v hv
      rw [hst, List.append_nil] at hv
      exact hb v hv
    · intro v hv
      rw [hst]
      exact ⟨Or.inl (hall v hv), fun h => by cases h.2⟩
    · rw [hst]
      exact List.sorted_nil
    · rw [hs.ok]
      simp [hlen, hst]
    · simp [hlen, hst]
  · rw [if_neg hlen] at hst
    have hmem : ∀ v, v ∈ r.stuck ↔ v < w.tasks_.length ∧ indeg.getD v 0 ≠ 0 := by
      intro v
      rw [hst, stuckOf_mem, hk.len]
    have hlt : r.order.length < w.tasks_.length :=
      lt_of_le_of_ne (length_le_of_nodup_bound hnd hb) hlen
    obtain ⟨v0, hv0, hv0n⟩ := exists_not_mem_of_length_lt hlt
    have hne : r.stuck ≠ [] := by
      intro h
      have : v0 ∈ r.stuck := (hmem v0).mpr ⟨hv0, fun h0 => hv0n ((hz v0 hv0).mpr h0)⟩
      rw [h] at this
      cases this
    refine ⟨hnd, ?_, ?_, ?_, ?_, ?_⟩
    · intro v hv
      rcases List.mem_append.mp hv with h | h
      · exact hb v h
      · exact ((hmem v).mp h).1
    · intro v hv
      constructor
      · by_cases h0 : indeg.getD v 0 = 0
        · exact Or.inl ((hz v hv).mpr h0)
        · exact Or.inr ((hmem v).mpr ⟨hv, h0⟩)
      · rintro ⟨h1, h2⟩
        exact ((hmem v).mp h2).2 ((hz v hv).mp h1)
    · rw [hst]
      exact stuckOf_sorted indeg
    · rw [hs.ok]
      simp [hlen, hne]
    · simp [hlen, hne]

/-- Claim C32: for every result of `executeTopologicallyDetailed` over the `n`
registered tasks, `order` contains no index twice, `order` and `stuck` hold only
indices below `n`, every index below `n` is in exactly one of `order` and
`stuck`, `stuck` is strictly ascending, and `ok` holds iff `stuck` is empty iff
`order` has length `n`. -/
theorem result_partition (pre : Bool) (w : World) (hwf : WF w) (r : TopoExec) (w' : World)
    (h : executeTopologicallyDetailed pre w = .ok r w') :
    r.order.Nodup ∧
    (∀ v, v ∈ r.order ++ r.stuck → v < w.tasks_.length) ∧
    (∀ v, v < w.tasks_.length → (v ∈ r.order ∨ v ∈ r.stuck) ∧ ¬ (v ∈ r.order ∧ v ∈ r.stuck)) ∧
    r.stuck.Sorted (fun a b => a < b) ∧
    (r.ok = true ↔ r.stuck = []) ∧
    (r.stuck = [] ↔ r.order.length = w.tasks_.length) :=
  topoSpec_shape ((executeTopologicallyDetailed_spec pre w hwf).1 r w' h).1

/-- C32 at `cycleWithTail`: order `[3]`, stuck `[0, 1, 2]`, `ok = false`. -/
theorem result_partition_witness :
    executeTopologicallyDetailed true cycleWithTail =
      .ok { ok := false, order := [3], stuck := [0, 1, 2] } cycleWithTailRun ∧
    [3].Nodup ∧
    (∀ v, v ∈ [3] ++ [0, 1, 2] → v < cycleWithTail.tasks_.length) ∧
    (∀ v, v < cycleWithTail.tasks_.length →
      (v ∈ [3] ∨ v ∈ [0, 1, 2]) ∧ ¬ (v ∈ [3] ∧ v ∈ [0, 1, 2])) ∧
    [0, 1, 2].Sorted (fun a b => a < b) ∧
    (false = true ↔ [0, 1, 2] = []) ∧
    ([0, 1, 2] = [] ↔ [3].length = cycleWithTail.tasks_.length) :=
  ⟨rfl, result_partition true cycleWithTail
    (add_wf (add_wf (add_wf (add_wf (empty_wf false) _ _) _ _) _ _) _ _)
    { ok := false, order := [3], stuck := [0, 1, 2] } cycleWithTailRun rfl⟩

/-! ## Claim C31: one edge for each pair of producer and consumer -/

theorem predsOf_same_cell {w : World} (hwf : WF w) {u v pu pv : Nat} {tu tv : Task} {U V : Ty}
    (hu : w.taskAt u = some (pu, tu)) (hv : w.taskAt v = some (pv, tv))
    (hargs : tv.args = [.future U tu.out, .future V tu.out]) : predsOf w v = [u, u] := by
  obtain ⟨hu1, hu2⟩ := taskAt_eq_some.mp hu
  have hp : prodIdx w tu.out = some u :=
    (prodIdx_eq_some hwf.nodup).mpr ⟨pu, tu, lock_eq_some.mpr ⟨hwf.bound pu tu hu2, hu2⟩, hu1⟩
  unfold predsOf
  rw [hv]
  simp only [Task.deps, hargs, List.filterMap_cons, ArgWrap.depCell, hp, List.filterMap_nil]

theorem sorted_adj {w : World} {g : Graph} (hg : GraphSpec w g) {u : Nat}
    (hu : u < w.tasks_.length) : (g.adj.getD u []).Sorted (fun a b => a < b) := by
  rw [hg.adj u hu]
  exact (List.sorted_lt_range _).filter _

theorem taskAt_lt {w : World} {v p : Nat} {t : Task} (h : w.taskAt v = some (p, t)) :
    v < w.tasks_.length := by
  obtain ⟨h1, _⟩ := taskAt_eq_some.mp h
  exact (List.getElem?_eq_some.mp h1).1

theorem kinv_same_cell {w : World} {indeg order : List Nat} (hk : KInv w [] indeg order)
    {u v : Nat} (hv : v < w.tasks_.length) (hp : predsOf w v = [u, u]) :
    (v ∈ order ↔ u ∈ order) ∧ (indeg.getD v 0 ≠ 0 ↔ u ∉ order) ∧
    ∀ j : Nat, order[j]? = some v → ∃ i : Nat, i < j ∧ order[i]? = some u := by
  have hc := hk.count v hv
  have hz : v ∈ order ↔ indeg.getD v 0 = 0 := by
    have := hk.zero v hv
    simpa [-List.getD_eq_getElem?_getD] using this
  rw [hp] at hc
  have hcount : indeg.getD v 0 = 0 ↔ u ∈ order := by
    rw [hc]
    have hl : [u, u].toFinset = {u} := by simp
    rw [hl, Finset.filter_singleton]
    by_cases ho : u ∈ order
    · simp [ho]
    · simp [ho]
  refine ⟨hz.trans hcount, ?_, ?_⟩
  · rw [← hcount]
  · intro j hj
    exact hk.topo j v hj u (by rw [hp]; simp)

/-- C31, as stated, fails: in `sameTwiceLate` task 2 has two future bindings
over the cell of task 0 and in-degree 1, yet the pass executes task 1 between the
producer 0 and task 2: the order is `[0, 1, 2]`, so task 2 is not executed right
after its producer completes. -/
theorem same_cell_not_next :
    (sameTwiceLate.taskAt 2).map (fun pt => pt.2.args) =
      some [.future .int 0, .future .int 0] ∧
    (sameTwiceLate.taskAt 0).map (fun pt => pt.2.out) = some 0 ∧
    graphOf sameTwiceLate = { adj := [[2], [], []], indeg := [0, 0, 1] } ∧
    (executeTopologicallyDetailed true sameTwiceLate).val? =
      some { ok := true, order := [0, 1, 2], stuck := [] } ∧
    (executeTopologicallyDetailed true sameTwiceLate).world?.map (fun w => w.calls) =
      some [0, 1, 2] := by
  refine ⟨?_, ?_, ?_, ?_, ?_⟩ <;> decide

/-- C31, amended: the graph that the pass builds has at most one edge for each
pair of producer and consumer: the in-degree of `v` is the number of distinct
registered tasks that produce the dependency cells of `v`, and each successor
list `adj[u]` is strictly ascending and holds `v` exactly when `u` is one of
those producers.  A task `v` whose two bindings are futures over the cell of the
registered task `u` has in-degree 1 and occurs once in `adj[u]`; in every result
of the pass it is in `order` exactly when `u` is, then at a later position than
`u` (not necessarily the next one), and it is reported stuck only when `u` has
not been executed. -/
theorem one_edge_per_pair (pre : Bool) (w : World) (hwf : WF w) :
    (∀ g w1, buildGraph pre (indexByPtr w) (List.range w.tasks_.length)
        (Graph.init w.tasks_.length) w = .ok g w1 →
      g.adj.length = w.tasks_.length ∧ g.indeg.length = w.tasks_.length ∧
      (∀ v, v < w.tasks_.length → g.indeg.getD v 0 = (predsOf w v).toFinset.card) ∧
      (∀ u, u < w.tasks_.length → (g.adj.getD u []).Sorted (fun a b => a < b) ∧
        ∀ v, v ∈ g.adj.getD u [] ↔ v < w.tasks_.length ∧ u ∈ predsOf w v) ∧
      (∀ u v pu pv tu tv U V, w.taskAt u = some (pu, tu) → w.taskAt v = some (pv, tv) →
        tv.args = [.future U tu.out, .future V tu.out] →
        g.indeg.getD v 0 = 1 ∧ (g.adj.getD u []).count v = 1)) ∧
    (∀ r w', executeTopologicallyDetailed pre w = .ok r w' →
      ∀ u v pu pv tu tv U V, w.taskAt u = some (pu, tu) → w.taskAt v = some (pv, tv) →
        tv.args = [.future U tu.out, .future V tu.out] →
        (v ∈ r.order ↔ u ∈ r.order) ∧
        (∀ j : Nat, r.order[j]? = some v → ∃ i : Nat, i < j ∧ r.order[i]? = some u) ∧
        (v ∈ r.stuck → u ∉ r.order)) := by
  constructor
  · intro g w1 hb
    obtain ⟨rfl, _⟩ := buildGraph_graphOf pre w hwf g w1 hb
    have hg := graphOf_spec w hwf.nodup
    refine ⟨hg.adj_len, hg.indeg_len, hg.indeg, ?_, ?_⟩
    · intro u hu
      exact ⟨sorted_adj hg hu, fun v => mem_adj_iff hg hu⟩
    · intro u v pu pv tu tv U V hu hv hargs
      have hp := predsOf_same_cell hwf hu hv hargs
      have hul := taskAt_lt hu
      have hvl := taskAt_lt hv
      constructor
      · rw [hg.indeg v hvl, hp]
        simp
      · apply List.count_eq_one_of_mem (adj_nodup hg hul)
        rw [mem_adj_iff hg hul, hp]
        exact ⟨hvl, by simp⟩
  · intro r w' h u v pu pv tu tv U V hu hv hargs
    have hp := predsOf_same_cell hwf hu hv hargs
    have hvl := taskAt_lt hv
    obtain ⟨indeg, hk, hst⟩ := ((executeTopologicallyDetailed_spec pre w hwf).1 r w' h).1.inv
    obtain ⟨h1, h2, h3⟩ := kinv_same_cell hk hvl hp
    refine ⟨h1, h3, ?_⟩
    intro hs
    by_cases hlen : r.order.length = w.tasks_.length
    · rw [hst, if_pos hlen] at hs
      cases hs
    · rw [hst, if_neg hlen, stuckOf_mem] at hs
      exact h2.mp hs.2

/-- The amended C31 at `sameTwiceLate`, producer 0 and consumer 2. -/
theorem one_edge_per_pair_witness :
    (∀ g w1, buildGraph true (indexByPtr sameTwiceLate)
        (List.range sameTwiceLate.tasks_.length)
        (Graph.init sameTwiceLate.tasks_.length) sameTwiceLate = .ok g w1 →
      g.indeg.getD 2 0 = 1 ∧ (g.adj.getD 0 []).count 2 = 1) ∧
    (∀ r w', executeTopologicallyDetailed true sameTwiceLate = .ok r w' →
        (2 ∈ r.order ↔ 0 ∈ r.order) ∧
        (∀ j : Nat, r.order[j]? = some 2 → ∃ i : Nat, i < j ∧ r.order[i]? = some 0) ∧
        (2 ∈ r.stuck → 0 ∉ r.order)) :=
  ⟨fun g w1 hb =>
     ((one_edge_per_pair true sameTwiceLate
        (add_wf (add_wf (add_wf (empty_wf false) _ _) _ _) _ _)).1 g w1 hb).2.2.2.2
        0 2 0 2 _ _ .int .int rfl rfl rfl,
   fun r w' h =>
     (one_edge_per_pair true sameTwiceLate
        (add_wf (add_wf (add_wf (empty_wf false) _ _) _ _) _ _)).2 r w' h
        0 2 0 2 _ _ .int .int rfl rfl rfl⟩

/-! ## Claim C33: lazy forcing and the bulk pass compute the same values -/

theorem seq_sim (z : World) : Seq (Sim z) (Sim z) := by
  have htrans : ∀ {a b c : World}, Sim z a b → Sim z b c → Sim z a c :=
    fun h1 h2 => ⟨h1.1.trans h2.1, fun h => h2.2 (h1.2 h)⟩
  exact { refl := fun w => ⟨Step.refl w, fun h => h⟩, trans := htrans, absorb := htrans,
          weaken := fun h => h }

theorem agree_of_step {w z : World} (h : Step w z) : Agree z w := by
  intro c _ hc
  rw [h.frozen c hc]

theorem agree_setRunning {z w : World} (c : Nat) (b : Bool) :
    Agree z (w.setRunning c b) ↔ Agree z w := by
  constructor
  · intro h x hz hx
    have := h x hz (by rw [setRunning_ready]; exact hx)
    rwa [setRunning_value] at this
  · intro h x hz hx
    rw [setRunning_ready] at hx
    rw [setRunning_value]
    exact h x hz hx

theorem argVal_agree {z a : World} (hag : Agree z a) {x : ArgWrap} {h h' : Holder}
    (h1 : ArgVal a x h) (h2 : ArgVal z x h') : h = h' := by
  cases x with
  | plain v => exact h1.trans h2.symm
  | future U c =>
    have hv := hag c h2.1 h1.1
    have := h1.2.symm.trans ((congrArg (fun v => v.as U) hv).trans h2.2)
    exact Except.ok.inj this

theorem forall₂_argVal_agree {z a : World} (hag : Agree z a) {args : List ArgWrap}
    {vs vs' : List Holder} (h1 : List.Forall₂ (ArgVal a) args vs)
    (h2 : List.Forall₂ (ArgVal z) args vs') : vs = vs' := by
  induction h1 generalizing vs' with
  | nil => cases h2; rfl
  | cons ha _ ih =>
    cases h2 with
    | cons hb hrest => rw [argVal_agree hag ha hb, ih hrest]

theorem agree_publish {z w : World} (hz : Consistent z) (hzt : z.tasks = w.tasks) {p : Nat}
    {t : Task} (ht : w.tasks[p]? = some t) {vs : List Holder} {r : Holder}
    (hvs : List.Forall₂ (ArgVal w) t.args vs) (hfn : t.fn vs = some r) (hag : Agree z w) :
    Agree z (w.publish p t.out r) := by
  intro c hzc hc
  rw [publish_cell] at hc ⊢
  split
  · rename_i hcond
    obtain ⟨rfl, _⟩ := hcond
    obtain ⟨vs', r', h1, h2, h3⟩ := hz p t (by rw [hzt]; exact ht) hzc
    have hv := forall₂_argVal_agree hag hvs h1
    subst hv
    rw [hfn] at h2
    cases h2
    rw [h3]
  · rename_i hcond
    rw [if_neg hcond] at hc
    exact hag c hzc hc

theorem execute_sim {z : World} (hz : Consistent z) {force : World → Nat → Res Unit}
    (hfs : ForceSpec force) {w : World} (hzt : z.tasks = w.tasks) {p : Nat} {t : Task}
    (ht : w.tasks[p]? = some t)
    (hf : ∀ d, d ∈ t.deps → ∀ w1, Sim z w w1 → Respects (Sim z) (Sim z) force w1 d) :
    (∀ w', t.execute force w p = .ok () w' → Sim z w w') ∧
    (∀ e w', t.execute force w p = .throw e w' → Sim z w w') := by
  have hc := callArgs_rel (seq_sim z) force t.args w hf
  have hst := Task.execute_step hfs w p t
  constructor
  · intro w' hr
    refine ⟨(hst.1 w' hr).1.1, fun hag => ?_⟩
    rcases Task.execute_ok hr with ⟨_, rfl⟩ | ⟨_, hs, w1, r, e1, hfn, rfl⟩
    · exact hag
    · obtain ⟨hs1, h1⟩ := hc.1 _ _ e1
      exact agree_publish hz (hzt.trans hs1.tasks.symm) (by rw [hs1.tasks]; exact ht)
        (callArgs_vals hfs e1) hfn (h1 hag)
  · intro e w' hr
    refine ⟨hst.2 e w' hr, fun hag => ?_⟩
    obtain ⟨_, e1 | ⟨hs, w1, e1, _, _, rfl⟩⟩ := Task.execute_throw hr
    · exact (hc.2 _ _ e1).2 hag
    · exact (hc.1 _ _ e1).2 hag

/-- A force keeps the agreement with a consistent state. -/
theorem ensureReady_sim {z : World} (hz : Consistent z) : ∀ (fuel : Nat) (w : World) (c : Nat),
    z.tasks = w.tasks → Respects (Sim z) (Sim z) (ensureReady fuel) w c := by
  intro fuel
  induction fuel with
  | zero =>
    intro w c _
    exact ⟨fun u w' h => (by cases h), fun e w' h => (by cases h)⟩
  | succ fuel ih =>
    intro w c hzt
    have hexec : ∀ (p : Nat) (t : Task), w.lock c = some (p, t) →
        (∀ w', t.execute (ensureReady fuel) (w.setRunning c true) p = .ok () w' →
          Sim z (w.setRunning c true) w') ∧
        (∀ e w', t.execute (ensureReady fuel) (w.setRunning c true) p = .throw e w' →
          Sim z (w.setRunning c true) w') := by
      intro p t hl
      apply execute_sim hz (ensureReady_spec fuel) (w := w.setRunning c true) hzt
        (by simpa using (lock_eq_some.mp hl).2)
      intro d _ w1 h1
      exact ih w1 d (hzt.trans h1.1.tasks.symm)
    constructor
    · intro u w' hr
      have hstep := ((ensureReady_spec (fuel + 1)).ok hr).1.1
      rcases ensureReady_ok hr with ⟨_, rfl⟩ | ⟨hnr, _, p, t, w2, hl, he, rfl, _⟩
      · exact (seq_sim z).refl _
      · refine ⟨hstep, fun hag => ?_⟩
        exact (agree_setRunning c false).mpr
          (((hexec p t hl).1 _ he).2 ((agree_setRunning c true).mpr hag))
    · intro e w' hr
      have hstep := (ensureReady_spec (fuel + 1)).throw hr
      obtain ⟨hnr, h⟩ := ensureReady_throw hr
      rcases h with ⟨_, _, rfl⟩ | ⟨_, _, _, _, rfl⟩ | ⟨_, p, t, hl, h⟩
      · exact (seq_sim z).refl _
      · exact (seq_sim z).refl _
      · rcases h with he | ⟨w2, he, rfl, _, _⟩
        · exact ⟨hstep, fun hag => ((hexec p t hl).2 _ _ he).2 ((agree_setRunning c true).mpr hag)⟩
        · refine ⟨hstep, fun hag => ?_⟩
          exact (agree_setRunning c false).mpr
            (((hexec p t hl).1 _ he).2 ((agree_setRunning c true).mpr hag))

theorem runTask_sim {z : World} (hz : Consistent z) {w : World} (hzt : z.tasks = w.tasks)
    {p : Nat} {t : Task} (ht : w.tasks[p]? = some t) :
    (∀ x w', runTask w p t = .ok x w' → Sim z w w') ∧
    (∀ e w', runTask w p t = .throw e w' → Sim z w w') := by
  unfold runTask
  split
  · refine ⟨?_, (by intro e w' h; cases h)⟩
    intro x w' h
    simp only [Res.ok.injEq] at h
    rw [← h.2]; exact (seq_sim z).refl _
  · have := execute_sim hz (ensureReady_spec w.fuel) hzt ht
      (fun d _ w1 h1 => ensureReady_sim hz w.fuel w1 d (hzt.trans h1.1.tasks.symm))
    exact ⟨fun _ w' h => this.1 w' h, this.2⟩

/-- The bulk pass, returned or thrown, keeps the agreement with a consistent
state of the same tasks. -/
theorem pass_sim {z : World} (hz : Consistent z) (pre : Bool) (w : World)
    (hzt : z.tasks = w.tasks) :
    (∀ r w', executeTopologicallyDetailed pre w = .ok r w' → Sim z w w') ∧
    (∀ e w', executeTopologicallyDetailed pre w = .throw e w' → Sim z w w') := by
  apply executeTopologicallyDetailed_rel (seq_sim z)
  · intro w1 c h1
    exact ensureReady_sim hz _ w1 c (hzt.trans h1.1.tasks.symm)
  · intro w1 u p t h1 ht
    exact runTask_sim hz (hzt.trans h1.1.tasks.symm) (taskAt_eq_some.mp ht).2

theorem executeTopologically_eq_ok {w w' : World} {b : Bool}
    (h : executeTopologically w = .ok b w') :
    ∃ r, executeTopologicallyDetailed true w = .ok r w' ∧ r.ok = b := by
  unfold executeTopologically at h
  split at h
  · rename_i r w1 hr
    simp only [Res.ok.injEq] at h
    obtain ⟨h1, h2⟩ := h
    subst h2
    exact ⟨r, hr, h1⟩
  · cases h
  · cases h

/-- Claim C33: lazy forcing and bulk execution compute the same values.  In a
scheduler `w` where nothing was executed, for every registered task `t`: when
`getResult` on `t` returns `h` (leaving the state `w1`) and
`executeTopologically` on the same `w` succeeds (leaving the state `w2`), the cell
of `t` is ready in `w2`, holds the very value it holds in `w1`, this value read
with the type of the request is `h`, and `getResult` after the pass returns `h`
without executing anything.  The callables are functions of their arguments
(deterministic); a cyclic graph or a failing callable makes one of the two runs
fail, so neither needs to be assumed. -/
theorem lazy_bulk_same_value (w : World) (hwf : WF w) (hfresh : Fresh w)
    (v p : Nat) (t : Task) (ht : w.taskAt v = some (p, t)) (T : Ty) (h : Holder) (w1 w2 : World)
    (hlazy : getResult w T t.out = .ok h w1) (hbulk : executeTopologically w = .ok true w2) :
    (w2.cell t.out).ready = true ∧ (w2.cell t.out).value = (w1.cell t.out).value ∧
    (w2.cell t.out).value.as T = .ok h ∧ getResult w2 T t.out = .ok h w2 := by
  obtain ⟨hlz, hval⟩ := (getResult_lazy hwf).1 h w1 hlazy
  have hz : Consistent w1 := lz_consistent hwf (fresh_consistent (fun c => (hfresh c).1)) hlz.1
  obtain ⟨r, hr, hok⟩ := executeTopologically_eq_ok hbulk
  have hsim := (pass_sim hz true w hlz.1.step.tasks).1 r w2 hr
  have hag : Agree w1 w2 := hsim.2 (agree_of_step hlz.1.step)
  obtain ⟨hts, _⟩ := (executeTopologicallyDetailed_spec true w hwf).1 r w2 hr
  have hlen : r.order.length = w.tasks_.length := by
    have := hts.ok
    rw [hok] at this
    exact of_decide_eq_true this.symm
  obtain ⟨indeg, hk, _⟩ := hts.inv
  have hmem : v ∈ r.order :=
    mem_of_length_eq (by simpa using hk.nodup) (fun x hx => hk.bound x (by simpa using hx)) hlen v
      (List.getElem?_eq_some.mp (taskAt_eq_some.mp ht).1).1
  have hready := pass_ready true w hwf r w2 hr v hmem p t ht
  have heq := hag t.out hval.1 hready
  have hv2 : ArgVal w2 (.future T t.out) h := ⟨hready, by rw [heq]; exact hval.2⟩
  exact ⟨hready, heq, hv2.2, getResult_of_ready hv2⟩

/-- C33 at the scenario, for the doubling task: both runs give 20. -/
theorem lazy_bulk_same_value_witness :
    getResult scenario .int 2 = .ok { ty := .int, value := 20 } scenarioForced ∧
    executeTopologically scenario = .ok true scenarioRun ∧
    (scenarioRun.cell 2).ready = true ∧
    (scenarioRun.cell 2).value = (scenarioForced.cell 2).value ∧
    (scenarioRun.cell 2).value.as .int = .ok { ty := .int, value := 20 } ∧
    getResult scenarioRun .int 2 = .ok { ty := .int, value := 20 } scenarioRun :=
  ⟨rfl, rfl, lazy_bulk_same_value scenario scenario_wf scenario_fresh 2 2
    { fn := doubleInt, args := [getFutureResult .int 0], out := 2 } rfl .int
    { ty := .int, value := 20 } scenarioForced scenarioRun rfl rfl⟩

/-! ## Claim C34: a producer that returns has published -/

/-- C15, as stated, fails in its last part.  In `externalAfterFailure` the
consumer (task 1) has one binding, over the ready cell 0 that no registered task
produces, and its callable applied to the 7 of that cell is 14; the pass, with
the flag set either way, ends with the exception of the failing task 0 and
leaves the consumer's cell not ready and empty.  In `externalAndCycle` the
consumer (task 2) has a binding over such a cell too; the pass returns normally
with `ok = false` and the consumer in `stuck`, its cell not ready and empty. -/
theorem external_ready_unread :
    (WF externalAfterFailure ∧ (externalAfterFailure.cell 0).ready = true ∧
      prodIdx externalAfterFailure 0 = none ∧
      externalAfterFailure.taskAt 1 =
        some (1, { fn := doubleInt, args := [.future .int 0], out := 2 }) ∧
      (externalAfterFailure.cell 0).value.as .int = .ok { ty := .int, value := 7 } ∧
      doubleInt [{ ty := .int, value := 7 }] = some { ty := .int, value := 14 } ∧
      ∀ pre, (executeTopologicallyDetailed pre externalAfterFailure).exn? =
          some .callable_failed ∧
        (executeTopologicallyDetailed pre externalAfterFailure).world?.map
          (fun w => ((w.cell 2).ready, (w.cell 2).value, w.calls)) =
          some (false, { ptr := none }, [0])) ∧
    (WF externalAndCycle ∧ (externalAndCycle.cell 0).ready = true ∧
      prodIdx externalAndCycle 0 = none ∧
      (externalAndCycle.taskAt 2).map (fun pt => (pt.1, pt.2.args, pt.2.out)) =
        some (2, [.future .int 0, .future .int 2], 3) ∧
      ∀ pre, (executeTopologicallyDetailed pre externalAndCycle).val? =
          some { ok := false, order := [], stuck := [0, 1, 2] } ∧
        (executeTopologicallyDetailed pre externalAndCycle).world?.map
          (fun w => ((w.cell 3).ready, (w.cell 3).value, w.calls)) =
          some (false, { ptr := none }, [])) := by
  refine ⟨⟨externalAfterFailure_wf, rfl, rfl, rfl, rfl, rfl, ?_⟩,
    ⟨externalAndCycle_wf, rfl, rfl, rfl, ?_⟩⟩
  · intro pre; cases pre <;> exact ⟨rfl, rfl⟩
  · intro pre; cases pre <;> exact ⟨rfl, rfl⟩

/-- C15, amended: let `c` be a cell that is ready and whose producer is not a
registered task, and let the registered task `v` have a future binding over it.
Graph construction always terminates, returns with the flag clear, and whatever
the flag, in the graph it returns the in-degree of `v` counts only the
registered producers of its other dependency cells, and every edge into `v`
comes from another dependency cell.  The pass always terminates; returning or
throwing, it leaves `c` as it is and does not invoke the callable of its
producer, if it has one.  When the pass returns from a consistent state with
`ok = true`, or just with `v` in its order, then `v` is in the order, the
output of `v` is ready and holds the result of its callable applied to the
values of its bindings, the value `h` read through the binding over `c` being
the one `c` held before the pass. -/
theorem external_ready_bypassed (w : World) (hwf : WF w) (c v pv : Nat) (tv : Task)
    (hready : (w.cell c).ready = true) (hext : prodIdx w c = none)
    (hv : w.taskAt v = some (pv, tv)) (hdep : c ∈ tv.deps) :
    ((∀ pre, buildGraph pre (indexByPtr w) (List.range w.tasks_.length)
        (Graph.init w.tasks_.length) w ≠ .undefined) ∧
      (∃ g, buildGraph false (indexByPtr w) (List.range w.tasks_.length)
        (Graph.init w.tasks_.length) w = .ok g w) ∧
      ∀ pre g w1, buildGraph pre (indexByPtr w) (List.range w.tasks_.length)
          (Graph.init w.tasks_.length) w = .ok g w1 →
        g.indeg.getD v 0 =
          ((tv.deps.filter (fun d => d ≠ c)).filterMap (prodIdx w)).toFinset.card ∧
        ∀ u, v ∈ g.adj.getD u [] → ∃ d ∈ tv.deps, d ≠ c ∧ prodIdx w d = some u) ∧
    ((∀ pre, executeTopologicallyDetailed pre w ≠ .undefined) ∧
      ∀ pre w', (executeTopologicallyDetailed pre w).world? = some w' →
        w'.cell c = w.cell c ∧ ∀ p t, w.lock c = some (p, t) → p ∉ newCalls w w') ∧
    (Consistent w → ∀ pre r w', executeTopologicallyDetailed pre w = .ok r w' →
      (r.ok = true ∨ v ∈ r.order) →
      v ∈ r.order ∧ (w'.cell tv.out).ready = true ∧
      ∃ vs res, List.Forall₂ (ArgVal w') tv.args vs ∧ tv.fn vs = some res ∧
        (w'.cell tv.out).value = { ptr := some res } ∧
        ∃ U h, ArgWrap.future U c ∈ tv.args ∧ h ∈ vs ∧ (w.cell c).value.as U = .ok h) := by
  have hreg : ∀ x ∈ List.range w.tasks_.length, w.taskAt x ≠ none :=
    fun x hx => hwf.taskAt_ne_none (List.mem_range.mp hx)
  refine ⟨⟨?_, ?_, ?_⟩, ⟨?_, ?_⟩, ?_⟩
  · intro pre
    exact (buildGraph_spec pre w (List.range w.tasks_.length) _ w (Step.refl w) hreg).2.2
  · have hdef := (buildGraph_spec false w (List.range w.tasks_.length)
      (Graph.init w.tasks_.length) w (Step.refl w) hreg).2.2
    obtain ⟨hok, hthrow⟩ := buildGraph_unforced (indexByPtr w) (List.range w.tasks_.length)
      (Graph.init w.tasks_.length) w
    cases hb : buildGraph false (indexByPtr w) (List.range w.tasks_.length)
        (Graph.init w.tasks_.length) w with
    | ok g w1 =>
      have := hok g w1 hb
      subst this
      exact ⟨g, rfl⟩
    | throw e w1 => exact absurd hb (hthrow e w1)
    | undefined => exact absurd hb hdef
  · intro pre g w1 hb
    obtain ⟨rfl, _⟩ := buildGraph_graphOf pre w hwf g w1 hb
    exact graph_ignores_external (graphOf_spec w hwf.nodup) hv hext
  · intro pre
    exact (executeTopologicallyDetailed_spec pre w hwf).2.2
  · intro pre w' hw'
    have hh : Hist w w' := by
      obtain ⟨pok, pthrow⟩ := pass_run pre w hwf
      rcases world?_eq_some hw' with ⟨r, hr⟩ | ⟨e, hr⟩
      · exact runOk_hist (pok r w' hr)
      · exact runThrow_hist (pthrow e w' hr)
    refine ⟨hh.step.frozen c hready, fun p t hl => ?_⟩
    have hout := hwf.out_of_lock hl
    exact hh.ready p t (lock_eq_some.mp hl).2 (by rw [hout]; exact hready)
  · intro hc pre r w' hr hin
    obtain ⟨⟨⟨indeg, hk, _⟩, hrok⟩, hstep⟩ :=
      (executeTopologicallyDetailed_spec pre w hwf).1 r w' hr
    have hvo : v ∈ r.order := by
      rcases hin with hok | hvo
      · have hlen : r.order.length = w.tasks_.length := by
          rw [hok] at hrok
          exact of_decide_eq_true hrok.symm
        exact mem_of_length_eq (by simpa using hk.nodup)
          (fun x hx => hk.bound x (by simpa using hx)) hlen v (lt_of_taskAt hv)
      · exact hvo
    have hrd := pass_ready pre w hwf r w' hr v hvo pv tv hv
    have hkeep := ((pass_keeps pre w hwf).1 r w' hr).2 hwf hc
    obtain ⟨vs, res, h1, h2, h3⟩ :=
      hkeep pv tv (by rw [hstep.tasks]; exact (taskAt_eq_some.mp hv).2) hrd
    obtain ⟨U, hU⟩ := mem_deps_iff.mp hdep
    obtain ⟨h, hh, hval⟩ := forall₂_exists_of_mem h1 hU
    refine ⟨hvo, hrd, vs, res, h1, h2, h3, U, h, hU, hh, ?_⟩
    rw [← hstep.frozen c hready]
    exact hval.2

/-- The amended C15 at `externalReady`, whose only registered task doubles a
future over the client's ready cell 0: graph construction returns the graph
without edges, and the pass returns `ok = true` and the order `[0]`, leaves
cell 0 as it was and the cell of the task ready with 14, the callable applied
to the 7 of cell 0. -/
theorem external_ready_bypassed_witness :
    (∀ pre, buildGraph pre (indexByPtr externalReady) (List.range externalReady.tasks_.length)
        (Graph.init externalReady.tasks_.length) externalReady =
          .ok { adj := [[]], indeg := [0] } externalReady) ∧
    (({ adj := [[]], indeg := [0] } : Graph).indeg.getD 0 0 =
        ((([0] : List Nat).filter (fun d => d ≠ 0)).filterMap
          (prodIdx externalReady)).toFinset.card ∧
      ∀ u, 0 ∈ ({ adj := [[]], indeg := [0] } : Graph).adj.getD u [] →
        ∃ d ∈ ([0] : List Nat), d ≠ 0 ∧ prodIdx externalReady d = some u) ∧
    executeTopologicallyDetailed true externalReady =
      .ok { ok := true, order := [0], stuck := [] } externalReadyRun ∧
    (externalReadyRun.cell 0 = externalReady.cell 0 ∧
      ∀ p t, externalReady.lock 0 = some (p, t) → p ∉ newCalls externalReady externalReadyRun) ∧
    ((0 : Nat) ∈ [0] ∧ (externalReadyRun.cell 1).ready = true ∧
      ∃ vs res, List.Forall₂ (ArgVal externalReadyRun) [.future .int 0] vs ∧
        doubleInt vs = some res ∧
        (externalReadyRun.cell 1).value = { ptr := some res } ∧
        ∃ U h, ArgWrap.future U 0 ∈ [ArgWrap.future .int 0] ∧ h ∈ vs ∧
          (externalReady.cell 0).value.as U = .ok h) ∧
    (externalReady.cell 0).value.as .int = .ok { ty := .int, value := 7 } ∧
    doubleInt [{ ty := .int, value := 7 }] = some { ty := .int, value := 14 } ∧
    (externalReadyRun.cell 1).value = { ptr := some { ty := .int, value := 14 } } ∧
    getResult externalReadyRun .int 1 = .ok { ty := .int, value := 14 } externalReadyRun :=
  ⟨fun pre => by cases pre <;> rfl,
   (external_ready_bypassed externalReady externalReady_wf 0 0 0
      { fn := doubleInt, args := [.future .int 0], out := 1 } rfl rfl rfl (by decide)).1.2.2
      true { adj := [[]], indeg := [0] } externalReady rfl,
   rfl,
   (external_ready_bypassed externalReady externalReady_wf 0 0 0
      { fn := doubleInt, args := [.future .int 0], out := 1 } rfl rfl rfl (by decide)).2.1.2
      true externalReadyRun rfl,
   (external_ready_bypassed externalReady externalReady_wf 0 0 0
      { fn := doubleInt, args := [.future .int 0], out := 1 } rfl rfl rfl (by decide)).2.2
      externalReady_consistent true { ok := true, order := [0], stuck := [] } externalReadyRun
      rfl (Or.inl rfl),
   rfl, rfl, rfl, rfl⟩

end TaskScheduler

namespace UnrolledList

/-! # Theorems about the unrolled list -/

/-! ## The heap -/

theorem node_lt {α : Type} {l : unrolled_list α} {n : Nat} {x : Node α}
    (h : l.node n = some x) : n < l.heap.length := by
  unfold unrolled_list.node at h
  by_contra hn
  rw [List.getD_eq_default _ _ (by omega)] at h
  cases h

theorem node_setNode {α : Type} (l : unrolled_list α) (n m : Nat) (x : Node α)
    (hn : n < l.heap.length) :
    (l.setNode n x).node m = if m = n then some x else l.node m := by
  unfold unrolled_list.setNode unrolled_list.node
  simp only [List.getD_eq_getElem?_getD, List.getElem?_set]
  by_cases h : m = n
  · subst h; simp [hn]
  · simp [h, Ne.symm h]

theorem node_modify {α : Type} {l l1 : unrolled_list α} {n : Nat} {f : Node α → Node α}
    (h : l.modify n f = some l1) :
    ∃ x, l.node n = some x ∧ (∀ m, l1.node m = if m = n then some (f x) else l.node m) ∧
      l1.head_ = l.head_ ∧ l1.tail_ = l.tail_ ∧ l1.size_ = l.size_ ∧
      l1.capacity = l.capacity ∧ l1.heap.length = l.heap.length := by
  unfold unrolled_list.modify at h
  cases hx : l.node n with
  | none => rw [hx] at h; cases h
  | some x =>
    rw [hx] at h
    cases h
    refine ⟨x, rfl, fun m => node_setNode l n m _ (node_lt hx), rfl, rfl, rfl, rfl, ?_⟩
    simp [unrolled_list.setNode]

theorem modify_of_node {α : Type} {l : unrolled_list α} {n : Nat} {x : Node α}
    (h : l.node n = some x) (f : Node α → Node α) :
    l.modify n f = some (l.setNode n (f x)) := by
  unfold unrolled_list.modify
  rw [h]

theorem node_create {α : Type} (l : unrolled_list α) (m : Nat) :
    (create_new_node l).2.node m = if m = l.heap.length then some {} else l.node m := by
  unfold create_new_node unrolled_list.node
  simp only [List.getD_eq_getElem?_getD]
  by_cases h : m = l.heap.length
  · subst h; simp
  · rw [if_neg h]
    by_cases h2 : m < l.heap.length
    · rw [List.getElem?_append_left h2]
    · rw [List.getElem?_eq_none (by simp; omega), List.getElem?_eq_none (by omega)]

theorem node_destroy {α : Type} (l : unrolled_list α) (n m : Nat) :
    (destroy_node l n).node m = if m = n then none else l.node m := by
  unfold destroy_node unrolled_list.node
  simp only [List.getD_eq_getElem?_getD, List.getElem?_set]
  by_cases h : m = n
  · subst h
    by_cases h2 : m < l.heap.length
    · simp [h2]
    · simp [h2]
  · simp [h, Ne.symm h]

theorem dataOf_eq {α : Type} {l : unrolled_list α} {n : Nat} {x : Node α}
    (h : l.node n = some x) : l.dataOf n = x.data := by
  unfold unrolled_list.dataOf
  rw [h]

theorem elems_congr {α : Type} {l l1 : unrolled_list α} {ids : List Nat}
    (h : ∀ n ∈ ids, l1.dataOf n = l.dataOf n) : l1.elems ids = l.elems ids := by
  unfold unrolled_list.elems
  induction ids with
  | nil => rfl
  | cons n ids ih =>
    simp only [List.flatMap_cons]
    rw [h n (List.mem_cons_self _ _), ih (fun m hm => h m (List.mem_cons_of_mem _ hm))]

theorem elems_append {α : Type} (l : unrolled_list α) (a b : List Nat) :
    l.elems (a ++ b) = l.elems a ++ l.elems b := by
  unfold unrolled_list.elems
  exact List.flatMap_append _ _ _

theorem elems_cons {α : Type} (l : unrolled_list α) (n : Nat) (b : List Nat) :
    l.elems (n :: b) = l.dataOf n ++ l.elems b := by
  unfold unrolled_list.elems
  exact List.flatMap_cons _ _ _

theorem elems_nil {α : Type} (l : unrolled_list α) : l.elems [] = [] := rfl

/-! ## Chains of nodes -/

theorem split_unique {a a' b b' : List Nat} {n : Nat} (hnd : (a ++ n :: b).Nodup)
    (h : a ++ n :: b = a' ++ n :: b') : a = a' ∧ b = b' := by
  induction a generalizing a' with
  | nil =>
    cases a' with
    | nil => simp at h; exact ⟨rfl, h⟩
    | cons c a'' =>
      simp only [List.nil_append, List.cons_append, List.cons.injEq] at h
      obtain ⟨rfl, hb⟩ := h
      simp only [List.nil_append, List.nodup_cons] at hnd
      exact absurd (by rw [hb]; simp) hnd.1
  | cons c a1 ih =>
    cases a' with
    | nil =>
      simp only [List.nil_append, List.cons_append, List.cons.injEq] at h
      obtain ⟨rfl, _⟩ := h
      simp only [List.cons_append, List.nodup_cons] at hnd
      exact absurd (by simp) hnd.1
    | cons c' a'' =>
      simp only [List.cons_append, List.cons.injEq] at h
      obtain ⟨rfl, ht⟩ := h
      simp only [List.cons_append, List.nodup_cons] at hnd
      obtain ⟨h1, h2⟩ := ih hnd.2 ht
      exact ⟨by rw [h1], h2⟩

theorem last_of_split {a b : List Nat} {n : Nat} (hnd : (a ++ n :: b).Nodup) :
    (a ++ n :: b).getLast? = some n ↔ b = [] := by
  constructor
  · intro h
    cases b with
    | nil => rfl
    | cons c b1 =>
      exfalso
      rw [List.getLast?_append_cons, List.getLast?_cons_cons] at h
      have hmem : n ∈ c :: b1 := List.mem_of_mem_getLast? h
      have h2 : (n :: c :: b1).Nodup := (List.nodup_append.mp hnd).2.1
      exact (List.nodup_cons.mp h2).1 hmem
  · rintro rfl
    exact List.getLast?_concat a

theorem head_of_split {a b : List Nat} {n : Nat} (hnd : (a ++ n :: b).Nodup) :
    (a ++ n :: b).head? = some n ↔ a = [] := by
  constructor
  · intro h
    cases a with
    | nil => rfl
    | cons c a1 =>
      exfalso
      simp only [List.cons_append, List.head?_cons, Option.some.injEq] at h
      subst h
      simp only [List.cons_append, List.nodup_cons] at hnd
      exact hnd.1 (by simp)
  · rintro rfl
    rfl

theorem Chain.node_of_mem {α : Type} {l : unrolled_list α} {ids : List Nat}
    (h : Chain l ids) {n : Nat} (hn : n ∈ ids) : ∃ x, l.node n = some x := by
  obtain ⟨a, b, hab⟩ := List.append_of_mem hn
  obtain ⟨x, hx, _⟩ := h.link a n b hab
  exact ⟨x, hx⟩

theorem Chain.lt_of_mem {α : Type} {l : unrolled_list α} {ids : List Nat}
    (h : Chain l ids) {n : Nat} (hn : n ∈ ids) : n < l.heap.length := by
  obtain ⟨x, hx⟩ := h.node_of_mem hn
  exact node_lt hx

/-- A change that keeps the links of every node of the chain keeps the chain. -/
theorem chain_frame {α : Type} {l l1 : unrolled_list α} {ids : List Nat} (h : Chain l ids)
    (hh : l1.head_ = l.head_) (ht : l1.tail_ = l.tail_)
    (hn : ∀ n ∈ ids, ∀ x, l.node n = some x →
      ∃ x1, l1.node n = some x1 ∧ x1.prev = x.prev ∧ x1.next = x.next) :
    Chain l1 ids := by
  refine { nodup := h.nodup, head := hh.trans h.head, tail := ht.trans h.tail, link := ?_ }
  intro a n b hab
  obtain ⟨x, hx, hp, hq⟩ := h.link a n b hab
  obtain ⟨x1, hx1, hp1, hq1⟩ := hn n (by rw [hab]; simp) x hx
  exact ⟨x1, hx1, hp1.trans hp, hq1.trans hq⟩

/-- Linking a new node `m` behind the last node extends the chain. -/
theorem chain_snoc {α : Type} {l l1 : unrolled_list α} {ids : List Nat} {m : Nat} {y : Node α}
    (h : Chain l ids) (hm : m ∉ ids) (hy : l1.node m = some y)
    (hyp : y.prev = ids.getLast?) (hyn : y.next = none)
    (hh : l1.head_ = (ids ++ [m]).head?) (ht : l1.tail_ = some m)
    (hn : ∀ n ∈ ids, ∀ x, l.node n = some x →
      ∃ x1, l1.node n = some x1 ∧ x1.prev = x.prev ∧
        x1.next = if ids.getLast? = some n then some m else x.next) :
    Chain l1 (ids ++ [m]) := by
  refine { nodup := ?_, head := hh, tail := by rw [ht, List.getLast?_concat], link := ?_ }
  · rw [List.nodup_append]
    refine ⟨h.nodup, List.nodup_singleton _, ?_⟩
    intro x hx hx2
    rw [List.mem_singleton] at hx2
    subst hx2
    exact hm hx
  · intro a n b hab
    rcases List.eq_nil_or_concat b with rfl | ⟨b1, z, rfl⟩
    · obtain ⟨h1, h2⟩ := List.append_inj' hab rfl
      cases h2
      subst h1
      exact ⟨y, hy, hyp, hyn⟩
    · rw [List.concat_eq_append] at hab
      have hab2 : ids ++ [m] = (a ++ n :: b1) ++ [z] := by rw [hab]; simp
      obtain ⟨h1, h2⟩ := List.append_inj' hab2 rfl
      cases h2
      obtain ⟨x, hx, hp, hq⟩ := h.link a n b1 h1
      obtain ⟨x1, hx1, hp1, hq1⟩ := hn n (by rw [h1]; simp) x hx
      refine ⟨x1, hx1, hp1.trans hp, ?_⟩
      rw [hq1, List.concat_eq_append]
      have hnd := h.nodup
      rw [h1] at hnd
      cases b1 with
      | nil =>
        rw [if_pos (by rw [h1]; exact (last_of_split hnd).mpr rfl)]
        rfl
      | cons c b2 =>
        rw [if_neg (by rw [h1]; intro hc; exact absurd ((last_of_split hnd).mp hc) (by simp)), hq]
        rfl

/-- Linking a new node `m` before the first node extends the chain. -/
theorem chain_cons {α : Type} {l l1 : unrolled_list α} {ids : List Nat} {m : Nat} {y : Node α}
    (h : Chain l ids) (hm : m ∉ ids) (hy : l1.node m = some y)
    (hyp : y.prev = none) (hyn : y.next = ids.head?)
    (hh : l1.head_ = some m) (ht : l1.tail_ = (m :: ids).getLast?)
    (hn : ∀ n ∈ ids, ∀ x, l.node n = some x →
      ∃ x1, l1.node n = some x1 ∧ x1.next = x.next ∧
        x1.prev = if ids.head? = some n then some m else x.prev) :
    Chain l1 (m :: ids) := by
  refine { nodup := List.nodup_cons.mpr ⟨hm, h.nodup⟩, head := hh, tail := ht, link := ?_ }
  intro a n b hab
  cases a with
  | nil =>
    simp only [List.nil_append, List.cons.injEq] at hab
    obtain ⟨rfl, rfl⟩ := hab
    exact ⟨y, hy, hyp, hyn⟩
  | cons c a1 =>
    simp only [List.cons_append, List.cons.injEq] at hab
    obtain ⟨rfl, h1⟩ := hab
    obtain ⟨x, hx, hp, hq⟩ := h.link a1 n b h1
    obtain ⟨x1, hx1, hq1, hp1⟩ := hn n (by rw [h1]; simp) x hx
    refine ⟨x1, hx1, ?_, hq1.trans hq⟩
    rw [hp1]
    have hnd := h.nodup
    rw [h1] at hnd
    cases a1 with
    | nil =>
      rw [if_pos (by rw [h1]; rfl)]
      rfl
    | cons d a2 =>
      rw [if_neg (by rw [h1]; intro hc; exact absurd ((head_of_split hnd).mp hc) (by simp)), hp]
      simp [List.getLast?_cons_cons]

/-- Unlinking the last node shortens the chain. -/
theorem chain_dropLast {α : Type} {l l1 : unrolled_list α} {a : List Nat} {t : Nat}
    (h : Chain l (a ++ [t]))
    (hh : l1.head_ = a.head?) (ht : l1.tail_ = a.getLast?)
    (hn : ∀ n ∈ a, ∀ x, l.node n = some x →
      ∃ x1, l1.node n = some x1 ∧ x1.prev = x.prev ∧
        x1.next = if a.getLast? = some n then none else x.next) :
    Chain l1 a := by
  have hnd : a.Nodup := (List.nodup_append.mp h.nodup).1
  refine { nodup := hnd, head := hh, tail := ht, link := ?_ }
  intro a1 n b hab
  obtain ⟨x, hx, hp, hq⟩ := h.link a1 n (b ++ [t]) (by rw [hab]; simp)
  obtain ⟨x1, hx1, hp1, hq1⟩ := hn n (by rw [hab]; simp) x hx
  refine ⟨x1, hx1, hp1.trans hp, ?_⟩
  rw [hq1]
  rw [hab] at hnd
  cases b with
  | nil =>
    rw [if_pos (by rw [hab]; exact (last_of_split hnd).mpr rfl)]
    rfl
  | cons c b2 =>
    rw [if_neg (by rw [hab]; intro hc; exact absurd ((last_of_split hnd).mp hc) (by simp)), hq]
    rfl

/-- Unlinking the first node shortens the chain. -/
theorem chain_tail {α : Type} {l l1 : unrolled_list α} {b : List Nat} {t : Nat}
    (h : Chain l (t :: b))
    (hh : l1.head_ = b.head?) (ht : l1.tail_ = b.getLast?)
    (hn : ∀ n ∈ b, ∀ x, l.node n = some x →
      ∃ x1, l1.node n = some x1 ∧ x1.next = x.next ∧
        x1.prev = if b.head? = some n then none else x.prev) :
    Chain l1 b := by
  have hnd : b.Nodup := (List.nodup_cons.mp h.nodup).2
  refine { nodup := hnd, head := hh, tail := ht, link := ?_ }
  intro a1 n b1 hab
  obtain ⟨x, hx, hp, hq⟩ := h.link (t :: a1) n b1 (by rw [hab]; simp)
  obtain ⟨x1, hx1, hq1, hp1⟩ := hn n (by rw [hab]; simp) x hx
  refine ⟨x1, hx1, ?_, hq1.trans hq⟩
  rw [hp1]
  rw [hab] at hnd
  cases a1 with
  | nil =>
    rw [if_pos (by rw [hab]; rfl)]
    rfl
  | cons d a2 =>
    rw [if_neg (by rw [hab]; intro hc; exact absurd ((head_of_split hnd).mp hc) (by simp)), hp]
    simp [List.getLast?_cons_cons]

/-! ## Iterators of a well-formed list -/

theorem pos_valid {α : Type} {l : unrolled_list α} {ids : List Nat} {it : iterator} {k : Nat}
    (h : Pos l ids it k) (hk : k < (l.elems ids).length) :
    ∃ (a : List Nat) (n : Nat) (b : List Nat), ids = a ++ n :: b ∧ it.node_ = some n ∧
      it.pos_ < (l.dataOf n).length ∧ k = (l.elems a).length + it.pos_ := by
  rcases h with ⟨_, _, h3⟩ | h
  · omega
  · exact h

theorem pos_le {α : Type} {l : unrolled_list α} {ids : List Nat} {it : iterator} {k : Nat}
    (h : Pos l ids it k) : k ≤ (l.elems ids).length := by
  rcases h with ⟨_, _, h3⟩ | ⟨a, n, b, hab, _, hlt, hk⟩
  · omega
  · rw [hab, elems_append, elems_cons]
    simp only [List.length_append]
    omega

theorem pos_end_iff {α : Type} {l : unrolled_list α} {ids : List Nat} {it : iterator} {k : Nat}
    (h : Pos l ids it k) : it.eq l.end_ = true ↔ k = (l.elems ids).length := by
  rcases h with ⟨h1, h2, h3⟩ | ⟨a, n, b, hab, hn, hlt, hk⟩
  · simp [iterator.eq, unrolled_list.end_, h1, h2, h3]
  · have : k < (l.elems ids).length := by
      rw [hab, elems_append, elems_cons]
      simp only [List.length_append]
      omega
    simp [iterator.eq, unrolled_list.end_, hn]
    omega

theorem pos_end {α : Type} (l : unrolled_list α) (ids : List Nat) :
    Pos l ids l.end_ (l.elems ids).length :=
  Or.inl ⟨rfl, rfl, rfl⟩

theorem pos_begin {α : Type} {l : unrolled_list α} {ids : List Nat} (h : Rep l ids) :
    Pos l ids l.begin 0 := by
  cases ids with
  | nil =>
    left
    exact ⟨h.chain.head, rfl, rfl⟩
  | cons n b =>
    right
    refine ⟨[], n, b, rfl, h.chain.head, ?_, rfl⟩
    have := (h.filled n (List.mem_cons_self _ _)).1
    exact List.length_pos.mpr this

theorem pos_deref {α : Type} {l : unrolled_list α} {ids : List Nat} {it : iterator} {k : Nat}
    (hr : Rep l ids) (h : Pos l ids it k) (hk : k < (l.elems ids).length) :
    it.deref l = (l.elems ids)[k]? := by
  obtain ⟨a, n, b, hab, hn, hlt, hk2⟩ := pos_valid h hk
  obtain ⟨x, hx, _⟩ := hr.chain.link a n b hab
  have hd := dataOf_eq hx
  unfold iterator.deref
  rw [hn]
  simp only [hx]
  rw [hab, elems_append, elems_cons, hk2, List.getElem?_append_right (by omega),
    Nat.add_sub_cancel_left, List.getElem?_append_left hlt, hd]

theorem pos_inc {α : Type} {l : unrolled_list α} {ids : List Nat} {it : iterator} {k : Nat}
    (hr : Rep l ids) (h : Pos l ids it k) (hk : k < (l.elems ids).length) :
    ∃ it1, it.inc l = some it1 ∧ Pos l ids it1 (k + 1) ∧ it1.tail_ = it.tail_ := by
  obtain ⟨a, n, b, hab, hn, hlt, hk2⟩ := pos_valid h hk
  obtain ⟨x, hx, _, hq⟩ := hr.chain.link a n b hab
  have hd := dataOf_eq hx
  unfold iterator.inc
  rw [hn]
  simp only [hx]
  by_cases hs : it.pos_ + 1 = x.size
  · rw [if_pos hs]
    refine ⟨_, rfl, ?_, rfl⟩
    have hsz : (l.dataOf n).length = it.pos_ + 1 := by rw [hd]; exact hs.symm
    cases b with
    | nil =>
      left
      refine ⟨hq, rfl, ?_⟩
      rw [hab, elems_append, elems_cons, elems_nil]
      simp only [List.length_append, List.length_nil]
      omega
    | cons c b1 =>
      right
      refine ⟨a ++ [n], c, b1, by rw [hab]; simp, hq, ?_, ?_⟩
      · have := (hr.filled c (by rw [hab]; simp)).1
        exact List.length_pos.mpr this
      · rw [elems_append, elems_cons, elems_nil]
        simp only [List.length_append, List.length_nil]
        omega
  · rw [if_neg hs]
    refine ⟨_, rfl, ?_, rfl⟩
    right
    refine ⟨a, n, b, hab, rfl, ?_, ?_⟩
    · show it.pos_ + 1 < (l.dataOf n).length
      rw [hd] at hlt ⊢
      unfold Node.size at hs
      omega
    · show k + 1 = (l.elems a).length + (it.pos_ + 1)
      omega

theorem pos_dec {α : Type} {l : unrolled_list α} {ids : List Nat} {it : iterator} {k : Nat}
    (hr : Rep l ids) (h : Pos l ids it k) (hk : 0 < k) (ht : it.tail_ = l.tail_) :
    ∃ it1, it.dec l = some it1 ∧ Pos l ids it1 (k - 1) ∧ it1.tail_ = it.tail_ := by
  have key : ∀ (a : List Nat) (p : Nat) (b : List Nat), ids = a ++ p :: b →
      ∃ it1, it.to_last l (some p) = some it1 ∧
        Pos l ids it1 ((l.elems a).length + (l.dataOf p).length - 1) ∧ it1.tail_ = it.tail_ := by
    intro a p b hab
    obtain ⟨y, hy, _⟩ := hr.chain.link a p b hab
    have hd := dataOf_eq hy
    have hne := (hr.filled p (by rw [hab]; simp)).1
    have hpos : 0 < (l.dataOf p).length := List.length_pos.mpr hne
    unfold iterator.to_last
    simp only [hy]
    refine ⟨_, rfl, ?_, rfl⟩
    right
    refine ⟨a, p, b, hab, rfl, ?_, ?_⟩
    · show (if y.size ≠ 0 then y.size - 1 else 0) < (l.dataOf p).length
      rw [hd] at hpos ⊢
      unfold Node.size
      split <;> omega
    · show _ = (l.elems a).length + (if y.size ≠ 0 then y.size - 1 else 0)
      rw [hd] at hpos ⊢
      unfold Node.size
      split <;> omega
  rcases h with ⟨h1, h2, h3⟩ | ⟨a, n, b, hab, hn, hlt, hk2⟩
  · -- at the end
    rcases List.eq_nil_or_concat ids with rfl | ⟨a, t, rfl⟩
    · rw [elems_nil] at h3
      simp at h3
      omega
    · rw [List.concat_eq_append] at h3 hr key ⊢
      obtain ⟨it1, h4, h5, h6⟩ := key a t [] rfl
      have htl : it.tail_ = some t := by rw [ht, hr.chain.tail, List.getLast?_concat]
      refine ⟨it1, ?_, ?_, h6⟩
      · unfold iterator.dec
        rw [h1]
        simp only [htl]
        exact h4
      · rw [h3, elems_append, elems_cons, elems_nil]
        simpa using h5
  · obtain ⟨x, hx, hp, _⟩ := hr.chain.link a n b hab
    unfold iterator.dec
    rw [hn]
    simp only
    by_cases h0 : it.pos_ = 0
    · rw [if_pos h0]
      simp only [hx]
      rcases List.eq_nil_or_concat a with rfl | ⟨a1, p, rfl⟩
      · rw [elems_nil] at hk2
        simp at hk2
        omega
      · rw [List.concat_eq_append] at hp hk2 hab
        rw [hp, List.getLast?_concat]
        obtain ⟨it1, h4, h5, h6⟩ := key a1 p (n :: b) (by rw [hab]; simp)
        refine ⟨it1, h4, ?_, h6⟩
        rw [hk2, h0, elems_append, elems_cons, elems_nil]
        simpa [Nat.add_assoc] using h5
    · rw [if_neg h0]
      refine ⟨_, rfl, ?_, rfl⟩
      right
      refine ⟨a, n, b, hab, rfl, ?_, ?_⟩
      · show it.pos_ - 1 < (l.dataOf n).length
        omega
      · show k - 1 = (l.elems a).length + (it.pos_ - 1)
        omega

theorem elems_length_split {α : Type} (l : unrolled_list α) (a c : List Nat) (n : Nat) :
    (l.elems (a ++ n :: c)).length = (l.elems a).length + (l.dataOf n).length +
      (l.elems c).length := by
  rw [elems_append, elems_cons]
  simp only [List.length_append]
  omega

/-- An iterator stands at one offset only. -/
theorem pos_inj {α : Type} {l : unrolled_list α} {ids : List Nat} {it it1 : iterator}
    {k k1 : Nat} (hr : Rep l ids) (h : Pos l ids it k) (h1 : Pos l ids it1 k1)
    (he : it.eq it1 = true) : k = k1 := by
  simp only [iterator.eq, Bool.and_eq_true, beq_iff_eq] at he
  obtain ⟨he1, he2⟩ := he
  rcases h with ⟨g1, g2, g3⟩ | ⟨a, n, b, hab, hn, hlt, hk⟩
  · rcases h1 with ⟨f1, f2, f3⟩ | ⟨a1, n1, b1, hab1, hn1, hlt1, hk1⟩
    · omega
    · rw [← he1, g1] at hn1; cases hn1
  · rcases h1 with ⟨f1, f2, f3⟩ | ⟨a1, n1, b1, hab1, hn1, hlt1, hk1⟩
    · rw [he1, f1] at hn; cases hn
    · rw [he1, hn1] at hn
      cases hn
      have hnd := hr.chain.nodup
      rw [hab] at hnd
      obtain ⟨e1, _⟩ := split_unique hnd (hab.symm.trans hab1)
      subst e1
      omega

/-- One offset has one iterator, up to the stored tail. -/
theorem pos_unique {α : Type} {l : unrolled_list α} {ids : List Nat} {it it1 : iterator}
    {k : Nat} (h : Pos l ids it k) (h1 : Pos l ids it1 k) : it.eq it1 = true := by
  simp only [iterator.eq, Bool.and_eq_true, beq_iff_eq]
  rcases h with ⟨g1, g2, g3⟩ | ⟨a, n, b, hab, hn, hlt, hk⟩
  · rcases h1 with ⟨f1, f2, f3⟩ | ⟨a1, n1, b1, hab1, hn1, hlt1, hk1⟩
    · exact ⟨g1.trans f1.symm, g2.trans f2.symm⟩
    · exfalso
      have := elems_length_split l a1 b1 n1
      rw [← hab1] at this
      omega
  · rcases h1 with ⟨f1, f2, f3⟩ | ⟨a1, n1, b1, hab1, hn1, hlt1, hk1⟩
    · exfalso
      have := elems_length_split l a b n
      rw [← hab] at this
      omega
    · have hsp := hab.symm.trans hab1
      rcases List.append_eq_append_iff.mp hsp with ⟨c, hc1, hc2⟩ | ⟨c, hc1, hc2⟩
      · -- a1 = a ++ c
        cases c with
        | nil =>
          simp only [List.append_nil, List.nil_append, List.cons.injEq] at hc1 hc2
          obtain ⟨rfl, _⟩ := hc2
          subst hc1
          exact ⟨hn.trans hn1.symm, by omega⟩
        | cons d c1 =>
          exfalso
          simp only [List.cons_append, List.cons.injEq] at hc2
          obtain ⟨rfl, _⟩ := hc2
          have := elems_length_split l a c1 n
          rw [← hc1] at this
          omega
      · cases c with
        | nil =>
          simp only [List.append_nil, List.nil_append, List.cons.injEq] at hc1 hc2
          obtain ⟨rfl, _⟩ := hc2
          subst hc1
          exact ⟨hn.trans hn1.symm, by omega⟩
        | cons d c1 =>
          exfalso
          simp only [List.cons_append, List.cons.injEq] at hc2
          obtain ⟨rfl, _⟩ := hc2
          have := elems_length_split l a1 c1 n1
          rw [← hc1] at this
          omega

theorem pos_begin_iff {α : Type} {l : unrolled_list α} {ids : List Nat} {it : iterator}
    {k : Nat} (hr : Rep l ids) (h : Pos l ids it k) : it.eq l.begin = true ↔ k = 0 := by
  constructor
  · intro he
    exact pos_inj hr h (pos_begin hr) he
  · rintro rfl
    exact pos_unique h (pos_begin hr)

/-! ## Traversals of a well-formed list -/

theorem walk_spec {α : Type} {l : unrolled_list α} {ids : List Nat} (hr : Rep l ids)
    (fuel : Nat) (it : iterator) (k : Nat) (h : Pos l ids it k)
    (hf : (l.elems ids).length - k < fuel) :
    l.walk fuel it = .ok ((l.elems ids).drop k) l := by
  induction fuel generalizing it k with
  | zero => omega
  | succ fuel ih =>
    unfold unrolled_list.walk
    by_cases hk : k = (l.elems ids).length
    · rw [if_pos ((pos_end_iff h).mpr hk), hk, List.drop_length]
    · have hlt : k < (l.elems ids).length := lt_of_le_of_ne (pos_le h) hk
      have hne : ¬ it.eq l.end_ = true := fun hc => hk ((pos_end_iff h).mp hc)
      rw [if_neg hne, pos_deref hr h hlt, List.getElem?_eq_getElem hlt]
      obtain ⟨it1, h1, h2, _⟩ := pos_inc hr h hlt
      simp only [h1]
      rw [ih it1 (k + 1) h2 (by omega)]
      simp only
      rw [← List.drop_eq_getElem_cons hlt]

theorem rwalk_spec {α : Type} {l : unrolled_list α} {ids : List Nat} (hr : Rep l ids)
    (fuel : Nat) (r : reverse_iterator) (k : Nat) (h : Pos l ids r.current k)
    (ht : r.current.tail_ = l.tail_) (hf : k < fuel) :
    l.rwalk fuel r = .ok ((l.elems ids).take k).reverse l := by
  induction fuel generalizing r k with
  | zero => omega
  | succ fuel ih =>
    unfold unrolled_list.rwalk
    have hiff : r.eq l.rend = true ↔ k = 0 := pos_begin_iff hr h
    by_cases hk : k = 0
    · rw [if_pos (hiff.mpr hk), hk]
      rfl
    · rw [if_neg (fun hc => hk (hiff.mp hc))]
      obtain ⟨it1, h1, h2, h3⟩ := pos_dec hr h (by omega) ht
      have hle := pos_le h
      have hlt : k - 1 < (l.elems ids).length := by omega
      unfold reverse_iterator.deref reverse_iterator.inc
      simp only [h1]
      rw [pos_deref hr h2 hlt, List.getElem?_eq_getElem hlt]
      simp only
      rw [ih { current := it1 } (k - 1) h2 (h3.trans ht) (by omega)]
      simp only
      have hk1 : k - 1 + 1 = k := by omega
      have e : (l.elems ids).take k = (l.elems ids).take (k - 1) ++ [(l.elems ids)[k - 1]] := by
        have h4 := @List.take_succ _ (l.elems ids) (k - 1)
        rw [List.getElem?_eq_getElem hlt, hk1] at h4
        exact h4
      rw [e, List.reverse_append]
      rfl

theorem traverse_spec {α : Type} {l : unrolled_list α} {s : List α} (h : Holds l s) :
    l.traverse = .ok s l := by
  obtain ⟨ids, hr, rfl⟩ := h
  unfold unrolled_list.traverse
  rw [walk_spec hr _ _ 0 (pos_begin hr) (by rw [hr.size]; omega)]
  rfl

theorem rtraverse_spec {α : Type} {l : unrolled_list α} {s : List α} (h : Holds l s) :
    l.rtraverse = .ok s.reverse l := by
  obtain ⟨ids, hr, rfl⟩ := h
  unfold unrolled_list.rtraverse
  have h := rwalk_spec hr (l.size_ + 1) l.rbegin _ (pos_end l ids) rfl (by rw [hr.size]; omega)
  rw [h, List.take_length]

theorem eq_loop_spec {α : Type} [DecidableEq α] {l l2 : unrolled_list α} {ids ids2 : List Nat}
    (hr : Rep l ids) (hr2 : Rep l2 ids2)
    (hlen : (l.elems ids).length = (l2.elems ids2).length)
    (fuel : Nat) (it1 it2 : iterator) (k : Nat) (h1 : Pos l ids it1 k) (h2 : Pos l2 ids2 it2 k)
    (hf : (l.elems ids).length - k < fuel) :
    l.eq_loop l2 fuel it1 it2 =
      .ok (decide ((l.elems ids).drop k = (l2.elems ids2).drop k)) l := by
  induction fuel generalizing it1 it2 k with
  | zero => omega
  | succ fuel ih =>
    unfold unrolled_list.eq_loop
    by_cases hk : k = (l.elems ids).length
    · rw [if_pos ((pos_end_iff h1).mpr hk)]
      have e1 : (l.elems ids).drop k = [] := by rw [hk, List.drop_length]
      have e2 : (l2.elems ids2).drop k = [] := by rw [hk, hlen, List.drop_length]
      rw [e1, e2]
      simp
    · have hlt : k < (l.elems ids).length := lt_of_le_of_ne (pos_le h1) hk
      have hlt2 : k < (l2.elems ids2).length := by omega
      rw [if_neg (fun hc => hk ((pos_end_iff h1).mp hc)), pos_deref hr h1 hlt,
        pos_deref hr2 h2 hlt2, List.getElem?_eq_getElem hlt, List.getElem?_eq_getElem hlt2]
      simp only
      have e1 := List.drop_eq_getElem_cons hlt
      have e2 := List.drop_eq_getElem_cons hlt2
      by_cases hv : (l.elems ids)[k] = (l2.elems ids2)[k]
      · rw [if_pos hv]
        obtain ⟨j1, g1, g2, _⟩ := pos_inc hr h1 hlt
        obtain ⟨j2, f1, f2, _⟩ := pos_inc hr2 h2 hlt2
        simp only [g1, f1]
        rw [ih j1 j2 (k + 1) g2 f2 (by omega)]
        congr 1
        rw [e1, e2]
        simp only [List.cons.injEq, hv, true_and]
      · rw [if_neg hv]
        congr 1
        rw [e1, e2]
        simp only [List.cons.injEq, hv, false_and, decide_False]

theorem operator_eq_spec {α : Type} [DecidableEq α] {l l2 : unrolled_list α} {s s2 : List α}
    (h : Holds l s) (h2 : Holds l2 s2) : l.operator_eq l2 = .ok (decide (s = s2)) l := by
  obtain ⟨ids, hr, rfl⟩ := h
  obtain ⟨ids2, hr2, rfl⟩ := h2
  unfold unrolled_list.operator_eq
  by_cases hs : l.size_ = l2.size_
  · rw [if_neg (by simpa using hs)]
    have hlen : (l.elems ids).length = (l2.elems ids2).length := by
      rw [← hr.size, ← hr2.size, hs]
    rw [eq_loop_spec hr hr2 hlen _ _ _ 0 (pos_begin hr) (pos_begin hr2)
      (by rw [hr.size]; omega)]
    rfl
  · rw [if_pos hs]
    congr 1
    symm
    rw [decide_eq_false_iff_not]
    intro hc
    apply hs
    rw [hr.size, hr2.size, hc]

/-! ## The modifiers at the two ends, on the heap -/

theorem node_setNode_of {α : Type} {l : unrolled_list α} {n : Nat} {x0 : Node α}
    (h : l.node n = some x0) (x : Node α) (m : Nat) :
    (l.setNode n x).node m = if m = n then some x else l.node m :=
  node_setNode l n m x (node_lt h)

theorem node_create_old {α : Type} {l : unrolled_list α} {n : Nat} {x : Node α}
    (h : l.node n = some x) : (create_new_node l).2.node n = some x := by
  rw [node_create, if_neg (Nat.ne_of_lt (node_lt h)), h]

theorem node_create_new {α : Type} (l : unrolled_list α) :
    (create_new_node l).2.node l.heap.length = some {} := by
  rw [node_create, if_pos rfl]

theorem push_back_empty {α : Type} (l : unrolled_list α) (v : α) (ht : l.tail_ = none)
    (hh : l.head_ = none) (hc : 1 ≤ l.capacity) :
    ∃ l1, l.push_back v = .ok () l1 ∧
      (∀ n, l1.node n = if n = l.heap.length then some { data := [v] } else l.node n) ∧
      l1.head_ = some l.heap.length ∧ l1.tail_ = some l.heap.length ∧
      l1.size_ = l.size_ + 1 ∧ l1.capacity = l.capacity := by
  have hnew := node_create_new l
  have e1 : l.is_full l.tail_ = some true := by rw [ht]; rfl
  have g1 : (create_new_node l).2.head_ = none := hh
  have h1 : unrolled_list.node
      { (create_new_node l).2 with head_ := some l.heap.length, tail_ := some l.heap.length }
      l.heap.length = some {} := hnew
  refine ⟨?_, ?_, ?_, ?_, ?_, ?_, ?_⟩
  rotate_left
  · unfold unrolled_list.push_back
    rw [e1]
    simp only [if_true]
    unfold unrolled_list.link_tail
    rw [g1]
    simp only
    unfold unrolled_list.construct_back
    have g3 : (create_new_node l).1 = l.heap.length := rfl
    rw [g3]
    simp only [h1]
    rw [if_pos (by show 0 < l.capacity; omega)]
    exact rfl
  · intro n
    show (unrolled_list.setNode _ _ _).node n = _
    rw [node_setNode_of h1]
    by_cases hn : n = l.heap.length
    · rw [if_pos hn, if_pos hn]
      rfl
    · rw [if_neg hn, if_neg hn]
      show (create_new_node l).2.node n = _
      rw [node_create, if_neg hn]
  · rfl
  · rfl
  · rfl
  · rfl

theorem push_back_room {α : Type} (l : unrolled_list α) (v : α) {t : Nat} {x : Node α}
    (ht : l.tail_ = some t) (hx : l.node t = some x) (hlt : x.size < l.capacity) :
    ∃ l1, l.push_back v = .ok () l1 ∧
      (∀ n, l1.node n = if n = t then some { x with data := x.data ++ [v] } else l.node n) ∧
      l1.head_ = l.head_ ∧ l1.tail_ = l.tail_ ∧
      l1.size_ = l.size_ + 1 ∧ l1.capacity = l.capacity := by
  have e1 : l.is_full l.tail_ = some false := by
    rw [ht]
    unfold unrolled_list.is_full
    simp only [hx]
    rw [decide_eq_false (by omega)]
  refine ⟨?_, ?_, ?_, ?_, ?_, ?_, ?_⟩
  rotate_left
  · unfold unrolled_list.push_back
    rw [e1]
    simp only [Bool.false_eq_true, if_false]
    unfold unrolled_list.construct_back
    rw [ht]
    simp only [hx]
    rw [if_pos hlt]
    exact rfl
  · intro n
    show (unrolled_list.setNode _ _ _).node n = _
    rw [node_setNode_of hx]
  · rfl
  · rfl
  · rfl
  · rfl

theorem push_back_grow {α : Type} (l : unrolled_list α) (v : α) {t h0 : Nat} {x : Node α}
    (ht : l.tail_ = some t) (hx : l.node t = some x) (hfull : x.size = l.capacity)
    (hh : l.head_ = some h0) (hc : 1 ≤ l.capacity) :
    ∃ l1, l.push_back v = .ok () l1 ∧
      (∀ n, l1.node n =
        if n = l.heap.length then some { data := [v], prev := some t }
        else if n = t then some { x with next := some l.heap.length } else l.node n) ∧
      l1.head_ = l.head_ ∧ l1.tail_ = some l.heap.length ∧
      l1.size_ = l.size_ + 1 ∧ l1.capacity = l.capacity := by
  have htl : t ≠ l.heap.length := Nat.ne_of_lt (node_lt hx)
  have e1 : l.is_full l.tail_ = some true := by
    rw [ht]
    unfold unrolled_list.is_full
    simp only [hx]
    rw [decide_eq_true hfull]
  have hx0 : (create_new_node l).2.node t = some x := node_create_old hx
  have hm0 : ((create_new_node l).2.setNode t { x with next := some l.heap.length }).node
      l.heap.length = some {} := by
    rw [node_setNode_of hx0, if_neg (Ne.symm htl)]
    exact node_create_new l
  have hm1 : unrolled_list.node
      { ((create_new_node l).2.setNode t { x with next := some l.heap.length }).setNode
        l.heap.length { prev := some t } with tail_ := some l.heap.length } l.heap.length =
      some { prev := some t } := by
    show (unrolled_list.setNode _ _ _).node _ = _
    rw [node_setNode_of hm0, if_pos rfl]
  have g1 : (create_new_node l).2.head_ = some h0 := hh
  have g2 : (create_new_node l).2.tail_ = some t := ht
  have g3 : (create_new_node l).1 = l.heap.length := rfl
  refine ⟨?_, ?_, ?_, ?_, ?_, ?_, ?_⟩
  rotate_left
  · unfold unrolled_list.push_back
    rw [e1]
    simp only [if_true]
    unfold unrolled_list.link_tail
    rw [g1, g2, g3]
    simp only
    rw [modify_of_node hx0]
    simp only
    rw [modify_of_node hm0]
    simp only
    unfold unrolled_list.construct_back
    simp only [hm1]
    rw [if_pos (by show 0 < l.capacity; omega)]
    exact rfl
  · intro n
    show (unrolled_list.setNode _ _ _).node n = _
    rw [node_setNode_of hm1]
    by_cases hn : n = l.heap.length
    · rw [if_pos hn, if_pos hn]
      rfl
    · rw [if_neg hn, if_neg hn]
      show (unrolled_list.setNode _ _ _).node n = _
      rw [node_setNode_of hm0, if_neg hn, node_setNode_of hx0]
      by_cases hnt : n = t
      · rw [if_pos hnt, if_pos hnt]
      · rw [if_neg hnt, if_neg hnt, node_create, if_neg hn]
  · rfl
  · rfl
  · rfl
  · rfl

theorem dataOf_congr {α : Type} {l l1 : unrolled_list α} {n : Nat}
    (h : l1.node n = l.node n) : l1.dataOf n = l.dataOf n := by
  unfold unrolled_list.dataOf
  rw [h]

theorem elems_update {α : Type} {l l1 : unrolled_list α} {a b : List Nat} {t : Nat}
    (hd : ∀ n, n ≠ t → l1.dataOf n = l.dataOf n) (hnd : (a ++ t :: b).Nodup) :
    l1.elems (a ++ t :: b) = l.elems a ++ l1.dataOf t ++ l.elems b := by
  have hta : t ∉ a := fun h => by
    have := (List.nodup_append.mp hnd).2.2 h (List.mem_cons_self _ _)
    exact this
  have htb : t ∉ b := (List.nodup_cons.mp (List.nodup_append.mp hnd).2.1).1
  rw [elems_append, elems_cons,
    elems_congr (l := l) (fun n hn => hd n (fun h => hta (h ▸ hn))),
    elems_congr (l := l) (fun n hn => hd n (fun h => htb (h ▸ hn)))]
  simp

theorem singleton_split {a b : List Nat} {n m : Nat} (h : [m] = a ++ n :: b) :
    a = [] ∧ n = m ∧ b = [] := by
  cases a with
  | nil =>
    simp only [List.nil_append, List.cons.injEq] at h
    exact ⟨rfl, h.1.symm, h.2.symm⟩
  | cons c a1 =>
    simp only [List.cons_append, List.cons.injEq] at h
    exact absurd h.2 (by simp)

/-- On a well-formed list `push_back` succeeds and appends the value. -/
theorem rep_push_back {α : Type} {l : unrolled_list α} {ids : List Nat} (hr : Rep l ids)
    (v : α) :
    ∃ l1 ids1, l.push_back v = .ok () l1 ∧ Rep l1 ids1 ∧
      l1.elems ids1 = l.elems ids ++ [v] ∧ l1.capacity = l.capacity := by
  rcases List.eq_nil_or_concat ids with rfl | ⟨a, t, rfl⟩
  · -- no node yet
    obtain ⟨l1, h1, hnode, hhead, htail, hsize, hcap⟩ :=
      push_back_empty l v hr.chain.tail hr.chain.head hr.cap
    have hm : l1.node l.heap.length = some { data := [v] } := by rw [hnode, if_pos rfl]
    have hd : l1.dataOf l.heap.length = [v] := dataOf_eq hm
    have he : l1.elems [l.heap.length] = [v] := by
      rw [elems_cons, elems_nil, hd]; rfl
    refine ⟨l1, [l.heap.length], h1, ?_, ?_, hcap⟩
    · refine { chain := ?_, cap := hcap ▸ hr.cap, filled := ?_, size := ?_ }
      · refine { nodup := List.nodup_singleton _, head := hhead, tail := htail, link := ?_ }
        intro a n b hab
        obtain ⟨rfl, rfl, rfl⟩ := singleton_split hab
        exact ⟨_, hm, rfl, rfl⟩
      · intro n hn
        rw [List.mem_singleton] at hn
        subst hn
        rw [hd, hcap]
        exact ⟨by simp, hr.cap⟩
      · rw [he, hsize, hr.size, elems_nil]
        rfl
    · rw [he, elems_nil]
      rfl
  · rw [List.concat_eq_append] at hr ⊢
    obtain ⟨x, hx, hxp, hxn⟩ := hr.chain.link a t [] rfl
    have htail : l.tail_ = some t := by rw [hr.chain.tail, List.getLast?_concat]
    have hdx : l.dataOf t = x.data := dataOf_eq hx
    have hfl := hr.filled t (by simp)
    rw [hdx] at hfl
    have hel : l.elems (a ++ [t]) = l.elems a ++ x.data := by
      rw [elems_append, elems_cons, elems_nil, hdx]; simp
    by_cases hfull : x.size = l.capacity
    · -- the tail is full: a new node
      have hne : (a ++ [t]) ≠ [] := by simp
      obtain ⟨h0, hh0⟩ : ∃ h0, l.head_ = some h0 := by
        rw [hr.chain.head]
        cases hc : (a ++ [t]).head? with
        | none => exact absurd (List.head?_eq_none_iff.mp hc) hne
        | some h0 => exact ⟨h0, rfl⟩
      obtain ⟨l1, h1, hnode, hhead, htail1, hsize, hcap⟩ :=
        push_back_grow l v htail hx hfull hh0 hr.cap
      have hmem : l.heap.length ∉ a ++ [t] := fun hc =>
        absurd (hr.chain.lt_of_mem hc) (lt_irrefl _)
      have hm : l1.node l.heap.length = some { data := [v], prev := some t } := by
        rw [hnode, if_pos rfl]
      have hold : ∀ n ∈ a ++ [t], l1.dataOf n = l.dataOf n := by
        intro n hn
        have hnm : n ≠ l.heap.length := fun hc => hmem (hc ▸ hn)
        by_cases hnt : n = t
        · subst hnt
          rw [hdx]
          exact dataOf_eq (x := { x with next := some l.heap.length })
            (by rw [hnode, if_neg hnm, if_pos rfl])
        · exact dataOf_congr (by rw [hnode, if_neg hnm, if_neg hnt])
      have he : l1.elems (a ++ [t] ++ [l.heap.length]) = l.elems (a ++ [t]) ++ [v] := by
        rw [elems_append, elems_congr hold, elems_cons, elems_nil, dataOf_eq hm]
        rfl
      refine ⟨l1, a ++ [t] ++ [l.heap.length], h1, ?_, he, hcap⟩
      refine { chain := ?_, cap := hcap ▸ hr.cap, filled := ?_, size := ?_ }
      · refine chain_snoc hr.chain hmem hm ?_ rfl ?_ htail1 ?_
        · show some t = _
          rw [List.getLast?_concat]
        · rw [hhead, hr.chain.head, List.head?_append_of_ne_nil _ hne]
        · intro n hn y hy
          have hnm : n ≠ l.heap.length := fun hc => hmem (hc ▸ hn)
          rw [List.getLast?_concat]
          by_cases hnt : n = t
          · subst hnt
            rw [hx] at hy
            cases hy
            exact ⟨{ x with next := some l.heap.length },
              by rw [hnode, if_neg hnm, if_pos rfl], rfl, by rw [if_pos rfl]⟩
          · refine ⟨y, by rw [hnode, if_neg hnm, if_neg hnt, hy], rfl, ?_⟩
            rw [if_neg (fun hc => hnt (Option.some.inj hc).symm)]
      · intro n hn
        rw [hcap]
        rcases List.mem_append.mp hn with hn1 | hn1
        · rw [hold n hn1]
          exact hr.filled n hn1
        · rw [List.mem_singleton] at hn1
          subst hn1
          rw [dataOf_eq hm]
          exact ⟨by simp, hr.cap⟩
      · rw [he, hsize, hr.size]
        simp
    · -- room in the tail
      have hlt : x.size < l.capacity := by
        unfold Node.size at hfull ⊢
        omega
      obtain ⟨l1, h1, hnode, hhead, htail1, hsize, hcap⟩ := push_back_room l v htail hx hlt
      have ht1 : l1.node t = some { x with data := x.data ++ [v] } := by
        rw [hnode, if_pos rfl]
      have hdt : l1.dataOf t = x.data ++ [v] := dataOf_eq ht1
      have hold : ∀ n, n ≠ t → l1.dataOf n = l.dataOf n := fun n hnt =>
        dataOf_congr (by rw [hnode, if_neg hnt])
      have he : l1.elems (a ++ [t]) = l.elems (a ++ [t]) ++ [v] := by
        rw [elems_update hold hr.chain.nodup, hdt, hel, elems_nil]
        simp
      refine ⟨l1, a ++ [t], h1, ?_, he, hcap⟩
      refine { chain := ?_, cap := hcap ▸ hr.cap, filled := ?_, size := ?_ }
      · refine chain_frame hr.chain hhead htail1 ?_
        intro n hn y hy
        by_cases hnt : n = t
        · subst hnt
          rw [hx] at hy
          cases hy
          exact ⟨_, ht1, rfl, rfl⟩
        · exact ⟨y, by rw [hnode, if_neg hnt, hy], rfl, rfl⟩
      · intro n hn
        rw [hcap]
        by_cases hnt : n = t
        · subst hnt
          rw [hdt]
          refine ⟨by simp, ?_⟩
          unfold Node.size at hlt
          simp only [List.length_append, List.length_singleton]
          omega
        · rw [hold n hnt]
          exact hr.filled n hn
      · rw [he, hsize, hr.size]
        simp

theorem place_ok {α : Type} {l : unrolled_list α} {m : Nat} {x : Node α}
    (hx : l.node m = some x) (v : α) (idx : Nat) (hroom : x.data.length + 1 ≤ l.capacity)
    (hidx : idx ≤ x.data.length) :
    l.place (some m) idx v =
      .ok () { l.setNode m { x with data := x.data.take idx ++ [v] ++ x.data.drop idx } with
               size_ := l.size_ + 1 } := by
  unfold unrolled_list.place
  simp only [hx]
  unfold shift_right
  rw [if_neg (by omega), if_neg (by omega), if_neg (by omega)]

theorem push_front_empty {α : Type} (l : unrolled_list α) (v : α)
    (hh : l.head_ = none) (hc : 1 ≤ l.capacity) :
    ∃ l1, l.push_front v = .ok () l1 ∧
      (∀ n, l1.node n = if n = l.heap.length then some { data := [v] } else l.node n) ∧
      l1.head_ = some l.heap.length ∧ l1.tail_ = some l.heap.length ∧
      l1.size_ = l.size_ + 1 ∧ l1.capacity = l.capacity := by
  have hnew := node_create_new l
  have e1 : l.is_full l.head_ = some true := by rw [hh]; rfl
  have g3 : (create_new_node l).1 = l.heap.length := rfl
  have h1 : unrolled_list.node
      { (create_new_node l).2.setNode l.heap.length {} with
        head_ := some l.heap.length, tail_ := some l.heap.length }
      l.heap.length = some {} := by
    show (unrolled_list.setNode _ _ _).node _ = _
    rw [node_setNode_of hnew, if_pos rfl]
  refine ⟨?_, ?_, ?_, ?_, ?_, ?_, ?_⟩
  rotate_left
  · unfold unrolled_list.push_front
    rw [e1]
    simp only [if_true]
    unfold link_before
    rw [hh, g3]
    simp only
    rw [modify_of_node hnew]
    simp only
    exact place_ok h1 v 0 (by show 0 + 1 ≤ l.capacity; omega) (Nat.zero_le _)
  · intro n
    show (unrolled_list.setNode _ _ _).node n = _
    rw [node_setNode_of h1]
    by_cases hn : n = l.heap.length
    · rw [if_pos hn, if_pos hn]
      rfl
    · rw [if_neg hn, if_neg hn]
      show (unrolled_list.setNode _ _ _).node n = _
      rw [node_setNode_of hnew, if_neg hn, node_create, if_neg hn]
  · rfl
  · rfl
  · rfl
  · rfl

theorem push_front_room {α : Type} (l : unrolled_list α) (v : α) {t : Nat} {x : Node α}
    (ht : l.head_ = some t) (hx : l.node t = some x) (hlt : x.size < l.capacity) :
    ∃ l1, l.push_front v = .ok () l1 ∧
      (∀ n, l1.node n = if n = t then some { x with data := v :: x.data } else l.node n) ∧
      l1.head_ = l.head_ ∧ l1.tail_ = l.tail_ ∧
      l1.size_ = l.size_ + 1 ∧ l1.capacity = l.capacity := by
  have e1 : l.is_full l.head_ = some false := by
    rw [ht]
    unfold unrolled_list.is_full
    simp only [hx]
    rw [decide_eq_false (by omega)]
  refine ⟨?_, ?_, ?_, ?_, ?_, ?_, ?_⟩
  rotate_left
  · unfold unrolled_list.push_front
    rw [e1]
    simp only [Bool.false_eq_true, if_false]
    rw [ht]
    exact place_ok hx v 0 (by unfold Node.size at hlt; omega) (Nat.zero_le _)
  · intro n
    show (unrolled_list.setNode _ _ _).node n = _
    rw [node_setNode_of hx]
    rfl
  · rfl
  · rfl
  · rfl
  · rfl

theorem push_front_grow {α : Type} (l : unrolled_list α) (v : α) {t : Nat} {x : Node α}
    (ht : l.head_ = some t) (hx : l.node t = some x) (hfull : x.size = l.capacity)
    (hp : x.prev = none) (hc : 1 ≤ l.capacity) :
    ∃ l1, l.push_front v = .ok () l1 ∧
      (∀ n, l1.node n =
        if n = l.heap.length then some { data := [v], next := some t }
        else if n = t then some { x with prev := some l.heap.length } else l.node n) ∧
      l1.head_ = some l.heap.length ∧ l1.tail_ = l.tail_ ∧
      l1.size_ = l.size_ + 1 ∧ l1.capacity = l.capacity := by
  have htl : t ≠ l.heap.length := Nat.ne_of_lt (node_lt hx)
  have e1 : l.is_full l.head_ = some true := by
    rw [ht]
    unfold unrolled_list.is_full
    simp only [hx]
    rw [decide_eq_true hfull]
  have hx0 : (create_new_node l).2.node t = some x := node_create_old hx
  have hnew := node_create_new l
  have g3 : (create_new_node l).1 = l.heap.length := rfl
  have hx1 : ((create_new_node l).2.setNode l.heap.length { next := some t, prev := none }).node t =
      some x := by
    rw [node_setNode_of hnew, if_neg htl, hx0]
  have hm2 : (((create_new_node l).2.setNode l.heap.length
      { next := some t, prev := none }).setNode t { x with prev := some l.heap.length }).node
      l.heap.length = some { next := some t, prev := none } := by
    rw [node_setNode_of hx1, if_neg (Ne.symm htl), node_setNode_of hnew, if_pos rfl]
  have hhd : (((create_new_node l).2.setNode l.heap.length
      { next := some t, prev := none }).setNode t { x with prev := some l.heap.length }).head_ =
      some t := ht
  refine ⟨?_, ?_, ?_, ?_, ?_, ?_, ?_⟩
  rotate_left
  · unfold unrolled_list.push_front
    rw [e1]
    simp only [if_true]
    unfold link_before
    rw [ht, g3]
    simp only [hx0, hp]
    rw [modify_of_node hnew]
    simp only
    rw [modify_of_node hx1]
    simp only
    rw [if_pos hhd]
    exact place_ok (l := { (((create_new_node l).2.setNode l.heap.length
      { next := some t, prev := none }).setNode t { x with prev := some l.heap.length }) with
        head_ := some l.heap.length }) hm2 v 0 (by show 0 + 1 ≤ l.capacity; omega) (Nat.zero_le _)
  · intro n
    show (unrolled_list.setNode _ _ _).node n = _
    have hm3 : unrolled_list.node { (((create_new_node l).2.setNode l.heap.length
      { next := some t, prev := none }).setNode t { x with prev := some l.heap.length }) with
        head_ := some l.heap.length } l.heap.length = some { next := some t, prev := none } := hm2
    rw [node_setNode_of hm3]
    by_cases hn : n = l.heap.length
    · rw [if_pos hn, if_pos hn]
      rfl
    · rw [if_neg hn, if_neg hn]
      show (unrolled_list.setNode _ _ _).node n = _
      rw [node_setNode_of hx1]
      by_cases hnt : n = t
      · rw [if_pos hnt, if_pos hnt]
      · rw [if_neg hnt, if_neg hnt, node_setNode_of hnew, if_neg hn, node_create, if_neg hn]
  · rfl
  · rfl
  · rfl
  · rfl

/-- On a well-formed list `push_front` succeeds and prepends the value. -/
theorem rep_push_front {α : Type} {l : unrolled_list α} {ids : List Nat} (hr : Rep l ids)
    (v : α) :
    ∃ l1 ids1, l.push_front v = .ok () l1 ∧ Rep l1 ids1 ∧
      l1.elems ids1 = v :: l.elems ids ∧ l1.capacity = l.capacity := by
  cases ids with
  | nil =>
    obtain ⟨l1, h1, hnode, hhead, htail, hsize, hcap⟩ :=
      push_front_empty l v hr.chain.head hr.cap
    have hm : l1.node l.heap.length = some { data := [v] } := by rw [hnode, if_pos rfl]
    have hd : l1.dataOf l.heap.length = [v] := dataOf_eq hm
    have he : l1.elems [l.heap.length] = [v] := by
      rw [elems_cons, elems_nil, hd]; rfl
    refine ⟨l1, [l.heap.length], h1, ?_, ?_, hcap⟩
    · refine { chain := ?_, cap := hcap ▸ hr.cap, filled := ?_, size := ?_ }
      · refine { nodup := List.nodup_singleton _, head := hhead, tail := htail, link := ?_ }
        intro a n b hab
        obtain ⟨rfl, rfl, rfl⟩ := singleton_split hab
        exact ⟨_, hm, rfl, rfl⟩
      · intro n hn
        rw [List.mem_singleton] at hn
        subst hn
        rw [hd, hcap]
        exact ⟨by simp, hr.cap⟩
      · rw [he, hsize, hr.size, elems_nil]
        rfl
    · rw [he, elems_nil]
  | cons t b =>
    obtain ⟨x, hx, hxp, hxn⟩ := hr.chain.link [] t b rfl
    have hhead : l.head_ = some t := hr.chain.head
    have hdx : l.dataOf t = x.data := dataOf_eq hx
    have hfl := hr.filled t (by simp)
    rw [hdx] at hfl
    have hel : l.elems (t :: b) = x.data ++ l.elems b := by
      rw [elems_cons, hdx]
    by_cases hfull : x.size = l.capacity
    · obtain ⟨l1, h1, hnode, hhead1, htail1, hsize, hcap⟩ :=
        push_front_grow l v hhead hx hfull hxp hr.cap
      have hmem : l.heap.length ∉ t :: b := fun hc =>
        absurd (hr.chain.lt_of_mem hc) (lt_irrefl _)
      have hm : l1.node l.heap.length = some { data := [v], next := some t } := by
        rw [hnode, if_pos rfl]
      have hold : ∀ n ∈ t :: b, l1.dataOf n = l.dataOf n := by
        intro n hn
        have hnm : n ≠ l.heap.length := fun hc => hmem (hc ▸ hn)
        by_cases hnt : n = t
        · subst hnt
          rw [hdx]
          exact dataOf_eq (x := { x with prev := some l.heap.length })
            (by rw [hnode, if_neg hnm, if_pos rfl])
        · exact dataOf_congr (by rw [hnode, if_neg hnm, if_neg hnt])
      have he : l1.elems (l.heap.length :: t :: b) = v :: l.elems (t :: b) := by
        rw [elems_cons, elems_congr hold, dataOf_eq hm]
        rfl
      refine ⟨l1, l.heap.length :: t :: b, h1, ?_, he, hcap⟩
      refine { chain := ?_, cap := hcap ▸ hr.cap, filled := ?_, size := ?_ }
      · refine chain_cons hr.chain hmem hm rfl rfl hhead1 ?_ ?_
        · rw [htail1, hr.chain.tail, List.getLast?_cons_cons]
        · intro n hn y hy
          have hnm : n ≠ l.heap.length := fun hc => hmem (hc ▸ hn)
          by_cases hnt : n = t
          · subst hnt
            rw [hx] at hy
            cases hy
            exact ⟨{ x with prev := some l.heap.length },
              by rw [hnode, if_neg hnm, if_pos rfl], rfl,
              by rw [List.head?_cons, if_pos rfl]⟩
          · refine ⟨y, by rw [hnode, if_neg hnm, if_neg hnt, hy], rfl, ?_⟩
            rw [List.head?_cons, if_neg (fun hc => hnt (Option.some.inj hc).symm)]
      · intro n hn
        rw [hcap]
        rcases List.mem_cons.mp hn with hn1 | hn1
        · subst hn1
          rw [dataOf_eq hm]
          exact ⟨by simp, hr.cap⟩
        · rw [hold n hn1]
          exact hr.filled n hn1
      · rw [he, hsize, hr.size]
        simp
    · have hlt : x.size < l.capacity := by
        unfold Node.size at hfull ⊢
        omega
      obtain ⟨l1, h1, hnode, hhead1, htail1, hsize, hcap⟩ := push_front_room l v hhead hx hlt
      have ht1 : l1.node t = some { x with data := v :: x.data } := by
        rw [hnode, if_pos rfl]
      have hdt : l1.dataOf t = v :: x.data := dataOf_eq ht1
      have hold : ∀ n, n ≠ t → l1.dataOf n = l.dataOf n := fun n hnt =>
        dataOf_congr (by rw [hnode, if_neg hnt])
      have he : l1.elems (t :: b) = v :: l.elems (t :: b) := by
        have := elems_update (a := []) hold hr.chain.nodup
        rw [List.nil_append] at this
        rw [this, hdt, hel, elems_nil]
        simp
      refine ⟨l1, t :: b, h1, ?_, he, hcap⟩
      refine { chain := ?_, cap := hcap ▸ hr.cap, filled := ?_, size := ?_ }
      · refine chain_frame hr.chain hhead1 htail1 ?_
        intro n hn y hy
        by_cases hnt : n = t
        · subst hnt
          rw [hx] at hy
          cases hy
          exact ⟨_, ht1, rfl, rfl⟩
        · exact ⟨y, by rw [hnode, if_neg hnt, hy], rfl, rfl⟩
      · intro n hn
        rw [hcap]
        by_cases hnt : n = t
        · subst hnt
          rw [hdt]
          refine ⟨by simp, ?_⟩
          unfold Node.size at hlt
          simp only [List.length_cons]
          omega
        · rw [hold n hnt]
          exact hr.filled n hn
      · rw [he, hsize, hr.size]
        simp

theorem unlink_inner_none {α : Type} {l : unrolled_list α} {t : Nat} {x : Node α}
    (hx : l.node t = some x) (hp : x.prev = none) (hq : x.next = none) :
    unlink_and_destroy l t =
      some (destroy_node { l with head_ := none, tail_ := none } t) := by
  unfold unlink_and_destroy
  simp only [hx, hp, hq]

theorem unlink_last {α : Type} {l : unrolled_list α} {t p : Nat} {x xp : Node α}
    (hx : l.node t = some x) (hp : x.prev = some p) (hq : x.next = none)
    (hxp : l.node p = some xp) :
    unlink_and_destroy l t =
      some (destroy_node { l.setNode p { xp with next := none } with tail_ := some p } t) := by
  unfold unlink_and_destroy
  simp only [hx, hp, hq]
  rw [modify_of_node hxp]

theorem unlink_first {α : Type} {l : unrolled_list α} {t q : Nat} {x xq : Node α}
    (hx : l.node t = some x) (hp : x.prev = none) (hq : x.next = some q)
    (hxq : l.node q = some xq) :
    unlink_and_destroy l t =
      some (destroy_node
        (unrolled_list.setNode { l with head_ := some q } q { xq with prev := none }) t) := by
  unfold unlink_and_destroy
  simp only [hx, hp, hq]
  have : unrolled_list.node { l with head_ := some q } q = some xq := hxq
  rw [modify_of_node this]

theorem pop_back_keep {α : Type} (l : unrolled_list α) {t : Nat} {x : Node α}
    (hs : l.size_ ≠ 0) (ht : l.tail_ = some t) (hx : l.node t = some x)
    (h2 : 2 ≤ x.data.length) :
    ∃ l1, l.pop_back = .ok () l1 ∧
      (∀ n, l1.node n = if n = t then some { x with data := x.data.dropLast } else l.node n) ∧
      l1.head_ = l.head_ ∧ l1.tail_ = l.tail_ ∧
      l1.size_ = l.size_ - 1 ∧ l1.capacity = l.capacity := by
  have he : l.empty = false := by
    unfold unrolled_list.empty
    simpa using hs
  have hx1 : unrolled_list.node
      { l.setNode t { x with data := x.data.dropLast } with size_ := l.size_ - 1 } t =
      some { x with data := x.data.dropLast } := by
    show (unrolled_list.setNode _ _ _).node _ = _
    rw [node_setNode_of hx, if_pos rfl]
  refine ⟨?_, ?_, ?_, ?_, ?_, ?_, ?_⟩
  rotate_left
  · unfold unrolled_list.pop_back
    rw [he, ht]
    simp only [Bool.false_eq_true, if_false, hx]
    rw [if_neg (by unfold Node.size; omega)]
    unfold unrolled_list.drop_tail
    simp only [hx1]
    rw [if_neg (by unfold Node.size; simp only [List.length_dropLast]; omega)]
    exact rfl
  · intro n
    show (unrolled_list.setNode _ _ _).node n = _
    rw [node_setNode_of hx]
  · rfl
  · rfl
  · rfl
  · rfl

theorem pop_back_last_none {α : Type} (l : unrolled_list α) {t : Nat} {x : Node α}
    (hs : l.size_ ≠ 0) (ht : l.tail_ = some t) (hx : l.node t = some x)
    (h1 : x.data.length = 1) (hp : x.prev = none) (hq : x.next = none) :
    ∃ l1, l.pop_back = .ok () l1 ∧
      (∀ n, l1.node n = if n = t then none else l.node n) ∧
      l1.head_ = none ∧ l1.tail_ = none ∧
      l1.size_ = l.size_ - 1 ∧ l1.capacity = l.capacity := by
  have he : l.empty = false := by
    unfold unrolled_list.empty
    simpa using hs
  have hx1 : unrolled_list.node
      { l.setNode t { x with data := x.data.dropLast } with size_ := l.size_ - 1 } t =
      some { x with data := x.data.dropLast } := by
    show (unrolled_list.setNode _ _ _).node _ = _
    rw [node_setNode_of hx, if_pos rfl]
  refine ⟨?_, ?_, ?_, ?_, ?_, ?_, ?_⟩
  rotate_left
  · unfold unrolled_list.pop_back
    rw [he, ht]
    simp only [Bool.false_eq_true, if_false, hx]
    rw [if_neg (by unfold Node.size; omega)]
    unfold unrolled_list.drop_tail
    simp only [hx1]
    rw [if_pos (by unfold Node.size; simp only [List.length_dropLast]; omega),
      unlink_inner_none hx1 hp hq]
    exact rfl
  · intro n
    show (destroy_node _ _).node n = _
    rw [node_destroy]
    by_cases hn : n = t
    · rw [if_pos hn, if_pos hn]
    · rw [if_neg hn, if_neg hn]
      show (unrolled_list.setNode _ _ _).node n = _
      rw [node_setNode_of hx, if_neg hn]
  · rfl
  · exact hp
  · rfl
  · rfl

theorem pop_back_last_some {α : Type} (l : unrolled_list α) {t p : Nat} {x xp : Node α}
    (hs : l.size_ ≠ 0) (ht : l.tail_ = some t) (hx : l.node t = some x)
    (h1 : x.data.length = 1) (hp : x.prev = some p) (hq : x.next = none)
    (hxp : l.node p = some xp) (hpt : p ≠ t) :
    ∃ l1, l.pop_back = .ok () l1 ∧
      (∀ n, l1.node n =
        if n = t then none else if n = p then some { xp with next := none } else l.node n) ∧
      l1.head_ = l.head_ ∧ l1.tail_ = some p ∧
      l1.size_ = l.size_ - 1 ∧ l1.capacity = l.capacity := by
  have he : l.empty = false := by
    unfold unrolled_list.empty
    simpa using hs
  have hx1 : unrolled_list.node
      { l.setNode t { x with data := x.data.dropLast } with size_ := l.size_ - 1 } t =
      some { x with data := x.data.dropLast } := by
    show (unrolled_list.setNode _ _ _).node _ = _
    rw [node_setNode_of hx, if_pos rfl]
  have hp1 : unrolled_list.node
      { l.setNode t { x with data := x.data.dropLast } with size_ := l.size_ - 1 } p =
      some xp := by
    show (unrolled_list.setNode _ _ _).node _ = _
    rw [node_setNode_of hx, if_neg hpt, hxp]
  refine ⟨?_, ?_, ?_, ?_, ?_, ?_, ?_⟩
  rotate_left
  · unfold unrolled_list.pop_back
    rw [he, ht]
    simp only [Bool.false_eq_true, if_false, hx]
    rw [if_neg (by unfold Node.size; omega)]
    unfold unrolled_list.drop_tail
    simp only [hx1]
    rw [if_pos (by unfold Node.size; simp only [List.length_dropLast]; omega),
      unlink_last hx1 hp hq hp1]
    exact rfl
  · intro n
    show (destroy_node _ _).node n = _
    rw [node_destroy]
    by_cases hn : n = t
    · rw [if_pos hn, if_pos hn]
    · rw [if_neg hn, if_neg hn]
      show (unrolled_list.setNode _ _ _).node n = _
      rw [node_setNode_of hp1]
      by_cases hnp : n = p
      · rw [if_pos hnp, if_pos hnp]
      · rw [if_neg hnp, if_neg hnp]
        show (unrolled_list.setNode _ _ _).node n = _
        rw [node_setNode_of hx, if_neg hn]
  · rfl
  · exact hp
  · rfl
  · rfl

theorem shift_left_head {α : Type} (d : List α) : shift_left d 0 1 = d.tail := by
  unfold shift_left
  rw [if_neg (by omega)]
  simp only [List.take_zero, List.nil_append, Nat.zero_add, List.drop_one]
  rw [List.take_of_length_le (by simp)]

theorem pop_front_keep {α : Type} (l : unrolled_list α) {t : Nat} {x : Node α}
    (hs : l.size_ ≠ 0) (ht : l.head_ = some t) (hx : l.node t = some x)
    (h2 : 2 ≤ x.data.length) :
    ∃ l1, l.pop_front = .ok () l1 ∧
      (∀ n, l1.node n = if n = t then some { x with data := x.data.tail } else l.node n) ∧
      l1.head_ = l.head_ ∧ l1.tail_ = l.tail_ ∧
      l1.size_ = l.size_ - 1 ∧ l1.capacity = l.capacity := by
  have he : l.empty = false := by
    unfold unrolled_list.empty
    simpa using hs
  have hx1 : unrolled_list.node
      { l.setNode t { x with data := x.data.tail } with size_ := l.size_ - 1 } t =
      some { x with data := x.data.tail } := by
    show (unrolled_list.setNode _ _ _).node _ = _
    rw [node_setNode_of hx, if_pos rfl]
  refine ⟨?_, ?_, ?_, ?_, ?_, ?_, ?_⟩
  rotate_left
  · unfold unrolled_list.pop_front
    rw [he, ht]
    simp only [Bool.false_eq_true, if_false, hx]
    rw [if_neg (by unfold Node.size; omega), shift_left_head]
    unfold unrolled_list.drop_head
    simp only [hx1]
    rw [if_neg (by unfold Node.size; simp only [List.length_tail]; omega)]
    exact rfl
  · intro n
    show (unrolled_list.setNode _ _ _).node n = _
    rw [node_setNode_of hx]
  · rfl
  · rfl
  · rfl
  · rfl

theorem pop_front_last_none {α : Type} (l : unrolled_list α) {t : Nat} {x : Node α}
    (hs : l.size_ ≠ 0) (ht : l.head_ = some t) (hx : l.node t = some x)
    (h1 : x.data.length = 1) (hp : x.prev = none) (hq : x.next = none) :
    ∃ l1, l.pop_front = .ok () l1 ∧
      (∀ n, l1.node n = if n = t then none else l.node n) ∧
      l1.head_ = none ∧ l1.tail_ = none ∧
      l1.size_ = l.size_ - 1 ∧ l1.capacity = l.capacity := by
  have he : l.empty = false := by
    unfold unrolled_list.empty
    simpa using hs
  have hx1 : unrolled_list.node
      { l.setNode t { x with data := x.data.tail } with size_ := l.size_ - 1 } t =
      some { x with data := x.data.tail } := by
    show (unrolled_list.setNode _ _ _).node _ = _
    rw [node_setNode_of hx, if_pos rfl]
  refine ⟨?_, ?_, ?_, ?_, ?_, ?_, ?_⟩
  rotate_left
  · unfold unrolled_list.pop_front
    rw [he, ht]
    simp only [Bool.false_eq_true, if_false, hx]
    rw [if_neg (by unfold Node.size; omega), shift_left_head]
    unfold unrolled_list.drop_head
    simp only [hx1]
    rw [if_pos (by unfold Node.size; simp only [List.length_tail]; omega),
      unlink_inner_none hx1 hp hq]
    exact rfl
  · intro n
    show (destroy_node _ _).node n = _
    rw [node_destroy]
    by_cases hn : n = t
    · rw [if_pos hn, if_pos hn]
    · rw [if_neg hn, if_neg hn]
      show (unrolled_list.setNode _ _ _).node n = _
      rw [node_setNode_of hx, if_neg hn]
  · exact hq
  · rfl
  · rfl
  · rfl

theorem pop_front_last_some {α : Type} (l : unrolled_list α) {t q : Nat} {x xq : Node α}
    (hs : l.size_ ≠ 0) (ht : l.head_ = some t) (hx : l.node t = some x)
    (h1 : x.data.length = 1) (hp : x.prev = none) (hq : x.next = some q)
    (hxq : l.node q = some xq) (hqt : q ≠ t) :
    ∃ l1, l.pop_front = .ok () l1 ∧
      (∀ n, l1.node n =
        if n = t then none else if n = q then some { xq with prev := none } else l.node n) ∧
      l1.head_ = some q ∧ l1.tail_ = l.tail_ ∧
      l1.size_ = l.size_ - 1 ∧ l1.capacity = l.capacity := by
  have he : l.empty = false := by
    unfold unrolled_list.empty
    simpa using hs
  have hx1 : unrolled_list.node
      { l.setNode t { x with data := x.data.tail } with size_ := l.size_ - 1 } t =
      some { x with data := x.data.tail } := by
    show (unrolled_list.setNode _ _ _).node _ = _
    rw [node_setNode_of hx, if_pos rfl]
  have hq1 : unrolled_list.node
      { l.setNode t { x with data := x.data.tail } with size_ := l.size_ - 1 } q =
      some xq := by
    show (unrolled_list.setNode _ _ _).node _ = _
    rw [node_setNode_of hx, if_neg hqt, hxq]
  refine ⟨?_, ?_, ?_, ?_, ?_, ?_, ?_⟩
  rotate_left
  · unfold unrolled_list.pop_front
    rw [he, ht]
    simp only [Bool.false_eq_true, if_false, hx]
    rw [if_neg (by unfold Node.size; omega), shift_left_head]
    unfold unrolled_list.drop_head
    simp only [hx1]
    rw [if_pos (by unfold Node.size; simp only [List.length_tail]; omega),
      unlink_first hx1 hp hq hq1]
    exact rfl
  · intro n
    show (destroy_node _ _).node n = _
    rw [node_destroy]
    by_cases hn : n = t
    · rw [if_pos hn, if_pos hn]
    · rw [if_neg hn, if_neg hn]
      have hq2 : unrolled_list.node
          { ({ l.setNode t { x with data := x.data.tail } with size_ := l.size_ - 1 } :
              unrolled_list α) with head_ := some q } q = some xq := hq1
      show (unrolled_list.setNode _ _ _).node n = _
      rw [node_setNode_of hq2]
      by_cases hnq : n = q
      · rw [if_pos hnq, if_pos hnq]
      · rw [if_neg hnq, if_neg hnq]
        show (unrolled_list.setNode _ _ _).node n = _
        rw [node_setNode_of hx, if_neg hn]
  · exact hq
  · rfl
  · rfl
  · rfl

theorem chain_nil {α : Type} {l : unrolled_list α} (hh : l.head_ = none) (ht : l.tail_ = none) :
    Chain l [] :=
  { nodup := List.nodup_nil, head := hh, tail := ht,
    link := fun a n b hab => absurd hab (by simp) }

/-- On a well-formed list that is not empty `pop_back` succeeds and removes the
last element. -/
theorem rep_pop_back {α : Type} {l : unrolled_list α} {ids : List Nat} (hr : Rep l ids)
    (hne : l.elems ids ≠ []) :
    ∃ l1 ids1, l.pop_back = .ok () l1 ∧ Rep l1 ids1 ∧
      l1.elems ids1 = (l.elems ids).dropLast ∧ l1.capacity = l.capacity := by
  rcases List.eq_nil_or_concat ids with rfl | ⟨a, t, rfl⟩
  · exact absurd (elems_nil l) hne
  rw [List.concat_eq_append] at hr hne ⊢
  obtain ⟨x, hx, hxp, hxn⟩ := hr.chain.link a t [] rfl
  have htail : l.tail_ = some t := by rw [hr.chain.tail, List.getLast?_concat]
  have hdx : l.dataOf t = x.data := dataOf_eq hx
  have hfl := hr.filled t (by simp)
  rw [hdx] at hfl
  have hel : l.elems (a ++ [t]) = l.elems a ++ x.data := by
    rw [elems_append, elems_cons, elems_nil, hdx]; simp
  have hs : l.size_ ≠ 0 := by
    rw [hr.size]
    exact fun hc => hne (List.length_eq_zero.mp hc)
  have hpos : 0 < x.data.length := List.length_pos.mpr hfl.1
  have hdrop : (l.elems (a ++ [t])).dropLast = l.elems a ++ x.data.dropLast := by
    rw [hel, List.dropLast_append_of_ne_nil _ hfl.1]
  have hta : t ∉ a := fun h =>
    (List.nodup_append.mp hr.chain.nodup).2.2 h (List.mem_singleton_self _)
  by_cases h2 : 2 ≤ x.data.length
  · obtain ⟨l1, h1, hnode, hhead, htail1, hsize, hcap⟩ := pop_back_keep l hs htail hx h2
    have ht1 : l1.node t = some { x with data := x.data.dropLast } := by
      rw [hnode, if_pos rfl]
    have hdt : l1.dataOf t = x.data.dropLast := dataOf_eq ht1
    have hold : ∀ n, n ≠ t → l1.dataOf n = l.dataOf n := fun n hnt =>
      dataOf_congr (by rw [hnode, if_neg hnt])
    have he : l1.elems (a ++ [t]) = (l.elems (a ++ [t])).dropLast := by
      rw [elems_update hold hr.chain.nodup, hdt, hdrop, elems_nil]
      simp
    refine ⟨l1, a ++ [t], h1, ?_, he, hcap⟩
    refine { chain := ?_, cap := hcap ▸ hr.cap, filled := ?_, size := ?_ }
    · refine chain_frame hr.chain hhead htail1 ?_
      intro n hn y hy
      by_cases hnt : n = t
      · subst hnt
        rw [hx] at hy
        cases hy
        exact ⟨_, ht1, rfl, rfl⟩
      · exact ⟨y, by rw [hnode, if_neg hnt, hy], rfl, rfl⟩
    · intro n hn
      rw [hcap]
      by_cases hnt : n = t
      · subst hnt
        rw [hdt]
        refine ⟨?_, ?_⟩
        · intro hc
          have := congrArg List.length hc
          simp only [List.length_dropLast, List.length_nil] at this
          omega
        · simp only [List.length_dropLast]
          omega
      · rw [hold n hnt]
        exact hr.filled n hn
    · rw [he, hsize, hr.size]
      simp
  · have h1len : x.data.length = 1 := by omega
    have hdl : x.data.dropLast = [] := by
      apply List.length_eq_zero.mp
      simp only [List.length_dropLast]
      omega
    rw [hdl, List.append_nil] at hdrop
    rcases List.eq_nil_or_concat a with rfl | ⟨a1, p, rfl⟩
    · obtain ⟨l1, h1, hnode, hhead, htail1, hsize, hcap⟩ :=
        pop_back_last_none l hs htail hx h1len hxp hxn
      refine ⟨l1, [], h1, ?_, ?_, hcap⟩
      · refine { chain := chain_nil hhead htail1, cap := hcap ▸ hr.cap,
                 filled := fun n hn => absurd hn (by simp), size := ?_ }
        show l1.size_ = 0
        rw [hsize, hr.size, hel, elems_nil]
        simp only [List.nil_append]
        omega
      · rw [hdrop]
        rfl
    · rw [List.concat_eq_append] at hr hxp hel hdrop hta ⊢
      rw [List.getLast?_concat] at hxp
      obtain ⟨xp, hxp1, _, _⟩ := hr.chain.link a1 p [t] (by simp)
      have hpt : p ≠ t := fun hc => hta (by rw [hc]; simp)
      obtain ⟨l1, h1, hnode, hhead, htail1, hsize, hcap⟩ :=
        pop_back_last_some l hs htail hx h1len hxp hxn hxp1 hpt
      have hold : ∀ n ∈ a1 ++ [p], l1.dataOf n = l.dataOf n := by
        intro n hn
        have hnt : n ≠ t := fun hc => hta (hc ▸ hn)
        by_cases hnp : n = p
        · subst hnp
          rw [dataOf_eq hxp1]
          exact dataOf_eq (x := { xp with next := none })
            (by rw [hnode, if_neg hnt, if_pos rfl])
        · exact dataOf_congr (by rw [hnode, if_neg hnt, if_neg hnp])
      have he : l1.elems (a1 ++ [p]) = l.elems (a1 ++ [p]) := elems_congr hold
      refine ⟨l1, a1 ++ [p], h1, ?_, by rw [he, hdrop], hcap⟩
      refine { chain := ?_, cap := hcap ▸ hr.cap, filled := ?_, size := ?_ }
      · refine chain_dropLast hr.chain ?_ ?_ ?_
        · rw [hhead, hr.chain.head, List.head?_append_of_ne_nil _ (by simp)]
        · rw [htail1, List.getLast?_concat]
        · intro n hn y hy
          have hnt : n ≠ t := fun hc => hta (hc ▸ hn)
          rw [List.getLast?_concat]
          by_cases hnp : n = p
          · subst hnp
            rw [hxp1] at hy
            cases hy
            exact ⟨{ xp with next := none }, by rw [hnode, if_neg hnt, if_pos rfl], rfl,
              by rw [if_pos rfl]⟩
          · refine ⟨y, by rw [hnode, if_neg hnt, if_neg hnp, hy], rfl, ?_⟩
            rw [if_neg (fun hc => hnp (Option.some.inj hc).symm)]
      · intro n hn
        rw [hcap, hold n hn]
        exact hr.filled n (by simp at hn ⊢; tauto)
      · rw [he, hsize, hr.size, hel]
        simp only [List.length_append]
        omega

/-- On a well-formed list that is not empty `pop_front` succeeds and removes the
first element. -/
theorem rep_pop_front {α : Type} {l : unrolled_list α} {ids : List Nat} (hr : Rep l ids)
    (hne : l.elems ids ≠ []) :
    ∃ l1 ids1, l.pop_front = .ok () l1 ∧ Rep l1 ids1 ∧
      l1.elems ids1 = (l.elems ids).tail ∧ l1.capacity = l.capacity := by
  cases ids with
  | nil => exact absurd (elems_nil l) hne
  | cons t b =>
  obtain ⟨x, hx, hxp, hxn⟩ := hr.chain.link [] t b rfl
  have hhead : l.head_ = some t := hr.chain.head
  have hdx : l.dataOf t = x.data := dataOf_eq hx
  have hfl := hr.filled t (by simp)
  rw [hdx] at hfl
  have hel : l.elems (t :: b) = x.data ++ l.elems b := by
    rw [elems_cons, hdx]
  have hs : l.size_ ≠ 0 := by
    rw [hr.size]
    exact fun hc => hne (List.length_eq_zero.mp hc)
  have hpos : 0 < x.data.length := List.length_pos.mpr hfl.1
  have hdrop : (l.elems (t :: b)).tail = x.data.tail ++ l.elems b := by
    rw [hel, List.tail_append_of_ne_nil hfl.1]
  have htb : t ∉ b := (List.nodup_cons.mp hr.chain.nodup).1
  by_cases h2 : 2 ≤ x.data.length
  · obtain ⟨l1, h1, hnode, hhead1, htail1, hsize, hcap⟩ := pop_front_keep l hs hhead hx h2
    have ht1 : l1.node t = some { x with data := x.data.tail } := by
      rw [hnode, if_pos rfl]
    have hdt : l1.dataOf t = x.data.tail := dataOf_eq ht1
    have hold : ∀ n, n ≠ t → l1.dataOf n = l.dataOf n := fun n hnt =>
      dataOf_congr (by rw [hnode, if_neg hnt])
    have he : l1.elems (t :: b) = (l.elems (t :: b)).tail := by
      have := elems_update (a := []) hold hr.chain.nodup
      rw [List.nil_append] at this
      rw [this, hdt, hdrop, elems_nil]
      simp
    refine ⟨l1, t :: b, h1, ?_, he, hcap⟩
    refine { chain := ?_, cap := hcap ▸ hr.cap, filled := ?_, size := ?_ }
    · refine chain_frame hr.chain hhead1 htail1 ?_
      intro n hn y hy
      by_cases hnt : n = t
      · subst hnt
        rw [hx] at hy
        cases hy
        exact ⟨_, ht1, rfl, rfl⟩
      · exact ⟨y, by rw [hnode, if_neg hnt, hy], rfl, rfl⟩
    · intro n hn
      rw [hcap]
      by_cases hnt : n = t
      · subst hnt
        rw [hdt]
        refine ⟨?_, ?_⟩
        · intro hc
          have := congrArg List.length hc
          simp only [List.length_tail, List.length_nil] at this
          omega
        · simp only [List.length_tail]
          omega
      · rw [hold n hnt]
        exact hr.filled n hn
    · rw [he, hsize, hr.size]
      simp
  · have h1len : x.data.length = 1 := by omega
    have hdl : x.data.tail = [] := by
      apply List.length_eq_zero.mp
      simp only [List.length_tail]
      omega
    rw [hdl, List.nil_append] at hdrop
    cases b with
    | nil =>
      obtain ⟨l1, h1, hnode, hhead1, htail1, hsize, hcap⟩ :=
        pop_front_last_none l hs hhead hx h1len hxp hxn
      refine ⟨l1, [], h1, ?_, ?_, hcap⟩
      · refine { chain := chain_nil hhead1 htail1, cap := hcap ▸ hr.cap,
                 filled := fun n hn => absurd hn (by simp), size := ?_ }
        show l1.size_ = 0
        rw [hsize, hr.size, hel, elems_nil]
        simp only [List.append_nil]
        omega
      · rw [hdrop]
        rfl
    | cons q b1 =>
      obtain ⟨xq, hxq1, _, _⟩ := hr.chain.link [t] q b1 (by simp)
      have hqt : q ≠ t := fun hc => htb (by rw [← hc]; simp)
      obtain ⟨l1, h1, hnode, hhead1, htail1, hsize, hcap⟩ :=
        pop_front_last_some l hs hhead hx h1len hxp hxn hxq1 hqt
      have hold : ∀ n ∈ q :: b1, l1.dataOf n = l.dataOf n := by
        intro n hn
        have hnt : n ≠ t := fun hc => htb (hc ▸ hn)
        by_cases hnq : n = q
        · subst hnq
          rw [dataOf_eq hxq1]
          exact dataOf_eq (x := { xq with prev := none })
            (by rw [hnode, if_neg hnt, if_pos rfl])
        · exact dataOf_congr (by rw [hnode, if_neg hnt, if_neg hnq])
      have he : l1.elems (q :: b1) = l.elems (q :: b1) := elems_congr hold
      refine ⟨l1, q :: b1, h1, ?_, by rw [he, hdrop], hcap⟩
      refine { chain := ?_, cap := hcap ▸ hr.cap, filled := ?_, size := ?_ }
      · refine chain_tail hr.chain hhead1 ?_ ?_
        · rw [htail1, hr.chain.tail, List.getLast?_cons_cons]
        · intro n hn y hy
          have hnt : n ≠ t := fun hc => htb (hc ▸ hn)
          rw [List.head?_cons]
          by_cases hnq : n = q
          · subst hnq
            rw [hxq1] at hy
            cases hy
            exact ⟨{ xq with prev := none }, by rw [hnode, if_neg hnt, if_pos rfl], rfl,
              by rw [if_pos rfl]⟩
          · refine ⟨y, by rw [hnode, if_neg hnt, if_neg hnq, hy], rfl, ?_⟩
            rw [if_neg (fun hc => hnq (Option.some.inj hc).symm)]
      · intro n hn
        rw [hcap, hold n hn]
        exact hr.filled n (List.mem_cons_of_mem _ hn)
      · rw [he, hsize, hr.size, hel]
        simp only [List.length_append]
        omega

/-! ## Well-formed lists as sequences -/

theorem holds_new (α : Type) {cap : Nat} (h : 1 ≤ cap) : Holds (unrolled_list.new α cap) [] :=
  ⟨[], { chain := chain_nil rfl rfl, cap := h, filled := fun n hn => absurd hn (by simp),
         size := rfl }, rfl⟩

theorem Holds.cap {α : Type} {l : unrolled_list α} {s : List α} (h : Holds l s) :
    1 ≤ l.capacity := by
  obtain ⟨ids, hr, _⟩ := h
  exact hr.cap

theorem holds_push_back {α : Type} {l : unrolled_list α} {s : List α} (h : Holds l s) (v : α) :
    ∃ l1, l.push_back v = .ok () l1 ∧ Holds l1 (s ++ [v]) ∧ l1.capacity = l.capacity := by
  obtain ⟨ids, hr, rfl⟩ := h
  obtain ⟨l1, ids1, h1, hr1, he, hc⟩ := rep_push_back hr v
  exact ⟨l1, h1, ⟨ids1, hr1, he⟩, hc⟩

theorem holds_push_front {α : Type} {l : unrolled_list α} {s : List α} (h : Holds l s) (v : α) :
    ∃ l1, l.push_front v = .ok () l1 ∧ Holds l1 (v :: s) ∧ l1.capacity = l.capacity := by
  obtain ⟨ids, hr, rfl⟩ := h
  obtain ⟨l1, ids1, h1, hr1, he, hc⟩ := rep_push_front hr v
  exact ⟨l1, h1, ⟨ids1, hr1, he⟩, hc⟩

theorem holds_pop_back {α : Type} {l : unrolled_list α} {s : List α} (h : Holds l s)
    (hne : s ≠ []) :
    ∃ l1, l.pop_back = .ok () l1 ∧ Holds l1 s.dropLast ∧ l1.capacity = l.capacity := by
  obtain ⟨ids, hr, rfl⟩ := h
  obtain ⟨l1, ids1, h1, hr1, he, hc⟩ := rep_pop_back hr hne
  exact ⟨l1, h1, ⟨ids1, hr1, he⟩, hc⟩

theorem holds_pop_front {α : Type} {l : unrolled_list α} {s : List α} (h : Holds l s)
    (hne : s ≠ []) :
    ∃ l1, l.pop_front = .ok () l1 ∧ Holds l1 s.tail ∧ l1.capacity = l.capacity := by
  obtain ⟨ids, hr, rfl⟩ := h
  obtain ⟨l1, ids1, h1, hr1, he, hc⟩ := rep_pop_front hr hne
  exact ⟨l1, h1, ⟨ids1, hr1, he⟩, hc⟩

theorem holds_run_ops {α : Type} (ops : List (Op α)) {l : unrolled_list α} {s s1 : List α}
    (h : Holds l s) (hs : spec_ops s ops = some s1) :
    ∃ l1, l.run_ops ops = .ok () l1 ∧ Holds l1 s1 ∧ l1.capacity = l.capacity := by
  induction ops generalizing l s with
  | nil =>
    simp only [spec_ops, Option.some.injEq] at hs
    subst hs
    exact ⟨l, rfl, h, rfl⟩
  | cons op ops ih =>
    unfold spec_ops at hs
    cases hop : spec_op s op with
    | none => rw [hop] at hs; cases hs
    | some s2 =>
      rw [hop] at hs
      simp only at hs
      have step : ∃ l2, l.run_op op = .ok () l2 ∧ Holds l2 s2 ∧ l2.capacity = l.capacity := by
        cases op with
        | push_back v =>
          simp only [spec_op, Option.some.injEq] at hop
          subst hop
          exact holds_push_back h v
        | push_front v =>
          simp only [spec_op, Option.some.injEq] at hop
          subst hop
          exact holds_push_front h v
        | pop_back =>
          simp only [spec_op] at hop
          by_cases he : s = []
          · rw [he] at hop; cases hop
          · rw [if_neg (by simpa using he)] at hop
            cases hop
            exact holds_pop_back h he
        | pop_front =>
          simp only [spec_op] at hop
          by_cases he : s = []
          · rw [he] at hop; cases hop
          · rw [if_neg (by simpa using he)] at hop
            cases hop
            exact holds_pop_front h he
      obtain ⟨l2, h2, hh2, hc2⟩ := step
      obtain ⟨l1, h1, hh1, hc1⟩ := ih hh2 hs
      refine ⟨l1, ?_, hh1, hc1.trans hc2⟩
      unfold unrolled_list.run_ops
      rw [h2]
      exact h1

theorem holds_build {α : Type} {cap : Nat} (hc : 1 ≤ cap) (ops : List (Op α)) {s : List α}
    (hs : spec_ops [] ops = some s) : Holds (unrolled_list.build cap ops) s := by
  obtain ⟨l1, h1, hh1, _⟩ := holds_run_ops ops (holds_new α hc) hs
  unfold unrolled_list.build
  rw [h1]
  exact hh1

theorem build_capacity {α : Type} {cap : Nat} (hc : 1 ≤ cap) (ops : List (Op α)) {s : List α}
    (hs : spec_ops [] ops = some s) : (unrolled_list.build cap ops).capacity = cap := by
  obtain ⟨l1, h1, _, hc1⟩ := holds_run_ops ops (holds_new α hc) hs
  unfold unrolled_list.build
  rw [h1]
  exact hc1

theorem holds_size {α : Type} {l : unrolled_list α} {s : List α} (h : Holds l s) :
    l.size = s.length := by
  obtain ⟨ids, hr, rfl⟩ := h
  exact hr.size

theorem holds_empty {α : Type} {l : unrolled_list α} {s : List α} (h : Holds l s) :
    l.empty = true ↔ s = [] := by
  have := holds_size h
  unfold unrolled_list.size at this
  unfold unrolled_list.empty
  rw [beq_iff_eq, this]
  exact List.length_eq_zero

theorem rep_nil {α : Type} {l : unrolled_list α} {ids : List Nat} (hr : Rep l ids)
    (he : l.elems ids = []) : ids = [] := by
  cases ids with
  | nil => rfl
  | cons t b =>
    exfalso
    rw [elems_cons] at he
    exact (hr.filled t (by simp)).1 (List.append_eq_nil.mp he).1

theorem holds_nil {α : Type} {l : unrolled_list α} (h : Holds l []) :
    l.size_ = 0 ∧ l.head_ = none ∧ l.tail_ = none := by
  obtain ⟨ids, hr, he⟩ := h
  have := rep_nil hr he
  subst this
  exact ⟨hr.size, hr.chain.head, hr.chain.tail⟩

theorem holds_front {α : Type} {l : unrolled_list α} {s : List α} (h : Holds l s) {v : α}
    (hv : s.head? = some v) : l.front = .ok v l := by
  obtain ⟨ids, hr, rfl⟩ := h
  have hne : l.elems ids ≠ [] := fun hc => by rw [hc] at hv; cases hv
  have hemp : l.empty = false := by
    cases he : l.empty with
    | false => rfl
    | true => exact absurd ((holds_empty ⟨ids, hr, rfl⟩).mp he) hne
  cases ids with
  | nil => exact absurd (elems_nil l) hne
  | cons t b =>
    obtain ⟨x, hx, _, _⟩ := hr.chain.link [] t b rfl
    have hd := dataOf_eq hx
    have hfl := (hr.filled t (by simp)).1
    rw [hd] at hfl
    rw [elems_cons, hd, List.head?_append_of_ne_nil _ hfl] at hv
    unfold unrolled_list.front
    rw [hemp, hr.chain.head]
    simp only [Bool.false_eq_true, if_false, List.head?_cons, hx]
    rw [List.head?_eq_getElem?] at hv
    rw [hv]

theorem holds_back {α : Type} {l : unrolled_list α} {s : List α} (h : Holds l s) {v : α}
    (hv : s.getLast? = some v) : l.back = .ok v l := by
  obtain ⟨ids, hr, rfl⟩ := h
  have hne : l.elems ids ≠ [] := fun hc => by rw [hc] at hv; cases hv
  have hemp : l.empty = false := by
    cases he : l.empty with
    | false => rfl
    | true => exact absurd ((holds_empty ⟨ids, hr, rfl⟩).mp he) hne
  rcases List.eq_nil_or_concat ids with rfl | ⟨a, t, rfl⟩
  · exact absurd (elems_nil l) hne
  · rw [List.concat_eq_append] at hr hv
    obtain ⟨x, hx, _, _⟩ := hr.chain.link a t [] rfl
    have hd := dataOf_eq hx
    have hfl := (hr.filled t (by simp)).1
    rw [hd] at hfl
    have hpos : 0 < x.data.length := List.length_pos.mpr hfl
    rw [elems_append, elems_cons, elems_nil, hd, List.append_nil,
      List.getLast?_append_of_ne_nil _ hfl, List.getLast?_eq_getElem?] at hv
    unfold unrolled_list.back
    rw [hemp, hr.chain.tail, List.getLast?_concat]
    simp only [Bool.false_eq_true, if_false, hx]
    rw [if_neg (by unfold Node.size; omega)]
    unfold Node.size
    rw [hv]

theorem holds_push_all {α : Type} (vs : List α) {l : unrolled_list α} {s : List α}
    (h : Holds l s) :
    ∃ l1, l.push_all vs = .ok () l1 ∧ Holds l1 (s ++ vs) ∧ l1.capacity = l.capacity := by
  induction vs generalizing l s with
  | nil => exact ⟨l, rfl, by simpa using h, rfl⟩
  | cons v vs ih =>
    obtain ⟨l2, h2, hh2, hc2⟩ := holds_push_back h v
    obtain ⟨l1, h1, hh1, hc1⟩ := ih hh2
    refine ⟨l1, ?_, by simpa using hh1, hc1.trans hc2⟩
    unfold unrolled_list.push_all
    rw [h2]
    exact h1

theorem holds_copy {α : Type} {l : unrolled_list α} {s : List α} (h : Holds l s) :
    ∃ c, l.copy = .ok () c ∧ Holds c s ∧ c.capacity = l.capacity := by
  obtain ⟨c, h1, hh1, hc1⟩ := holds_push_all s (holds_new α h.cap)
  refine ⟨c, ?_, by simpa using hh1, hc1⟩
  unfold unrolled_list.copy
  rw [traverse_spec h]
  exact h1

theorem advance_spec {α : Type} {l : unrolled_list α} {ids : List Nat} (hr : Rep l ids)
    (k : Nat) (hk : k ≤ (l.elems ids).length) :
    ∃ it, l.advance k = some it ∧ Pos l ids it k ∧ it.tail_ = l.tail_ := by
  induction k with
  | zero => exact ⟨l.begin, rfl, pos_begin hr, rfl⟩
  | succ k ih =>
    obtain ⟨it, h1, h2, h3⟩ := ih (by omega)
    obtain ⟨it1, g1, g2, g3⟩ := pos_inc hr h2 (by omega)
    refine ⟨it1, ?_, g2, g3.trans h3⟩
    unfold unrolled_list.advance
    rw [h1]
    exact g1

/-! ## Claim C23: equality of lists is equality of sequences -/

/-- Claim C23: on well-formed lists `operator==` is true exactly when the two
lists hold the same sequence, whatever the distribution of the elements over
the nodes of each; the copy constructor succeeds, the copy holds the sequence
of the original and compares equal to it, and after a `push_back` on the copy
the two compare unequal. -/
theorem operator_eq_same_sequence {α : Type} [DecidableEq α] (l l2 : unrolled_list α)
    (s s2 : List α) (h : Holds l s) (h2 : Holds l2 s2) (v : α) :
    l.operator_eq l2 = .ok (decide (s = s2)) l ∧
    ∃ c, l.copy = .ok () c ∧ Holds c s ∧ c.operator_eq l = .ok true c ∧
      ∃ c1, c.push_back v = .ok () c1 ∧ c1.operator_eq l = .ok false c1 ∧
        c1.operator_ne l = .ok true c1 := by
  refine ⟨operator_eq_spec h h2, ?_⟩
  obtain ⟨c, hc1, hc2, _⟩ := holds_copy h
  obtain ⟨c1, hp1, hp2, _⟩ := holds_push_back hc2 v
  have e1 : c.operator_eq l = .ok true c := by
    rw [operator_eq_spec hc2 h, decide_eq_true rfl]
  have e2 : c1.operator_eq l = .ok false c1 := by
    rw [operator_eq_spec hp2 h, decide_eq_false]
    intro hc
    have := congrArg List.length hc
    simp at this
  refine ⟨c, hc1, hc2, e1, c1, hp1, e2, ?_⟩
  unfold unrolled_list.operator_ne
  rw [e2]
  rfl

/-- Witness for C23: two lists of capacity 4 that hold `1, 2, 3, 4, 5` in
different node layouts compare equal. -/
theorem operator_eq_same_sequence_witness :
    Holds back_built [1, 2, 3, 4, 5] ∧ Holds front_built [1, 2, 3, 4, 5] ∧
    back_built.heap.map (fun o => o.map Node.data) = [some [1, 2, 3, 4], some [5]] ∧
    front_built.heap.map (fun o => o.map Node.data) = [some [2, 3, 4, 5], some [1]] ∧
    back_built.operator_eq front_built = .ok true back_built :=
  ⟨holds_build (by decide) _ rfl, holds_build (by decide) _ rfl, by decide, by decide,
   (operator_eq_same_sequence back_built front_built [1, 2, 3, 4, 5] [1, 2, 3, 4, 5]
     (holds_build (by decide) _ rfl) (holds_build (by decide) _ rfl) 0).1⟩

/-! ## Claim C24: insertion at a position -/

/-- Claim C24, evaluated at capacity 1: `insert(begin(), 7)` on the list `{5}`
throws `std::length_error`. The split of the full node leaves it empty and
moves its element to the new node, which is full again, so `shift_right`
throws; the list keeps the empty node at its head, and reading `*begin()`
afterwards touches a slot outside the node. -/
theorem insert_capacity_one_throws :
    single_cap1.capacity = 1 ∧ single_cap1.traverse.val? = some [5] ∧
    single_cap1.insert single_cap1.begin 7 =
      .throw .length_error
        { capacity := 1,
          heap := [some { data := [], next := some 1 }, some { data := [5], prev := some 0 }],
          size_ := 1, head_ := some 0, tail_ := some 1 } ∧
    (((single_cap1.insert single_cap1.begin 7).list?).map
      (fun l => l.begin.deref l)) = some none := by
  decide

/-! ## Claim C25: erasure at a position -/

/-- Claim C25, evaluated at two inputs of capacity 4. On the list `{1, 2, 3}`
(one node) `erase` at the position of `3`, the last element of the list and the
last one of a node that keeps other elements, removes `3` and returns the
iterator `(node, 2)` into the node that now has size 2: the returned iterator
is not `end()` and stands at no element. On the list `1, 2, 3, 4, 5` (nodes
`1, 2, 3, 4` and `5`) `erase` at the position of `4` removes `4` and returns the
iterator `(first node, 3)`, not the iterator `(second node, 0)` of the element
`5` that followed. -/
theorem erase_last_in_node_iterator :
    three.advance 2 = some { node_ := some 0, pos_ := 2, tail_ := some 0 } ∧
    three.erase { node_ := some 0, pos_ := 2, tail_ := some 0 } =
      .ok { node_ := some 0, pos_ := 2, tail_ := some 0 }
        { capacity := 4, heap := [some { data := [1, 2] }], size_ := 2, head_ := some 0,
          tail_ := some 0 } ∧
    (three.erase { node_ := some 0, pos_ := 2, tail_ := some 0 }).val?.map
      (fun r => r.eq (unrolled_list.end_
        { capacity := 4, heap := [some { data := [1, 2] }], size_ := 2, head_ := some 0,
          tail_ := some 0 })) = some false ∧
    (three.erase { node_ := some 0, pos_ := 2, tail_ := some 0 }).val?.map
      (fun r => r.deref
        { capacity := 4, heap := [some { data := [1, 2] }], size_ := 2, head_ := some 0,
          tail_ := some 0 }) = some none ∧
    back_built.advance 3 = some { node_ := some 0, pos_ := 3, tail_ := some 1 } ∧
    (back_built.erase { node_ := some 0, pos_ := 3, tail_ := some 1 }).val? =
      some { node_ := some 0, pos_ := 3, tail_ := some 1 } ∧
    ((back_built.erase { node_ := some 0, pos_ := 3, tail_ := some 1 }).list?).map
      (fun l => (l.traverse.val?, l.advance 3)) =
      some (some [1, 2, 3, 5], some { node_ := some 1, pos_ := 0, tail_ := some 1 }) := by
  decide

/-! ## Claim C26: erasure of a range -/

theorem erase_loop_step {α : Type} (fuel : Nat) (l l1 : unrolled_list α)
    (it it1 last : iterator)
    (hne : it.eq { node_ := last.node_, pos_ := last.pos_, tail_ := l.tail_ } = false)
    (he : l.erase it = .ok it1 l1) :
    l.erase_loop (fuel + 1) it last = l1.erase_loop fuel it1 last := by
  rw [unrolled_list.erase_loop, if_neg (by rw [hne]; simp), he]

theorem erase_loop_stuck {α : Type} (l : unrolled_list α) (last : iterator)
    (hl : (unrolled_list.end_ l).eq { node_ := last.node_, pos_ := last.pos_, tail_ := l.tail_ }
      = false) (fuel : Nat) :
    l.erase_loop fuel l.end_ last = .timeout := by
  induction fuel with
  | zero => rfl
  | succ fuel ih =>
    rw [erase_loop_step fuel l l l.end_ l.end_ last hl]
    · exact ih
    · unfold unrolled_list.erase
      rw [if_pos (by simp [iterator.eq, unrolled_list.end_, unrolled_list.cend])]

/-- Claim C26, evaluated on the list `{1, 2, 3}` of capacity 4 (one node):
`erase(begin(), std::next(begin()))`, the range of the single element `1`,
never returns. Each `erase` returns position 0 of the node, which never equals
the position 1 held by `last`; the loop erases `1`, `2` and `3`, the node is
destroyed, and from then on `erase(end())` returns `end()` for ever. -/
theorem erase_range_never_returns :
    three.advance 1 = some { node_ := some 0, pos_ := 1, tail_ := some 0 } ∧
    ∀ fuel, three.erase_range fuel three.begin
      { node_ := some 0, pos_ := 1, tail_ := some 0 } = .timeout := by
  refine ⟨by decide, ?_⟩
  intro fuel
  unfold unrolled_list.erase_range
  cases fuel with
  | zero => rfl
  | succ f1 =>
    rw [erase_loop_step f1 three
      { capacity := 4, heap := [some { data := [2, 3] }], size_ := 2, head_ := some 0,
        tail_ := some 0 } _ { node_ := some 0, pos_ := 0, tail_ := some 0 } _
      (by decide) (by decide)]
    cases f1 with
    | zero => rfl
    | succ f2 =>
      rw [erase_loop_step f2 _
        { capacity := 4, heap := [some { data := [3] }], size_ := 1, head_ := some 0,
          tail_ := some 0 } _ { node_ := some 0, pos_ := 0, tail_ := some 0 } _
        (by decide) (by decide)]
      cases f2 with
      | zero => rfl
      | succ f3 =>
        rw [erase_loop_step f3 _
          { capacity := 4, heap := [none], size_ := 0, head_ := none, tail_ := none } _
          { node_ := none, pos_ := 0, tail_ := none } _ (by decide) (by decide)]
        exact erase_loop_stuck
          { capacity := 4, heap := [none], size_ := 0, head_ := none, tail_ := none }
          _ (by decide) f3

/-! ## Claim C27: insertion of several elements -/

/-- Claim C27, evaluated on the list `{1, 2}` of capacity 4: inserting the range
`{8, 9, 10}` at `cbegin()` leaves the list holding `10, 9, 8, 1, 2`, the range
in reverse order, because each element is inserted before the one inserted
just before it; inserting 3 copies of `7` at `cbegin()` leaves `7, 7, 7, 1, 2`. -/
theorem insert_range_reverses :
    pair.traverse.val? = some [1, 2] ∧
    ((pair.insert_range pair.cbegin [8, 9, 10]).list?).map (fun l => l.traverse.val?) =
      some (some [10, 9, 8, 1, 2]) ∧
    (pair.insert_range pair.cbegin [8, 9, 10]).val? =
      some { node_ := some 0, pos_ := 0, tail_ := some 1 } ∧
    ((pair.insert_n pair.cbegin 3 7).list?).map (fun l => l.traverse.val?) =
      some (some [7, 7, 7, 1, 2]) := by
  decide

/-! ## The end operations and the sequence specification -/

/-- The end operations at a trivially destructible element type, where the
list model reads the code: a list of positive capacity starts out holding the
empty sequence, and on a list holding the sequence `s` every sequence of
`push_back`, `push_front`, `pop_back` and `pop_front` that the specification
defines on `s` succeeds and leaves the list holding the sequence the
specification gives; `size()` is the length of `s`, `empty()` is true exactly
when `s` is empty, `front()` and `back()` return the first and the last element
of `s`, and the forward traversal reads `s`. -/
theorem list_refines_sequence {α : Type} (l : unrolled_list α) (s : List α) (h : Holds l s) :
    (∀ cap, 1 ≤ cap → Holds (unrolled_list.new α cap) []) ∧
    (∀ ops s1, spec_ops s ops = some s1 → ∃ l1, l.run_ops ops = .ok () l1 ∧ Holds l1 s1) ∧
    l.size = s.length ∧ (l.empty = true ↔ s = []) ∧
    (∀ v, s.head? = some v → l.front = .ok v l) ∧
    (∀ v, s.getLast? = some v → l.back = .ok v l) ∧
    l.traverse = .ok s l := by
  refine ⟨fun cap hc => holds_new α hc, ?_, holds_size h, holds_empty h,
    fun v hv => holds_front h hv, fun v hv => holds_back h hv, traverse_spec h⟩
  intro ops s1 hs
  obtain ⟨l1, h1, h2, _⟩ := holds_run_ops ops h hs
  exact ⟨l1, h1, h2⟩

/-- The end operations from the empty list of capacity 2: pushes at both ends
and two removals. -/
theorem list_refines_sequence_witness :
    Holds (unrolled_list.new Nat 2) [] ∧
    ∃ l1, (unrolled_list.new Nat 2).run_ops
        [.push_back 1, .push_back 2, .push_front 0, .push_back 3, .pop_front, .pop_back] =
          .ok () l1 ∧ Holds l1 [1, 2] :=
  ⟨holds_new Nat (by decide),
   (list_refines_sequence (unrolled_list.new Nat 2) [] (holds_new Nat (by decide))).2.1
     [.push_back 1, .push_back 2, .push_front 0, .push_back 3, .pop_front, .pop_back]
     [1, 2] rfl⟩

/-! ## Claim C29: the accessors and removals of an empty list -/

/-- Claim C29: on a list that holds the empty sequence `front()`, `back()`,
`pop_back()` and `pop_front()` each throw `std::out_of_range` and leave the
list as it was: of size 0 and without nodes. -/
theorem empty_list_throws {α : Type} (l : unrolled_list α) (h : Holds l []) :
    l.front = .throw .out_of_range l ∧ l.back = .throw .out_of_range l ∧
    l.pop_back = .throw .out_of_range l ∧ l.pop_front = .throw .out_of_range l ∧
    l.size = 0 ∧ l.head_ = none ∧ l.tail_ = none := by
  obtain ⟨h1, h2, h3⟩ := holds_nil h
  have he : l.empty = true := by
    unfold unrolled_list.empty
    rw [h1]
    rfl
  refine ⟨?_, ?_, ?_, ?_, h1, h2, h3⟩
  · unfold unrolled_list.front
    rw [he]
    rfl
  · unfold unrolled_list.back
    rw [he]
    rfl
  · unfold unrolled_list.pop_back
    rw [he]
    rfl
  · unfold unrolled_list.pop_front
    rw [he]
    rfl

/-- Witness for C29 at the new list of capacity 4. -/
theorem empty_list_throws_witness :
    Holds (unrolled_list.new Nat 4) [] ∧
    (unrolled_list.new Nat 4).pop_back = .throw .out_of_range (unrolled_list.new Nat 4) :=
  ⟨holds_new Nat (by decide),
   (empty_list_throws (unrolled_list.new Nat 4) (holds_new Nat (by decide))).2.2.1⟩

/-! ## Claim C30: reverse traversal and decrement -/

/-- Claim C30: on a list holding the sequence `s` the traversal from `rbegin()`
to `rend()` reads the reverse of `s`, which the forward traversal reads;
decrementing `end()` gives an iterator at the last element; and from the
iterator at any element, `++` followed by `--` gives an iterator equal to it,
at the same element. -/
theorem reverse_traversal {α : Type} (l : unrolled_list α) (s : List α) (h : Holds l s) :
    l.rtraverse = .ok s.reverse l ∧ l.traverse = .ok s l ∧
    (∀ v, s.getLast? = some v → ∃ it, l.end_.dec l = some it ∧ it.deref l = some v) ∧
    (∀ k, k < s.length → ∃ it it1 it2, l.advance k = some it ∧ it.deref l = s[k]? ∧
      it.inc l = some it1 ∧ it1.dec l = some it2 ∧ it2.eq it = true ∧
      it2.deref l = s[k]?) := by
  refine ⟨rtraverse_spec h, traverse_spec h, ?_, ?_⟩
  · intro v hv
    obtain ⟨ids, hr, rfl⟩ := h
    have hne : l.elems ids ≠ [] := fun hc => by rw [hc] at hv; cases hv
    have hpos : 0 < (l.elems ids).length := List.length_pos.mpr hne
    obtain ⟨it, h1, h2, _⟩ := pos_dec hr (pos_end l ids) hpos rfl
    refine ⟨it, h1, ?_⟩
    rw [pos_deref hr h2 (by omega), ← List.getLast?_eq_getElem?, hv]
  · intro k hk
    obtain ⟨ids, hr, rfl⟩ := h
    obtain ⟨it, h1, h2, h3⟩ := advance_spec hr k (by omega)
    obtain ⟨it1, g1, g2, g3⟩ := pos_inc hr h2 hk
    obtain ⟨it2, f1, f2, _⟩ := pos_dec hr g2 (by omega) (g3.trans h3)
    rw [Nat.add_sub_cancel] at f2
    exact ⟨it, it1, it2, h1, pos_deref hr h2 hk, g1, f1, pos_unique f2 h2,
      pos_deref hr f2 hk⟩

/-- Witness for C30 on the list `1, 2, 3, 4, 5` of two nodes, at the last
element of the first node. -/
theorem reverse_traversal_witness :
    Holds back_built [1, 2, 3, 4, 5] ∧
    back_built.rtraverse = .ok [5, 4, 3, 2, 1] back_built ∧
    ∃ it it1 it2, back_built.advance 3 = some it ∧ it.deref back_built = some 4 ∧
      it.inc back_built = some it1 ∧ it1.dec back_built = some it2 ∧ it2.eq it = true ∧
      it2.deref back_built = some 4 :=
  ⟨holds_build (by decide) _ rfl,
   (reverse_traversal back_built [1, 2, 3, 4, 5] (holds_build (by decide) _ rfl)).1,
   (reverse_traversal back_built [1, 2, 3, 4, 5] (holds_build (by decide) _ rfl)).2.2.2 3
     (by decide)⟩

/-! ## The chain under insertion and erasure -/

theorem getLast?_append_cons_cons (a b : List Nat) (n m : Nat) :
    (a ++ n :: m :: b).getLast? = (m :: b).getLast? := by
  rw [List.getLast?_append_cons, List.getLast?_cons_cons]

theorem head?_append_cons (a b c : List Nat) (n : Nat) :
    (a ++ n :: b).head? = (a ++ n :: c).head? := by
  cases a <;> rfl

theorem getLast?_cons_append (a b : List Nat) (n : Nat) :
    (a ++ n :: b).getLast? = (n :: b).getLast? := by
  rw [List.getLast?_append_cons]

/-- Linking a new node `m` behind the node `n` of the chain. -/
theorem chain_insert {α : Type} {l l1 : unrolled_list α} {a b : List Nat} {n m : Nat}
    {y : Node α} (h : Chain l (a ++ n :: b)) (hm : m ∉ a ++ n :: b)
    (hy : l1.node m = some y) (hyp : y.prev = some n) (hyn : y.next = b.head?)
    (hh : l1.head_ = l.head_) (ht : l1.tail_ = (a ++ n :: m :: b).getLast?)
    (hn : ∀ c ∈ a ++ n :: b, ∀ x, l.node c = some x →
      ∃ x1, l1.node c = some x1 ∧
        x1.prev = (if b.head? = some c then some m else x.prev) ∧
        x1.next = (if c = n then some m else x.next)) :
    Chain l1 (a ++ n :: m :: b) := by
  have hnd0 := h.nodup
  have hnd : (a ++ n :: m :: b).Nodup := by
    have h1 := List.nodup_append.mp hnd0
    have h2 := List.nodup_cons.mp h1.2.1
    rw [List.nodup_append]
    refine ⟨h1.1, ?_, ?_⟩
    · rw [List.nodup_cons]
      refine ⟨?_, ?_⟩
      · intro hc
        rcases List.mem_cons.mp hc with rfl | hc
        · exact hm (by simp)
        · exact h2.1 hc
      · rw [List.nodup_cons]
        exact ⟨fun hc => hm (by simp [hc]), h2.2⟩
    · intro x hxa hxb
      rcases List.mem_cons.mp hxb with rfl | hxb
      · exact h1.2.2 hxa (by simp)
      · rcases List.mem_cons.mp hxb with rfl | hxb
        · exact hm (by simp [hxa])
        · exact h1.2.2 hxa (by simp [hxb])
  have hnb : n ∉ b := (List.nodup_cons.mp (List.nodup_append.mp hnd0).2.1).1
  have hbh : ∀ c, b.head? = some c → c ∈ b := fun c hc => List.mem_of_mem_head? hc
  refine { nodup := hnd, head := ?_, tail := ht, link := ?_ }
  · rw [hh, h.head]
    exact head?_append_cons a b (m :: b) n
  · intro a' c b' hab
    have hc : c ∈ a ++ n :: m :: b := by rw [hab]; simp
    rw [hab] at hnd
    rcases List.mem_append.mp hc with hca | hc
    · -- c in a
      obtain ⟨a1, a2, rfl⟩ := List.append_of_mem hca
      have he : a' ++ c :: b' = a1 ++ c :: (a2 ++ n :: m :: b) := by rw [← hab]; simp
      obtain ⟨rfl, rfl⟩ := split_unique hnd he
      obtain ⟨x, hx, hp, hq⟩ := h.link a' c (a2 ++ n :: b) (by simp)
      obtain ⟨x1, hx1, hp1, hq1⟩ := hn c (by simp) x hx
      refine ⟨x1, hx1, ?_, ?_⟩
      · rw [hp1, if_neg, hp]
        intro hcb
        exact (List.nodup_append.mp hnd0).2.2 hca (List.mem_cons_of_mem _ (hbh c hcb))
      · rw [hq1, if_neg, hq]
        · exact head?_append_cons a2 b (m :: b) n
        · rintro rfl
          exact (List.nodup_append.mp hnd0).2.2 hca (List.mem_cons_self _ _)
    · rcases List.mem_cons.mp hc with rfl | hc
      · -- c = n
        have he : a' ++ c :: b' = a ++ c :: (m :: b) := by rw [← hab]
        obtain ⟨rfl, rfl⟩ := split_unique hnd he
        obtain ⟨x, hx, hp, hq⟩ := h.link a' c b rfl
        obtain ⟨x1, hx1, hp1, hq1⟩ := hn c (by simp) x hx
        refine ⟨x1, hx1, ?_, ?_⟩
        · rw [hp1, if_neg (fun hcb => hnb (hbh c hcb)), hp]
        · rw [hq1, if_pos rfl]
          rfl
      · rcases List.mem_cons.mp hc with rfl | hc
        · -- c = m
          have he : a' ++ c :: b' = (a ++ [n]) ++ c :: b := by rw [← hab]; simp
          obtain ⟨rfl, rfl⟩ := split_unique hnd he
          exact ⟨y, hy, by rw [hyp, List.getLast?_concat], hyn⟩
        · -- c in b
          obtain ⟨b1, b2, rfl⟩ := List.append_of_mem hc
          have he : a' ++ c :: b' = (a ++ n :: m :: b1) ++ c :: b2 := by rw [← hab]; simp
          obtain ⟨rfl, rfl⟩ := split_unique hnd he
          obtain ⟨x, hx, hp, hq⟩ := h.link (a ++ n :: b1) c b' (by simp)
          obtain ⟨x1, hx1, hp1, hq1⟩ := hn c (by simp) x hx
          have hcn : c ≠ n := by rintro rfl; exact hnb (by simp)
          refine ⟨x1, hx1, ?_, ?_⟩
          · rw [hp1]
            cases b1 with
            | nil =>
              simp
            | cons d b3 =>
              have hnd2 : (d :: b3 ++ c :: b').Nodup :=
                (List.nodup_cons.mp (List.nodup_append.mp hnd0).2.1).2
              rw [if_neg, hp]
              · simp [List.getLast?_append_cons, List.getLast?_cons_cons]
              · intro hcb
                simp only [List.cons_append, List.head?_cons, Option.some.injEq] at hcb
                subst hcb
                simp only [List.cons_append, List.nodup_cons] at hnd2
                exact hnd2.1 (by simp)
          · rw [hq1, if_neg hcn, hq]

/-- Unlinking the node `n` of the chain. -/
theorem chain_remove {α : Type} {l l1 : unrolled_list α} {a b : List Nat} {n : Nat}
    (h : Chain l (a ++ n :: b))
    (hh : l1.head_ = (a ++ b).head?) (ht : l1.tail_ = (a ++ b).getLast?)
    (hn : ∀ c ∈ a ++ b, ∀ x, l.node c = some x →
      ∃ x1, l1.node c = some x1 ∧
        x1.prev = (if b.head? = some c then a.getLast? else x.prev) ∧
        x1.next = (if a.getLast? = some c then b.head? else x.next)) :
    Chain l1 (a ++ b) := by
  have hnd0 := h.nodup
  have hnd : (a ++ b).Nodup := by
    have h1 := List.nodup_append.mp hnd0
    rw [List.nodup_append]
    exact ⟨h1.1, (List.nodup_cons.mp h1.2.1).2, fun x hxa hxb => h1.2.2 hxa (by simp [hxb])⟩
  have hdis : ∀ c, c ∈ a → c ∈ b → False :=
    fun c hca hcb => (List.nodup_append.mp hnd).2.2 hca hcb
  refine { nodup := hnd, head := hh, tail := ht, link := ?_ }
  intro a' c b' hab
  have hc : c ∈ a ++ b := by rw [hab]; simp
  rw [hab] at hnd
  rcases List.mem_append.mp hc with hca | hcb
  · obtain ⟨a1, a2, rfl⟩ := List.append_of_mem hca
    have he : a' ++ c :: b' = a1 ++ c :: (a2 ++ b) := by rw [← hab]; simp
    obtain ⟨rfl, rfl⟩ := split_unique hnd he
    obtain ⟨x, hx, hp, hq⟩ := h.link a' c (a2 ++ n :: b) (by simp)
    obtain ⟨x1, hx1, hp1, hq1⟩ := hn c (by simp) x hx
    refine ⟨x1, hx1, ?_, ?_⟩
    · rw [hp1, if_neg, hp]
      intro hcb
      exact hdis c hca (List.mem_of_mem_head? hcb)
    · rw [hq1]
      have hnda : (a' ++ c :: a2).Nodup := (List.nodup_append.mp hnd0).1
      cases a2 with
      | nil =>
        rw [if_pos (List.getLast?_concat a')]
        rfl
      | cons d a3 =>
        rw [if_neg, hq]
        · rfl
        · intro hl
          exact absurd ((last_of_split hnda).mp hl) (by simp)
  · obtain ⟨b1, b2, rfl⟩ := List.append_of_mem hcb
    have he : a' ++ c :: b' = (a ++ b1) ++ c :: b2 := by rw [← hab]; simp
    obtain ⟨rfl, rfl⟩ := split_unique hnd he
    obtain ⟨x, hx, hp, hq⟩ := h.link (a ++ n :: b1) c b' (by simp)
    obtain ⟨x1, hx1, hp1, hq1⟩ := hn c (by simp) x hx
    refine ⟨x1, hx1, ?_, ?_⟩
    · rw [hp1]
      have hndb : (b1 ++ c :: b').Nodup :=
        (List.nodup_cons.mp (List.nodup_append.mp hnd0).2.1).2
      cases b1 with
      | nil =>
        simp
      | cons d b3 =>
        rw [if_neg, hp]
        · simp [List.getLast?_append_cons, List.getLast?_cons_cons]
        · intro hl
          exact absurd ((head_of_split hndb).mp hl) (by simp)
    · rw [hq1, if_neg, hq]
      intro hl
      exact hdis c (List.mem_of_mem_getLast? hl) hcb

theorem modify_spec {α : Type} {l : unrolled_list α} {n : Nat} {x : Node α}
    (h : l.node n = some x) (f : Node α → Node α) :
    ∃ l1, l.modify n f = some l1 ∧
      (∀ m, l1.node m = if m = n then some (f x) else l.node m) ∧
      l1.head_ = l.head_ ∧ l1.tail_ = l.tail_ ∧ l1.size_ = l.size_ ∧
      l1.capacity = l.capacity ∧ l1.heap.length = l.heap.length :=
  ⟨_, modify_of_node h f, fun m => node_setNode_of h _ m, rfl, rfl, rfl, rfl,
    by simp [unrolled_list.setNode]⟩

/-- The method `link_after` behind a node `w` of the chain. -/
theorem link_after_mid {α : Type} {l : unrolled_list α} {w n : Nat} {xw xn : Node α}
    (hw : l.node w = some xw) (hn : l.node n = some xn) (hne : n ≠ w)
    (hq : ∀ q, xw.next = some q → q ≠ n ∧ q ≠ w ∧ ∃ y, l.node q = some y) :
    ∃ l1, link_after l (some w) n = some l1 ∧
      (∀ m, l1.node m =
        if m = w then some { xw with next := some n }
        else if m = n then some { xn with prev := some w, next := xw.next }
        else if xw.next = some m then (l.node m).map (fun y => { y with prev := some n })
        else l.node m) ∧
      l1.head_ = l.head_ ∧ l1.tail_ = (if l.tail_ = some w then some n else l.tail_) ∧
      l1.size_ = l.size_ ∧ l1.capacity = l.capacity ∧ l1.heap.length = l.heap.length := by
  obtain ⟨l1, e1, n1, hh1, ht1, hs1, hc1, hl1⟩ :=
    modify_spec hn (fun x => { x with prev := some w, next := xw.next })
  unfold link_after
  simp only [hw, e1]
  cases hnx : xw.next with
  | none =>
    simp only
    have hw1 : l1.node w = some xw := by rw [n1, if_neg (Ne.symm hne), hw]
    obtain ⟨l3, e3, n3, hh3, ht3, hs3, hc3, hl3⟩ :=
      modify_spec hw1 (fun x => { x with next := some n })
    rw [e3]
    simp only
    have hnodes : ∀ m, l3.node m =
        if m = w then some { xw with next := some n }
        else if m = n then some { xn with prev := some w, next := none }
        else if none = some m then (l.node m).map (fun y => { y with prev := some n })
        else l.node m := by
      intro m
      rw [n3]
      by_cases hmw : m = w
      · rw [if_pos hmw, if_pos hmw]
      · rw [if_neg hmw, if_neg hmw, n1]
        by_cases hmn : m = n
        · rw [if_pos hmn, if_pos hmn, hnx]
        · rw [if_neg hmn, if_neg hmn, if_neg (by simp)]
    by_cases htl : l3.tail_ = some w
    · rw [if_pos htl]
      refine ⟨_, rfl, hnodes, hh3.trans hh1, ?_, hs3.trans hs1, hc3.trans hc1, hl3.trans hl1⟩
      rw [if_pos (by rw [← ht1, ← ht3]; exact htl)]
    · rw [if_neg htl]
      refine ⟨_, rfl, hnodes, hh3.trans hh1, ?_, hs3.trans hs1, hc3.trans hc1, hl3.trans hl1⟩
      rw [if_neg (by rw [← ht1, ← ht3]; exact htl)]
      exact ht3.trans ht1
  | some q =>
    obtain ⟨hqn, hqw, yq, hyq⟩ := hq q hnx
    simp only
    have hq1 : l1.node q = some yq := by rw [n1, if_neg hqn, hyq]
    obtain ⟨l2, e2, n2, hh2, ht2, hs2, hc2, hl2⟩ :=
      modify_spec hq1 (fun x => { x with prev := some n })
    rw [e2]
    simp only
    have hw2 : l2.node w = some xw := by
      rw [n2, if_neg (Ne.symm hqw), n1, if_neg (Ne.symm hne), hw]
    obtain ⟨l3, e3, n3, hh3, ht3, hs3, hc3, hl3⟩ :=
      modify_spec hw2 (fun x => { x with next := some n })
    rw [e3]
    simp only
    have hnodes : ∀ m, l3.node m =
        if m = w then some { xw with next := some n }
        else if m = n then some { xn with prev := some w, next := some q }
        else if some q = some m then (l.node m).map (fun y => { y with prev := some n })
        else l.node m := by
      intro m
      rw [n3]
      by_cases hmw : m = w
      · rw [if_pos hmw, if_pos hmw]
      · rw [if_neg hmw, if_neg hmw, n2]
        by_cases hmn : m = n
        · rw [if_pos hmn, if_neg (by rw [hmn]; exact Ne.symm hqn), n1, if_pos hmn, hnx]
        · rw [if_neg hmn]
          by_cases hmq : m = q
          · rw [if_pos hmq, if_pos (by rw [hmq]), hmq, hyq]
            rfl
          · rw [if_neg hmq, if_neg (by simpa using Ne.symm hmq), n1, if_neg hmn]
    by_cases htl : l3.tail_ = some w
    · rw [if_pos htl]
      refine ⟨_, rfl, hnodes, hh3.trans (hh2.trans hh1), ?_, hs3.trans (hs2.trans hs1),
        hc3.trans (hc2.trans hc1), hl3.trans (hl2.trans hl1)⟩
      rw [if_pos (by rw [← ht1, ← ht2, ← ht3]; exact htl)]
    · rw [if_neg htl]
      refine ⟨_, rfl, hnodes, hh3.trans (hh2.trans hh1), ?_, hs3.trans (hs2.trans hs1),
        hc3.trans (hc2.trans hc1), hl3.trans (hl2.trans hl1)⟩
      rw [if_neg (by rw [← ht1, ← ht2, ← ht3]; exact htl)]
      exact ht3.trans (ht2.trans ht1)

/-- The method `split_node` on a node `n` of the chain. -/
theorem split_node_spec {α : Type} {l : unrolled_list α} {n : Nat} {x : Node α}
    (hx : l.node n = some x)
    (hq : ∀ q, x.next = some q → q ≠ n ∧ ∃ y, l.node q = some y) :
    ∃ l1, split_node l n = some (l.heap.length, l1) ∧
      (∀ m, l1.node m =
        if m = l.heap.length then
          some { data := x.data.drop (x.size / 2), prev := some n, next := x.next }
        else if m = n then
          some { x with data := x.data.take (x.size / 2), next := some l.heap.length }
        else if x.next = some m then
          (l.node m).map (fun y => { y with prev := some l.heap.length })
        else l.node m) ∧
      l1.head_ = l.head_ ∧
      l1.tail_ = (if l.tail_ = some n then some l.heap.length else l.tail_) ∧
      l1.size_ = l.size_ ∧ l1.capacity = l.capacity := by
  have hnl : n ≠ l.heap.length := Nat.ne_of_lt (node_lt hx)
  have hx0 : (create_new_node l).2.node n = some x := node_create_old hx
  have hnew := node_create_new l
  have hq0 : ∀ q, x.next = some q → q ≠ l.heap.length ∧ q ≠ n ∧
      ∃ y, (create_new_node l).2.node q = some y := by
    intro q hqx
    obtain ⟨h1, y, hy⟩ := hq q hqx
    exact ⟨Nat.ne_of_lt (node_lt hy), h1, y, node_create_old hy⟩
  obtain ⟨l1, e1, n1, hh1, ht1, hs1, hc1, hl1⟩ :=
    link_after_mid hx0 hnew (Ne.symm hnl) hq0
  have hx1 : ∃ xs, l1.node n = some xs ∧ xs.data = x.data ∧ xs.prev = x.prev ∧
      xs.next = some l.heap.length :=
    ⟨{ x with next := some l.heap.length }, by rw [n1, if_pos rfl], rfl, rfl, rfl⟩
  obtain ⟨xs, hxs, hd, hpv, hnx⟩ := hx1
  have hsz : xs.size = x.size := by unfold Node.size; rw [hd]
  have hm1 : l1.node l.heap.length =
      some { data := [], prev := some n, next := x.next } := by
    rw [n1, if_neg (Ne.symm hnl), if_pos rfl]
  obtain ⟨l2, e2, n2, hh2, ht2, hs2, hc2, hl2⟩ :=
    modify_spec hm1 (fun y => { y with data := xs.data.drop (xs.size / 2) })
  have hx2 : l2.node n = some xs := by
    rw [n2, if_neg hnl, hxs]
  obtain ⟨l3, e3, n3, hh3, ht3, hs3, hc3, hl3⟩ :=
    modify_spec hx2 (fun y => { y with data := y.data.take (xs.size / 2) })
  have g3 : (create_new_node l).1 = l.heap.length := rfl
  refine ⟨l3, ?_, ?_, ?_, ?_, ?_, ?_⟩
  · unfold split_node
    rw [g3, e1]
    simp only [hxs, e2, e3]
  · intro m
    rw [n3]
    by_cases hmn : m = n
    · rw [if_pos hmn, if_neg (by rw [hmn]; exact hnl), if_pos hmn, hsz]
      obtain ⟨d, nx, pv⟩ := xs
      simp only at hd hpv hnx
      subst hd hpv hnx
      rfl
    · rw [if_neg hmn, n2]
      by_cases hml : m = l.heap.length
      · rw [if_pos hml, if_pos hml, hsz, hd]
      · rw [if_neg hml, if_neg hml, if_neg hmn, n1, if_neg hmn, if_neg hml]
        by_cases hmq : x.next = some m
        · rw [if_pos hmq, if_pos hmq]
          obtain ⟨_, y, hy⟩ := hq m hmq
          rw [node_create_old hy, hy]
        · rw [if_neg hmq, if_neg hmq, node_create, if_neg hml]
  · exact hh3.trans (hh2.trans hh1)
  · rw [ht3, ht2, ht1]
    rfl
  · exact hs3.trans (hs2.trans hs1)
  · exact hc3.trans (hc2.trans hc1)

/-- The statements shared by `push_front` and `insert`, on a node with room. -/
theorem place_spec {α : Type} {l : unrolled_list α} {m : Nat} {x : Node α}
    (hx : l.node m = some x) (v : α) (idx : Nat) (hroom : x.data.length + 1 ≤ l.capacity)
    (hidx : idx ≤ x.data.length) :
    ∃ l1, l.place (some m) idx v = .ok () l1 ∧
      (∀ c, l1.node c =
        if c = m then some { x with data := x.data.take idx ++ [v] ++ x.data.drop idx }
        else l.node c) ∧
      l1.head_ = l.head_ ∧ l1.tail_ = l.tail_ ∧ l1.size_ = l.size_ + 1 ∧
      l1.capacity = l.capacity :=
  ⟨_, place_ok hx v idx hroom hidx, fun c => node_setNode_of hx _ c, rfl, rfl, rfl, rfl⟩

/-- The method `unlink_and_destroy` on a node `n` of the chain. -/
theorem unlink_spec {α : Type} {l : unrolled_list α} {n : Nat} {x : Node α}
    (hx : l.node n = some x)
    (hp : ∀ p, x.prev = some p → p ≠ n ∧ ∃ y, l.node p = some y)
    (hq : ∀ q, x.next = some q → q ≠ n ∧ ∃ y, l.node q = some y)
    (hpq : ∀ p q, x.prev = some p → x.next = some q → p ≠ q) :
    ∃ l1, unlink_and_destroy l n = some l1 ∧
      (∀ m, l1.node m =
        if m = n then none
        else if x.prev = some m then (l.node m).map (fun y => { y with next := x.next })
        else if x.next = some m then (l.node m).map (fun y => { y with prev := x.prev })
        else l.node m) ∧
      l1.head_ = (if x.prev = none then x.next else l.head_) ∧
      l1.tail_ = (if x.next = none then x.prev else l.tail_) ∧
      l1.size_ = l.size_ ∧ l1.capacity = l.capacity := by
  unfold unlink_and_destroy
  simp only [hx]
  cases hpx : x.prev with
  | none =>
    simp only
    cases hqx : x.next with
    | none =>
      simp only
      refine ⟨_, rfl, ?_, rfl, rfl, rfl, rfl⟩
      intro m
      rw [node_destroy]
      by_cases hmn : m = n
      · rw [if_pos hmn, if_pos hmn]
      · rw [if_neg hmn, if_neg hmn, if_neg (by simp), if_neg (by simp)]
        rfl
    | some q =>
      obtain ⟨hqn, yq, hyq⟩ := hq q hqx
      simp only
      have hq1 : unrolled_list.node { l with head_ := some q } q = some yq := hyq
      obtain ⟨l2, e2, n2, hh2, ht2, hs2, hc2, hl2⟩ :=
        modify_spec hq1 (fun y => { y with prev := none })
      rw [e2]
      simp only
      refine ⟨_, rfl, ?_, ?_, ?_, hs2, hc2⟩
      · intro m
        rw [node_destroy]
        by_cases hmn : m = n
        · rw [if_pos hmn, if_pos hmn]
        · rw [if_neg hmn, if_neg hmn, if_neg (by simp), n2]
          by_cases hmq : m = q
          · rw [if_pos hmq, if_pos (by rw [hmq]), hmq]
            show _ = (l.node q).map _
            rw [hyq]
            rfl
          · rw [if_neg hmq, if_neg (by simpa using Ne.symm hmq)]
            rfl
      · show l2.head_ = _
        rw [hh2]
        rfl
      · show l2.tail_ = _
        rw [ht2, if_neg (by simp)]
  | some p =>
    obtain ⟨hpn, yp, hyp⟩ := hp p hpx
    simp only
    obtain ⟨l1, e1, n1, hh1, ht1, hs1, hc1, hl1⟩ :=
      modify_spec hyp (fun y => { y with next := x.next })
    rw [e1]
    simp only
    cases hqx : x.next with
    | none =>
      simp only
      refine ⟨_, rfl, ?_, ?_, ?_, hs1, hc1⟩
      · intro m
        rw [node_destroy]
        by_cases hmn : m = n
        · rw [if_pos hmn, if_pos hmn]
        · rw [if_neg hmn, if_neg hmn]
          show l1.node m = _
          rw [n1]
          by_cases hmp : m = p
          · rw [if_pos hmp, if_pos (by rw [hmp]), hmp, hyp, hqx]
            rfl
          · rw [if_neg hmp, if_neg (by simpa using Ne.symm hmp), if_neg (by simp)]
      · show l1.head_ = _
        rw [hh1, if_neg (by simp)]
      · rfl
    | some q =>
      obtain ⟨hqn, yq, hyq⟩ := hq q hqx
      have hpq' := hpq p q hpx hqx
      simp only
      have hq1 : l1.node q = some yq := by rw [n1, if_neg (Ne.symm hpq'), hyq]
      obtain ⟨l2, e2, n2, hh2, ht2, hs2, hc2, hl2⟩ :=
        modify_spec hq1 (fun y => { y with prev := some p })
      rw [e2]
      simp only
      refine ⟨_, rfl, ?_, ?_, ?_, hs2.trans hs1, hc2.trans hc1⟩
      · intro m
        rw [node_destroy]
        by_cases hmn : m = n
        · rw [if_pos hmn, if_pos hmn]
        · rw [if_neg hmn, if_neg hmn, n2, n1]
          by_cases hmp : m = p
          · subst hmp
            simp [hpq', hyp, hqx]
          · by_cases hmq : m = q
            · subst hmq
              simp [hyq, hmp, Ne.symm hmp]
            · simp [hmp, hmq, Ne.symm hmp, Ne.symm hmq]
      · show l2.head_ = _
        rw [hh2, hh1, if_neg (by simp)]
      · show l2.tail_ = _
        rw [ht2, ht1, if_neg (by simp)]

theorem dataOf_of_map {α : Type} {l l1 : unrolled_list α} {c : Nat} (f : Node α → Node α)
    (hf : ∀ y, (f y).data = y.data) (h : l1.node c = (l.node c).map f) :
    l1.dataOf c = l.dataOf c := by
  unfold unrolled_list.dataOf
  rw [h]
  cases l.node c with
  | none => rfl
  | some y => exact hf y

/-- A change of the slots of one node of the chain. -/
theorem rep_update {α : Type} {l l1 : unrolled_list α} {a b : List Nat} {n : Nat} {x : Node α}
    {d : List α} (hr : Rep l (a ++ n :: b)) (hx : l.node n = some x)
    (hnodes : ∀ c, l1.node c = if c = n then some { x with data := d } else l.node c)
    (hh : l1.head_ = l.head_) (ht : l1.tail_ = l.tail_)
    (hs : l1.size_ + x.data.length = l.size_ + d.length) (hc : l1.capacity = l.capacity)
    (hd : d ≠ []) (hl : d.length ≤ l.capacity) :
    Rep l1 (a ++ n :: b) ∧ l1.elems (a ++ n :: b) = l.elems a ++ d ++ l.elems b := by
  have hdn : l1.dataOf n = d := dataOf_eq (x := { x with data := d }) (by rw [hnodes, if_pos rfl])
  have hold : ∀ c, c ≠ n → l1.dataOf c = l.dataOf c :=
    fun c hcn => dataOf_congr (by rw [hnodes, if_neg hcn])
  have he : l1.elems (a ++ n :: b) = l.elems a ++ d ++ l.elems b := by
    rw [elems_update hold hr.chain.nodup, hdn]
  refine ⟨{ chain := ?_, cap := hc ▸ hr.cap, filled := ?_, size := ?_ }, he⟩
  · refine chain_frame hr.chain hh ht ?_
    intro c _ y hy
    by_cases hcn : c = n
    · subst hcn
      rw [hx] at hy
      cases hy
      exact ⟨{ x with data := d }, by rw [hnodes, if_pos rfl], rfl, rfl⟩
    · exact ⟨y, by rw [hnodes, if_neg hcn, hy], rfl, rfl⟩
  · intro c hcm
    rw [hc]
    by_cases hcn : c = n
    · subst hcn
      rw [hdn]
      exact ⟨hd, hl⟩
    · rw [hold c hcn]
      exact hr.filled c hcm
  · have h0 := hr.size
    rw [elems_length_split, dataOf_eq hx] at h0
    rw [he]
    simp only [List.length_append]
    omega

/-- A node of the chain is split in two and one element is added. -/
theorem rep_grow {α : Type} {l l2 : unrolled_list α} {a b : List Nat} {n : Nat} {x : Node α}
    {dn dm : List α} (hr : Rep l (a ++ n :: b)) (hx : l.node n = some x)
    (hnodes : ∀ c, l2.node c =
      if c = l.heap.length then some { data := dm, prev := some n, next := x.next }
      else if c = n then some { x with data := dn, next := some l.heap.length }
      else if x.next = some c then (l.node c).map (fun y => { y with prev := some l.heap.length })
      else l.node c)
    (hh : l2.head_ = l.head_)
    (ht : l2.tail_ = (if l.tail_ = some n then some l.heap.length else l.tail_))
    (hs : l2.size_ = l.size_ + 1) (hc : l2.capacity = l.capacity)
    (hdn : dn ≠ []) (hdm : dm ≠ []) (hln : dn.length ≤ l.capacity)
    (hlm : dm.length ≤ l.capacity) (hlen : dn.length + dm.length = x.data.length + 1) :
    Rep l2 (a ++ n :: l.heap.length :: b) ∧
      l2.elems (a ++ n :: l.heap.length :: b) = l.elems a ++ (dn ++ dm) ++ l.elems b := by
  have hnd := hr.chain.nodup
  have hmem : l.heap.length ∉ a ++ n :: b := fun hcm =>
    absurd (hr.chain.lt_of_mem hcm) (lt_irrefl _)
  have hnl : n ≠ l.heap.length := fun hcn => hmem (by rw [← hcn]; simp)
  have hnb : n ∉ b := (List.nodup_cons.mp (List.nodup_append.mp hnd).2.1).1
  have hna : n ∉ a := fun hca => (List.nodup_append.mp hnd).2.2 hca (List.mem_cons_self _ _)
  obtain ⟨x0, hx0, hxp, hxn⟩ := hr.chain.link a n b rfl
  rw [hx] at hx0
  cases hx0
  have hm : l2.node l.heap.length = some { data := dm, prev := some n, next := x.next } := by
    rw [hnodes, if_pos rfl]
  have hn2 : l2.node n = some { x with data := dn, next := some l.heap.length } := by
    rw [hnodes, if_neg hnl, if_pos rfl]
  have hold : ∀ c, c ∈ a ++ b → l2.dataOf c = l.dataOf c := by
    intro c hcm
    have hc1 : c ∈ a ++ n :: b := by
      rcases List.mem_append.mp hcm with h1 | h1
      · exact List.mem_append_left _ h1
      · exact List.mem_append_right _ (List.mem_cons_of_mem _ h1)
    have hcl : c ≠ l.heap.length := by rintro rfl; exact hmem hc1
    have hcn : c ≠ n := by
      rintro rfl
      rcases List.mem_append.mp hcm with h1 | h1
      · exact hna h1
      · exact hnb h1
    by_cases hcq : x.next = some c
    · exact dataOf_of_map (fun y => { y with prev := some l.heap.length }) (fun _ => rfl)
        (by rw [hnodes, if_neg hcl, if_neg hcn, if_pos hcq])
    · exact dataOf_congr (by rw [hnodes, if_neg hcl, if_neg hcn, if_neg hcq])
  have he : l2.elems (a ++ n :: l.heap.length :: b) = l.elems a ++ (dn ++ dm) ++ l.elems b := by
    rw [elems_append, elems_cons, elems_cons, dataOf_eq hn2, dataOf_eq hm,
      elems_congr (l := l) (fun c hcm => hold c (List.mem_append_left _ hcm)),
      elems_congr (l := l) (fun c hcm => hold c (List.mem_append_right _ hcm))]
    simp
  refine ⟨{ chain := ?_, cap := hc ▸ hr.cap, filled := ?_, size := ?_ }, he⟩
  · refine chain_insert hr.chain hmem hm rfl hxn hh ?_ ?_
    · rw [ht, hr.chain.tail]
      cases b with
      | nil =>
        rw [if_pos (List.getLast?_concat a)]
        simp [List.getLast?_append_cons, List.getLast?_cons_cons]
      | cons c b1 =>
        rw [if_neg]
        · simp [List.getLast?_append_cons, List.getLast?_cons_cons]
        · intro hl
          exact absurd ((last_of_split hnd).mp hl) (by simp)
    · intro c hcm y hy
      have hcl : c ≠ l.heap.length := by rintro rfl; exact hmem hcm
      by_cases hcn : c = n
      · subst hcn
        rw [hx] at hy
        cases hy
        refine ⟨_, hn2, ?_, by rw [if_pos rfl]⟩
        rw [if_neg (show ¬ b.head? = some c from fun hcb => hnb (List.mem_of_mem_head? hcb))]
      · by_cases hcq : x.next = some c
        · refine ⟨{ y with prev := some l.heap.length },
            by rw [hnodes, if_neg hcl, if_neg hcn, if_pos hcq, hy]; rfl, ?_, ?_⟩
          · rw [if_pos (by rw [← hxn]; exact hcq)]
          · rw [if_neg hcn]
        · refine ⟨y, by rw [hnodes, if_neg hcl, if_neg hcn, if_neg hcq, hy], ?_, ?_⟩
          · rw [if_neg (by rw [← hxn]; exact hcq)]
          · rw [if_neg hcn]
  · intro c hcm
    rw [hc]
    have hcases : c ∈ a ++ b ∨ c = n ∨ c = l.heap.length := by
      simp only [List.mem_append, List.mem_cons] at hcm ⊢
      tauto
    rcases hcases with h1 | rfl | rfl
    · rw [hold c h1]
      apply hr.filled
      rcases List.mem_append.mp h1 with h2 | h2
      · exact List.mem_append_left _ h2
      · exact List.mem_append_right _ (List.mem_cons_of_mem _ h2)
    · rw [dataOf_eq hn2]
      exact ⟨hdn, hln⟩
    · rw [dataOf_eq hm]
      exact ⟨hdm, hlm⟩
  · have h0 := hr.size
    rw [elems_length_split, dataOf_eq hx] at h0
    rw [he, hs]
    simp only [List.length_append]
    omega

/-- A node of the chain is unlinked and destroyed. -/
theorem rep_shrink {α : Type} {l l1 : unrolled_list α} {a b : List Nat} {n : Nat} {x : Node α}
    (hr : Rep l (a ++ n :: b)) (hx : l.node n = some x)
    (hnodes : ∀ c, l1.node c =
      if c = n then none
      else if x.prev = some c then (l.node c).map (fun y => { y with next := x.next })
      else if x.next = some c then (l.node c).map (fun y => { y with prev := x.prev })
      else l.node c)
    (hh : l1.head_ = (if x.prev = none then x.next else l.head_))
    (ht : l1.tail_ = (if x.next = none then x.prev else l.tail_))
    (hs : l1.size_ + x.data.length = l.size_) (hc : l1.capacity = l.capacity) :
    Rep l1 (a ++ b) ∧ l1.elems (a ++ b) = l.elems a ++ l.elems b := by
  have hnd := hr.chain.nodup
  have hnb : n ∉ b := (List.nodup_cons.mp (List.nodup_append.mp hnd).2.1).1
  have hna : n ∉ a := fun hca => (List.nodup_append.mp hnd).2.2 hca (List.mem_cons_self _ _)
  obtain ⟨x0, hx0, hxp, hxn⟩ := hr.chain.link a n b rfl
  rw [hx] at hx0
  cases hx0
  have hsub : ∀ c, c ∈ a ++ b → c ∈ a ++ n :: b ∧ c ≠ n := by
    intro c hcm
    rcases List.mem_append.mp hcm with h1 | h1
    · exact ⟨List.mem_append_left _ h1, by rintro rfl; exact hna h1⟩
    · exact ⟨List.mem_append_right _ (List.mem_cons_of_mem _ h1), by rintro rfl; exact hnb h1⟩
  have hold : ∀ c, c ∈ a ++ b → l1.dataOf c = l.dataOf c := by
    intro c hcm
    obtain ⟨_, hcn⟩ := hsub c hcm
    by_cases hcp : x.prev = some c
    · exact dataOf_of_map (fun y => { y with next := x.next }) (fun _ => rfl)
        (by rw [hnodes, if_neg hcn, if_pos hcp])
    · by_cases hcq : x.next = some c
      · exact dataOf_of_map (fun y => { y with prev := x.prev }) (fun _ => rfl)
          (by rw [hnodes, if_neg hcn, if_neg hcp, if_pos hcq])
      · exact dataOf_congr (by rw [hnodes, if_neg hcn, if_neg hcp, if_neg hcq])
  have he : l1.elems (a ++ b) = l.elems a ++ l.elems b := by
    rw [elems_congr hold, elems_append]
  refine ⟨{ chain := ?_, cap := hc ▸ hr.cap, filled := ?_, size := ?_ }, he⟩
  · refine chain_remove hr.chain ?_ ?_ ?_
    · rw [hh, hxp, hxn, hr.chain.head]
      cases a with
      | nil => simp
      | cons c a1 => simp
    · rw [ht, hxp, hxn, hr.chain.tail]
      cases b with
      | nil => simp
      | cons c b1 =>
        rw [if_neg (by simp)]
        simp [List.getLast?_append_cons, List.getLast?_cons_cons]
    · intro c hcm y hy
      obtain ⟨_, hcn⟩ := hsub c hcm
      have hdis : ¬ (a.getLast? = some c ∧ b.head? = some c) := by
        rintro ⟨h1, h2⟩
        exact (List.nodup_append.mp hnd).2.2 (List.mem_of_mem_getLast? h1)
          (List.mem_cons_of_mem _ (List.mem_of_mem_head? h2))
      by_cases hcp : x.prev = some c
      · have hcq : ¬ b.head? = some c := fun h2 => hdis ⟨by rw [← hxp]; exact hcp, h2⟩
        refine ⟨{ y with next := x.next },
          by rw [hnodes, if_neg hcn, if_pos hcp, hy]; rfl, ?_, ?_⟩
        · rw [if_neg hcq]
        · rw [if_pos (by rw [← hxp]; exact hcp), hxn]
      · have hcp' : ¬ a.getLast? = some c := by rw [← hxp]; exact hcp
        by_cases hcq : x.next = some c
        · refine ⟨{ y with prev := x.prev },
            by rw [hnodes, if_neg hcn, if_neg hcp, if_pos hcq, hy]; rfl, ?_, ?_⟩
          · rw [if_pos (by rw [← hxn]; exact hcq), hxp]
          · rw [if_neg hcp']
        · refine ⟨y, by rw [hnodes, if_neg hcn, if_neg hcp, if_neg hcq, hy], ?_, ?_⟩
          · rw [if_neg (by rw [← hxn]; exact hcq)]
          · rw [if_neg hcp']
  · intro c hcm
    rw [hc, hold c hcm]
    exact hr.filled c (hsub c hcm).1
  · have h0 := hr.size
    rw [elems_length_split, dataOf_eq hx] at h0
    rw [he]
    simp only [List.length_append]
    omega

theorem list_insert_mid {α : Type} (A d B : List α) (idx : Nat) (v : α) (h : idx ≤ d.length) :
    (A ++ d ++ B).take (A.length + idx) ++ v :: (A ++ d ++ B).drop (A.length + idx) =
      A ++ (d.take idx ++ [v] ++ d.drop idx) ++ B := by
  rw [List.append_assoc, List.take_append, List.drop_append, List.take_append_of_le_length h,
    List.drop_append_of_le_length h]
  simp

theorem list_erase_mid {α : Type} (A d B : List α) (idx : Nat) (h : idx < d.length) :
    (A ++ d ++ B).take (A.length + idx) ++ (A ++ d ++ B).drop (A.length + idx + 1) =
      A ++ (d.take idx ++ d.drop (idx + 1)) ++ B := by
  rw [List.append_assoc, List.take_append, Nat.add_assoc, List.drop_append,
    List.take_append_of_le_length (Nat.le_of_lt h),
    List.drop_append_of_le_length (Nat.succ_le_of_lt h)]
  simp

theorem split_place_left {α : Type} (d : List α) (mid idx : Nat) (v : α) (h : idx ≤ mid) :
    ((d.take mid).take idx ++ [v] ++ (d.take mid).drop idx) ++ d.drop mid =
      d.take idx ++ [v] ++ d.drop idx := by
  have h1 : (d.take mid).take idx = d.take idx := by
    rw [List.take_take, Nat.min_eq_left h]
  have h2 : (d.take mid).drop idx ++ d.drop mid = d.drop idx := by
    conv_rhs => rw [← List.take_append_drop mid d]
    rw [List.drop_append_eq_append_drop, List.length_take]
    have : idx - min mid d.length = 0 ∨ d.drop mid = [] := by
      by_cases hm : mid ≤ d.length
      · left; rw [Nat.min_eq_left hm]; omega
      · right; exact List.drop_eq_nil_of_le (by omega)
    rcases this with h3 | h3
    · rw [h3, List.drop_zero]
    · rw [h3]; simp
  rw [h1, List.append_assoc, List.append_assoc, h2]
  simp

theorem split_place_right {α : Type} (d : List α) (mid idx : Nat) (v : α) (h : mid ≤ idx) :
    d.take mid ++ ((d.drop mid).take (idx - mid) ++ [v] ++ (d.drop mid).drop (idx - mid)) =
      d.take idx ++ [v] ++ d.drop idx := by
  have h1 : d.take mid ++ (d.drop mid).take (idx - mid) = d.take idx := by
    have := List.take_add d mid (idx - mid)
    rw [show mid + (idx - mid) = idx by omega] at this
    exact this.symm
  have h2 : (d.drop mid).drop (idx - mid) = d.drop idx := by
    rw [List.drop_drop]
    congr 1
    omega
  rw [h2, ← h1]
  simp

theorem shift_left_one {α : Type} (d : List α) (idx : Nat) (h : idx < d.length) :
    shift_left d idx 1 = d.take idx ++ d.drop (idx + 1) := by
  unfold shift_left
  rw [if_neg (by simp)]
  apply List.take_of_length_le
  simp only [List.length_append, List.length_take, List.length_drop]
  omega

/-- The neighbours of a node of the chain are live nodes of the chain. -/
theorem chain_neighbours {α : Type} {l : unrolled_list α} {a b : List Nat} {n : Nat}
    {x : Node α} (h : Chain l (a ++ n :: b)) (hx : l.node n = some x) :
    x.prev = a.getLast? ∧ x.next = b.head? ∧
    (∀ p, x.prev = some p → p ≠ n ∧ ∃ y, l.node p = some y) ∧
    (∀ q, x.next = some q → q ≠ n ∧ ∃ y, l.node q = some y) ∧
    (∀ p q, x.prev = some p → x.next = some q → p ≠ q) := by
  have hnd := h.nodup
  obtain ⟨x0, hx0, hxp, hxn⟩ := h.link a n b rfl
  rw [hx] at hx0
  cases hx0
  have hnb : n ∉ b := (List.nodup_cons.mp (List.nodup_append.mp hnd).2.1).1
  have hna : n ∉ a := fun hca => (List.nodup_append.mp hnd).2.2 hca (List.mem_cons_self _ _)
  have hpa : ∀ p, x.prev = some p → p ∈ a := fun p hp =>
    List.mem_of_mem_getLast? (by rw [← hxp]; exact hp)
  have hqb : ∀ q, x.next = some q → q ∈ b := fun q hq =>
    List.mem_of_mem_head? (by rw [← hxn]; exact hq)
  refine ⟨hxp, hxn, ?_, ?_, ?_⟩
  · intro p hp
    exact ⟨by rintro rfl; exact hna (hpa _ hp),
      h.node_of_mem (List.mem_append_left _ (hpa p hp))⟩
  · intro q hq
    exact ⟨by rintro rfl; exact hnb (hqb _ hq),
      h.node_of_mem (List.mem_append_right _ (List.mem_cons_of_mem _ (hqb q hq)))⟩
  · intro p q hp hq
    rintro rfl
    exact (List.nodup_append.mp hnd).2.2 (hpa p hp) (List.mem_cons_of_mem _ (hqb p hq))

/-- On a well-formed list of capacity at least 2, `insert` at a valid position
returns and inserts the value there. -/
theorem rep_insert {α : Type} {l : unrolled_list α} {ids : List Nat} (hr : Rep l ids)
    (hcap : 2 ≤ l.capacity) {it : iterator} {k : Nat} (hp : Pos l ids it k) (v : α) :
    ∃ it1 l1 ids1, l.insert it v = .ok it1 l1 ∧ Rep l1 ids1 ∧
      l1.elems ids1 = (l.elems ids).take k ++ v :: (l.elems ids).drop k ∧
      l1.capacity = l.capacity := by
  by_cases hend : it.eq l.cend = true
  · have hk : k = (l.elems ids).length := (pos_end_iff hp).mp hend
    obtain ⟨l1, ids1, h1, hr1, he1, hc1⟩ := rep_push_back hr v
    rcases List.eq_nil_or_concat ids1 with rfl | ⟨a1, t, rfl⟩
    · rw [elems_nil] at he1
      exact absurd he1.symm (by simp)
    · rw [List.concat_eq_append] at hr1 he1
      obtain ⟨x, hx, _, _⟩ := hr1.chain.link a1 t [] rfl
      have htl : l1.tail_ = some t := by rw [hr1.chain.tail, List.getLast?_concat]
      refine ⟨{ node_ := some t, pos_ := x.size - 1, tail_ := some t }, l1, a1 ++ [t], ?_, hr1,
        ?_, hc1⟩
      · unfold unrolled_list.insert
        rw [if_pos hend, h1]
        simp only [htl, hx]
      · rw [he1, hk]
        simp
  · have hkne : k ≠ (l.elems ids).length := fun hk => hend ((pos_end_iff hp).mpr hk)
    have hklt : k < (l.elems ids).length := lt_of_le_of_ne (pos_le hp) hkne
    obtain ⟨a, n, b, rfl, hnode, hlt, hk⟩ := pos_valid hp hklt
    obtain ⟨x, hx⟩ := hr.chain.node_of_mem (n := n) (by simp)
    obtain ⟨hxp, hxn, _, hq, _⟩ := chain_neighbours hr.chain hx
    have hdx : l.dataOf n = x.data := dataOf_eq hx
    rw [hdx] at hlt
    have hfl := hr.filled n (by simp)
    rw [hdx] at hfl
    have hel : l.elems (a ++ n :: b) = l.elems a ++ x.data ++ l.elems b := by
      rw [elems_append, elems_cons, hdx]
      simp
    have hgoal : l.elems a ++ (x.data.take it.pos_ ++ [v] ++ x.data.drop it.pos_) ++ l.elems b =
        (l.elems (a ++ n :: b)).take k ++ v :: (l.elems (a ++ n :: b)).drop k := by
      rw [hel, hk]
      exact (list_insert_mid _ _ _ _ v (Nat.le_of_lt hlt)).symm
    unfold unrolled_list.insert
    rw [if_neg hend, hnode]
    simp only [hx]
    by_cases hfull : x.size = l.capacity
    · rw [if_pos hfull]
      obtain ⟨l1, e1, n1, hh1, ht1, hs1, hc1⟩ := split_node_spec hx hq
      rw [e1]
      simp only
      have hnl : n ≠ l.heap.length := Nat.ne_of_lt (node_lt hx)
      have hlen : x.data.length = l.capacity := hfull
      have hmid : x.size / 2 ≤ x.data.length := by
        unfold Node.size
        omega
      have hmid1 : 1 ≤ x.size / 2 := by
        unfold Node.size
        omega
      have hmid2 : x.size / 2 < x.data.length := by
        unfold Node.size
        omega
      have hn1 : l1.node n =
          some { x with data := x.data.take (x.size / 2), next := some l.heap.length } := by
        rw [n1, if_neg hnl, if_pos rfl]
      have hm1 : l1.node l.heap.length =
          some { data := x.data.drop (x.size / 2), prev := some n, next := x.next } := by
        rw [n1, if_pos rfl]
      rw [hn1]
      simp only
      have hysz : (x.data.take (x.size / 2)).length = x.size / 2 := by
        rw [List.length_take]
        omega
      unfold Node.size at hysz ⊢
      simp only
      rw [hysz]
      unfold Node.size at hmid hmid1 hmid2
      unfold Node.size at hn1 hm1 n1
      by_cases hge : it.pos_ ≥ x.data.length / 2
      · rw [if_pos hge]
        obtain ⟨l2, e2, n2, hh2, ht2, hs2, hc2⟩ :=
          place_spec hm1 v (it.pos_ - x.data.length / 2)
          (by simp only [List.length_drop]; rw [hc1]; omega)
          (by simp only [List.length_drop]; omega)
        obtain ⟨hrep, helems⟩ := @rep_grow α l l2 a b n x (x.data.take (x.data.length / 2))
          ((x.data.drop (x.data.length / 2)).take (it.pos_ - x.data.length / 2) ++ [v] ++
            (x.data.drop (x.data.length / 2)).drop (it.pos_ - x.data.length / 2)) hr hx
          (by
            intro c
            rw [n2]
            by_cases hcl : c = l.heap.length
            · rw [if_pos hcl, if_pos hcl]
            · rw [if_neg hcl, if_neg hcl, n1, if_neg hcl])
          (hh2.trans hh1) (ht2.trans ht1) (by rw [hs2, hs1]) (hc2.trans hc1)
          (by
            intro h0
            have := congrArg List.length h0
            simp only [List.length_take, List.length_nil] at this
            omega)
          (by simp)
          (by simp only [List.length_take]; omega)
          (by simp only [List.length_append, List.length_take, List.length_drop,
                List.length_singleton]; omega)
          (by simp only [List.length_append, List.length_take, List.length_drop,
                List.length_singleton]; omega)
        refine ⟨{ node_ := some l.heap.length, pos_ := it.pos_ - x.data.length / 2,
                  tail_ := l2.tail_ }, l2, _, ?_, hrep, ?_, hc2.trans hc1⟩
        · unfold unrolled_list.insert_at
          rw [e2]
        · rw [helems, split_place_right _ _ _ v hge]
          exact hgoal
      · rw [if_neg hge]
        have hlt2 : it.pos_ < x.data.length / 2 := by omega
        obtain ⟨l2, e2, n2, hh2, ht2, hs2, hc2⟩ := place_spec hn1 v it.pos_
          (by simp only [List.length_take]; rw [hc1]; omega)
          (by simp only [List.length_take]; omega)
        obtain ⟨hrep, helems⟩ := @rep_grow α l l2 a b n x
          ((x.data.take (x.data.length / 2)).take it.pos_ ++ [v] ++
            (x.data.take (x.data.length / 2)).drop it.pos_)
          (x.data.drop (x.data.length / 2)) hr hx
          (by
            intro c
            rw [n2]
            by_cases hcn : c = n
            · rw [if_pos hcn, if_neg (by rw [hcn]; exact hnl), if_pos hcn]
            · rw [if_neg hcn, n1]
              simp only [hcn, if_false])
          (hh2.trans hh1) (ht2.trans ht1) (by rw [hs2, hs1]) (hc2.trans hc1)
          (by simp)
          (by
            intro h0
            have := congrArg List.length h0
            simp only [List.length_drop, List.length_nil] at this
            omega)
          (by simp only [List.length_append, List.length_take, List.length_drop,
                List.length_singleton]; omega)
          (by simp only [List.length_drop]; omega)
          (by simp only [List.length_append, List.length_take, List.length_drop,
                List.length_singleton]; omega)
        refine ⟨{ node_ := some n, pos_ := it.pos_, tail_ := l2.tail_ }, l2, _, ?_, hrep, ?_,
          hc2.trans hc1⟩
        · unfold unrolled_list.insert_at
          rw [e2]
        · rw [helems, split_place_left _ _ _ v (Nat.le_of_lt hlt2)]
          exact hgoal
    · rw [if_neg hfull]
      have hroom : x.data.length + 1 ≤ l.capacity := by
        unfold Node.size at hfull
        omega
      obtain ⟨l1, e1, n1, hh1, ht1, hs1, hc1⟩ := place_spec hx v it.pos_ hroom (Nat.le_of_lt hlt)
      obtain ⟨hrep, helems⟩ := @rep_update α l l1 a b n x
        (x.data.take it.pos_ ++ [v] ++ x.data.drop it.pos_) hr hx n1 hh1 ht1
        (by
          rw [hs1]
          simp only [List.length_append, List.length_take, List.length_drop,
            List.length_singleton]
          omega)
        hc1 (by simp)
        (by simp only [List.length_append, List.length_take, List.length_drop,
              List.length_singleton]; omega)
      refine ⟨{ node_ := some n, pos_ := it.pos_, tail_ := l1.tail_ }, l1, _, ?_, hrep, ?_, hc1⟩
      · unfold unrolled_list.insert_at
        rw [e1]
      · rw [helems]
        exact hgoal

/-- On a well-formed list `erase` at the position of an element returns and
removes that element. -/
theorem rep_erase {α : Type} {l : unrolled_list α} {ids : List Nat} (hr : Rep l ids)
    {it : iterator} {k : Nat} (hp : Pos l ids it k) (hklt : k < (l.elems ids).length) :
    ∃ it1 l1 ids1, l.erase it = .ok it1 l1 ∧ Rep l1 ids1 ∧
      l1.elems ids1 = (l.elems ids).take k ++ (l.elems ids).drop (k + 1) ∧
      l1.capacity = l.capacity := by
  have hend : ¬ it.eq l.cend = true := fun h =>
    absurd ((pos_end_iff hp).mp h) (Nat.ne_of_lt hklt)
  obtain ⟨a, n, b, rfl, hnode, hlt, hk⟩ := pos_valid hp hklt
  obtain ⟨x, hx⟩ := hr.chain.node_of_mem (n := n) (by simp)
  obtain ⟨hxp, hxn, hpv, hq, hpq⟩ := chain_neighbours hr.chain hx
  have hdx : l.dataOf n = x.data := dataOf_eq hx
  rw [hdx] at hlt
  have hel : l.elems (a ++ n :: b) = l.elems a ++ x.data ++ l.elems b := by
    rw [elems_append, elems_cons, hdx]
    simp
  have hsz := hr.size
  rw [hel] at hsz
  simp only [List.length_append] at hsz
  have hgoal : l.elems a ++ (x.data.take it.pos_ ++ x.data.drop (it.pos_ + 1)) ++ l.elems b =
      (l.elems (a ++ n :: b)).take k ++ (l.elems (a ++ n :: b)).drop (k + 1) := by
    rw [hel, hk]
    exact (list_erase_mid _ _ _ _ hlt).symm
  have hn0 : ∀ c, unrolled_list.node
      { l.setNode n { x with data := shift_left x.data it.pos_ 1 } with size_ := l.size_ - 1 } c =
      if c = n then some { x with data := x.data.take it.pos_ ++ x.data.drop (it.pos_ + 1) }
      else l.node c := by
    intro c
    show (l.setNode n _).node c = _
    rw [node_setNode_of hx, shift_left_one _ _ hlt]
  unfold unrolled_list.erase
  rw [if_neg hend, hnode]
  simp only [hx]
  rw [if_neg (by unfold Node.size; omega)]
  unfold unrolled_list.erase_end
  rw [hn0 n, if_pos rfl]
  simp only
  by_cases hone : x.data.length = 1
  · have hpos0 : it.pos_ = 0 := by omega
    have hempty : x.data.take it.pos_ ++ x.data.drop (it.pos_ + 1) = [] := by
      rw [hpos0]
      simp only [List.take_zero, List.nil_append]
      exact List.drop_eq_nil_of_le (by omega)
    rw [if_pos (by unfold Node.size; rw [hempty]; rfl)]
    obtain ⟨l1, e1, n1, hh1, ht1, hs1, hc1⟩ := unlink_spec
      (l := { l.setNode n { x with data := shift_left x.data it.pos_ 1 } with
              size_ := l.size_ - 1 })
      (x := { x with data := x.data.take it.pos_ ++ x.data.drop (it.pos_ + 1) })
      (by rw [hn0 n, if_pos rfl])
      (by
        intro p hp1
        obtain ⟨h1, y, hy⟩ := hpv p hp1
        exact ⟨h1, y, by rw [hn0 p, if_neg h1, hy]⟩)
      (by
        intro q hq1
        obtain ⟨h1, y, hy⟩ := hq q hq1
        exact ⟨h1, y, by rw [hn0 q, if_neg h1, hy]⟩)
      hpq
    rw [e1]
    simp only
    obtain ⟨hrep, helems⟩ := @rep_shrink α l l1 a b n x hr hx
      (by
        intro c
        rw [n1]
        by_cases hcn : c = n
        · rw [if_pos hcn, if_pos hcn]
        · rw [if_neg hcn, if_neg hcn, hn0 c, if_neg hcn])
      hh1 ht1
      (by
        rw [hs1]
        show l.size_ - 1 + x.data.length = l.size_
        omega)
      hc1
    refine ⟨{ node_ := x.next, pos_ := 0, tail_ := l1.tail_ }, l1, _, rfl, hrep, ?_, hc1⟩
    rw [helems, ← hgoal, hempty]
    simp
  · have hne : x.data.take it.pos_ ++ x.data.drop (it.pos_ + 1) ≠ [] := by
      intro h0
      have := congrArg List.length h0
      simp only [List.length_append, List.length_take, List.length_drop, List.length_nil] at this
      omega
    rw [if_neg (by
      unfold Node.size
      intro h0
      exact hne (List.length_eq_zero.mp h0))]
    have hfl := hr.filled n (by simp)
    rw [hdx] at hfl
    obtain ⟨hrep, helems⟩ := @rep_update α l
      { l.setNode n { x with data := shift_left x.data it.pos_ 1 } with size_ := l.size_ - 1 }
      a b n x (x.data.take it.pos_ ++ x.data.drop (it.pos_ + 1)) hr hx hn0 rfl rfl
      (by
        show l.size_ - 1 + x.data.length = l.size_ + _
        simp only [List.length_append, List.length_take, List.length_drop]
        omega)
      rfl hne
      (by simp only [List.length_append, List.length_take, List.length_drop]; omega)
    exact ⟨{ node_ := some n, pos_ := it.pos_, tail_ := l.tail_ }, _, _, rfl, hrep,
      by rw [helems]; exact hgoal, rfl⟩

/-- The method `erase` at the end position returns `end()` and changes nothing. -/
theorem erase_at_end {α : Type} {l : unrolled_list α} {ids : List Nat} {it : iterator}
    (hp : Pos l ids it (l.elems ids).length) : l.erase it = .ok l.end_ l := by
  unfold unrolled_list.erase
  rw [if_pos (show it.eq l.cend = true from (pos_end_iff hp).mpr rfl)]

theorem holds_run_edit {α : Type} {l : unrolled_list α} {s s1 : List α} (h : Holds l s)
    (hcap : 2 ≤ l.capacity) (e : Edit α) (hs : seq_edit s e = some s1) :
    ∃ l1, (l.run_edit e).list? = some l1 ∧ Holds l1 s1 ∧ l1.capacity = l.capacity := by
  cases e with
  | push_back v =>
    simp only [seq_edit, Option.some.injEq] at hs
    subst hs
    obtain ⟨l1, h1, h2, h3⟩ := holds_push_back h v
    exact ⟨l1, by simp [unrolled_list.run_edit, h1, Res.list?], h2, h3⟩
  | push_front v =>
    simp only [seq_edit, Option.some.injEq] at hs
    subst hs
    obtain ⟨l1, h1, h2, h3⟩ := holds_push_front h v
    exact ⟨l1, by simp [unrolled_list.run_edit, h1, Res.list?], h2, h3⟩
  | pop_back =>
    simp only [seq_edit, Option.some.injEq] at hs
    subst hs
    by_cases hne : s = []
    · subst hne
      refine ⟨l, ?_, h, rfl⟩
      have he : l.empty = true := (holds_empty h).mpr rfl
      simp [unrolled_list.run_edit, unrolled_list.pop_back, he, Res.list?]
    · obtain ⟨l1, h1, h2, h3⟩ := holds_pop_back h hne
      exact ⟨l1, by simp [unrolled_list.run_edit, h1, Res.list?], h2, h3⟩
  | pop_front =>
    simp only [seq_edit, Option.some.injEq] at hs
    subst hs
    by_cases hne : s = []
    · subst hne
      refine ⟨l, ?_, h, rfl⟩
      have he : l.empty = true := (holds_empty h).mpr rfl
      simp [unrolled_list.run_edit, unrolled_list.pop_front, he, Res.list?]
    · obtain ⟨l1, h1, h2, h3⟩ := holds_pop_front h hne
      exact ⟨l1, by simp [unrolled_list.run_edit, h1, Res.list?], h2, h3⟩
  | insert k v =>
    simp only [seq_edit] at hs
    split at hs
    · rename_i hk
      simp only [Option.some.injEq] at hs
      subst hs
      obtain ⟨ids, hr, rfl⟩ := h
      obtain ⟨it, hadv, hpos, _⟩ := advance_spec hr k hk
      obtain ⟨it1, l1, ids1, h1, hr1, he1, hc1⟩ := rep_insert hr hcap hpos v
      exact ⟨l1, by simp [unrolled_list.run_edit, hadv, h1, Res.discard, Res.list?],
        ⟨ids1, hr1, he1⟩, hc1⟩
    · cases hs
  | erase k =>
    simp only [seq_edit] at hs
    split at hs
    · rename_i hk
      simp only [Option.some.injEq] at hs
      subst hs
      obtain ⟨ids, hr, rfl⟩ := h
      obtain ⟨it, hadv, hpos, _⟩ := advance_spec hr k hk
      by_cases hlt : k < (l.elems ids).length
      · obtain ⟨it1, l1, ids1, h1, hr1, he1, hc1⟩ := rep_erase hr hpos hlt
        exact ⟨l1, by simp [unrolled_list.run_edit, hadv, h1, Res.discard, Res.list?],
          ⟨ids1, hr1, he1⟩, hc1⟩
      · have hke : k = (l.elems ids).length := by omega
        subst hke
        refine ⟨l, ?_, ⟨ids, hr, ?_⟩, rfl⟩
        · simp [unrolled_list.run_edit, hadv, erase_at_end hpos, Res.discard, Res.list?]
        · simp
    · cases hs

theorem holds_run_edits {α : Type} (es : List (Edit α)) {l : unrolled_list α} {s s1 : List α}
    (h : Holds l s) (hcap : 2 ≤ l.capacity) (hs : seq_edits s es = some s1) :
    ∃ l1, l.run_edits es = some l1 ∧ Holds l1 s1 ∧ l1.capacity = l.capacity := by
  induction es generalizing l s with
  | nil =>
    simp only [seq_edits, Option.some.injEq] at hs
    subst hs
    exact ⟨l, rfl, h, rfl⟩
  | cons e es ih =>
    simp only [seq_edits] at hs
    cases he : seq_edit s e with
    | none => rw [he] at hs; cases hs
    | some s2 =>
      rw [he] at hs
      obtain ⟨l2, h1, h2, h3⟩ := holds_run_edit h hcap e he
      obtain ⟨l3, h4, h5, h6⟩ := ih h2 (by rw [h3]; exact hcap) hs
      exact ⟨l3, by simp only [unrolled_list.run_edits, h1, h4], h5, h6.trans h3⟩

theorem elems_length_sum {α : Type} (l : unrolled_list α) (ids : List Nat) :
    (l.elems ids).length = (ids.map (fun n => (l.dataOf n).length)).sum := by
  induction ids with
  | nil => rfl
  | cons n b ih =>
    rw [elems_cons, List.length_append, ih]
    rfl

/-- The links of a chain are mutually consistent. -/
theorem chain_links {α : Type} {l : unrolled_list α} {ids : List Nat} (h : Chain l ids)
    {n : Nat} (hn : n ∈ ids) {x : Node α} (hx : l.node n = some x) :
    (∀ q, x.next = some q → q ∈ ids ∧ ∃ y, l.node q = some y ∧ y.prev = some n) ∧
    (∀ p, x.prev = some p → p ∈ ids ∧ ∃ y, l.node p = some y ∧ y.next = some n) ∧
    (x.prev = none ↔ l.head_ = some n) ∧ (x.next = none ↔ l.tail_ = some n) := by
  obtain ⟨a, b, rfl⟩ := List.append_of_mem hn
  have hnd := h.nodup
  obtain ⟨x0, hx0, hxp, hxn⟩ := h.link a n b rfl
  rw [hx] at hx0
  cases hx0
  refine ⟨?_, ?_, ?_, ?_⟩
  · intro q hq
    rw [hxn] at hq
    cases b with
    | nil => cases hq
    | cons c b1 =>
      simp only [List.head?_cons, Option.some.injEq] at hq
      subst hq
      obtain ⟨y, hy, hyp, _⟩ := h.link (a ++ [n]) c b1 (by simp)
      exact ⟨by simp, y, hy, by rw [hyp, List.getLast?_concat]⟩
  · intro p hp
    rw [hxp] at hp
    rcases List.eq_nil_or_concat a with rfl | ⟨a1, c, rfl⟩
    · cases hp
    · rw [List.concat_eq_append, List.getLast?_concat, Option.some.injEq] at hp
      subst hp
      rw [List.concat_eq_append] at h
      obtain ⟨y, hy, _, hyn⟩ := h.link a1 c (n :: b) (by simp)
      exact ⟨by simp, y, hy, by rw [hyn]; rfl⟩
  · rw [hxp, h.head]
    constructor
    · intro ha
      rw [List.getLast?_eq_none_iff.mp ha]
      rfl
    · intro hh
      rw [(head_of_split hnd).mp hh]
      rfl
  · rw [hxn, h.tail]
    constructor
    · intro hb
      rw [List.head?_eq_none_iff.mp hb]
      exact List.getLast?_concat a
    · intro ht
      rw [(last_of_split hnd).mp ht]
      rfl

/-- What a well-formed list is, in the words of the claim. -/
theorem rep_facts {α : Type} {l : unrolled_list α} {ids : List Nat} (hr : Rep l ids) :
    (∀ n ∈ ids, ∃ x, l.node n = some x ∧ 1 ≤ x.size ∧ x.size ≤ l.capacity) ∧
    l.size = (ids.map (fun n => (l.dataOf n).length)).sum ∧
    (l.head_ = none ↔ l.empty = true) ∧ (l.tail_ = none ↔ l.empty = true) ∧
    (l.empty = true ↔ ids = []) ∧
    (∀ n ∈ ids, ∀ x, l.node n = some x →
      (∀ q, x.next = some q → q ∈ ids ∧ ∃ y, l.node q = some y ∧ y.prev = some n) ∧
      (∀ p, x.prev = some p → p ∈ ids ∧ ∃ y, l.node p = some y ∧ y.next = some n) ∧
      (x.prev = none ↔ l.head_ = some n) ∧ (x.next = none ↔ l.tail_ = some n)) := by
  have hemp : l.empty = true ↔ ids = [] := by
    have h1 := holds_empty (l := l) (s := l.elems ids) ⟨ids, hr, rfl⟩
    rw [h1]
    constructor
    · exact rep_nil hr
    · rintro rfl
      rfl
  refine ⟨?_, ?_, ?_, ?_, hemp, ?_⟩
  · intro n hn
    obtain ⟨x, hx⟩ := hr.chain.node_of_mem hn
    have hf := hr.filled n hn
    rw [dataOf_eq hx] at hf
    refine ⟨x, hx, ?_, hf.2⟩
    unfold Node.size
    exact List.length_pos.mpr hf.1
  · show l.size_ = _
    rw [hr.size, elems_length_sum]
  · rw [hemp, hr.chain.head]
    exact List.head?_eq_none_iff
  · rw [hemp, hr.chain.tail]
    exact List.getLast?_eq_none_iff
  · intro n hn x hx
    exact chain_links hr.chain hn hx

/-- The chain at a trivially destructible element type, where the list model
reads the code: on a well-formed list of capacity at least 2 that holds the
sequence `s`, every sequence of `push_back`, `push_front`, `pop_back`,
`pop_front`, single-element `insert` and `erase` calls at valid positions has a
defined outcome and leaves the node chain well formed: there is a chain `ids` of
distinct live nodes from `head_` to `tail_` such that every node of it holds
between 1 and `capacity` elements, `size()` is the sum of the node sizes,
`head_` and `tail_` are null exactly when the list is empty, the `next` of each
node is the node whose `prev` it is (and conversely), only the head has no
`prev` and only the tail no `next`; the list then holds the sequence that the
calls describe. -/
theorem chain_stays_well_formed {α : Type} (l : unrolled_list α) (s : List α) (h : Holds l s)
    (hcap : 2 ≤ l.capacity) (es : List (Edit α)) (s1 : List α)
    (hv : seq_edits s es = some s1) :
    ∃ l1 ids, l.run_edits es = some l1 ∧ l1.capacity = l.capacity ∧ Rep l1 ids ∧
      l1.elems ids = s1 ∧
      (∀ n ∈ ids, ∃ x, l1.node n = some x ∧ 1 ≤ x.size ∧ x.size ≤ l1.capacity) ∧
      l1.size = (ids.map (fun n => (l1.dataOf n).length)).sum ∧
      (l1.head_ = none ↔ l1.empty = true) ∧ (l1.tail_ = none ↔ l1.empty = true) ∧
      (l1.empty = true ↔ ids = []) ∧
      (∀ n ∈ ids, ∀ x, l1.node n = some x →
        (∀ q, x.next = some q → q ∈ ids ∧ ∃ y, l1.node q = some y ∧ y.prev = some n) ∧
        (∀ p, x.prev = some p → p ∈ ids ∧ ∃ y, l1.node p = some y ∧ y.next = some n) ∧
        (x.prev = none ↔ l1.head_ = some n) ∧ (x.next = none ↔ l1.tail_ = some n)) := by
  obtain ⟨l1, h1, ⟨ids, hr, he⟩, hc⟩ := holds_run_edits es h hcap hv
  obtain ⟨f1, f2, f3, f4, f5, f6⟩ := rep_facts hr
  exact ⟨l1, ids, h1, hc, hr, he, f1, f2, f3, f4, f5, f6⟩

/-- From the empty list of capacity 2: five `push_back`, an `insert` that
splits the full first node, and two `erase` calls, the second of which unlinks a
node in the middle of the chain. -/
theorem chain_stays_well_formed_witness :
    Holds (unrolled_list.new Nat 2) [] ∧ 2 ≤ (unrolled_list.new Nat 2).capacity ∧
    seq_edits ([] : List Nat)
      [.push_back 1, .push_back 2, .push_back 3, .push_back 4, .push_back 5, .insert 1 7,
       .erase 3, .erase 3] = some [1, 7, 2, 5] ∧
    ((unrolled_list.new Nat 2).run_edits
      [.push_back 1, .push_back 2, .push_back 3, .push_back 4, .push_back 5, .insert 1 7,
       .erase 3, .erase 3]).map (fun l => (l.heap.map (fun o => o.map Node.data), l.size_)) =
      some ([some [1], none, some [5], some [7, 2]], 4) ∧
    ∃ l1 ids, (unrolled_list.new Nat 2).run_edits
      [.push_back 1, .push_back 2, .push_back 3, .push_back 4, .push_back 5, .insert 1 7,
       .erase 3, .erase 3] = some l1 ∧ l1.capacity = 2 ∧ Rep l1 ids ∧
      l1.elems ids = [1, 7, 2, 5] ∧
      (∀ n ∈ ids, ∃ x, l1.node n = some x ∧ 1 ≤ x.size ∧ x.size ≤ l1.capacity) ∧
      l1.size = (ids.map (fun n => (l1.dataOf n).length)).sum ∧
      (l1.head_ = none ↔ l1.empty = true) ∧ (l1.tail_ = none ↔ l1.empty = true) ∧
      (l1.empty = true ↔ ids = []) ∧
      (∀ n ∈ ids, ∀ x, l1.node n = some x →
        (∀ q, x.next = some q → q ∈ ids ∧ ∃ y, l1.node q = some y ∧ y.prev = some n) ∧
        (∀ p, x.prev = some p → p ∈ ids ∧ ∃ y, l1.node p = some y ∧ y.next = some n) ∧
        (x.prev = none ↔ l1.head_ = some n) ∧ (x.next = none ↔ l1.tail_ = some n)) :=
  ⟨holds_new Nat (by decide), by decide, by decide, by decide,
    chain_stays_well_formed (unrolled_list.new Nat 2) [] (holds_new Nat (by decide)) (by decide)
      [.push_back 1, .push_back 2, .push_back 3, .push_back 4, .push_back 5, .insert 1 7,
       .erase 3, .erase 3] [1, 7, 2, 5] (by decide)⟩


/-! ## Element lifetime: the slot statements of the modifiers -/

theorem getD_set_self {β : Type} (l : List β) (i : Nat) (v d : β) (h : i < l.length) :
    (l.set i v).getD i d = v := by
  rw [List.getD_eq_getElem?_getD, List.getElem?_set_self h]
  rfl

theorem getD_set_other {β : Type} (l : List β) (i j : Nat) (v d : β) (h : i ≠ j) :
    (l.set i v).getD j d = l.getD j d := by
  rw [List.getD_eq_getElem?_getD, List.getD_eq_getElem?_getD, List.getElem?_set_ne h]

theorem lt_length_of_getD_ne {β : Type} (l : List β) (i : Nat) (d : β) (h : l.getD i d ≠ d) :
    i < l.length := by
  by_contra hge
  apply h
  rw [List.getD_eq_getElem?_getD, List.getElem?_eq_none (by omega)]
  rfl

/-- A destructor call on a slot of a type with a non-trivial destructor, when
defined, leaves the slot without an object. -/
theorem destroy_at_dead {α : Type} {buf b : List (Slot α)} {i : Nat}
    (h : destroy_at false buf i = some b) : b = buf.set i .dead ∧ i < buf.length := by
  unfold destroy_at at h
  simp only [Bool.false_eq_true, if_false] at h
  have hlt : i < buf.length := by
    apply lt_length_of_getD_ne buf i .raw
    intro h0
    rw [h0] at h
    cases h
  refine ⟨?_, hlt⟩
  cases hs : buf.getD i .raw with
  | raw => rw [hs] at h; cases h
  | live v => rw [hs] at h; simp only [Option.some.injEq] at h; exact h.symm
  | moved => rw [hs] at h; simp only [Option.some.injEq] at h; exact h.symm
  | dead => rw [hs] at h; cases h

theorem destroy_at_of_dead {α : Type} {buf : List (Slot α)} {i : Nat}
    (h : buf.getD i .raw = .dead) : destroy_at false buf i = none := by
  unfold destroy_at
  simp only [Bool.false_eq_true, if_false]
  rw [h]

theorem move_assign_of_dead {α : Type} {buf : List (Slot α)} {i j : Nat} (hij : i ≠ j)
    (h : buf.getD i .raw = .dead) : move_assign false buf i j = none := by
  unfold move_assign move_from
  cases hs : buf.getD j .raw with
  | raw => rfl
  | dead => rfl
  | moved =>
    simp only [Bool.false_eq_true, if_false]
    rw [h]
  | live v =>
    simp only [Bool.false_eq_true, if_false]
    rw [getD_set_other _ _ _ _ _ (Ne.symm hij), h]

/-- For an element type with a non-trivial destructor the statements
`ValAT::destroy(&data()[idx]); shift_left(node, idx, 1);` have undefined
behaviour at every position `idx` below the size of the node: the slot `idx`
is destroyed first, and then `shift_left` either move-assigns into it (when
other elements follow) or destroys it a second time (when it is the last). -/
theorem remove_slots_undefined {α : Type} (x : SlotNode α) (idx : Nat) (h : idx < x.size) :
    remove_slots false x idx = none := by
  unfold remove_slots
  cases hd : destroy_at false x.buffer idx with
  | none => rfl
  | some b =>
    obtain ⟨rfl, hlt⟩ := destroy_at_dead hd
    have hdead : (x.buffer.set idx Slot.dead).getD idx .raw = .dead :=
      getD_set_self _ _ _ _ hlt
    simp only
    unfold shift_left_slots
    rw [if_neg (by decide), if_neg (by simp only; omega)]
    simp only
    by_cases hlast : x.size = idx + 1
    · rw [hlast, Nat.sub_self]
      simp only [shift_left_moves, shift_left_destroys]
      rw [show idx + 1 - 1 - 0 = idx by omega, destroy_at_of_dead hdead]
    · obtain ⟨n, hn⟩ : ∃ n, x.size - (idx + 1) = n + 1 := ⟨x.size - (idx + 1) - 1, by omega⟩
      rw [hn]
      simp only [shift_left_moves]
      rw [show idx + 1 - 1 = idx by omega, move_assign_of_dead (by omega) hdead]


theorem getD_of_getElem? {β : Type} {l : List β} {i : Nat} {v : β} (d : β)
    (h : l[i]? = some v) : l.getD i d = v := by
  rw [List.getD_eq_getElem?_getD, h]
  rfl

theorem destroy_range_trivial {α : Type} :
    ∀ (n i : Nat) (buf : List (Slot α)), destroy_range true n i buf = some buf := by
  intro n
  induction n with
  | zero => intro i buf; rfl
  | succ n ih =>
    intro i buf
    rw [destroy_range]
    simp only [destroy_at, if_true]
    exact ih _ _

theorem shift_left_destroys_trivial {α : Type} (old_size : Nat) :
    ∀ (n i : Nat) (buf : List (Slot α)),
      shift_left_destroys true old_size n i buf = some buf := by
  intro n
  induction n with
  | zero => intro i buf; rfl
  | succ n ih =>
    intro i buf
    rw [shift_left_destroys]
    simp only [destroy_at, if_true]
    exact ih _ _

/-- The first loop of `shift_right` at a trivially destructible type, one place
up: the slots `(old_size - i - n, old_size - i]` receive the contents of the
slots below them. -/
theorem shift_right_moves_trivial {α : Type} (old_size : Nat) :
    ∀ (n i : Nat) (buf : List (Slot α)), n + i ≤ old_size → old_size < buf.length →
      (∀ j, j < old_size - i → ∃ v, buf[j]? = some (.live v)) →
      ∃ b, shift_right_moves true 1 old_size n i buf = some b ∧ b.length = buf.length ∧
        ∀ j, b[j]? = if old_size - i - n < j ∧ j ≤ old_size - i then buf[j - 1]? else buf[j]? := by
  intro n
  induction n with
  | zero =>
    intro i buf _ _ _
    refine ⟨buf, rfl, rfl, fun j => ?_⟩
    rw [if_neg (by omega)]
  | succ n ih =>
    intro i buf hle hlen hlive
    obtain ⟨v, hv⟩ := hlive (old_size - 1 - i) (by omega)
    rw [shift_right_moves]
    have hm : move_from true buf (old_size - 1 - i) = some (.live v, buf) := by
      unfold move_from
      rw [getD_of_getElem? _ hv]
      rfl
    rw [hm]
    simp only
    have hc : construct_at buf (old_size - 1 - i + 1) (.live v) =
        some (buf.set (old_size - i) (.live v)) := by
      unfold construct_at
      rw [show old_size - 1 - i + 1 = old_size - i by omega, if_pos (by omega)]
    rw [hc]
    simp only
    obtain ⟨b, hb, hbl, hbj⟩ := ih (i + 1) (buf.set (old_size - i) (.live v)) (by omega)
      (by rw [List.length_set]; exact hlen)
      (by
        intro j hj
        obtain ⟨u, hu⟩ := hlive j (by omega)
        exact ⟨u, by rw [List.getElem?_set_ne (by omega)]; exact hu⟩)
    refine ⟨b, hb, by rw [hbl, List.length_set], fun j => ?_⟩
    rw [hbj j]
    by_cases h1 : j = old_size - i
    · subst h1
      rw [if_neg (by omega), if_pos (by omega), List.getElem?_set_self (by omega),
        show old_size - i - 1 = old_size - 1 - i by omega, hv]
    · by_cases h2 : old_size - (i + 1) - n < j ∧ j ≤ old_size - (i + 1)
      · rw [if_pos h2, if_pos (by omega), List.getElem?_set_ne (by omega)]
      · rw [if_neg h2, if_neg (by omega), List.getElem?_set_ne (by omega)]

/-- The first loop of `shift_left` at a trivially destructible type, one place
down: the slots `[i - 1, i - 1 + n)` receive the contents of the slots above
them. -/
theorem shift_left_moves_trivial {α : Type} :
    ∀ (n i : Nat) (buf : List (Slot α)), 1 ≤ i →
      (∀ j, i ≤ j → j < i + n → ∃ v, buf[j]? = some (.live v)) →
      ∃ b, shift_left_moves true 1 n i buf = some b ∧ b.length = buf.length ∧
        ∀ j, b[j]? = if i - 1 ≤ j ∧ j < i - 1 + n then buf[j + 1]? else buf[j]? := by
  intro n
  induction n with
  | zero =>
    intro i buf _ _
    refine ⟨buf, rfl, rfl, fun j => ?_⟩
    rw [if_neg (by omega)]
  | succ n ih =>
    intro i buf hi hlive
    obtain ⟨v, hv⟩ := hlive i (by omega) (by omega)
    have hlt : i < buf.length := by
      by_contra hge
      rw [List.getElem?_eq_none (by omega)] at hv
      cases hv
    rw [shift_left_moves]
    have hm : move_assign true buf (i - 1) i = some (buf.set (i - 1) (.live v)) := by
      unfold move_assign move_from
      rw [getD_of_getElem? _ hv]
      simp only [if_true]
      unfold construct_at
      rw [if_pos (by omega)]
    rw [hm]
    simp only
    obtain ⟨b, hb, hbl, hbj⟩ := ih (i + 1) (buf.set (i - 1) (.live v)) (by omega)
      (by
        intro j hj1 hj2
        obtain ⟨u, hu⟩ := hlive j (by omega) (by omega)
        exact ⟨u, by rw [List.getElem?_set_ne (by omega)]; exact hu⟩)
    refine ⟨b, hb, by rw [hbl, List.length_set], fun j => ?_⟩
    rw [hbj j]
    by_cases h1 : j = i - 1
    · subst h1
      rw [if_neg (by omega), if_pos (by omega), List.getElem?_set_self (by omega),
        show i - 1 + 1 = i by omega, hv]
    · by_cases h2 : i + 1 - 1 ≤ j ∧ j < i + 1 - 1 + n
      · rw [if_pos h2, if_pos (by omega), List.getElem?_set_ne (by omega)]
      · rw [if_neg h2, if_neg (by omega), List.getElem?_set_ne (by omega)]

theorem getElem?_insert_mid {β : Type} (d : List β) (i : Nat) (v : β) (hi : i ≤ d.length)
    (j : Nat) :
    (d.take i ++ [v] ++ d.drop i)[j]? =
      if j < i then d[j]? else if j = i then some v else d[j - 1]? := by
  have hl : (d.take i).length = i := by rw [List.length_take]; omega
  rw [List.append_assoc]
  by_cases h1 : j < i
  · rw [if_pos h1, List.getElem?_append_left (by omega), List.getElem?_take_of_lt h1]
  · rw [if_neg h1, List.getElem?_append_right (by omega), hl]
    by_cases h2 : j = i
    · subst h2
      rw [if_pos rfl, Nat.sub_self]
      simp
    · rw [if_neg h2]
      obtain ⟨k, hk⟩ : ∃ k, j - i = k + 1 := ⟨j - i - 1, by omega⟩
      rw [hk, List.singleton_append, List.getElem?_cons_succ, List.getElem?_drop]
      congr 1
      omega

theorem getElem?_erase_mid {β : Type} (d : List β) (i j : Nat) (hj : j + 1 < d.length) :
    (shift_left d i 1)[j]? = if j < i then d[j]? else d[j + 1]? := by
  unfold shift_left
  rw [if_neg (by decide), List.getElem?_take_of_lt (by omega)]
  by_cases h1 : j < i
  · rw [if_pos h1, List.getElem?_append_left (by rw [List.length_take]; omega),
      List.getElem?_take_of_lt h1]
  · have hl : (d.take i).length = i := by rw [List.length_take]; omega
    rw [if_neg h1, List.getElem?_append_right (by omega), hl, List.getElem?_drop]
    congr 1
    omega

theorem shift_left_length {β : Type} (d : List β) (i : Nat) (hd : d ≠ []) :
    (shift_left d i 1).length = d.length - 1 := by
  have hpos : 0 < d.length := List.length_pos.mpr hd
  unfold shift_left
  rw [if_neg (by decide), List.length_take, List.length_append, List.length_take,
    List.length_drop]
  omega

theorem values_map_live {α : Type} (d : List α) : Slot.values (d.map Slot.live) = some d := by
  induction d with
  | nil => rfl
  | cons a d ih =>
    rw [List.map_cons, Slot.values, ih]
    rfl

/-- A node that shows `d` has the elements `d`. -/
theorem shows_elements {α : Type} {x : SlotNode α} {capacity : Nat} {d : List α}
    (h : Shows x capacity d) : x.elements = some d := by
  obtain ⟨hl, hs, hc, hj⟩ := h
  unfold SlotNode.elements
  rw [if_neg (by omega)]
  have : x.buffer.take x.size = d.map Slot.live := by
    apply List.ext_getElem?
    intro j
    by_cases h1 : j < d.length
    · rw [List.getElem?_take_of_lt (by omega), hj j h1, List.getElem?_map]
    · rw [List.getElem?_eq_none (by rw [List.length_take]; omega),
        List.getElem?_eq_none (by rw [List.length_map]; omega)]
  rw [this, values_map_live]

/-- The node built from the values `d` shows `d`. -/
theorem shows_of {α : Type} (capacity : Nat) (d : List α) (h : d.length ≤ capacity) :
    Shows (SlotNode.of capacity d) capacity d := by
  refine ⟨?_, rfl, h, fun j hj => ?_⟩
  · simp only [SlotNode.of, List.length_append, List.length_map, List.length_replicate]
    omega
  · simp only [SlotNode.of]
    rw [List.getElem?_append_left (by rw [List.length_map]; exact hj), List.getElem?_map]

/-- At a trivially destructible element type the slot statements of
`push_front` and `insert` compute what `shift_right` on the values says: the
same exception, the same undefined case, and otherwise a node that shows the
values with `v` inserted at `idx`. -/
theorem place_slots_trivial {α : Type} {x : SlotNode α} {capacity : Nat} {d : List α}
    (h : Shows x capacity d) (idx : Nat) (v : α) :
    match shift_right capacity d idx 1 [v] with
    | none => place_slots true capacity x idx v = none
    | some (.error e) => place_slots true capacity x idx v = some (.error e)
    | some (.ok d1) => ∃ y, place_slots true capacity x idx v = some (.ok y) ∧
        Shows y capacity d1 := by
  obtain ⟨hl, hs, hc, hj⟩ := h
  by_cases h1 : d.length + 1 > capacity
  · have e1 : shift_right capacity d idx 1 [v] = some (.error .length_error) := by
      unfold shift_right
      rw [if_neg (by decide), if_pos h1]
    have e2 : shift_right_slots true capacity x idx 1 = some (.error .length_error) := by
      unfold shift_right_slots
      rw [if_neg (by decide), if_pos (by rw [hs]; exact h1)]
    rw [e1]
    show place_slots true capacity x idx v = _
    unfold place_slots
    rw [e2]
  · by_cases h2 : d.length < idx
    · have e1 : shift_right capacity d idx 1 [v] = none := by
        unfold shift_right
        rw [if_neg (by decide), if_neg h1, if_pos h2]
      have e2 : shift_right_slots true capacity x idx 1 = none := by
        unfold shift_right_slots
        rw [if_neg (by decide), if_neg (by rw [hs]; exact h1), if_pos (by rw [hs]; exact h2)]
      rw [e1]
      show place_slots true capacity x idx v = _
      unfold place_slots
      rw [e2]
    · have e1 : shift_right capacity d idx 1 [v] =
          some (.ok (d.take idx ++ [v] ++ d.drop idx)) := by
        unfold shift_right
        rw [if_neg (by decide), if_neg h1, if_neg h2]
      obtain ⟨b, hb, hbl, hbj⟩ := shift_right_moves_trivial d.length (d.length - idx) 0
        x.buffer (by omega) (by omega)
        (by
          intro j hj1
          have hjl : j < d.length := by omega
          rw [hj j hjl, List.getElem?_eq_getElem hjl]
          exact ⟨_, rfl⟩)
      have e2 : shift_right_slots true capacity x idx 1 =
          some (.ok { buffer := b, size := d.length + 1 }) := by
        unfold shift_right_slots
        rw [if_neg (by decide), if_neg (by rw [hs]; exact h1), if_neg (by rw [hs]; exact h2),
          hs, hb]
        simp only
        rw [destroy_range_trivial]
      have hc1 : construct_at b idx (.live v) = some (b.set idx (.live v)) := by
        unfold construct_at
        rw [if_pos (by omega)]
      rw [e1]
      show ∃ y, place_slots true capacity x idx v = some (.ok y) ∧ _
      unfold place_slots
      rw [e2]
      simp only
      rw [hc1]
      refine ⟨_, rfl, ?_, ?_, ?_, ?_⟩
      · show (b.set idx (Slot.live v)).length = capacity
        rw [List.length_set, hbl, hl]
      · show d.length + 1 = _
        simp only [List.length_append, List.length_take, List.length_drop, List.length_singleton]
        omega
      · simp only [List.length_append, List.length_take, List.length_drop, List.length_singleton]
        omega
      · intro j hjlt
        simp only [List.length_append, List.length_take, List.length_drop,
          List.length_singleton] at hjlt
        show (b.set idx (Slot.live v))[j]? = _
        rw [getElem?_insert_mid d idx v (by omega) j]
        by_cases h3 : j = idx
        · subst h3
          rw [List.getElem?_set_self (by omega), if_neg (by omega), if_pos rfl]
          rfl
        · rw [List.getElem?_set_ne (by omega), hbj j]
          by_cases h4 : j < idx
          · rw [if_pos h4, if_neg (by omega), hj j (by omega)]
          · rw [if_neg h4, if_neg h3, if_pos (by omega), hj (j - 1) (by omega)]

/-- At a trivially destructible element type the slot statements of `pop_front`
and `erase` compute what `shift_left` on the values says, at every position:
undefined on a node of size 0, and otherwise a node that shows the shifted
values. -/
theorem remove_slots_trivial {α : Type} {x : SlotNode α} {capacity : Nat} {d : List α}
    (h : Shows x capacity d) (idx : Nat) :
    (d = [] → remove_slots true x idx = none) ∧
    (d ≠ [] → ∃ y, remove_slots true x idx = some y ∧ Shows y capacity (shift_left d idx 1)) := by
  obtain ⟨hl, hs, hc, hj⟩ := h
  unfold remove_slots shift_left_slots
  simp only [destroy_at, if_true]
  rw [if_neg (by decide), hs]
  refine ⟨?_, ?_⟩
  · rintro rfl
    rw [if_pos (by simp)]
  · intro hd
    have hpos : 0 < d.length := List.length_pos.mpr hd
    rw [if_neg (by omega)]
    obtain ⟨b, hb, hbl, hbj⟩ := shift_left_moves_trivial (d.length - (idx + 1)) (idx + 1)
      x.buffer (by omega)
      (by
        intro j hj1 hj2
        have hjl : j < d.length := by omega
        rw [hj j hjl, List.getElem?_eq_getElem hjl]
        exact ⟨_, rfl⟩)
    rw [hb]
    simp only
    rw [shift_left_destroys_trivial]
    refine ⟨_, rfl, ?_, ?_, ?_, ?_⟩
    · show b.length = capacity
      rw [hbl, hl]
    · show d.length - 1 = _
      rw [shift_left_length d idx hd]
    · rw [shift_left_length d idx hd]; omega
    · intro j hjlt
      rw [shift_left_length d idx hd] at hjlt
      show b[j]? = _
      rw [getElem?_erase_mid d idx j (by omega), hbj j]
      by_cases h4 : j < idx
      · rw [if_pos h4, if_neg (by omega), hj j (by omega)]
      · rw [if_neg h4, if_pos (by omega), hj (j + 1) (by omega)]

/-- The slot statements of `push_back` on a node that is not full. -/
theorem push_back_slots_shows {α : Type} {x : SlotNode α} {capacity : Nat} {d : List α}
    (h : Shows x capacity d) (hlt : d.length < capacity) (v : α) :
    ∃ y, push_back_slots x v = some y ∧ Shows y capacity (d ++ [v]) := by
  obtain ⟨hl, hs, hc, hj⟩ := h
  unfold push_back_slots construct_at
  rw [if_pos (by omega)]
  refine ⟨_, rfl, ?_, ?_, ?_, ?_⟩
  · show (x.buffer.set x.size (Slot.live v)).length = capacity
    rw [List.length_set, hl]
  · show x.size + 1 = _
    rw [List.length_append, hs]; rfl
  · rw [List.length_append]; exact hlt
  · intro j hjlt
    rw [List.length_append, List.length_singleton] at hjlt
    show (x.buffer.set x.size (Slot.live v))[j]? = _
    by_cases h1 : j = d.length
    · subst h1
      rw [hs, List.getElem?_set_self (by omega), List.getElem?_append_right (le_refl _),
        Nat.sub_self]
      rfl
    · rw [List.getElem?_set_ne (by omega), List.getElem?_append_left (by omega), hj j (by omega)]

/-- The slot statements of `pop_back` at a trivially destructible type. -/
theorem pop_back_slots_trivial {α : Type} {x : SlotNode α} {capacity : Nat} {d : List α}
    (h : Shows x capacity d) (hd : d ≠ []) :
    ∃ y, pop_back_slots true x = some y ∧ Shows y capacity d.dropLast := by
  obtain ⟨hl, hs, hc, hj⟩ := h
  have hpos : 0 < d.length := List.length_pos.mpr hd
  unfold pop_back_slots
  rw [if_neg (by omega)]
  simp only [destroy_at, if_true]
  refine ⟨_, rfl, hl, ?_, ?_, ?_⟩
  · show x.size - 1 = _
    rw [List.length_dropLast, hs]
  · rw [List.length_dropLast]; omega
  · intro j hjlt
    rw [List.length_dropLast] at hjlt
    show x.buffer[j]? = _
    rw [hj j (by omega), List.dropLast_eq_take, List.getElem?_take_of_lt (by omega)]


/-- The first loop of `shift_right` at a type with a non-trivial destructor, one
place up: the slots `(old_size - i - n, old_size - i]` receive the objects of
the slots below them, and the lowest slot moved from is left moved-from. -/
theorem shift_right_moves_nontrivial {α : Type} (old_size : Nat) :
    ∀ (n i : Nat) (buf : List (Slot α)), n + i ≤ old_size → old_size < buf.length →
      (∀ j, j < old_size - i → ∃ v, buf[j]? = some (.live v)) →
      ∃ b, shift_right_moves false 1 old_size n i buf = some b ∧ b.length = buf.length ∧
        ∀ j, b[j]? =
          if old_size - i - n < j ∧ j ≤ old_size - i then buf[j - 1]?
          else if j = old_size - i - n ∧ 0 < n then some .moved else buf[j]? := by
  intro n
  induction n with
  | zero =>
    intro i buf _ _ _
    refine ⟨buf, rfl, rfl, fun j => ?_⟩
    rw [if_neg (by omega), if_neg (by omega)]
  | succ n ih =>
    intro i buf hle hlen hlive
    obtain ⟨v, hv⟩ := hlive (old_size - 1 - i) (by omega)
    rw [shift_right_moves]
    have hm : move_from false buf (old_size - 1 - i) =
        some (.live v, buf.set (old_size - 1 - i) .moved) := by
      unfold move_from
      rw [getD_of_getElem? _ hv]
      rfl
    rw [hm]
    simp only
    have hc : construct_at (buf.set (old_size - 1 - i) .moved) (old_size - 1 - i + 1) (.live v) =
        some ((buf.set (old_size - 1 - i) .moved).set (old_size - i) (.live v)) := by
      unfold construct_at
      rw [show old_size - 1 - i + 1 = old_size - i by omega,
        if_pos (by rw [List.length_set]; omega)]
    rw [hc]
    simp only
    obtain ⟨b, hb, hbl, hbj⟩ := ih (i + 1)
      ((buf.set (old_size - 1 - i) .moved).set (old_size - i) (.live v)) (by omega)
      (by rw [List.length_set, List.length_set]; exact hlen)
      (by
        intro j hj
        obtain ⟨u, hu⟩ := hlive j (by omega)
        exact ⟨u, by
          rw [List.getElem?_set_ne (by omega), List.getElem?_set_ne (by omega)]; exact hu⟩)
    refine ⟨b, hb, by rw [hbl, List.length_set, List.length_set], fun j => ?_⟩
    rw [hbj j]
    have hl1 : old_size - 1 - i < buf.length := by omega
    have hl2 : old_size - i < (buf.set (old_size - 1 - i) Slot.moved).length := by
      rw [List.length_set]; omega
    by_cases h1 : j = old_size - i
    · have c1 : ¬ (old_size - (i + 1) - n < j ∧ j ≤ old_size - (i + 1)) := by omega
      have c2 : ¬ (j = old_size - (i + 1) - n ∧ 0 < n) := by omega
      have g1 : old_size - i - (n + 1) < j ∧ j ≤ old_size - i := by omega
      rw [if_neg c1, if_neg c2, if_pos g1, h1, List.getElem?_set_self hl2,
        show old_size - i - 1 = old_size - 1 - i by omega, hv]
    · by_cases h2 : old_size - (i + 1) - n < j ∧ j ≤ old_size - (i + 1)
      · have g1 : old_size - i - (n + 1) < j ∧ j ≤ old_size - i := by omega
        rw [if_pos h2, if_pos g1, List.getElem?_set_ne (by omega),
          List.getElem?_set_ne (by omega)]
      · have g1 : ¬ (old_size - i - (n + 1) < j ∧ j ≤ old_size - i) := by omega
        rw [if_neg h2, if_neg g1]
        by_cases h3 : j = old_size - (i + 1) - n
        · have g2 : j = old_size - i - (n + 1) ∧ 0 < n + 1 := by omega
          rw [if_pos g2]
          by_cases h4 : 0 < n
          · rw [if_pos ⟨h3, h4⟩]
          · have c2 : ¬ (j = old_size - (i + 1) - n ∧ 0 < n) := by omega
            rw [if_neg c2, List.getElem?_set_ne (by omega),
              show j = old_size - 1 - i by omega, List.getElem?_set_self hl1]
        · have c2 : ¬ (j = old_size - (i + 1) - n ∧ 0 < n) := by omega
          have g2 : ¬ (j = old_size - i - (n + 1) ∧ 0 < n + 1) := by omega
          rw [if_neg c2, if_neg g2, List.getElem?_set_ne (by omega),
            List.getElem?_set_ne (by omega)]

/-- A loop of destructor calls over slots that all hold an object leaves each
of them without one. -/
theorem destroy_range_nontrivial {α : Type} :
    ∀ (n i : Nat) (buf : List (Slot α)),
      (∀ j, i ≤ j → j < i + n → buf[j]? = some .moved ∨ ∃ v, buf[j]? = some (.live v)) →
      ∃ b, destroy_range false n i buf = some b ∧ b.length = buf.length ∧
        ∀ j, b[j]? = if i ≤ j ∧ j < i + n then some .dead else buf[j]? := by
  intro n
  induction n with
  | zero =>
    intro i buf _
    refine ⟨buf, rfl, rfl, fun j => ?_⟩
    rw [if_neg (by omega)]
  | succ n ih =>
    intro i buf hobj
    have hlt : i < buf.length := by
      by_contra hge
      rcases hobj i (le_refl _) (by omega) with h | ⟨v, h⟩ <;>
        rw [List.getElem?_eq_none (by omega)] at h <;> cases h
    have hd : destroy_at false buf i = some (buf.set i .dead) := by
      unfold destroy_at
      simp only [Bool.false_eq_true, if_false]
      rcases hobj i (le_refl _) (by omega) with h | ⟨v, h⟩ <;> rw [getD_of_getElem? _ h]
    rw [destroy_range, hd]
    simp only
    obtain ⟨b, hb, hbl, hbj⟩ := ih (i + 1) (buf.set i .dead)
      (by
        intro j hj1 hj2
        rw [List.getElem?_set_ne (by omega)]
        exact hobj j (by omega) (by omega))
    refine ⟨b, hb, by rw [hbl, List.length_set], fun j => ?_⟩
    rw [hbj j]
    by_cases h1 : j = i
    · subst h1
      rw [if_neg (by omega), if_pos (by omega), List.getElem?_set_self hlt]
    · by_cases h2 : i + 1 ≤ j ∧ j < i + 1 + n
      · rw [if_pos h2, if_pos (by omega)]
      · rw [if_neg h2, if_neg (by omega), List.getElem?_set_ne (by omega)]

/-- At an element type with a non-trivial destructor, the slot statements of
`push_front` and `insert` on a node with room, at a position `idx` within its
elements `d`: the call returns, the elements below `idx` stay, `v` stands at
`idx`, the last element stands in the top slot, and every slot between `idx`
and the top slot is left without an object, its element destroyed by the
destructor loop of `shift_right`. -/
theorem place_slots_nontrivial {α : Type} {x : SlotNode α} {capacity : Nat} {d : List α}
    (h : Shows x capacity d) (idx : Nat) (v : α) (hidx : idx ≤ d.length)
    (hroom : d.length < capacity) :
    ∃ y, place_slots false capacity x idx v = some (.ok y) ∧ y.size = d.length + 1 ∧
      y.buffer.length = capacity ∧
      ∀ j, j ≤ d.length → y.buffer[j]? =
        if j < idx then d[j]?.map Slot.live
        else if j = idx then some (.live v)
        else if j < d.length then some .dead
        else d[j - 1]?.map Slot.live := by
  obtain ⟨hl, hs, hc, hj⟩ := h
  obtain ⟨b, hb, hbl, hbj⟩ := shift_right_moves_nontrivial d.length (d.length - idx) 0
    x.buffer (by omega) (by omega)
    (by
      intro j hj1
      have hjl : j < d.length := by omega
      rw [hj j hjl, List.getElem?_eq_getElem hjl]
      exact ⟨_, rfl⟩)
  obtain ⟨b2, hb2, hb2l, hb2j⟩ := destroy_range_nontrivial (d.length - idx) idx b
    (by
      intro j hj1 hj2
      rw [hbj j]
      by_cases h1 : j = idx
      · left
        have c1 : ¬ (d.length - 0 - (d.length - idx) < j ∧ j ≤ d.length - 0) := by omega
        have c2 : j = d.length - 0 - (d.length - idx) ∧ 0 < d.length - idx := by omega
        rw [if_neg c1, if_pos c2]
      · right
        have c1 : d.length - 0 - (d.length - idx) < j ∧ j ≤ d.length - 0 := by omega
        rw [if_pos c1, hj (j - 1) (by omega),
          List.getElem?_eq_getElem (show j - 1 < d.length by omega)]
        exact ⟨_, rfl⟩)
  have e2 : shift_right_slots false capacity x idx 1 =
      some (.ok { buffer := b2, size := d.length + 1 }) := by
    unfold shift_right_slots
    rw [if_neg (by decide), if_neg (by rw [hs]; omega), if_neg (by rw [hs]; omega), hs, hb]
    simp only
    rw [hb2]
  have hc1 : construct_at b2 idx (.live v) = some (b2.set idx (.live v)) := by
    unfold construct_at
    rw [if_pos (by omega)]
  unfold place_slots
  rw [e2]
  simp only
  rw [hc1]
  refine ⟨_, rfl, rfl, ?_, ?_⟩
  · show (b2.set idx (Slot.live v)).length = capacity
    rw [List.length_set, hb2l, hbl, hl]
  · intro j hjle
    show (b2.set idx (Slot.live v))[j]? = _
    by_cases h3 : j = idx
    · subst h3
      rw [List.getElem?_set_self (by omega), if_neg (by omega), if_pos rfl]
    · rw [List.getElem?_set_ne (by omega), hb2j j]
      by_cases h4 : j < idx
      · have c0 : ¬ (idx ≤ j ∧ j < idx + (d.length - idx)) := by omega
        have c1 : ¬ (d.length - 0 - (d.length - idx) < j ∧ j ≤ d.length - 0) := by omega
        have c2 : ¬ (j = d.length - 0 - (d.length - idx) ∧ 0 < d.length - idx) := by omega
        rw [if_pos h4, if_neg c0, hbj j, if_neg c1, if_neg c2, hj j (by omega)]
      · rw [if_neg h4, if_neg h3]
        by_cases h5 : j < d.length
        · have c0 : idx ≤ j ∧ j < idx + (d.length - idx) := by omega
          rw [if_pos h5, if_pos c0]
        · have c0 : ¬ (idx ≤ j ∧ j < idx + (d.length - idx)) := by omega
          have c1 : d.length - 0 - (d.length - idx) < j ∧ j ≤ d.length - 0 := by omega
          rw [if_neg h5, if_neg c0, hbj j, if_pos c1, hj (j - 1) (by omega)]


theorem values_none_of_not_live {α : Type} :
    ∀ (l : List (Slot α)) (j : Nat), (l[j]? = some .dead ∨ l[j]? = some .moved ∨
      l[j]? = some .raw) → Slot.values l = none := by
  intro l
  induction l with
  | nil =>
    intro j h
    rcases h with h | h | h <;> simp at h
  | cons s l ih =>
    intro j h
    cases j with
    | zero =>
      simp only [List.getElem?_cons_zero, Option.some.injEq] at h
      rcases h with rfl | rfl | rfl <;> rfl
    | succ j =>
      simp only [List.getElem?_cons_succ] at h
      cases s with
      | live v => rw [Slot.values, ih j h]; rfl
      | raw => rfl
      | moved => rfl
      | dead => rfl

/-- At an element type with a non-trivial destructor, `push_front` and `insert`
on a node with room are right when at most one element is shifted (as always
with capacity 2): the node then shows the values with `v` inserted. -/
theorem place_slots_one_shift {α : Type} {x : SlotNode α} {capacity : Nat} {d : List α}
    (h : Shows x capacity d) (idx : Nat) (v : α) (hidx : idx ≤ d.length)
    (hroom : d.length < capacity) (hone : d.length ≤ idx + 1) :
    ∃ y, place_slots false capacity x idx v = some (.ok y) ∧
      Shows y capacity (d.take idx ++ [v] ++ d.drop idx) := by
  obtain ⟨y, hy, hsz, hlen, hj⟩ := place_slots_nontrivial h idx v hidx hroom
  have hl : (d.take idx ++ [v] ++ d.drop idx).length = d.length + 1 := by
    simp only [List.length_append, List.length_take, List.length_drop, List.length_singleton]
    omega
  refine ⟨y, hy, hlen, by rw [hsz, hl], by rw [hl]; omega, fun j hjlt => ?_⟩
  rw [hl] at hjlt
  rw [hj j (by omega), getElem?_insert_mid d idx v hidx j]
  by_cases h1 : j < idx
  · rw [if_pos h1, if_pos h1]
  · rw [if_neg h1, if_neg h1]
    by_cases h2 : j = idx
    · rw [if_pos h2, if_pos h2]; rfl
    · rw [if_neg h2, if_neg h2, if_neg (by omega)]

/-- At an element type with a non-trivial destructor, `push_front` and `insert`
on a node with room in which two or more elements are shifted: the call
returns and the slot after the new element holds no object, so the node no
longer holds a sequence of elements. -/
theorem place_slots_two_shifts {α : Type} {x : SlotNode α} {capacity : Nat} {d : List α}
    (h : Shows x capacity d) (idx : Nat) (v : α) (hroom : d.length < capacity)
    (htwo : idx + 2 ≤ d.length) :
    ∃ y, place_slots false capacity x idx v = some (.ok y) ∧ y.size = d.length + 1 ∧
      y.buffer[idx + 1]? = some .dead ∧ y.elements = none := by
  obtain ⟨y, hy, hsz, hlen, hj⟩ := place_slots_nontrivial h idx v (by omega) hroom
  have hdead : y.buffer[idx + 1]? = some .dead := by
    rw [hj (idx + 1) (by omega), if_neg (by omega), if_neg (by omega), if_pos (by omega)]
  refine ⟨y, hy, hsz, hdead, ?_⟩
  unfold SlotNode.elements
  rw [if_neg (by omega)]
  apply values_none_of_not_live _ (idx + 1)
  left
  rw [List.getElem?_take_of_lt (by omega)]
  exact hdead

/-- C28 at an element type with a non-trivial destructor (`std::string`, the
`Tracer` of `main.cpp`), on the head node of a list of capacity 4 that holds
`a, b`, as after `push_back(a); push_back(b)`.  The statements of
`push_front(c)` return, but the destructor loop of `shift_right` has destroyed
`a` in the slot to which it had just been moved: slot 1 holds no object, and the
node does not hold `c, a, b`.  The statements of `pop_front()` have undefined
behaviour, on this node (slot 0 is destroyed and then assigned to) and on a
node holding one element (slot 0 is destroyed twice).  At a trivially
destructible type the same statements leave `c, a, b` and `b`, as the sequence
specification says. -/
theorem push_front_destroys_element {α : Type} (a b c : α) :
    place_slots false 4 (SlotNode.of 4 [a, b]) 0 c =
      some (.ok { buffer := [.live c, .dead, .live b, .raw], size := 3 }) ∧
    SlotNode.elements { buffer := [.live c, .dead, .live b, .raw], size := 3 } = none ∧
    remove_slots false (SlotNode.of 4 [a, b]) 0 = none ∧
    remove_slots false (SlotNode.of 4 [a]) 0 = none ∧
    (place_slots true 4 (SlotNode.of 4 [a, b]) 0 c).map (fun r => r.toOption.map
      SlotNode.elements) = some (some (some [c, a, b])) ∧
    (remove_slots true (SlotNode.of 4 [a, b]) 0).map SlotNode.elements = some (some [b]) ∧
    spec_ops [a, b] [.push_front c] = some [c, a, b] ∧
    spec_ops [a, b] [.pop_front] = some [b] :=
  ⟨rfl, rfl, rfl, rfl, rfl, rfl, rfl, rfl⟩

/-- C35 at an element type with a non-trivial destructor: the statements
`ValAT::destroy(&data()[idx]); shift_left(node, idx, 1);` with which `pop_front`
(`idx = 0`) and `erase` remove an element have undefined behaviour at every
position below the size of the node, so these calls leave no defined chain
behind; at a trivially destructible type the same statements return with the
element removed. -/
theorem pop_front_erase_undefined {α : Type} (x : SlotNode α) (capacity : Nat) (d : List α)
    (h : Shows x capacity d) (idx : Nat) (hidx : idx < d.length) :
    remove_slots false x idx = none ∧
    ∃ y, remove_slots true x idx = some y ∧ y.size = d.length - 1 ∧
      y.elements = some (d.take idx ++ d.drop (idx + 1)) := by
  refine ⟨remove_slots_undefined x idx (by rw [h.2.1]; exact hidx), ?_⟩
  have hd : d ≠ [] := by rintro rfl; cases hidx
  obtain ⟨y, hy, hs⟩ := (remove_slots_trivial h idx).2 hd
  refine ⟨y, hy, ?_, ?_⟩
  · rw [hs.2.1, shift_left_length d idx hd]
  · rw [shows_elements hs, shift_left_one _ _ hidx]

/-- C35 on the head node of a list of capacity 4 that holds two strings, as
after `push_back("a"); push_back("b")`: `pop_front()` and `erase(begin())`. -/
theorem pop_front_erase_undefined_witness :
    Shows (SlotNode.of 4 ["a", "b"]) 4 ["a", "b"] ∧ 0 < ["a", "b"].length ∧
    remove_slots false (SlotNode.of 4 ["a", "b"]) 0 = none ∧
    ∃ y, remove_slots true (SlotNode.of 4 ["a", "b"]) 0 = some y ∧ y.size = 2 - 1 ∧
      y.elements = some ["b"] :=
  ⟨shows_of 4 ["a", "b"] (by decide), by decide,
   pop_front_erase_undefined (SlotNode.of 4 ["a", "b"]) 4 ["a", "b"]
     (shows_of 4 ["a", "b"] (by decide)) 0 (by decide)⟩

/-- On the list `{1, 2, 3}` of capacity 4 (one node) `erase` at a position past
the elements of the node removes the last element of the node: at `(node, 3)`
it leaves `1, 2`; and after `erase` at the position of `3` has returned
`(node, 2)`, `erase` at that iterator removes `2`. -/
theorem erase_past_the_node :
    ((three.erase { node_ := some 0, pos_ := 3, tail_ := some 0 }).list?).map
      (fun l => (l.traverse.val?, l.size_)) = some (some [1, 2], 2) ∧
    ((three.erase { node_ := some 0, pos_ := 2, tail_ := some 0 }).list?).map
      (fun l => ((l.erase { node_ := some 0, pos_ := 2, tail_ := some 0 }).list?).map
        (fun l1 => (l1.traverse.val?, l1.size_))) = some (some (some [1], 1)) := by
  decide

end UnrolledList
